import Mathlib

/-!
# Command pool and timer ring of the Vulkan / GPU back end

Shallow embedding of `video/out/vulkan/utils.c` (command pool: `run_callbacks`,
`wait_for_cmds`, `mpvk_pool_wait_idle`, `mpvk_pool_poll_cmds`, `vk_dev_callback`,
`vk_cmd_callback`, `vk_cmd_dep`, `vk_cmd_begin`, `vk_cmd_submit`) and of
`video/out/gpu/utils.c` (timer pool).

Conventions of the embedding

* A pointer to a slot `&pool->cmds[i]` is the index `i`; `vk->last_cmd` is an
  `Option Nat` (`none` is `NULL`).
* The constants `MPVK_MAX_CMDS`, `MPVK_MAX_CMD_DEPS` and `VO_PERF_SAMPLE_COUNT` live in
  headers that are not part of the sources at hand; they are parameters.
* The state of a fence (signaled or not) is a `Bool` stored with the slot.  The device
  signals a fence through `fence_signal`; a blocking wait with an unbounded timeout
  returns once the fences it waits for are signaled.
* Every call that leaves the pool (a callback invocation, a fence query that reports
  completion, a queue submission) is appended to the chronological `log` of the context.
* Results of back end calls that may fail are Boolean arguments of the operation.
* A callback is a value the pool stores and hands back: calling it is recorded in the log
  and does not touch the pool.
* A failed `assert` ends the run: the operation returns `none`.
-/

namespace MP

/-! ## Data model -/

/-- Semaphore handle; `0` is `VK_NULL_HANDLE`. -/
abbrev VkSemaphore := Nat

/-- Pipeline stage mask passed along with a wait semaphore. -/
abbrev VkPipelineStageFlagBits := Nat

/-- The triple `struct vk_callback { run; priv; arg; }`. -/
structure vk_callback where
  run : Nat
  priv : Nat
  arg : Nat
deriving DecidableEq, Repr, Inhabited

/-- One command slot, `struct vk_cmd`.  `deps` and `depstages` are the two fixed arrays of
`MPVK_MAX_CMD_DEPS` entries, `num_deps` the number of entries in use; `callbacks` is the
dynamically grown array, its length is `num_callbacks`. -/
structure vk_cmd where
  fence : Bool
  done : VkSemaphore
  deps : List VkSemaphore
  depstages : List VkPipelineStageFlagBits
  num_deps : Nat
  callbacks : List vk_callback
deriving DecidableEq, Repr, Inhabited

/-- The pool, `struct vk_cmdpool`: the slot array and the two cursors `cindex` (next slot to
record into) and `cindex_pending` (oldest slot not yet collected), plus the round-robin
queue selector. -/
structure vk_cmdpool where
  cmds : List vk_cmd
  cindex : Nat
  cindex_pending : Nat
  qindex : Nat
  qcount : Nat
deriving DecidableEq, Repr, Inhabited

/-- A call that leaves the pool, in the order the calls are made. -/
inductive Obs where
  /-- `cb->run(cb->priv, cb->arg)`; `cmd` is the slot whose queue held the callback,
  `none` when `vk_dev_callback` calls it directly. -/
  | run (cmd : Option Nat) (cb : vk_callback)
  /-- the fence of slot `cmd` was reported complete to the host (`vkGetFenceStatus`
  returned `VK_SUCCESS`, or `vkWaitForFences` came back). -/
  | fence_ok (cmd : Nat)
  /-- `vkQueueSubmit` of slot `cmd` on queue number `queue`. -/
  | submit (cmd queue : Nat) (wait : List VkSemaphore)
      (stages : List VkPipelineStageFlagBits) (signal : Option VkSemaphore)
deriving DecidableEq, Repr

/-- The part of `struct mpvk_ctx` the command pool works on, on a device without a separate
transfer queue family: `mpvk_device_init` then leaves `use_transfer` false and
`vk->pool_transfer` is `NULL`, so that every slot `vk->last_cmd` can point to is a slot of
`vk->pool`. -/
structure mpvk_ctx where
  pool : vk_cmdpool
  last_cmd : Option Nat
  log : List Obs
deriving DecidableEq, Repr

/-- Slot `i` of the pool (`pool->cmds[i]`). -/
def mpvk_ctx.cmd (vk : mpvk_ctx) (i : Nat) : vk_cmd :=
  vk.pool.cmds.getD i default

/-- Store `c` into slot `i`. -/
def mpvk_ctx.setCmd (vk : mpvk_ctx) (i : Nat) (c : vk_cmd) : mpvk_ctx :=
  { vk with pool := { vk.pool with cmds := vk.pool.cmds.set i c } }

/-! ## Operations -/

/-- The loop of `vk_cmdpool_init` over the slots, on the path where every back end call
succeeds: every fence is created signaled, no dependency and no callback is stored.
`mkSem n` is the handle `vkCreateSemaphore` returned for slot `n`. -/
def vk_cmdpool_init (MPVK_MAX_CMDS MPVK_MAX_CMD_DEPS qcount : Nat)
    (mkSem : Nat → VkSemaphore) : vk_cmdpool :=
  { cmds := (List.range MPVK_MAX_CMDS).map fun n =>
      { fence := true, done := mkSem n,
        deps := List.replicate MPVK_MAX_CMD_DEPS 0,
        depstages := List.replicate MPVK_MAX_CMD_DEPS 0,
        num_deps := 0, callbacks := [] },
    cindex := 0, cindex_pending := 0, qindex := 0, qcount := qcount }

/-- Context right after device creation: the pool is fresh, nothing was submitted. -/
def mpvk_device_init (MPVK_MAX_CMDS MPVK_MAX_CMD_DEPS qcount : Nat)
    (mkSem : Nat → VkSemaphore) : mpvk_ctx :=
  { pool := vk_cmdpool_init MPVK_MAX_CMDS MPVK_MAX_CMD_DEPS qcount mkSem,
    last_cmd := none, log := [] }

/-- The device signals the fence of slot `i`. -/
def fence_signal (vk : mpvk_ctx) (i : Nat) : mpvk_ctx :=
  vk.setCmd i { vk.cmd i with fence := true }

/-- `run_callbacks`: call every queued callback of slot `i` in index order, empty the queue,
and forget `last_cmd` when it is this slot. -/
def run_callbacks (vk : mpvk_ctx) (i : Nat) : mpvk_ctx :=
  let cmd := vk.cmd i
  let log := cmd.callbacks.foldl (fun l cb => l ++ [Obs.run (some i) cb]) vk.log
  { pool := { vk.pool with cmds := vk.pool.cmds.set i { cmd with callbacks := [] } },
    last_cmd := if vk.last_cmd = some i then none else vk.last_cmd,
    log := log }

/-- The call `vkWaitForFences(.., UINT64_MAX)` of `wait_for_cmds` on one slot: it comes back
when the fence is signaled. -/
def wait_fence (vk : mpvk_ctx) (i : Nat) : mpvk_ctx :=
  { fence_signal vk i with log := vk.log ++ [Obs.fence_ok i] }

/-- `wait_for_cmds(vk, &pool->cmds[start], num)`. -/
def wait_for_cmds (vk : mpvk_ctx) (start num : Nat) : mpvk_ctx :=
  if num = 0 then vk
  else
    let idxs := (List.range num).map fun i => start + i
    let vk1 := idxs.foldl wait_fence vk
    idxs.foldl run_callbacks vk1

/-- `mpvk_pool_wait_idle` on a non-null pool. -/
def mpvk_pool_wait_idle (MPVK_MAX_CMDS : Nat) (vk : mpvk_ctx) : mpvk_ctx :=
  let idx := vk.pool.cindex
  let pidx := vk.pool.cindex_pending
  let vk1 :=
    if pidx < idx then wait_for_cmds vk pidx (idx - pidx)
    else if pidx > idx then
      wait_for_cmds (wait_for_cmds vk pidx (MPVK_MAX_CMDS - pidx)) 0 idx
    else vk
  { vk1 with pool := { vk1.pool with cindex_pending := vk1.pool.cindex } }

/-- The `while` loop of `mpvk_pool_poll_cmds`; `fuel` bounds the number of iterations. -/
def poll_loop (MPVK_MAX_CMDS : Nat) : Nat → mpvk_ctx → mpvk_ctx
  | 0, vk => vk
  | fuel + 1, vk =>
    if vk.pool.cindex_pending ≠ vk.pool.cindex then
      let i := vk.pool.cindex_pending
      if (vk.cmd i).fence then
        let vk1 := run_callbacks { vk with log := vk.log ++ [Obs.fence_ok i] } i
        poll_loop MPVK_MAX_CMDS fuel
          { vk1 with pool := { vk1.pool with cindex_pending := (i + 1) % MPVK_MAX_CMDS } }
      else vk
    else vk

/-- The optional blocking wait at the head of `mpvk_pool_poll_cmds`: with a non-zero timeout
and a non-empty window it waits for the oldest fence; `signaled` tells whether the device
completed that slot within the timeout. -/
def poll_wait (vk : mpvk_ctx) (timeout : Nat) (signaled : Bool) : mpvk_ctx :=
  if timeout > 0 ∧ vk.pool.cindex_pending ≠ vk.pool.cindex then
    let i := vk.pool.cindex_pending
    vk.setCmd i { vk.cmd i with fence := (vk.cmd i).fence || signaled }
  else vk

/-- `mpvk_pool_poll_cmds`.  The loop is given `MPVK_MAX_CMDS` iterations, which is enough
whenever the cursors are inside the array: the loop then stops at its own exit
condition (`poll_loop_eq`, `polled_stop`). -/
def mpvk_pool_poll_cmds (MPVK_MAX_CMDS : Nat) (vk : mpvk_ctx) (timeout : Nat)
    (signaled : Bool) : mpvk_ctx :=
  poll_loop MPVK_MAX_CMDS MPVK_MAX_CMDS (poll_wait vk timeout signaled)

/-- `vk_cmd_callback`: append to the callback queue of slot `i`. -/
def vk_cmd_callback (vk : mpvk_ctx) (i : Nat) (cb : vk_callback) : mpvk_ctx :=
  vk.setCmd i { vk.cmd i with callbacks := (vk.cmd i).callbacks ++ [cb] }

/-- `vk_dev_callback`: queue on the last submitted slot, or call at once. -/
def vk_dev_callback (vk : mpvk_ctx) (cb : vk_callback) : mpvk_ctx :=
  match vk.last_cmd with
  | some i => vk_cmd_callback vk i cb
  | none => { vk with log := vk.log ++ [Obs.run none cb] }

/-- `vk_cmd_dep` on the slot record; `none` is the failed assertion
`cmd->num_deps < MPVK_MAX_CMD_DEPS`. -/
def vk_cmd_dep (MPVK_MAX_CMD_DEPS : Nat) (cmd : vk_cmd) (dep : VkSemaphore)
    (depstage : VkPipelineStageFlagBits) : Option vk_cmd :=
  if cmd.num_deps < MPVK_MAX_CMD_DEPS then
    some { cmd with
      deps := cmd.deps.set cmd.num_deps dep,
      depstages := cmd.depstages.set cmd.num_deps depstage,
      num_deps := cmd.num_deps + 1 }
  else none

/-- `vk_cmd_dep` on slot `i` of the context. -/
def vk_cmd_dep_at (MPVK_MAX_CMD_DEPS : Nat) (vk : mpvk_ctx) (i : Nat) (dep : VkSemaphore)
    (depstage : VkPipelineStageFlagBits) : Option mpvk_ctx :=
  (vk_cmd_dep MPVK_MAX_CMD_DEPS (vk.cmd i) dep depstage).map fun c => vk.setCmd i c

/-- `vk_cmd_begin`.  `reset_ok` and `begin_ok` are the results of `vkResetCommandBuffer` and
`vkBeginCommandBuffer`.  Returns the slot handed out (`none` is `NULL`). -/
def vk_cmd_begin (MPVK_MAX_CMDS : Nat) (vk : mpvk_ctx) (reset_ok begin_ok : Bool) :
    Option Nat × mpvk_ctx :=
  let vk1 := mpvk_pool_poll_cmds MPVK_MAX_CMDS vk 0 false
  let next := (vk1.pool.cindex + 1) % MPVK_MAX_CMDS
  if next = vk1.pool.cindex_pending then (none, vk1)
  else
    let cmd := vk1.pool.cindex
    let vk2 := { vk1 with pool := { vk1.pool with cindex := next } }
    if !reset_ok then (none, vk2)
    else if !begin_ok then (none, vk2)
    else (some cmd, vk2)

/-- Result of `vk_cmd_submit`: the Boolean returned, what was stored through the `done`
pointer, and the context afterwards. -/
structure submit_result where
  ok : Bool
  done : Option VkSemaphore
  vk : mpvk_ctx
deriving DecidableEq, Repr

/-- `vk_cmd_submit` of slot `i`.  `want_done` says that the `done` pointer is non-null;
`end_ok`, `reset_ok`, `submit_ok` are the results of `vkEndCommandBuffer`, `vkResetFences`
and `vkQueueSubmit`. -/
def vk_cmd_submit (vk : mpvk_ctx) (i : Nat) (want_done : Bool)
    (end_ok reset_ok submit_ok : Bool) : submit_result :=
  if !end_ok then { ok := false, done := none, vk := vk }
  else
    let cmd := vk.cmd i
    let queue := vk.pool.qindex
    let vk1 := { vk with pool := { vk.pool with qindex := (vk.pool.qindex + 1) % vk.pool.qcount } }
    let signal := if want_done then some cmd.done else none
    if !reset_ok then { ok := false, done := signal, vk := vk1 }
    else
      let vk2 := vk1.setCmd i { cmd with fence := false }
      if !submit_ok then { ok := false, done := signal, vk := vk2 }
      else
        let sinfo := Obs.submit i queue (cmd.deps.take cmd.num_deps)
          (cmd.depstages.take cmd.num_deps) signal
        let deps := (List.range cmd.num_deps).foldl (fun d j => d.set j 0) cmd.deps
        let vk3 := vk2.setCmd i { cmd with fence := false, deps := deps, num_deps := 0 }
        { ok := true, done := signal,
          vk := { vk3 with last_cmd := some i, log := vk3.log ++ [sinfo] } }

/-! ## Timer pool (`video/out/gpu/utils.c`) -/

/-- The fields of `struct timer_pool` next to the back end handles.  `samples` is the array of
`VO_PERF_SAMPLE_COUNT` unsigned 64-bit samples. -/
structure timer_pool where
  running : Bool
  samples : List Nat
  sample_idx : Nat
  sample_count : Nat
  sum : Nat
  peak : Nat
deriving DecidableEq, Repr

/-- `timer_pool_create` when the back end supplies a timer: every field is zero. -/
def timer_pool_create (VO_PERF_SAMPLE_COUNT : Nat) : timer_pool :=
  { running := false, samples := List.replicate VO_PERF_SAMPLE_COUNT 0,
    sample_idx := 0, sample_count := 0, sum := 0, peak := 0 }

/-- `timer_pool_start` on a non-null pool; `none` is the failed assertion
`!pool->running`. -/
def timer_pool_start (pool : timer_pool) : Option timer_pool :=
  if pool.running then none else some { pool with running := true }

/-- The rescan loop of `timer_pool_stop`: `peak = MPMAX(peak, pool->samples[i])` for every
index of the array, starting from `res`. -/
def rescan (VO_PERF_SAMPLE_COUNT : Nat) (samples : List Nat) (res : Nat) : Nat :=
  (List.range VO_PERF_SAMPLE_COUNT).foldl (fun peak i => max peak (samples.getD i 0)) res

/-- `timer_pool_stop` on a non-null pool; `res` is the duration the back end returns for the
query and `none` is the failed assertion `pool->running`.  `sum` is unsigned 64-bit
arithmetic. -/
def timer_pool_stop (VO_PERF_SAMPLE_COUNT : Nat) (pool : timer_pool) (res : Nat) :
    Option timer_pool :=
  if !pool.running then none
  else if res = 0 then some { pool with running := false }
  else
    let old := pool.samples.getD pool.sample_idx 0
    let samples := pool.samples.set pool.sample_idx res
    some { running := false,
           samples := samples,
           sample_idx := (pool.sample_idx + 1) % VO_PERF_SAMPLE_COUNT,
           sample_count := min (pool.sample_count + 1) VO_PERF_SAMPLE_COUNT,
           sum := ((pool.sum + res) % 2 ^ 64 + 2 ^ 64 - old) % 2 ^ 64,
           peak := if res ≥ pool.peak then res
                   else if pool.peak = old then rescan VO_PERF_SAMPLE_COUNT samples res
                   else pool.peak }

/-- A sequence of start/stop pairs, the back end returning the durations `rs` in turn. -/
def timer_pool_feed (VO_PERF_SAMPLE_COUNT : Nat) : timer_pool → List Nat → Option timer_pool
  | pool, [] => some pool
  | pool, res :: rs =>
    (timer_pool_start pool).bind fun p1 =>
      (timer_pool_stop VO_PERF_SAMPLE_COUNT p1 res).bind fun p2 =>
        timer_pool_feed VO_PERF_SAMPLE_COUNT p2 rs

/-- The samples `timer_pool_stop` records out of the returned durations: a duration of zero
is not recorded. -/
def recorded (rs : List Nat) : List Nat := rs.filter fun r => r ≠ 0

/-- The `n` most recently recorded samples, the newest first. -/
def recent (rs : List Nat) (n : Nat) : List Nat := (recorded rs).reverse.take n

/-- Largest element of a list of samples, 0 for the empty list. -/
def list_max (l : List Nat) : Nat := l.foldl max 0

/-- Invariant of the ring: `hist` are the recorded samples, the newest first. -/
structure RInv (M : Nat) (pool : timer_pool) (hist : List Nat) : Prop where
  not_running : pool.running = false
  len : pool.samples.length = M
  idx : pool.sample_idx < M
  count : pool.sample_count = min hist.length M
  ring : ∀ j, j < M →
    pool.samples.getD j 0
      = (hist.take pool.sample_count).getD ((pool.sample_idx + M - 1 - j) % M) 0
  peak : pool.peak = list_max pool.samples

/-! ## Auxiliary definitions for the statements -/

/-- Number of slots in the circular window. -/
def window_size (N p c : Nat) : Nat := (c + N - p) % N

/-- Slots of window in circular order. -/
def window (N p c : Nat) : List Nat :=
  (List.range (window_size N p c)).map fun d => (p + d) % N

/-- Move the cursor `cindex_pending`. -/
def set_pending (vk : mpvk_ctx) (x : Nat) : mpvk_ctx :=
  { vk with pool := { vk.pool with cindex_pending := x } }

/-- One iteration of the poll loop on slot `i`, the cursor move left out. -/
def collect (vk : mpvk_ctx) (i : Nat) : mpvk_ctx :=
  run_callbacks { vk with log := vk.log ++ [Obs.fence_ok i] } i

/-- The callbacks run, in order, read off a log. -/
def ran (log : List Obs) : List vk_callback :=
  log.filterMap fun o => match o with
    | Obs.run _ cb => some cb
    | _ => none

/-- Log entries of the callbacks of slot `i` of `vk`, in queue order. -/
def runs_of (vk : mpvk_ctx) (i : Nat) : List Obs :=
  (vk.cmd i).callbacks.map (Obs.run (some i))

/-- The value of `last_cmd` after the slots of `l` were drained. -/
def forget (l : List Nat) (o : Option Nat) : Option Nat :=
  match o with
  | some i => if i ∈ l then none else some i
  | none => none

/-- The slots a poll drains: the longest run of signaled slots at the head of the window. -/
def polled (N : Nat) (vk : mpvk_ctx) : List Nat :=
  (window N vk.pool.cindex_pending vk.pool.cindex).takeWhile fun i => (vk.cmd i).fence

/-- The index list of `wait_for_cmds(vk, &pool->cmds[start], num)`. -/
def seg (start num : Nat) : List Nat := (List.range num).map fun i => start + i

/-- What one call of `wait_for_cmds` on the index list `l` appends to the log. -/
def segment_log (vk : mpvk_ctx) (l : List Nat) : List Obs :=
  l.map Obs.fence_ok ++ l.flatMap (runs_of vk)

/-- What `mpvk_pool_wait_idle` appends to the log. -/
def wait_log (N : Nat) (vk : mpvk_ctx) : List Obs :=
  if vk.pool.cindex_pending < vk.pool.cindex then
    segment_log vk (seg vk.pool.cindex_pending (vk.pool.cindex - vk.pool.cindex_pending))
  else if vk.pool.cindex_pending > vk.pool.cindex then
    segment_log vk (seg vk.pool.cindex_pending (N - vk.pool.cindex_pending))
      ++ segment_log vk (seg 0 vk.pool.cindex)
  else []

/-- `vk_cmd_dep` called once for every pair of `ds`, in order; `none` as soon as one of the
calls fails its assertion. -/
def add_deps (MPVK_MAX_CMD_DEPS : Nat) (cmd : vk_cmd) :
    List (VkSemaphore × VkPipelineStageFlagBits) → Option vk_cmd
  | [] => some cmd
  | (d, st) :: t => (vk_cmd_dep MPVK_MAX_CMD_DEPS cmd d st).bind fun c =>
      add_deps MPVK_MAX_CMD_DEPS c t

/-! ## Runs of the pool -/

/-- One call into the pool, or the device signaling a fence.  Slots are passed as indices
into the slot array; any order of calls and any slot argument is allowed. -/
inductive Step (N D : Nat) : mpvk_ctx → mpvk_ctx → Prop
  | begin (vk : mpvk_ctx) (reset_ok begin_ok : Bool) :
      Step N D vk (vk_cmd_begin N vk reset_ok begin_ok).2
  | callback (vk : mpvk_ctx) (i : Nat) (cb : vk_callback) (hi : i < N) :
      Step N D vk (vk_cmd_callback vk i cb)
  | dep (vk vk2 : mpvk_ctx) (i : Nat) (dep : VkSemaphore) (st : VkPipelineStageFlagBits)
      (hi : i < N) (h : vk_cmd_dep_at D vk i dep st = some vk2) : Step N D vk vk2
  | submit (vk : mpvk_ctx) (i : Nat) (want e r s : Bool) (hi : i < N) :
      Step N D vk (vk_cmd_submit vk i want e r s).vk
  | poll (vk : mpvk_ctx) (t : Nat) (s : Bool) : Step N D vk (mpvk_pool_poll_cmds N vk t s)
  | wait_idle (vk : mpvk_ctx) : Step N D vk (mpvk_pool_wait_idle N vk)
  | dev_callback (vk : mpvk_ctx) (cb : vk_callback) : Step N D vk (vk_dev_callback vk cb)
  | fence_signal (vk : mpvk_ctx) (i : Nat) (hi : i < N) : Step N D vk (fence_signal vk i)

/-- States reachable from a fresh pool by any sequence of calls. -/
def Reach (N D qcount : Nat) (mkSem : Nat → VkSemaphore) (vk : mpvk_ctx) : Prop :=
  Relation.ReflTransGen (Step N D) (mpvk_device_init N D qcount mkSem) vk

/-- One call of a caller that records one slot at a time: the second component is the slot
handed out by `vk_cmd_begin` and not yet submitted.  Such a caller begins a slot only when
none is being recorded, registers callbacks and dependencies on the slot being recorded,
submits that slot (the back end accepting the submission) and lets the pool collect
(`mpvk_pool_poll_cmds`, `mpvk_pool_wait_idle`, the poll inside `vk_cmd_begin`) only between
a submission and the next begin.  `vk_dev_callback` and the device signaling a fence may
happen at any time. -/
inductive DStep (N D : Nat) : mpvk_ctx × Option Nat → mpvk_ctx × Option Nat → Prop
  | begin (vk : mpvk_ctx) (reset_ok begin_ok : Bool) :
      DStep N D (vk, none)
        ((vk_cmd_begin N vk reset_ok begin_ok).2, (vk_cmd_begin N vk reset_ok begin_ok).1)
  | callback (vk : mpvk_ctx) (k : Nat) (cb : vk_callback) :
      DStep N D (vk, some k) (vk_cmd_callback vk k cb, some k)
  | dep (vk vk2 : mpvk_ctx) (k : Nat) (dep : VkSemaphore) (st : VkPipelineStageFlagBits)
      (h : vk_cmd_dep_at D vk k dep st = some vk2) : DStep N D (vk, some k) (vk2, some k)
  | submit (vk : mpvk_ctx) (k : Nat) (want : Bool) :
      DStep N D (vk, some k) ((vk_cmd_submit vk k want true true true).vk, none)
  | poll (vk : mpvk_ctx) (t : Nat) (s : Bool) :
      DStep N D (vk, none) (mpvk_pool_poll_cmds N vk t s, none)
  | wait_idle (vk : mpvk_ctx) : DStep N D (vk, none) (mpvk_pool_wait_idle N vk, none)
  | dev_callback (vk : mpvk_ctx) (cur : Option Nat) (cb : vk_callback) :
      DStep N D (vk, cur) (vk_dev_callback vk cb, cur)
  | fence_signal (vk : mpvk_ctx) (cur : Option Nat) (i : Nat) (hi : i < N) :
      DStep N D (vk, cur) (fence_signal vk i, cur)

/-- States a one-slot-at-a-time caller reaches from `s0`. -/
def DReachFrom (N D : Nat) (s0 s : mpvk_ctx × Option Nat) : Prop :=
  Relation.ReflTransGen (DStep N D) s0 s

/-- States a one-slot-at-a-time caller reaches from a fresh pool. -/
def DReach (N D qcount : Nat) (mkSem : Nat → VkSemaphore) (s : mpvk_ctx × Option Nat) : Prop :=
  DReachFrom N D (mpvk_device_init N D qcount mkSem, none) s

/-- Cursors inside the slot array of `N` slots. -/
def WF (N : Nat) (vk : mpvk_ctx) : Prop :=
  vk.pool.cmds.length = N ∧ vk.pool.cindex < N ∧ vk.pool.cindex_pending < N

/-- Invariant of the runs of a one-slot-at-a-time caller (`cur` is the slot being
recorded). -/
structure DInv (N : Nat) (vk : mpvk_ctx) (cur : Option Nat) : Prop where
  wf : WF N vk
  fence_out : ∀ i, i < N → i ∉ window N vk.pool.cindex_pending vk.pool.cindex →
    (vk.cmd i).fence = true
  cur_last : ∀ k, cur = some k →
    k < N ∧ (k + 1) % N = vk.pool.cindex ∧ vk.pool.cindex_pending ≠ vk.pool.cindex ∧
    (vk.cmd k).fence = true ∧ vk.last_cmd ≠ some k
  cb_in : ∀ i, (vk.cmd i).callbacks ≠ [] →
    i ∈ window N vk.pool.cindex_pending vk.pool.cindex
  last_in : ∀ k, vk.last_cmd = some k → k ∈ window N vk.pool.cindex_pending vk.pool.cindex
  after_last : (window N vk.pool.cindex_pending vk.pool.cindex).Pairwise
    fun a b => vk.last_cmd = some a → (vk.cmd b).fence = true
  idle : vk.last_cmd = none → ∀ i, i < N → (vk.cmd i).fence = true

/-! ## Submission ordinals read off the log -/

/-- Bookkeeping over a log: `n` is the number of submissions so far, `ord i` the ordinal of
the latest submission of slot `i` (`none` when it was never submitted) and `labels` holds,
for every callback called out of a slot's queue and in the order of the calls, the ordinal
of the latest submission of that slot at the time of the call. -/
structure LabState where
  n : Nat
  ord : Nat → Option Nat
  labels : List (Option Nat)

/-- Account for one log entry. -/
def lab_step (s : LabState) : Obs → LabState
  | Obs.submit i _ _ _ _ => { s with n := s.n + 1, ord := Function.update s.ord i (some s.n) }
  | Obs.run (some i) _ => { s with labels := s.labels ++ [s.ord i] }
  | _ => s

/-- Bookkeeping of a whole log. -/
def lab_state (log : List Obs) : LabState :=
  log.foldl lab_step { n := 0, ord := fun _ => none, labels := [] }

/-- The submission ordinals of the callbacks called from slot queues, in call order. -/
def labels (log : List Obs) : List (Option Nat) := (lab_state log).labels

/-- Ordinal of the latest submission of slot `i`. -/
def sub_ord (log : List Obs) (i : Nat) : Option Nat := (lab_state log).ord i

/-- Number of submissions in the log. -/
def sub_count (log : List Obs) : Nat := (lab_state log).n

/-- The labels a drain of the slots `l` adds. -/
def drain_labels (vk : mpvk_ctx) (ord : Nat → Option Nat) (l : List Nat) : List (Option Nat) :=
  l.flatMap fun i => (vk.cmd i).callbacks.map fun _ => ord i

/-- Slot `i` holds callbacks of a submission that was made and is not collected yet: it has
queued callbacks or is `last_cmd`, and it is not the slot being recorded. -/
def Live (vk : mpvk_ctx) (cur : Option Nat) (i : Nat) : Prop :=
  ((vk.cmd i).callbacks ≠ [] ∨ vk.last_cmd = some i) ∧ cur ≠ some i

/-- Invariant on the submission ordinals in one-slot-at-a-time runs. -/
structure LInv (N : Nat) (vk : mpvk_ctx) (cur : Option Nat) : Prop where
  lab_lt : ∀ ℓ, ℓ ∈ labels vk.log → ∃ x, ℓ = some x ∧ x < sub_count vk.log
  ord_lt : ∀ i σ, sub_ord vk.log i = some σ → σ < sub_count vk.log
  sorted : (labels vk.log).Pairwise fun a b => ∀ x y, a = some x → b = some y → x ≤ y
  live_ord : ∀ i, i ∈ window N vk.pool.cindex_pending vk.pool.cindex → Live vk cur i →
    ∃ σ, sub_ord vk.log i = some σ ∧ ∀ x, some x ∈ labels vk.log → x < σ
  order : (window N vk.pool.cindex_pending vk.pool.cindex).Pairwise fun i j =>
    Live vk cur i → Live vk cur j →
      ∀ σ τ, sub_ord vk.log i = some σ → sub_ord vk.log j = some τ → σ < τ

/-! ## Following one registration through the rest of a run -/

/-- Slot `i` was not signaled in state `vk0` and the log entries `X` made since then do not
report its completion. -/
def Pending (N : Nat) (vk0 : mpvk_ctx) (X : List Obs) (i : Nat) : Prop :=
  i < N ∧ (vk0.cmd i).fence = false ∧ Obs.fence_ok i ∉ X

/-- Invariant of the runs that continue from `vk0`, where `k` was `last_cmd`: either no
callback of slot `k` was called yet, `k` is still in the window and every slot that is
still pending is in the window, none of them behind `k`; or the log made since `vk0`
starts with a part that reports the completion of every slot not signaled in `vk0` and
holds no call of a callback of slot `k`. -/
def CInv (N : Nat) (vk0 : mpvk_ctx) (k : Nat) (vk : mpvk_ctx) : Prop :=
  WF N vk ∧ ∃ X, vk.log = vk0.log ++ X ∧
    (((∀ c, Obs.run (some k) c ∉ X) ∧
      k ∈ window N vk.pool.cindex_pending vk.pool.cindex ∧
      (∀ i, Pending N vk0 X i → i ∈ window N vk.pool.cindex_pending vk.pool.cindex) ∧
      (window N vk.pool.cindex_pending vk.pool.cindex).Pairwise
        fun a b => a = k → ¬ Pending N vk0 X b) ∨
     (∃ A0 R, X = A0 ++ R ∧ (∀ c, Obs.run (some k) c ∉ A0) ∧
        ∀ i, i < N → (vk0.cmd i).fence = false → Obs.fence_ok i ∈ A0))

/-! ## Sample runs -/

/-- A callback, told apart by its argument. -/
def cb_a : vk_callback := { run := 1, priv := 0, arg := 1 }

/-- A second callback. -/
def cb_b : vk_callback := { run := 1, priv := 0, arg := 2 }

/-- A fresh pool of four slots with room for two dependencies per slot and one queue. -/
def pool4 : mpvk_ctx := mpvk_device_init 4 2 1 fun n => n + 1

/-- One round of a caller that uses one slot at a time: begin, submit the slot handed out,
and the device completing it. -/
def round (N : Nat) (vk : mpvk_ctx) : mpvk_ctx :=
  match vk_cmd_begin N vk true true with
  | (some k, vk1) => fence_signal (vk_cmd_submit vk1 k false true true true).vk k
  | (none, vk1) => vk1

/-- Two slots recorded side by side and submitted in the order they were begun; the device
completes the second one only.  Slot 0 stays in flight. -/
def two_open (N : Nat) (vk : mpvk_ctx) : mpvk_ctx :=
  let vk1 := (vk_cmd_begin N vk true true).2
  let vk2 := (vk_cmd_begin N vk1 true true).2
  let vk3 := (vk_cmd_submit vk2 0 false true true true).vk
  let vk4 := (vk_cmd_submit vk3 1 false true true true).vk
  fence_signal vk4 1

/-- Slots 0 and 1 are recorded side by side, get one callback each, are submitted in the
order 0, 1, the device completes both, and the pool is polled. -/
def c2_run : mpvk_ctx :=
  let vk1 := (vk_cmd_begin 4 pool4 true true).2
  let vk2 := (vk_cmd_begin 4 vk1 true true).2
  let vk3 := vk_cmd_callback vk2 0 cb_a
  let vk4 := vk_cmd_callback vk3 1 cb_b
  let vk5 := (vk_cmd_submit vk4 0 false true true true).vk
  let vk6 := (vk_cmd_submit vk5 1 false true true true).vk
  let vk7 := fence_signal (fence_signal vk6 0) 1
  mpvk_pool_poll_cmds 4 vk7 0 false

/-- A fresh pool of four slots with room for two dependencies per slot and two queues. -/
def pool4q : mpvk_ctx := mpvk_device_init 4 2 2 fun n => n + 1

/-- On a pool with two queues slot 0 is submitted (queue 0); slots 1 and 2 are recorded side
by side and submitted in the order 2 (queue 1), 1 (queue 0); the device completes the work
of queue 0, which is slot 0 and then slot 1, and the pool is polled.  Slot 2, on queue 1,
stays in flight. -/
def c3_run : mpvk_ctx :=
  let vk1 := (vk_cmd_begin 4 pool4q true true).2
  let vk2 := (vk_cmd_submit vk1 0 false true true true).vk
  let vk3 := (vk_cmd_begin 4 vk2 true true).2
  let vk4 := (vk_cmd_begin 4 vk3 true true).2
  let vk5 := (vk_cmd_submit vk4 2 false true true true).vk
  let vk6 := (vk_cmd_submit vk5 1 false true true true).vk
  let vk7 := fence_signal (fence_signal vk6 0) 1
  mpvk_pool_poll_cmds 4 vk7 0 false

/-- A one-slot-at-a-time run: slot 0 is begun, gets the callback `cb_a` and is submitted. -/
def d_run : mpvk_ctx :=
  (vk_cmd_submit (vk_cmd_callback (vk_cmd_begin 4 pool4 true true).2 0 cb_a) 0 false
    true true true).vk


/-! ## Timer ring: measurement and call sequences -/

/-- The fields of `struct mp_pass_perf` that `timer_pool_measure` fills in; `samples` is an
array of `VO_PERF_SAMPLE_COUNT` entries. -/
structure mp_pass_perf where
  last : Nat
  avg : Nat
  peak : Nat
  samples : List Nat
  count : Nat
deriving DecidableEq, Repr

/-- The copy loop of `timer_pool_measure` after `n` iterations: the samples copied so far
and the `int` variable `idx`.  Every iteration does `idx %= VO_PERF_SAMPLE_COUNT` (the
remainder of C, which truncates) and `res.samples[i] = pool->samples[idx++]`. -/
def measure_loop (VO_PERF_SAMPLE_COUNT : Nat) (pool : timer_pool) (n : Nat) : List Nat × Int :=
  (List.range n).foldl
    (fun st i =>
      let idx := Int.tmod st.2 VO_PERF_SAMPLE_COUNT
      (st.1.set i (pool.samples.getD idx.toNat 0), idx + 1))
    (List.replicate VO_PERF_SAMPLE_COUNT 0,
      (pool.sample_idx : Int) - pool.sample_count + VO_PERF_SAMPLE_COUNT)

/-- `timer_pool_measure` on a non-null pool: the snapshot together with the pool, which the
function only reads.  The fields that are not assigned are zero. -/
def timer_pool_measure (VO_PERF_SAMPLE_COUNT : Nat) (pool : timer_pool) :
    mp_pass_perf × timer_pool :=
  let samples := (measure_loop VO_PERF_SAMPLE_COUNT pool pool.sample_count).1
  if pool.sample_count > 0 then
    ({ last := samples.getD (pool.sample_count - 1) 0,
       avg := pool.sum / pool.sample_count,
       peak := pool.peak, samples := samples, count := pool.sample_count }, pool)
  else
    ({ last := 0, avg := 0, peak := pool.peak, samples := samples,
       count := pool.sample_count }, pool)

/-- A call on a timer pool; `stop` carries the duration the back end returns. -/
inductive timer_call
  | start
  | stop (res : Nat)
deriving DecidableEq, Repr

/-- Whether the call is `timer_pool_start`. -/
def timer_call.is_start : timer_call → Bool
  | timer_call.start => true
  | timer_call.stop _ => false

/-- One call on a non-null pool. -/
def timer_pool_call (VO_PERF_SAMPLE_COUNT : Nat) (pool : timer_pool) :
    timer_call → Option timer_pool
  | timer_call.start => timer_pool_start pool
  | timer_call.stop res => timer_pool_stop VO_PERF_SAMPLE_COUNT pool res

/-- A sequence of calls; `none` as soon as an assertion fails. -/
def timer_pool_calls (VO_PERF_SAMPLE_COUNT : Nat) :
    timer_pool → List timer_call → Option timer_pool
  | pool, [] => some pool
  | pool, c :: cs =>
    (timer_pool_call VO_PERF_SAMPLE_COUNT pool c).bind fun p =>
      timer_pool_calls VO_PERF_SAMPLE_COUNT p cs

/-- Start and stop strictly alternate, beginning with start: the calls at the even
positions are the starts. -/
def alternating (cs : List timer_call) : Prop :=
  ∀ i (h : i < cs.length), (cs.get ⟨i, h⟩).is_start = true ↔ i % 2 = 0

/-- One call on a non-null timer pool that does not fail its assertion: `timer_pool_start`,
`timer_pool_stop` with the duration `res` returned by the back end, or
`timer_pool_measure`. -/
inductive TmStep (VO_PERF_SAMPLE_COUNT : Nat) : timer_pool → timer_pool → Prop
  | start (pool p2 : timer_pool) (h : timer_pool_start pool = some p2) :
      TmStep VO_PERF_SAMPLE_COUNT pool p2
  | stop (pool p2 : timer_pool) (res : Nat)
      (h : timer_pool_stop VO_PERF_SAMPLE_COUNT pool res = some p2) :
      TmStep VO_PERF_SAMPLE_COUNT pool p2
  | measure (pool : timer_pool) :
      TmStep VO_PERF_SAMPLE_COUNT pool (timer_pool_measure VO_PERF_SAMPLE_COUNT pool).2

/-- States reachable from a freshly created timer pool. -/
def TmReach (VO_PERF_SAMPLE_COUNT : Nat) (pool : timer_pool) : Prop :=
  Relation.ReflTransGen (TmStep VO_PERF_SAMPLE_COUNT) (timer_pool_create VO_PERF_SAMPLE_COUNT)
    pool

/-- A ring of two entries after the durations 5, 7 and 9. -/
def tm_run : timer_pool :=
  { running := false, samples := [9, 7], sample_idx := 1, sample_count := 2, sum := 16,
    peak := 9 }


/-! ## Buffer pool (`video/out/gpu/utils.c`) -/

/-- A buffer of the back end, named by the order in which the back end created it. -/
abbrev ra_buf := Nat

/-- The fields of `struct ra_buf_params` the pool looks at; `initial_data` says whether
that pointer is set. -/
structure ra_buf_params where
  type : Nat
  size : Nat
  host_mapped : Bool
  host_mutable : Bool
  initial_data : Bool
deriving DecidableEq, Repr

/-- The fields of `struct ra_buf_pool`: `buffers` with `num_buffers` is the list, and the
pointer `buffers` is `NULL` exactly when the list is empty (the array is allocated by the
first insertion and released by `ra_buf_pool_uninit` only). -/
structure ra_buf_pool where
  buffers : List ra_buf
  index : Nat
  current_params : ra_buf_params
deriving DecidableEq, Repr

/-- What the pool sees of the back end `struct ra`: the number of buffers created so far
and the buffers freed so far, in the order of the calls. -/
structure ra where
  created : Nat
  freed : List ra_buf
deriving DecidableEq, Repr

/-- The zero value `(struct ra_buf_params){0}`. -/
def ra_buf_params_zero : ra_buf_params :=
  { type := 0, size := 0, host_mapped := false, host_mutable := false, initial_data := false }

/-- The zero value `(struct ra_buf_pool){0}`, which is also a pool before its first use. -/
def ra_buf_pool_zero : ra_buf_pool :=
  { buffers := [], index := 0, current_params := ra_buf_params_zero }

/-- Modelled from the spec: `ra_buf_create` is not in the sources.  The back end allocates
a buffer that did not exist before, or fails and returns `NULL`; `create_ok k` says whether
the allocation of the buffer numbered `k` succeeds. -/
def ra_buf_create (create_ok : Nat → Bool) (r : ra) (_params : ra_buf_params) :
    Option ra_buf × ra :=
  if create_ok r.created then (some r.created, { r with created := r.created + 1 })
  else (none, r)

/-- Modelled from the spec: `ra_buf_free` is not in the sources.  The back end frees the
buffer. -/
def ra_buf_free (r : ra) (buf : ra_buf) : ra :=
  { r with freed := r.freed ++ [buf] }

/-- Modelled from the spec: the macro `MP_TARRAY_INSERT_AT` is not in the sources.  The
element is put at position `at_`, immediately before the element that was there, and the
elements from there on move up by one. -/
def MP_TARRAY_INSERT_AT (p : List ra_buf) (at_ : Nat) (v : ra_buf) : List ra_buf :=
  p.take at_ ++ v :: p.drop at_

/-- `ra_buf_pool_uninit`. -/
def ra_buf_pool_uninit (r : ra) (pool : ra_buf_pool) : ra × ra_buf_pool :=
  (pool.buffers.foldl ra_buf_free r, ra_buf_pool_zero)

/-- `ra_buf_params_compatible`. -/
def ra_buf_params_compatible (new old : ra_buf_params) : Bool :=
  new.type == old.type && decide (new.size ≤ old.size) &&
  new.host_mapped == old.host_mapped && new.host_mutable == old.host_mutable

/-- `ra_buf_pool_grow`. -/
def ra_buf_pool_grow (create_ok : Nat → Bool) (r : ra) (pool : ra_buf_pool) :
    Bool × ra × ra_buf_pool :=
  match ra_buf_create create_ok r pool.current_params with
  | (none, r1) => (false, r1, pool)
  | (some buf, r1) =>
    (true, r1, { pool with buffers := MP_TARRAY_INSERT_AT pool.buffers pool.index buf })

/-- The end of `ra_buf_pool_get`: `buf = pool->buffers[pool->index++]` and
`pool->index %= pool->num_buffers`. -/
def ra_buf_pool_next (r : ra) (pool : ra_buf_pool) : Option ra_buf × ra × ra_buf_pool :=
  (some (pool.buffers.getD pool.index 0), r,
    { pool with index := (pool.index + 1) % pool.buffers.length })

/-- The first block of `ra_buf_pool_get`: a request that is not compatible with the current
parameters empties the pool and becomes the current parameters. -/
def ra_buf_pool_reshape (r : ra) (pool : ra_buf_pool) (params : ra_buf_params) :
    ra × ra_buf_pool :=
  if !ra_buf_params_compatible params pool.current_params then
    ((ra_buf_pool_uninit r pool).1,
      { (ra_buf_pool_uninit r pool).2 with current_params := params })
  else (r, pool)

/-- The second block of `ra_buf_pool_get`, `!pool->buffers && !ra_buf_pool_grow(ra, pool)`:
the flag is `false` when the function returns `NULL` here. -/
def ra_buf_pool_ensure (create_ok : Nat → Bool) (r : ra) (pool : ra_buf_pool) :
    Bool × ra × ra_buf_pool :=
  if pool.buffers.isEmpty then ra_buf_pool_grow create_ok r pool else (true, r, pool)

/-- The third block of `ra_buf_pool_get`,
`!ra->fns->buf_poll(ra, pool->buffers[pool->index]) && !ra_buf_pool_grow(ra, pool)`: the
flag is `false` when the function returns `NULL` here.  `buf_poll` is the answer of the back
end: whether the buffer is free for use. -/
def ra_buf_pool_free_next (create_ok : Nat → Bool) (buf_poll : ra_buf → Bool) (r : ra)
    (pool : ra_buf_pool) : Bool × ra × ra_buf_pool :=
  if !buf_poll (pool.buffers.getD pool.index 0) then ra_buf_pool_grow create_ok r pool
  else (true, r, pool)

/-- `ra_buf_pool_get`; the outer `none` is the failed assertion `!params->initial_data`, the
inner one the result `NULL`. -/
def ra_buf_pool_get (create_ok : Nat → Bool) (buf_poll : ra_buf → Bool) (r : ra)
    (pool : ra_buf_pool) (params : ra_buf_params) : Option (Option ra_buf × ra × ra_buf_pool) :=
  if params.initial_data then none
  else
    let s1 := ra_buf_pool_reshape r pool params
    let s2 := ra_buf_pool_ensure create_ok s1.1 s1.2
    if !s2.1 then some (none, s2.2)
    else
      let s3 := ra_buf_pool_free_next create_ok buf_poll s2.2.1 s2.2.2
      if !s3.1 then some (none, s3.2)
      else some (ra_buf_pool_next s3.2.1 s3.2.2)

/-- One call of `ra_buf_pool_get` with the answers of the back end during the call. -/
structure buf_request where
  create_ok : Nat → Bool
  buf_poll : ra_buf → Bool
  params : ra_buf_params

/-- A sequence of calls of `ra_buf_pool_get`: the buffers returned, in order, and the final
state; `none` when an assertion fails. -/
def ra_buf_pool_gets (r : ra) (pool : ra_buf_pool) :
    List buf_request → Option (List (Option ra_buf) × ra × ra_buf_pool)
  | [] => some ([], r, pool)
  | q :: qs =>
    (ra_buf_pool_get q.create_ok q.buf_poll r pool q.params).bind fun s =>
      (ra_buf_pool_gets s.2.1 s.2.2 qs).map fun t => (s.1 :: t.1, t.2)

/-- The index designates a buffer of the list, or the list is empty and the index is 0. -/
def buf_pool_shape (pool : ra_buf_pool) : Prop :=
  pool.index < pool.buffers.length ∨ (pool.buffers = [] ∧ pool.index = 0)

/-- Parameters of an upload buffer of 100 bytes. -/
def params100 : ra_buf_params :=
  { type := 1, size := 100, host_mapped := false, host_mutable := true, initial_data := false }

/-- A pool of three buffers of 100 bytes whose index is at the second one. -/
def buf_pool3 : ra_buf_pool := { buffers := [0, 1, 2], index := 1, current_params := params100 }

/-- A back end that has created three buffers and freed none. -/
def ra3 : ra := { created := 3, freed := [] }

/-- A request that finds every buffer free and every allocation successful. -/
def free_request (params : ra_buf_params) : buf_request :=
  { create_ok := fun _ => true, buf_poll := fun _ => true, params := params }

/-- The parameters `params100` with twice the size. -/
def params200 : ra_buf_params := { params100 with size := 200 }


/-! ## Texture pool (`video/out/gpu/utils.c`) -/

/-- `RA_TEX_ENTRY_MAX_AGE`. -/
def RA_TEX_ENTRY_MAX_AGE : Int := 10

/-- The fields of `struct ra_tex_entry`: `w` and `h` are `ref.tex->params.w` and
`ref.tex->params.h`, the size of the texture of the entry. -/
structure ra_tex_entry where
  w : Int
  h : Int
  age : Int
  refs : Int
deriving DecidableEq, Repr

/-- A texture pool with the entries it has allocated: `mem` holds the entries by address (a
`struct ra_tex_ref *` is the address of its entry), `avail` is the array `avail` of
`num_avail` addresses, and `freed` lists the entries that were destroyed together with
their texture, in the order of the calls. -/
structure ra_tex_pool where
  mem : List ra_tex_entry
  avail : List Nat
  freed : List Nat
deriving DecidableEq, Repr

/-- The pool `ra_tex_pool_alloc` returns: nothing is available. -/
def ra_tex_pool_alloc : ra_tex_pool := { mem := [], avail := [], freed := [] }

/-- The entry at address `e`. -/
def ra_tex_pool.entry (pool : ra_tex_pool) (e : Nat) : ra_tex_entry :=
  pool.mem.getD e { w := 0, h := 0, age := 0, refs := 0 }

/-- Store `en` at address `e`. -/
def ra_tex_pool.store (pool : ra_tex_pool) (e : Nat) (en : ra_tex_entry) : ra_tex_pool :=
  { pool with mem := pool.mem.set e en }

/-- Modelled from the spec: the macro `MP_TARRAY_REMOVE_AT` is not in the sources.  The
element at position `at_` is taken out of the array and the elements after it move down
by one. -/
def MP_TARRAY_REMOVE_AT (p : List Nat) (at_ : Nat) : List Nat := p.eraseIdx at_

/-- Modelled from the spec: the macro `MP_TARRAY_APPEND` is not in the sources.  The element
is put at the end of the array. -/
def MP_TARRAY_APPEND (p : List Nat) (v : Nat) : List Nat := p ++ [v]

/-- The test of the scan in `ra_tex_pool_get`:
`entry->ref.tex->params.w == w && entry->ref.tex->params.h == h`. -/
def tex_match (pool : ra_tex_pool) (w h : Int) (e : Nat) : Bool :=
  (pool.entry e).w == w && (pool.entry e).h == h

/-- The scan of `ra_tex_pool_get` over the entries `avail[i], avail[i + 1], ...`: the index
of the first entry that passes the test. -/
def tex_scan (pool : ra_tex_pool) (w h : Int) : List Nat → Nat → Option Nat
  | [], _ => none
  | e :: t, i => if tex_match pool w h e then some i else tex_scan pool w h t (i + 1)

/-- `ra_tex_pool_get`: the reference returned and the pool afterwards.  `tex_ok` says
whether `ra_tex_create` (which is not in the sources) succeeds when it is called; the
texture it returns has the parameters it was asked for, and the new entry is a new
address.  The result `none` is the `abort()`. -/
def ra_tex_pool_get (tex_ok : Bool) (pool : ra_tex_pool) (w h : Int) :
    Option (Nat × ra_tex_pool) :=
  match tex_scan pool w h pool.avail 0 with
  | some i =>
    let e := pool.avail.getD i 0
    some (e, ({ pool with avail := MP_TARRAY_REMOVE_AT pool.avail i }).store e
      { pool.entry e with refs := 1 })
  | none =>
    -- No new image => allocate one
    if tex_ok then
      some (pool.mem.length,
        { pool with mem := pool.mem ++ [{ w := w, h := h, age := 0, refs := 1 }] })
    else none

/-- `ra_tex_ref_dup`; `none` is the failed assertion `entry->refs > 0`. -/
def ra_tex_ref_dup (pool : ra_tex_pool) : Option Nat → Option (Option Nat × ra_tex_pool)
  | none => some (none, pool)
  | some e =>
    if (pool.entry e).refs > 0 then
      some (some e, pool.store e { pool.entry e with refs := (pool.entry e).refs + 1 })
    else none

/-- `ra_tex_ref_free`; `none` is the failed assertion `entry->refs > 0`.  The call of
`tex_invalidate` acts on the contents of the texture, which the pool does not look at. -/
def ra_tex_ref_free (pool : ra_tex_pool) : Option Nat → Option ra_tex_pool
  | none => some pool
  | some e =>
    if (pool.entry e).refs > 0 then
      if (pool.entry e).refs - 1 = 0 then
        some { pool.store e { pool.entry e with refs := 0, age := 0 } with
          avail := MP_TARRAY_APPEND pool.avail e }
      else some (pool.store e { pool.entry e with refs := (pool.entry e).refs - 1 })
    else none

/-- The loop of `ra_tex_pool_gc_tick` from index `i` on.  An entry that is too old is
destroyed (`ra_tex_free` of its texture and `talloc_free` of the entry, recorded in
`freed`) and taken out of the array, and the iteration is repeated at the same index
(`i--` before the `i++` of the loop). -/
def gc_loop : Nat → Nat → ra_tex_pool → ra_tex_pool
  | 0, _, pool => pool
  | fuel + 1, i, pool =>
    if i < pool.avail.length then
      let e := pool.avail.getD i 0
      let p1 := pool.store e { pool.entry e with age := (pool.entry e).age + 1 }
      if (p1.entry e).age > RA_TEX_ENTRY_MAX_AGE then
        gc_loop fuel i
          { p1 with freed := p1.freed ++ [e], avail := MP_TARRAY_REMOVE_AT p1.avail i }
      else gc_loop fuel (i + 1) p1
    else pool

/-- `ra_tex_pool_gc_tick`: every iteration of the loop moves `i` up or makes the array
shorter, so that `num_avail` iterations are enough. -/
def ra_tex_pool_gc_tick (pool : ra_tex_pool) : ra_tex_pool :=
  gc_loop pool.avail.length 0 pool

/-- Whether the next `ra_tex_pool_gc_tick` destroys the entry `e` when it is available. -/
def tex_old (mem : List ra_tex_entry) (e : Nat) : Bool :=
  decide ((mem.getD e { w := 0, h := 0, age := 0, refs := 0 }).age + 1 > RA_TEX_ENTRY_MAX_AGE)

/-- One call into the texture pool by a caller that holds the references `held` (a
reference for every `ra_tex_pool_get` and `ra_tex_ref_dup`, given up by
`ra_tex_ref_free`): `ra_tex_ref_dup` and `ra_tex_ref_free` are called on references that
are held. -/
inductive TStep : ra_tex_pool × List Nat → ra_tex_pool × List Nat → Prop
  | get (pool : ra_tex_pool) (held : List Nat) (tex_ok : Bool) (w h : Int) (e : Nat)
      (p2 : ra_tex_pool) (hg : ra_tex_pool_get tex_ok pool w h = some (e, p2)) :
      TStep (pool, held) (p2, e :: held)
  | dup (pool : ra_tex_pool) (held : List Nat) (e : Nat) (p2 : ra_tex_pool) (he : e ∈ held)
      (hd : ra_tex_ref_dup pool (some e) = some (some e, p2)) :
      TStep (pool, held) (p2, e :: held)
  | free (pool : ra_tex_pool) (held : List Nat) (e : Nat) (p2 : ra_tex_pool) (he : e ∈ held)
      (hf : ra_tex_ref_free pool (some e) = some p2) :
      TStep (pool, held) (p2, held.erase e)
  | gc_tick (pool : ra_tex_pool) (held : List Nat) :
      TStep (pool, held) (ra_tex_pool_gc_tick pool, held)

/-- States reachable from an empty pool. -/
def TReach (s : ra_tex_pool × List Nat) : Prop :=
  Relation.ReflTransGen TStep (ra_tex_pool_alloc, []) s

/-- The entry at address `e` exists: it was allocated and not destroyed. -/
def ra_tex_pool.live (pool : ra_tex_pool) (e : Nat) : Prop :=
  e < pool.mem.length ∧ e ∉ pool.freed

/-- Invariant of the texture pool and the references held by its callers. -/
structure TInv (pool : ra_tex_pool) (held : List Nat) : Prop where
  nodup : pool.avail.Nodup
  avail_live : ∀ e, e ∈ pool.avail → pool.live e
  freed_lt : ∀ e, e ∈ pool.freed → e < pool.mem.length
  held_live : ∀ e, e ∈ held → pool.live e
  refs : ∀ e, pool.live e →
    0 ≤ (pool.entry e).refs ∧ (e ∈ pool.avail ↔ (pool.entry e).refs = 0) ∧
    (held.count e : Int) = (pool.entry e).refs

/-- The entry after `++entry->age`. -/
def ra_tex_entry.older (en : ra_tex_entry) : ra_tex_entry := { en with age := en.age + 1 }

/-- A pool with two available textures of size 2 x 2, which nobody holds. -/
def tex_two : ra_tex_pool :=
  { mem := [{ w := 2, h := 2, age := 0, refs := 0 }, { w := 2, h := 2, age := 0, refs := 0 }],
    avail := [0, 1], freed := [] }

/-- A pool with one texture of size 2 x 2, held by one reference. -/
def tex_one : ra_tex_pool :=
  { mem := [{ w := 2, h := 2, age := 0, refs := 1 }], avail := [], freed := [] }

/-- `ra_tex_ref_free` together with the variable `*ref` of the caller after the call: the
early return on a null reference leaves the variable as it is, and the last statement is
`*ref = NULL`. -/
def ra_tex_ref_free_ptr (pool : ra_tex_pool) (ref : Option Nat) :
    Option (ra_tex_pool × Option Nat) :=
  if ref.isNone then some (pool, ref)
  else (ra_tex_ref_free pool ref).map fun p => (p, none)

/-- The reference `e` duplicated `k` times by `ra_tex_ref_dup`. -/
def tex_dups (pool : ra_tex_pool) (e : Nat) : Nat → Option ra_tex_pool
  | 0 => some pool
  | k + 1 => (ra_tex_ref_dup pool (some e)).bind fun s => tex_dups s.2 e k

/-- The reference `e` released `k` times by `ra_tex_ref_free`. -/
def tex_frees (pool : ra_tex_pool) (e : Nat) : Nat → Option ra_tex_pool
  | 0 => some pool
  | k + 1 => (ra_tex_ref_free pool (some e)).bind fun p => tex_frees p e k

/-- A pool with three available textures of ages 9, 10 and 3. -/
def tex_ages : ra_tex_pool :=
  { mem := [{ w := 2, h := 2, age := 9, refs := 0 }, { w := 4, h := 4, age := 10, refs := 0 },
            { w := 2, h := 2, age := 3, refs := 0 }],
    avail := [0, 1, 2], freed := [] }


/-! ## Following a slot from the begin that hands it out -/

/-- Slot `i` is in use: it is the slot being recorded (`cur`), or its fence is not signaled,
which is the state of a slot from its submission until the device completes it. -/
def in_use (vk : mpvk_ctx) (cur : Option Nat) (i : Nat) : Bool :=
  decide (cur = some i) || !(vk.cmd i).fence

/-- The slots in use among the `N` slots of the pool. -/
def outstanding (N : Nat) (vk : mpvk_ctx) (cur : Option Nat) : List Nat :=
  (List.range N).filter fun i => in_use vk cur i

/-- Four slots are begun one after the other and then submitted in the order they were
begun; the device completes none of them. -/
def four_open : mpvk_ctx :=
  let vk1 := (vk_cmd_begin 4 pool4 true true).2
  let vk2 := (vk_cmd_begin 4 vk1 true true).2
  let vk3 := (vk_cmd_begin 4 vk2 true true).2
  let vk4 := (vk_cmd_begin 4 vk3 true true).2
  let vk5 := (vk_cmd_submit vk4 0 false true true true).vk
  let vk6 := (vk_cmd_submit vk5 1 false true true true).vk
  let vk7 := (vk_cmd_submit vk6 2 false true true true).vk
  (vk_cmd_submit vk7 3 false true true true).vk

/-- One slot begun and submitted, the device not completing it. -/
def busy_round (N : Nat) (vk : mpvk_ctx) : mpvk_ctx :=
  match vk_cmd_begin N vk true true with
  | (some k, vk1) => (vk_cmd_submit vk1 k false true true true).vk
  | (none, vk1) => vk1

/-- A one-slot-at-a-time run that fills the pool of four slots: three slots are begun and
submitted in turn and the device completes none of them. -/
def full_run : mpvk_ctx := busy_round 4 (busy_round 4 (busy_round 4 pool4))


/-! ## Uniform layout (`video/out/gpu/utils.c`) -/

/-- The fields of `struct ra_renderpass_input` that `std140_layout` reads besides the type:
the vector length and the number of columns, both `int`. -/
structure ra_renderpass_input where
  dim_v : Int
  dim_m : Int
deriving DecidableEq, Repr

/-- The fields of `struct ra_layout`, all `size_t`. -/
structure ra_layout where
  align : Nat
  stride : Nat
  size : Nat
deriving DecidableEq, Repr

/-- The conversion of an `int` to the 64-bit `size_t`. -/
def to_size_t (x : Int) : Nat := (x % 2 ^ 64).toNat

/-- `std140_layout`.  `el_size` is the value of `ra_vartype_size(inp->type)` and
`MP_ALIGN_UP` the macro of that name, neither of which is in the sources;
`sizeof(float[4])` is 16.  The arithmetic is that of `size_t`. -/
def std140_layout (MP_ALIGN_UP : Nat → Nat → Nat) (el_size : Nat)
    (inp : ra_renderpass_input) : ra_layout :=
  let size0 := (el_size * to_size_t inp.dim_v) % 2 ^ 64
  let size1 := if inp.dim_v = 3 then (size0 + el_size) % 2 ^ 64 else size0
  let size2 := if inp.dim_m > 1 then MP_ALIGN_UP size1 16 else size1
  { align := size2, stride := size2, size := (size2 * to_size_t inp.dim_m) % 2 ^ 64 }

/-- Rounding up to the next multiple of `a`. -/
def round_up (x a : Nat) : Nat := (x + a - 1) / a * a


/-! ## Swapchain (`video/out/vulkan/context.c`) -/

/-- `VkExtent2D`: two `uint32_t`. -/
structure VkExtent2D where
  width : Nat
  height : Nat
deriving DecidableEq, Repr

/-- The fields of `VkSurfaceCapabilitiesKHR` that `update_swchain_info` reads. -/
structure VkSurfaceCapabilitiesKHR where
  minImageCount : Nat
  maxImageCount : Nat
  currentExtent : VkExtent2D
  minImageExtent : VkExtent2D
  maxImageExtent : VkExtent2D
  supportedTransforms : Nat
  supportedCompositeAlpha : Nat
  supportedUsageFlags : Nat
deriving DecidableEq, Repr

/-- The fields of `VkSwapchainCreateInfoKHR` that `update_swchain_info` and
`ra_vk_ctx_resize` read or write, and the present mode; the other fields are set once by
`ra_vk_ctx_init` and copied along.  The handle `0` is `VK_NULL_HANDLE`. -/
structure VkSwapchainCreateInfoKHR where
  minImageCount : Nat
  imageExtent : VkExtent2D
  imageUsage : Nat
  preTransform : Nat
  compositeAlpha : Nat
  presentMode : Nat
  oldSwapchain : Nat
deriving DecidableEq, Repr

/-- The flag bits of the Vulkan headers that `update_swchain_info` names; the headers are
not in the sources, so the values are parameters. -/
structure vk_bits where
  VK_COMPOSITE_ALPHA_POST_MULTIPLIED_BIT_KHR : Nat
  VK_COMPOSITE_ALPHA_OPAQUE_BIT_KHR : Nat
  VK_SURFACE_TRANSFORM_IDENTITY_BIT_KHR : Nat
  VK_SURFACE_TRANSFORM_INHERIT_BIT_KHR : Nat
deriving DecidableEq, Repr

/-- The messages of `update_swchain_info`, with their arguments. -/
inductive sw_msg
  /-- `MP_ERR`: "Failed picking alpha compositing mode (caps: %d)". -/
  | err_alpha (caps : Nat)
  /-- `MP_ERR`: "Failed picking surface transform mode (caps: %d)". -/
  | err_transform (caps : Nat)
  /-- `MP_VERBOSE`: "Requested image count: %d (min %d max %d)". -/
  | verbose_count (req : Int) (min max : Nat)
  /-- `MP_WARN`: "Requested width %d does not match current width %d". -/
  | warn_width (req cur : Nat)
  /-- `MP_WARN`: "Requested height %d does not match current height %d". -/
  | warn_height (req cur : Nat)
  /-- `MP_ERR`: "Requested size %dx%d smaller than device minimum %d%d". -/
  | err_small (w h minw minh : Nat)
  /-- `MP_ERR`: "Requested size %dx%d larger than device maximum %d%d". -/
  | err_large (w h maxw maxh : Nat)
deriving DecidableEq, Repr

/-- The conversion of an `int` to `uint32_t`. -/
def to_u32 (x : Int) : Nat := (x % 2 ^ 32).toNat

/-- Whether the bit `bit` is in the set `set`: `set & bit`. -/
def has_bit (set bit : Nat) : Bool := set &&& bit != 0

/-- The two selection loops of `update_swchain_info`:
`for (...) if (supported & modes[i]) { field = modes[i]; break; }`, with `field` the value
the field of `info` has before the loop. -/
def pick_mode (supported : Nat) (field : Nat) : List Nat → Nat
  | [] => field
  | m :: ms => if has_bit supported m then m else pick_mode supported field ms

/-- `update_swchain_info`: the result, `*info` afterwards and the messages.  `caps` is what
`vkGetPhysicalDeviceSurfaceCapabilitiesKHR` returns, `none` when the call fails (the macro
`VK` then jumps to `error`).  The macros `MPMAX` and `MPMIN`, which are not in the
sources, are the maximum and the minimum. -/
def update_swchain_info (K : vk_bits) (swchain_depth : Int)
    (caps : Option VkSurfaceCapabilitiesKHR) (info : VkSwapchainCreateInfoKHR) :
    Bool × VkSwapchainCreateInfoKHR × List sw_msg :=
  match caps with
  | none => (false, info, [])
  | some caps =>
    let alpha := pick_mode caps.supportedCompositeAlpha info.compositeAlpha
      [K.VK_COMPOSITE_ALPHA_POST_MULTIPLIED_BIT_KHR, K.VK_COMPOSITE_ALPHA_OPAQUE_BIT_KHR]
    let info1 := { info with compositeAlpha := alpha }
    if info1.compositeAlpha = 0 then
      (false, info1, [sw_msg.err_alpha caps.supportedCompositeAlpha])
    else
      let rot := pick_mode caps.supportedTransforms info1.preTransform
        [K.VK_SURFACE_TRANSFORM_IDENTITY_BIT_KHR, K.VK_SURFACE_TRANSFORM_INHERIT_BIT_KHR]
      let info2 := { info1 with preTransform := rot }
      if info2.preTransform = 0 then
        (false, info2, [sw_msg.err_transform caps.supportedTransforms])
      else
        -- Image count as required. The +1 is for the framebuffer
        let req_count := swchain_depth + 1
        let log1 := [sw_msg.verbose_count req_count caps.minImageCount caps.maxImageCount]
        let count1 := max (to_u32 req_count) caps.minImageCount
        let count2 := if caps.maxImageCount ≠ 0 then min count1 caps.maxImageCount else count1
        let info3 := { info2 with minImageCount := count2 }
        -- Check the extent against the allowed parameters
        let adopt_w := decide (caps.currentExtent.width ≠ info3.imageExtent.width) &&
          decide (caps.currentExtent.width ≠ 0xFFFFFFFF)
        let log2 := if adopt_w then
            log1 ++ [sw_msg.warn_width info3.imageExtent.width caps.currentExtent.width]
          else log1
        let extent4 : VkExtent2D := if adopt_w then
            { info3.imageExtent with width := caps.currentExtent.width }
          else info3.imageExtent
        let info4 := { info3 with imageExtent := extent4 }
        let adopt_h := decide (caps.currentExtent.height ≠ info4.imageExtent.height) &&
          decide (caps.currentExtent.height ≠ 0xFFFFFFFF)
        let log3 := if adopt_h then
            log2 ++ [sw_msg.warn_height info4.imageExtent.height caps.currentExtent.height]
          else log2
        let extent5 : VkExtent2D := if adopt_h then
            { info4.imageExtent with height := caps.currentExtent.height }
          else info4.imageExtent
        let info5 := { info4 with imageExtent := extent5 }
        if caps.minImageExtent.width > info5.imageExtent.width ∨
            caps.minImageExtent.height > info5.imageExtent.height then
          (false, info5, log3 ++ [sw_msg.err_small info5.imageExtent.width
            info5.imageExtent.height caps.minImageExtent.width caps.minImageExtent.height])
        else if caps.maxImageExtent.width < info5.imageExtent.width ∨
            caps.maxImageExtent.height < info5.imageExtent.height then
          (false, info5, log3 ++ [sw_msg.err_large info5.imageExtent.width
            info5.imageExtent.height caps.maxImageExtent.width caps.maxImageExtent.height])
        else
          (true, { info5 with imageUsage := caps.supportedUsageFlags }, log3)

/-- The fields of `struct priv` next to `vk` and `opts`; `images` with `num_images` and
`acquired` with `num_acquired` are lists, and an image wrapper that is `NULL` is `none`. -/
structure priv where
  w : Int
  h : Int
  protoInfo : VkSwapchainCreateInfoKHR
  swchain : Nat
  frames_in_flight : Int
  swchain_depth : Int
  images : List (Option Nat)
  acquired : List VkSemaphore
  idx_acquired : Nat
  last_imgidx : Nat
deriving DecidableEq, Repr

/-- The state `ra_vk_ctx_resize` works on: the private data of the swapchain, the context
`p->vk` points to, the image wrappers given to `ra_tex_free` so far, and the messages. -/
structure sw_state where
  p : priv
  vk : mpvk_ctx
  tex_freed : List Nat
  log : List sw_msg
deriving DecidableEq, Repr

/-- What the back end answers during one call of `ra_vk_ctx_resize`; `none` and `false`
stand for a result other than `VK_SUCCESS`, or `NULL`. -/
structure resize_env where
  /-- `vkGetPhysicalDeviceSurfaceCapabilitiesKHR`. -/
  caps : Option VkSurfaceCapabilitiesKHR
  /-- `vkCreateSwapchainKHR`: the handle of the new chain. -/
  create : Option Nat
  /-- The first `vkGetSwapchainImagesKHR`, which asks for the number of images. -/
  count_ok : Bool
  /-- The second `vkGetSwapchainImagesKHR`: the images, `num` being their number. -/
  vkimages : Option (List Nat)
  /-- `vkCreateSemaphore`, by the number of the call within this resize. -/
  sem : Nat → Option VkSemaphore
  /-- `ra_vk_wrap_swchain_img` for the image with index `i`. -/
  wrap : Nat → Option Nat

/-- The callback `(vk_cb) destroy_swapchain` with its arguments `vk` and the old chain. -/
def destroy_swapchain (old : Nat) : vk_callback := { run := 2, priv := 0, arg := old }

/-- The loop `while (num > p->num_acquired)` of `ra_vk_ctx_resize`: `n` is the number of
semaphores still missing and `j` the number of the call of `vkCreateSemaphore`; the flag is
`false` when a call fails. -/
def acquire_loop (sem : Nat → Option VkSemaphore) :
    Nat → Nat → List VkSemaphore → Bool × List VkSemaphore
  | 0, _, acquired => (true, acquired)
  | n + 1, j, acquired =>
    match sem j with
    | none => (false, acquired)
    | some s => acquire_loop sem n (j + 1) (MP_TARRAY_APPEND acquired s)

/-- The loop of `ra_vk_ctx_resize` that wraps the images with index `i, i + 1, ...` (`n` of
them); the flag is `false` when `ra_vk_wrap_swchain_img` returns `NULL`. -/
def wrap_loop (wrap : Nat → Option Nat) :
    Nat → Nat → List (Option Nat) → Bool × List (Option Nat)
  | 0, _, images => (true, images)
  | n + 1, i, images =>
    match wrap i with
    | none => (false, images.set i none)
    | some t => wrap_loop wrap n (i + 1) (images.set i (some t))

/-- `ra_vk_ctx_resize`.  After `ra_tex_free` every old wrapper is `NULL`, and the entries
of the grown array that the last loop does not reach are `none`. -/
def ra_vk_ctx_resize (K : vk_bits) (env : resize_env) (s : sw_state) (w h : Int) :
    Bool × sw_state :=
  if w = s.p.w ∧ h = s.p.h then (true, s)
  else
    let sinfo0 : VkSwapchainCreateInfoKHR :=
      { s.p.protoInfo with
        imageExtent := { width := to_u32 w, height := to_u32 h },
        oldSwapchain := s.p.swchain }
    let u := update_swchain_info K s.p.swchain_depth env.caps sinfo0
    let s1 := { s with log := s.log ++ u.2.2 }
    if !u.1 then (false, s1)
    else
      match env.create with
      | none => (false, s1)
      | some chain =>
        let sinfo := u.2.1
        let p1 := { s.p with swchain := chain, w := w, h := h }
        -- Freeing the old swapchain while it's still in use is an error, so do
        -- it asynchronously once the device is idle.
        let vk1 := if sinfo.oldSwapchain ≠ 0 then
            vk_dev_callback s.vk (destroy_swapchain sinfo.oldSwapchain)
          else s.vk
        let s2 := { s1 with p := p1, vk := vk1 }
        -- Get the new swapchain images
        if !env.count_ok then (false, s2)
        else
          match env.vkimages with
          | none => (false, s2)
          | some vkimages =>
            let num := vkimages.length
            -- If needed, allocate some more semaphores
            let a := acquire_loop env.sem (num - p1.acquired.length) 0 p1.acquired
            let p2 := { p1 with acquired := a.2 }
            if !a.1 then (false, { s2 with p := p2 })
            else
              -- Recreate the ra_tex wrappers
              let freed := s2.tex_freed ++ p2.images.filterMap id
              let wl := wrap_loop env.wrap num 0 (List.replicate num none)
              (wl.1, { s2 with p := { p2 with images := wl.2 }, tex_freed := freed })

/-- The value of `frames_in_flight` after `j` calls of `mpvk_dev_poll_cmds`, when
`poll i f` is its value after the call number `i` that found it at `f` (the callbacks that
the poll runs count it down). -/
def flight (poll : Nat → Int → Int) (f : Int) : Nat → Int
  | 0 => f
  | j + 1 => poll j (flight poll f j)

/-- `swap_buffers` with at most `fuel` more polls, `i` polls having been made: the private
data and the number of polls when the loop ends, `none` when it is still polling.
`mpvk_dev_poll_cmds` is not in the sources; `poll` is what it does to
`frames_in_flight`. -/
def swap_buffers (poll : Nat → Int → Int) : Nat → Nat → priv → Option (priv × Nat)
  | 0, i, p => if p.frames_in_flight ≥ p.swchain_depth then none else some (p, i)
  | fuel + 1, i, p =>
    if p.frames_in_flight ≥ p.swchain_depth then
      swap_buffers poll fuel (i + 1) { p with frames_in_flight := poll i p.frames_in_flight }
    else some (p, i)

/-- The extent `update_swchain_info` goes on with in one dimension: the current extent of
the surface when that is fixed (not `0xFFFFFFFF`) and differs from the request, the
requested extent otherwise. -/
def adopt_extent (cur req : Nat) : Nat :=
  if cur ≠ req ∧ cur ≠ 0xFFFFFFFF then cur else req

/-- The flag bits with their values in the Vulkan headers. -/
def bits : vk_bits :=
  { VK_COMPOSITE_ALPHA_POST_MULTIPLIED_BIT_KHR := 4,
    VK_COMPOSITE_ALPHA_OPAQUE_BIT_KHR := 1,
    VK_SURFACE_TRANSFORM_IDENTITY_BIT_KHR := 1,
    VK_SURFACE_TRANSFORM_INHERIT_BIT_KHR := 256 }

/-- A surface without a fixed extent that takes extents from 100 x 100 to 1000 x 1000,
opaque composition and the identity transform. -/
def caps_free : VkSurfaceCapabilitiesKHR :=
  { minImageCount := 2, maxImageCount := 8,
    currentExtent := { width := 0xFFFFFFFF, height := 0xFFFFFFFF },
    minImageExtent := { width := 100, height := 100 },
    maxImageExtent := { width := 1000, height := 1000 },
    supportedTransforms := 1, supportedCompositeAlpha := 1, supportedUsageFlags := 16 }

/-- A surface with the fixed extent 800 x 600 inside the limits 1 x 1 and 4096 x 4096. -/
def caps_fixed : VkSurfaceCapabilitiesKHR :=
  { minImageCount := 2, maxImageCount := 0,
    currentExtent := { width := 800, height := 600 },
    minImageExtent := { width := 1, height := 1 },
    maxImageExtent := { width := 4096, height := 4096 },
    supportedTransforms := 257, supportedCompositeAlpha := 5, supportedUsageFlags := 16 }

/-- The prototype `ra_vk_ctx_init` fills in: the fields it does not name are zero. -/
def proto0 : VkSwapchainCreateInfoKHR :=
  { minImageCount := 0, imageExtent := { width := 0, height := 0 }, imageUsage := 0,
    preTransform := 0, compositeAlpha := 0, presentMode := 2, oldSwapchain := 0 }

/-- The state after `ra_vk_ctx_init` with a swapchain depth of 3: the private data is
zeroed but for the prototype and the depth. -/
def sw0 : sw_state :=
  { p := { w := 0, h := 0, protoInfo := proto0, swchain := 0, frames_in_flight := 0,
           swchain_depth := 3, images := [], acquired := [], idx_acquired := 0,
           last_imgidx := 0 },
    vk := pool4, tex_freed := [], log := [] }

/-- A back end that answers every call of a resize with success: the surface `caps`, the
new chain 7 and three images. -/
def env_ok (caps : VkSurfaceCapabilitiesKHR) : resize_env :=
  { caps := some caps, create := some 7, count_ok := true, vkimages := some [10, 11, 12],
    sem := fun j => some (100 + j), wrap := fun i => some (200 + i) }

/-! ## Lemmas on the circular window and on the drains -/

theorem window_size_self (N p : Nat) (hp : p < N) : window_size N p p = 0 := by
  unfold window_size
  have : p + N - p = N := by omega
  rw [this]; exact Nat.mod_self N

theorem window_size_pos (N p c : Nat) (hp : p < N) (hc : c < N) (h : p ≠ c) :
    0 < window_size N p c := by
  unfold window_size
  rcases Nat.lt_or_gt_of_ne h with h1 | h1
  · have : c + N - p = (c - p) + N := by omega
    rw [this, Nat.add_mod_right, Nat.mod_eq_of_lt (by omega)]; omega
  · rw [Nat.mod_eq_of_lt (by omega)]; omega

theorem window_size_eq (N p c : Nat) (hp : p < N) (hc : c < N) :
    window_size N p c = if p ≤ c then c - p else c + N - p := by
  unfold window_size
  split
  · have : c + N - p = (c - p) + N := by omega
    rw [this, Nat.add_mod_right, Nat.mod_eq_of_lt (by omega)]
  · rw [Nat.mod_eq_of_lt (by omega)]

theorem succ_mod_eq (N p : Nat) (hp : p < N) :
    (p + 1) % N = if p + 1 = N then 0 else p + 1 := by
  split
  · next h => rw [h, Nat.mod_self]
  · rw [Nat.mod_eq_of_lt (by omega)]

theorem window_size_pending_succ (N p c : Nat) (hp : p < N) (hc : c < N) (h : p ≠ c) :
    window_size N ((p + 1) % N) c + 1 = window_size N p c := by
  have hlt : (p + 1) % N < N := Nat.mod_lt _ (by omega)
  rw [window_size_eq N p c hp hc, window_size_eq N _ c hlt hc, succ_mod_eq N p hp]
  split_ifs <;> omega

theorem window_size_cindex_succ (N p c : Nat) (hp : p < N) (hc : c < N)
    (h : (c + 1) % N ≠ p) :
    window_size N p ((c + 1) % N) = window_size N p c + 1 := by
  have hlt : (c + 1) % N < N := Nat.mod_lt _ (by omega)
  rw [window_size_eq N p c hp hc, window_size_eq N p _ hp hlt]
  rw [succ_mod_eq N c hc] at h ⊢
  split_ifs at h ⊢ <;> omega

theorem window_self (N p : Nat) (hp : p < N) : window N p p = [] := by
  simp [window, window_size_self N p hp]

theorem slot_mod (N p d : Nat) (hp : p < N) (hd : d < N) :
    (p + d) % N = if p + d < N then p + d else p + d - N := by
  split
  · exact Nat.mod_eq_of_lt (by assumption)
  · have : p + d = (p + d - N) + N := by omega
    rw [this, Nat.add_mod_right, Nat.mod_eq_of_lt (by omega)]; omega

theorem window_cons (N p c : Nat) (hp : p < N) (hc : c < N) (h : p ≠ c) :
    window N p c = p :: window N ((p + 1) % N) c := by
  unfold window
  rw [← window_size_pending_succ N p c hp hc h, List.range_succ_eq_map]
  simp only [List.map_cons, List.map_map, Nat.add_zero, Nat.mod_eq_of_lt hp]
  congr 1
  apply List.map_congr_left
  intro d _
  simp only [Function.comp, Nat.succ_eq_add_one]
  rw [Nat.mod_add_mod]; congr 1; omega

theorem window_snoc (N p c : Nat) (hp : p < N) (hc : c < N) (h : (c + 1) % N ≠ p) :
    window N p ((c + 1) % N) = window N p c ++ [c] := by
  unfold window
  rw [window_size_cindex_succ N p c hp hc h, List.range_succ, List.map_append]
  congr 1
  simp only [List.map_cons, List.map_nil, List.cons.injEq, and_true]
  have hws := window_size_eq N p c hp hc
  have hlt : window_size N p c < N := Nat.mod_lt _ (by omega)
  rw [slot_mod N p _ hp hlt, hws]
  split_ifs <;> omega

theorem mem_window (N p c i : Nat) (hp : p < N) :
    i ∈ window N p c ↔ i < N ∧ (i + N - p) % N < window_size N p c := by
  have hN : 0 < N := by omega
  unfold window
  simp only [List.mem_map, List.mem_range]
  constructor
  · rintro ⟨d, hd, rfl⟩
    have hdN : d < N := lt_trans hd (Nat.mod_lt _ hN)
    refine ⟨Nat.mod_lt _ hN, ?_⟩
    rw [slot_mod N p d hp hdN]
    split
    · have : p + d + N - p = d + N := by omega
      rw [this, Nat.add_mod_right, Nat.mod_eq_of_lt hdN]; exact hd
    · have : p + d - N + N - p = d := by omega
      rw [this, Nat.mod_eq_of_lt hdN]; exact hd
  · rintro ⟨hi, h⟩
    refine ⟨(i + N - p) % N, h, ?_⟩
    rw [Nat.add_mod_mod]
    have : p + (i + N - p) = i + N := by omega
    rw [this, Nat.add_mod_right, Nat.mod_eq_of_lt hi]

theorem window_lt (N p c i : Nat) (hp : p < N) (h : i ∈ window N p c) : i < N :=
  ((mem_window N p c i hp).1 h).1

theorem window_length (N p c : Nat) : (window N p c).length = window_size N p c := by
  simp [window]

theorem window_nodup (N p c : Nat) (hp : p < N) : (window N p c).Nodup := by
  have hN : 0 < N := by omega
  unfold window
  refine List.Nodup.map_on ?_ (List.nodup_range _)
  intro a ha b hb hab
  simp only [List.mem_range] at ha hb
  have haN : a < N := lt_trans ha (Nat.mod_lt _ hN)
  have hbN : b < N := lt_trans hb (Nat.mod_lt _ hN)
  rw [slot_mod N p a hp haN, slot_mod N p b hp hbN] at hab
  split_ifs at hab <;> omega

theorem cindex_not_mem_window (N p c : Nat) (hp : p < N) (_hc : c < N) :
    c ∉ window N p c := by
  rw [mem_window N p c c hp]
  rintro ⟨_, h⟩
  exact lt_irrefl _ h

theorem cmd_default_callbacks : (default : vk_cmd).callbacks = [] := rfl

theorem cmd_setCmd (vk : mpvk_ctx) (i j : Nat) (c : vk_cmd) :
    (vk.setCmd i c).cmd j = if i = j ∧ i < vk.pool.cmds.length then c else vk.cmd j := by
  simp only [mpvk_ctx.cmd, mpvk_ctx.setCmd, List.getD_eq_getElem?_getD, List.getElem?_set]
  by_cases h : i = j
  · subst h
    by_cases h2 : i < vk.pool.cmds.length
    · simp [h2]
    · simp [h2, List.getElem?_eq_none (not_lt.1 h2)]
  · simp [h]

theorem foldl_log_run (i : Nat) (cbs : List vk_callback) (log : List Obs) :
    cbs.foldl (fun l cb => l ++ [Obs.run (some i) cb]) log
      = log ++ cbs.map (Obs.run (some i)) := by
  induction cbs generalizing log with
  | nil => simp
  | cons a t ih => simp [ih]

theorem run_callbacks_log (vk : mpvk_ctx) (i : Nat) :
    (run_callbacks vk i).log = vk.log ++ runs_of vk i := by
  simp [run_callbacks, foldl_log_run, runs_of]

theorem run_callbacks_last (vk : mpvk_ctx) (i : Nat) :
    (run_callbacks vk i).last_cmd = if vk.last_cmd = some i then none else vk.last_cmd := rfl

theorem run_callbacks_cmd (vk : mpvk_ctx) (i j : Nat) :
    (run_callbacks vk i).cmd j
      = if j = i then { vk.cmd j with callbacks := [] } else vk.cmd j := by
  have h := cmd_setCmd vk i j { vk.cmd i with callbacks := [] }
  simp only [mpvk_ctx.setCmd] at h
  simp only [run_callbacks]
  unfold mpvk_ctx.cmd at h ⊢
  simp only [] at h ⊢
  rw [h]
  by_cases hij : i = j
  · subst hij
    by_cases h2 : i < vk.pool.cmds.length
    · simp [h2]
    · simp [h2, List.getD_eq_getElem?_getD, List.getElem?_eq_none (not_lt.1 h2)]
      rfl
  · simp [hij, Ne.symm hij]

theorem run_callbacks_cindex (vk : mpvk_ctx) (i : Nat) :
    (run_callbacks vk i).pool.cindex = vk.pool.cindex := rfl

theorem run_callbacks_pending (vk : mpvk_ctx) (i : Nat) :
    (run_callbacks vk i).pool.cindex_pending = vk.pool.cindex_pending := rfl

theorem run_callbacks_qindex (vk : mpvk_ctx) (i : Nat) :
    (run_callbacks vk i).pool.qindex = vk.pool.qindex := rfl

theorem run_callbacks_qcount (vk : mpvk_ctx) (i : Nat) :
    (run_callbacks vk i).pool.qcount = vk.pool.qcount := rfl

theorem run_callbacks_length (vk : mpvk_ctx) (i : Nat) :
    (run_callbacks vk i).pool.cmds.length = vk.pool.cmds.length := by
  simp [run_callbacks]

theorem forget_nil (o : Option Nat) : forget [] o = o := by
  cases o <;> simp [forget]

theorem forget_cons (i : Nat) (l : List Nat) (o : Option Nat) :
    forget (i :: l) o = forget l (if o = some i then none else o) := by
  cases o with
  | none => simp [forget]
  | some k =>
    by_cases h : k = i
    · subst h; simp [forget]
    · simp [forget, h]

theorem forget_append (l1 l2 : List Nat) (o : Option Nat) :
    forget (l1 ++ l2) o = forget l2 (forget l1 o) := by
  cases o with
  | none => simp [forget]
  | some k =>
    by_cases h : k ∈ l1
    · simp [forget, h]
    · simp [forget, h]

theorem collect_log (vk : mpvk_ctx) (i : Nat) :
    (collect vk i).log = vk.log ++ Obs.fence_ok i :: runs_of vk i := by
  simp [collect, run_callbacks_log, runs_of, mpvk_ctx.cmd]

theorem collect_cmd (vk : mpvk_ctx) (i j : Nat) :
    (collect vk i).cmd j = if j = i then { vk.cmd j with callbacks := [] } else vk.cmd j := by
  simp only [collect, run_callbacks_cmd]; rfl

theorem collect_last (vk : mpvk_ctx) (i : Nat) :
    (collect vk i).last_cmd = if vk.last_cmd = some i then none else vk.last_cmd := rfl

theorem collect_length (vk : mpvk_ctx) (i : Nat) :
    (collect vk i).pool.cmds.length = vk.pool.cmds.length := by
  simp [collect, run_callbacks]

theorem collect_set_pending (vk : mpvk_ctx) (i x : Nat) :
    collect (set_pending vk x) i = set_pending (collect vk i) x := rfl

theorem foldl_collect_set_pending (l : List Nat) (vk : mpvk_ctx) (x : Nat) :
    l.foldl collect (set_pending vk x) = set_pending (l.foldl collect vk) x := by
  induction l generalizing vk with
  | nil => rfl
  | cons i t ih => simp only [List.foldl_cons, collect_set_pending, ih]

theorem foldl_collect_cindex (l : List Nat) (vk : mpvk_ctx) :
    (l.foldl collect vk).pool.cindex = vk.pool.cindex := by
  induction l generalizing vk with
  | nil => rfl
  | cons i t ih => simp only [List.foldl_cons, ih]; rfl

theorem foldl_collect_pending (l : List Nat) (vk : mpvk_ctx) :
    (l.foldl collect vk).pool.cindex_pending = vk.pool.cindex_pending := by
  induction l generalizing vk with
  | nil => rfl
  | cons i t ih => simp only [List.foldl_cons, ih]; rfl

theorem foldl_collect_qindex (l : List Nat) (vk : mpvk_ctx) :
    (l.foldl collect vk).pool.qindex = vk.pool.qindex := by
  induction l generalizing vk with
  | nil => rfl
  | cons i t ih => simp only [List.foldl_cons, ih]; rfl

theorem foldl_collect_qcount (l : List Nat) (vk : mpvk_ctx) :
    (l.foldl collect vk).pool.qcount = vk.pool.qcount := by
  induction l generalizing vk with
  | nil => rfl
  | cons i t ih => simp only [List.foldl_cons, ih]; rfl

theorem foldl_collect_length (l : List Nat) (vk : mpvk_ctx) :
    (l.foldl collect vk).pool.cmds.length = vk.pool.cmds.length := by
  induction l generalizing vk with
  | nil => rfl
  | cons i t ih => simp only [List.foldl_cons, ih, collect_length]

theorem foldl_collect_cmd (l : List Nat) (vk : mpvk_ctx) (j : Nat) :
    (l.foldl collect vk).cmd j
      = if j ∈ l then { vk.cmd j with callbacks := [] } else vk.cmd j := by
  induction l generalizing vk with
  | nil => simp
  | cons i t ih =>
    simp only [List.foldl_cons, ih, collect_cmd, List.mem_cons]
    by_cases h1 : j = i <;> by_cases h2 : j ∈ t <;> simp [h1, h2]

theorem foldl_collect_last (l : List Nat) (vk : mpvk_ctx) :
    (l.foldl collect vk).last_cmd = forget l vk.last_cmd := by
  induction l generalizing vk with
  | nil => simp [forget_nil]
  | cons i t ih => simp only [List.foldl_cons, ih, collect_last, forget_cons]

theorem foldl_collect_log (l : List Nat) (vk : mpvk_ctx) (hl : l.Nodup) :
    (l.foldl collect vk).log
      = vk.log ++ l.flatMap fun i => Obs.fence_ok i :: runs_of vk i := by
  induction l generalizing vk with
  | nil => simp
  | cons i t ih =>
    have hi : i ∉ t := (List.nodup_cons.1 hl).1
    simp only [List.foldl_cons, ih _ (List.nodup_cons.1 hl).2, collect_log,
      List.flatMap_cons, List.append_assoc, List.cons_append]
    congr 3
    apply List.flatMap_congr
    intro j hj
    have hji : j ≠ i := fun h => hi (h ▸ hj)
    simp [runs_of, collect_cmd, hji]

theorem set_pending_self (vk : mpvk_ctx) : set_pending vk vk.pool.cindex_pending = vk := rfl

theorem set_pending_set_pending (vk : mpvk_ctx) (x y : Nat) :
    set_pending (set_pending vk x) y = set_pending vk y := rfl

theorem set_pending_cmd (vk : mpvk_ctx) (x j : Nat) : (set_pending vk x).cmd j = vk.cmd j := rfl

theorem collect_fence (vk : mpvk_ctx) (i j : Nat) :
    ((collect vk i).cmd j).fence = (vk.cmd j).fence := by
  rw [collect_cmd]; split <;> rfl

theorem window_eq_nil_of_size (N p c : Nat) (h : window_size N p c = 0) : window N p c = [] := by
  simp [window, h]

theorem poll_loop_eq (N : Nat) :
    ∀ (fuel : Nat) (vk : mpvk_ctx), vk.pool.cindex_pending < N → vk.pool.cindex < N →
      window_size N vk.pool.cindex_pending vk.pool.cindex ≤ fuel →
      poll_loop N fuel vk
        = set_pending ((polled N vk).foldl collect vk)
            ((vk.pool.cindex_pending + (polled N vk).length) % N) := by
  intro fuel
  induction fuel with
  | zero =>
    intro vk hp hc hf
    have h0 : window_size N vk.pool.cindex_pending vk.pool.cindex = 0 := by omega
    have hpol0 : polled N vk = [] := by
      unfold polled; rw [window_eq_nil_of_size N _ _ h0]; rfl
    rw [hpol0]
    simp [poll_loop, Nat.mod_eq_of_lt hp, set_pending_self]
  | succ fuel ih =>
    intro vk hp hc hf
    by_cases hpc : vk.pool.cindex_pending = vk.pool.cindex
    · have hw : window N vk.pool.cindex_pending vk.pool.cindex = [] := by
        rw [hpc]; exact window_self N _ hc
      have hpol0 : polled N vk = [] := by
        unfold polled; rw [hw]; rfl
      rw [hpol0, poll_loop]
      simp only [ne_eq, hpc, not_true_eq_false, if_false, List.foldl_nil, List.length_nil,
        Nat.add_zero, Nat.mod_eq_of_lt hc]
      rw [← hpc]; rfl
    · have hw := window_cons N _ _ hp hc hpc
      by_cases hfence : (vk.cmd vk.pool.cindex_pending).fence = true
      · have hp2 : (vk.pool.cindex_pending + 1) % N < N := Nat.mod_lt _ (by omega)
        have hsz := window_size_pending_succ N _ _ hp hc hpc
        have hstep : poll_loop N (fuel + 1) vk
            = poll_loop N fuel (set_pending (collect vk vk.pool.cindex_pending)
                ((vk.pool.cindex_pending + 1) % N)) := by
          rw [poll_loop]; simp only [ne_eq, hpc, not_false_eq_true, if_true, hfence]; rfl
        have hpol : polled N (set_pending (collect vk vk.pool.cindex_pending)
              ((vk.pool.cindex_pending + 1) % N))
            = (window N ((vk.pool.cindex_pending + 1) % N) vk.pool.cindex).takeWhile
                fun i => (vk.cmd i).fence := by
          unfold polled
          congr 1
          funext i
          simp only [set_pending_cmd, collect_fence]
        have hpol0 : polled N vk = vk.pool.cindex_pending ::
            (window N ((vk.pool.cindex_pending + 1) % N) vk.pool.cindex).takeWhile
              fun i => (vk.cmd i).fence := by
          unfold polled; rw [hw, List.takeWhile_cons]; simp [hfence]
        have hfu : window_size N (set_pending (collect vk vk.pool.cindex_pending)
              ((vk.pool.cindex_pending + 1) % N)).pool.cindex_pending
              (set_pending (collect vk vk.pool.cindex_pending)
              ((vk.pool.cindex_pending + 1) % N)).pool.cindex ≤ fuel := by
          change window_size N ((vk.pool.cindex_pending + 1) % N) vk.pool.cindex ≤ fuel
          omega
        rw [hstep, ih (set_pending (collect vk vk.pool.cindex_pending)
                ((vk.pool.cindex_pending + 1) % N)) hp2 hc hfu, hpol, hpol0]
        simp only [List.foldl_cons, List.length_cons, foldl_collect_set_pending,
          set_pending_set_pending]
        congr 1
        change ((vk.pool.cindex_pending + 1) % N + _) % N = _
        rw [Nat.mod_add_mod]; congr 1; omega
      · have hpol0 : polled N vk = [] := by
          unfold polled; rw [hw, List.takeWhile_cons]; simp [hfence]
        rw [hpol0, poll_loop]
        simp [hpc, hfence, Nat.mod_eq_of_lt hp, set_pending_self]

theorem poll_wait_cindex (vk : mpvk_ctx) (t : Nat) (s : Bool) :
    (poll_wait vk t s).pool.cindex = vk.pool.cindex := by
  unfold poll_wait; split <;> rfl

theorem poll_wait_pending (vk : mpvk_ctx) (t : Nat) (s : Bool) :
    (poll_wait vk t s).pool.cindex_pending = vk.pool.cindex_pending := by
  unfold poll_wait; split <;> rfl

theorem poll_wait_last (vk : mpvk_ctx) (t : Nat) (s : Bool) :
    (poll_wait vk t s).last_cmd = vk.last_cmd := by
  unfold poll_wait; split <;> rfl

theorem poll_wait_log (vk : mpvk_ctx) (t : Nat) (s : Bool) :
    (poll_wait vk t s).log = vk.log := by
  unfold poll_wait; split <;> rfl

theorem poll_wait_qindex (vk : mpvk_ctx) (t : Nat) (s : Bool) :
    (poll_wait vk t s).pool.qindex = vk.pool.qindex := by
  unfold poll_wait; split <;> rfl

theorem poll_wait_qcount (vk : mpvk_ctx) (t : Nat) (s : Bool) :
    (poll_wait vk t s).pool.qcount = vk.pool.qcount := by
  unfold poll_wait; split <;> rfl

theorem poll_wait_length (vk : mpvk_ctx) (t : Nat) (s : Bool) :
    (poll_wait vk t s).pool.cmds.length = vk.pool.cmds.length := by
  unfold poll_wait; split <;> simp [mpvk_ctx.setCmd]

theorem poll_wait_zero (vk : mpvk_ctx) (s : Bool) : poll_wait vk 0 s = vk := by
  simp [poll_wait]

theorem poll_wait_cmd (vk : mpvk_ctx) (t : Nat) (s : Bool) (j : Nat) :
    (poll_wait vk t s).cmd j
      = if (0 < t ∧ vk.pool.cindex_pending ≠ vk.pool.cindex) ∧
            (vk.pool.cindex_pending = j ∧ j < vk.pool.cmds.length)
        then { vk.cmd j with fence := (vk.cmd j).fence || s } else vk.cmd j := by
  unfold poll_wait
  by_cases h : 0 < t ∧ vk.pool.cindex_pending ≠ vk.pool.cindex
  · rw [if_pos h]
    simp only [cmd_setCmd, h, and_self, true_and]
    by_cases h2 : vk.pool.cindex_pending = j
    · subst h2; simp [h.2]
    · simp [h2]
  · rw [if_neg h]; simp only [h, false_and, if_false]

theorem poll_wait_callbacks (vk : mpvk_ctx) (t : Nat) (s : Bool) (j : Nat) :
    ((poll_wait vk t s).cmd j).callbacks = (vk.cmd j).callbacks := by
  rw [poll_wait_cmd]; split <;> rfl

theorem window_size_lt (N p c : Nat) (hN : 0 < N) : window_size N p c < N :=
  Nat.mod_lt _ hN

/-- Closed form of `mpvk_pool_poll_cmds` for cursors inside the array: after the optional
wait, the slots of `polled` are collected in order and `cindex_pending` moves past them. -/
theorem poll_eq (N : Nat) (vk : mpvk_ctx) (t : Nat) (s : Bool)
    (hp : vk.pool.cindex_pending < N) (hc : vk.pool.cindex < N) :
    mpvk_pool_poll_cmds N vk t s
      = set_pending ((polled N (poll_wait vk t s)).foldl collect (poll_wait vk t s))
          ((vk.pool.cindex_pending + (polled N (poll_wait vk t s)).length) % N) := by
  unfold mpvk_pool_poll_cmds
  have hN : 0 < N := by omega
  rw [poll_loop_eq N N (poll_wait vk t s) (by rw [poll_wait_pending]; exact hp)
    (by rw [poll_wait_cindex]; exact hc) (le_of_lt (window_size_lt N _ _ hN)),
    poll_wait_pending]

theorem wait_for_cmds_eq (vk : mpvk_ctx) (start num : Nat) :
    wait_for_cmds vk start num
      = (seg start num).foldl run_callbacks ((seg start num).foldl wait_fence vk) := by
  unfold wait_for_cmds
  split
  · next h => subst h; rfl
  · rfl

theorem window_eq_seg (N p c : Nat) (hc : c < N) (h : p ≤ c) :
    window N p c = seg p (c - p) := by
  unfold window seg
  rw [window_size_eq N p c (by omega) hc, if_pos h]
  apply List.map_congr_left
  intro d hd
  rw [List.mem_range] at hd
  exact Nat.mod_eq_of_lt (by omega)

theorem window_eq_seg_wrap (N p c : Nat) (hp : p < N) (h : c < p) :
    window N p c = seg p (N - p) ++ seg 0 c := by
  unfold window seg
  rw [window_size_eq N p c hp (by omega), if_neg (by omega)]
  have : c + N - p = (N - p) + c := by omega
  rw [this, List.range_add, List.map_append, List.map_map]
  congr 1
  · apply List.map_congr_left
    intro d hd
    rw [List.mem_range] at hd
    exact Nat.mod_eq_of_lt (by omega)
  · apply List.map_congr_left
    intro d hd
    rw [List.mem_range] at hd
    simp only [Function.comp]
    have : p + (N - p + d) = d + N := by omega
    rw [this, Nat.add_mod_right, Nat.mod_eq_of_lt (by omega)]; omega

theorem mem_seg (s n j : Nat) : j ∈ seg s n ↔ s ≤ j ∧ j < s + n := by
  unfold seg
  simp only [List.mem_map, List.mem_range]
  constructor
  · rintro ⟨d, hd, rfl⟩; omega
  · rintro ⟨h1, h2⟩; exact ⟨j - s, by omega, by omega⟩

theorem seg_nodup (s n : Nat) : (seg s n).Nodup := by
  unfold seg
  refine List.Nodup.map_on ?_ (List.nodup_range _)
  intro a _ b _ hab
  omega

theorem wait_fence_cmd (vk : mpvk_ctx) (i j : Nat) :
    (wait_fence vk i).cmd j
      = if i = j ∧ i < vk.pool.cmds.length then { vk.cmd j with fence := true }
        else vk.cmd j := by
  have h := cmd_setCmd vk i j { vk.cmd i with fence := true }
  unfold wait_fence fence_signal
  unfold mpvk_ctx.cmd mpvk_ctx.setCmd at h ⊢
  simp only [] at h ⊢
  rw [h]
  by_cases hij : i = j
  · subst hij; rfl
  · simp [hij]

theorem wait_fence_log (vk : mpvk_ctx) (i : Nat) :
    (wait_fence vk i).log = vk.log ++ [Obs.fence_ok i] := rfl

theorem wait_fence_length (vk : mpvk_ctx) (i : Nat) :
    (wait_fence vk i).pool.cmds.length = vk.pool.cmds.length := by
  simp [wait_fence, fence_signal, mpvk_ctx.setCmd]

theorem foldl_wait_fence_length (l : List Nat) (vk : mpvk_ctx) :
    (l.foldl wait_fence vk).pool.cmds.length = vk.pool.cmds.length := by
  induction l generalizing vk with
  | nil => rfl
  | cons i t ih => simp only [List.foldl_cons, ih, wait_fence_length]

theorem foldl_wait_fence_cmd (l : List Nat) (vk : mpvk_ctx) (j : Nat) :
    (l.foldl wait_fence vk).cmd j
      = if j ∈ l ∧ j < vk.pool.cmds.length then { vk.cmd j with fence := true }
        else vk.cmd j := by
  induction l generalizing vk with
  | nil => simp
  | cons i t ih =>
    simp only [List.foldl_cons, ih, wait_fence_cmd, wait_fence_length, List.mem_cons]
    by_cases h1 : i = j
    · subst h1
      by_cases h2 : i < vk.pool.cmds.length <;> by_cases h3 : i ∈ t <;> simp [h2, h3]
    · have h1' : ¬ j = i := fun h => h1 h.symm
      simp [h1, h1']

theorem foldl_wait_fence_log (l : List Nat) (vk : mpvk_ctx) :
    (l.foldl wait_fence vk).log = vk.log ++ l.map Obs.fence_ok := by
  induction l generalizing vk with
  | nil => simp
  | cons i t ih => simp [ih, wait_fence_log]

theorem foldl_wait_fence_last (l : List Nat) (vk : mpvk_ctx) :
    (l.foldl wait_fence vk).last_cmd = vk.last_cmd := by
  induction l generalizing vk with
  | nil => rfl
  | cons i t ih => simp only [List.foldl_cons, ih]; rfl

theorem foldl_wait_fence_pool (l : List Nat) (vk : mpvk_ctx) :
    (l.foldl wait_fence vk).pool.cindex = vk.pool.cindex ∧
    (l.foldl wait_fence vk).pool.cindex_pending = vk.pool.cindex_pending ∧
    (l.foldl wait_fence vk).pool.qindex = vk.pool.qindex ∧
    (l.foldl wait_fence vk).pool.qcount = vk.pool.qcount := by
  induction l generalizing vk with
  | nil => exact ⟨rfl, rfl, rfl, rfl⟩
  | cons i t ih => simp only [List.foldl_cons, ih]; exact ⟨rfl, rfl, rfl, rfl⟩

theorem foldl_run_callbacks_length (l : List Nat) (vk : mpvk_ctx) :
    (l.foldl run_callbacks vk).pool.cmds.length = vk.pool.cmds.length := by
  induction l generalizing vk with
  | nil => rfl
  | cons i t ih => simp only [List.foldl_cons, ih, run_callbacks_length]

theorem foldl_run_callbacks_cmd (l : List Nat) (vk : mpvk_ctx) (j : Nat) :
    (l.foldl run_callbacks vk).cmd j
      = if j ∈ l then { vk.cmd j with callbacks := [] } else vk.cmd j := by
  induction l generalizing vk with
  | nil => simp
  | cons i t ih =>
    simp only [List.foldl_cons, ih, run_callbacks_cmd, List.mem_cons]
    by_cases h1 : j = i <;> by_cases h2 : j ∈ t <;> simp [h1, h2]

theorem foldl_run_callbacks_last (l : List Nat) (vk : mpvk_ctx) :
    (l.foldl run_callbacks vk).last_cmd = forget l vk.last_cmd := by
  induction l generalizing vk with
  | nil => simp [forget_nil]
  | cons i t ih => simp only [List.foldl_cons, ih, run_callbacks_last, forget_cons]

theorem foldl_run_callbacks_pool (l : List Nat) (vk : mpvk_ctx) :
    (l.foldl run_callbacks vk).pool.cindex = vk.pool.cindex ∧
    (l.foldl run_callbacks vk).pool.cindex_pending = vk.pool.cindex_pending ∧
    (l.foldl run_callbacks vk).pool.qindex = vk.pool.qindex ∧
    (l.foldl run_callbacks vk).pool.qcount = vk.pool.qcount := by
  induction l generalizing vk with
  | nil => exact ⟨rfl, rfl, rfl, rfl⟩
  | cons i t ih => simp only [List.foldl_cons, ih]; exact ⟨rfl, rfl, rfl, rfl⟩

theorem foldl_run_callbacks_log (l : List Nat) (vk : mpvk_ctx) (hl : l.Nodup) :
    (l.foldl run_callbacks vk).log = vk.log ++ l.flatMap (runs_of vk) := by
  induction l generalizing vk with
  | nil => simp
  | cons i t ih =>
    have hi : i ∉ t := (List.nodup_cons.1 hl).1
    simp only [List.foldl_cons, ih _ (List.nodup_cons.1 hl).2, run_callbacks_log,
      List.flatMap_cons, List.append_assoc]
    congr 2
    apply List.flatMap_congr
    intro j hj
    have hji : j ≠ i := fun h => hi (h ▸ hj)
    simp [runs_of, run_callbacks_cmd, hji]

theorem wait_for_cmds_cmd (vk : mpvk_ctx) (s n j : Nat) :
    (wait_for_cmds vk s n).cmd j
      = if j ∈ seg s n then
          (if j < vk.pool.cmds.length then { vk.cmd j with fence := true, callbacks := [] }
           else { vk.cmd j with callbacks := [] })
        else vk.cmd j := by
  rw [wait_for_cmds_eq, foldl_run_callbacks_cmd, foldl_wait_fence_cmd]
  by_cases h1 : j ∈ seg s n <;> by_cases h2 : j < vk.pool.cmds.length <;> simp [h1, h2]

theorem wait_for_cmds_log (vk : mpvk_ctx) (s n : Nat) :
    (wait_for_cmds vk s n).log = vk.log ++ segment_log vk (seg s n) := by
  rw [wait_for_cmds_eq, foldl_run_callbacks_log _ _ (seg_nodup s n), foldl_wait_fence_log,
    segment_log, List.append_assoc]
  congr 2
  apply List.flatMap_congr
  intro j _
  simp only [runs_of, foldl_wait_fence_cmd]
  split <;> rfl

theorem wait_for_cmds_last (vk : mpvk_ctx) (s n : Nat) :
    (wait_for_cmds vk s n).last_cmd = forget (seg s n) vk.last_cmd := by
  rw [wait_for_cmds_eq, foldl_run_callbacks_last, foldl_wait_fence_last]

theorem wait_for_cmds_length (vk : mpvk_ctx) (s n : Nat) :
    (wait_for_cmds vk s n).pool.cmds.length = vk.pool.cmds.length := by
  rw [wait_for_cmds_eq, foldl_run_callbacks_length, foldl_wait_fence_length]

theorem wait_for_cmds_pool (vk : mpvk_ctx) (s n : Nat) :
    (wait_for_cmds vk s n).pool.cindex = vk.pool.cindex ∧
    (wait_for_cmds vk s n).pool.cindex_pending = vk.pool.cindex_pending ∧
    (wait_for_cmds vk s n).pool.qindex = vk.pool.qindex ∧
    (wait_for_cmds vk s n).pool.qcount = vk.pool.qcount := by
  rw [wait_for_cmds_eq]
  obtain ⟨a1, a2, a3, a4⟩ := foldl_run_callbacks_pool (seg s n) ((seg s n).foldl wait_fence vk)
  obtain ⟨b1, b2, b3, b4⟩ := foldl_wait_fence_pool (seg s n) vk
  exact ⟨a1.trans b1, a2.trans b2, a3.trans b3, a4.trans b4⟩

theorem wait_idle_pool (N : Nat) (vk : mpvk_ctx) :
    (mpvk_pool_wait_idle N vk).pool.cindex = vk.pool.cindex ∧
    (mpvk_pool_wait_idle N vk).pool.cindex_pending = vk.pool.cindex ∧
    (mpvk_pool_wait_idle N vk).pool.qindex = vk.pool.qindex ∧
    (mpvk_pool_wait_idle N vk).pool.qcount = vk.pool.qcount ∧
    (mpvk_pool_wait_idle N vk).pool.cmds.length = vk.pool.cmds.length := by
  unfold mpvk_pool_wait_idle
  simp only []
  split_ifs
  · obtain ⟨a1, _, a3, a4⟩ := wait_for_cmds_pool vk vk.pool.cindex_pending
      (vk.pool.cindex - vk.pool.cindex_pending)
    exact ⟨a1, a1, a3, a4, wait_for_cmds_length _ _ _⟩
  · obtain ⟨a1, _, a3, a4⟩ := wait_for_cmds_pool vk vk.pool.cindex_pending
      (N - vk.pool.cindex_pending)
    obtain ⟨b1, _, b3, b4⟩ := wait_for_cmds_pool
      (wait_for_cmds vk vk.pool.cindex_pending (N - vk.pool.cindex_pending)) 0 vk.pool.cindex
    exact ⟨b1.trans a1, b1.trans a1, b3.trans a3, b4.trans a4,
      (wait_for_cmds_length _ _ _).trans (wait_for_cmds_length _ _ _)⟩
  · exact ⟨rfl, rfl, rfl, rfl, rfl⟩

theorem wait_idle_cmd (N : Nat) (vk : mpvk_ctx) (hp : vk.pool.cindex_pending < N)
    (hc : vk.pool.cindex < N) (hlen : vk.pool.cmds.length = N) (j : Nat) :
    (mpvk_pool_wait_idle N vk).cmd j
      = if j ∈ window N vk.pool.cindex_pending vk.pool.cindex then
          { vk.cmd j with fence := true, callbacks := [] }
        else vk.cmd j := by
  unfold mpvk_pool_wait_idle
  simp only []
  change (mpvk_ctx.cmd _ j) = _
  by_cases h1 : vk.pool.cindex_pending < vk.pool.cindex
  · rw [if_pos h1, window_eq_seg N _ _ hc (le_of_lt h1)]
    change (wait_for_cmds vk _ _).cmd j = _
    rw [wait_for_cmds_cmd]
    by_cases hj : j ∈ seg vk.pool.cindex_pending (vk.pool.cindex - vk.pool.cindex_pending)
    · have := (mem_seg _ _ _).1 hj
      simp [hj, hlen, show j < N by omega]
    · simp [hj]
  · rw [if_neg h1]
    by_cases h2 : vk.pool.cindex_pending > vk.pool.cindex
    · rw [if_pos h2, window_eq_seg_wrap N _ _ hp h2]
      change (wait_for_cmds (wait_for_cmds vk _ _) _ _).cmd j = _
      rw [wait_for_cmds_cmd, wait_for_cmds_cmd, wait_for_cmds_length]
      simp only [List.mem_append]
      by_cases hj1 : j ∈ seg vk.pool.cindex_pending (N - vk.pool.cindex_pending)
      · have h1' := (mem_seg _ _ _).1 hj1
        have hj2 : j ∉ seg 0 vk.pool.cindex := by
          rw [mem_seg]; omega
        simp [hj1, hj2, hlen, show j < N by omega]
      · by_cases hj2 : j ∈ seg 0 vk.pool.cindex
        · have h2' := (mem_seg _ _ _).1 hj2
          simp [hj1, hj2, hlen, show j < N by omega]
        · simp [hj1, hj2]
    · rw [if_neg h2]
      have : vk.pool.cindex_pending = vk.pool.cindex := by omega
      rw [this, window_self N _ hc]
      simp
      rfl

theorem wait_idle_last (N : Nat) (vk : mpvk_ctx) (hp : vk.pool.cindex_pending < N)
    (hc : vk.pool.cindex < N) :
    (mpvk_pool_wait_idle N vk).last_cmd
      = forget (window N vk.pool.cindex_pending vk.pool.cindex) vk.last_cmd := by
  unfold mpvk_pool_wait_idle
  simp only []
  by_cases h1 : vk.pool.cindex_pending < vk.pool.cindex
  · rw [if_pos h1, window_eq_seg N _ _ hc (le_of_lt h1)]
    exact wait_for_cmds_last _ _ _
  · rw [if_neg h1]
    by_cases h2 : vk.pool.cindex_pending > vk.pool.cindex
    · rw [if_pos h2, window_eq_seg_wrap N _ _ hp h2, forget_append]
      change (wait_for_cmds (wait_for_cmds vk _ _) _ _).last_cmd = _
      rw [wait_for_cmds_last, wait_for_cmds_last]
    · rw [if_neg h2]
      have : vk.pool.cindex_pending = vk.pool.cindex := by omega
      rw [this, window_self N _ hc, forget_nil]

theorem segment_log_congr (vk vk2 : mpvk_ctx) (l : List Nat)
    (h : ∀ j ∈ l, (vk2.cmd j).callbacks = (vk.cmd j).callbacks) :
    segment_log vk2 l = segment_log vk l := by
  unfold segment_log
  congr 1
  apply List.flatMap_congr
  intro j hj
  simp [runs_of, h j hj]

theorem wait_idle_log (N : Nat) (vk : mpvk_ctx) :
    (mpvk_pool_wait_idle N vk).log = vk.log ++ wait_log N vk := by
  unfold mpvk_pool_wait_idle wait_log
  simp only []
  by_cases h1 : vk.pool.cindex_pending < vk.pool.cindex
  · rw [if_pos h1, if_pos h1]
    exact wait_for_cmds_log _ _ _
  · rw [if_neg h1, if_neg h1]
    by_cases h2 : vk.pool.cindex_pending > vk.pool.cindex
    · rw [if_pos h2, if_pos h2]
      change (wait_for_cmds (wait_for_cmds vk _ _) _ _).log = _
      rw [wait_for_cmds_log, wait_for_cmds_log, List.append_assoc]
      congr 2
      apply segment_log_congr
      intro j hj
      have := (mem_seg _ _ _).1 hj
      rw [wait_for_cmds_cmd, if_neg (by rw [mem_seg]; omega)]
    · rw [if_neg h2, if_neg h2]; simp

theorem ran_append (l1 l2 : List Obs) : ran (l1 ++ l2) = ran l1 ++ ran l2 := by
  simp [ran, List.filterMap_append]

theorem ran_map_fence_ok (l : List Nat) : ran (l.map Obs.fence_ok) = [] := by
  induction l with
  | nil => rfl
  | cons a t ih => simp [ran]

theorem ran_runs_of (vk : mpvk_ctx) (i : Nat) : ran (runs_of vk i) = (vk.cmd i).callbacks := by
  unfold ran runs_of
  induction (vk.cmd i).callbacks with
  | nil => rfl
  | cons a t ih => simp [ih]

theorem ran_flatMap_runs_of (vk : mpvk_ctx) (l : List Nat) :
    ran (l.flatMap (runs_of vk)) = l.flatMap fun i => (vk.cmd i).callbacks := by
  induction l with
  | nil => rfl
  | cons a t ih => simp [List.flatMap_cons, ran_append, ran_runs_of, ih]

theorem ran_segment_log (vk : mpvk_ctx) (l : List Nat) :
    ran (segment_log vk l) = l.flatMap fun i => (vk.cmd i).callbacks := by
  simp [segment_log, ran_append, ran_map_fence_ok, ran_flatMap_runs_of]

theorem ran_wait_log (N : Nat) (vk : mpvk_ctx) (hp : vk.pool.cindex_pending < N)
    (hc : vk.pool.cindex < N) :
    ran (wait_log N vk)
      = (window N vk.pool.cindex_pending vk.pool.cindex).flatMap
          fun i => (vk.cmd i).callbacks := by
  unfold wait_log
  by_cases h1 : vk.pool.cindex_pending < vk.pool.cindex
  · rw [if_pos h1, window_eq_seg N _ _ hc (le_of_lt h1), ran_segment_log]
  · rw [if_neg h1]
    by_cases h2 : vk.pool.cindex_pending > vk.pool.cindex
    · rw [if_pos h2, window_eq_seg_wrap N _ _ hp h2, ran_append, ran_segment_log,
        ran_segment_log, List.flatMap_append]
    · rw [if_neg h2]
      have : vk.pool.cindex_pending = vk.pool.cindex := by omega
      rw [this, window_self N _ hc]; rfl

/-! ## Closed forms of a poll -/

theorem window_size_add (N p c : Nat) (hp : p < N) (hc : c < N) :
    (p + window_size N p c) % N = c := by
  rw [window_size_eq N p c hp hc]
  split
  · rw [Nat.mod_eq_of_lt (by omega)]; omega
  · have : p + (c + N - p) = c + N := by omega
    rw [this, Nat.add_mod_right, Nat.mod_eq_of_lt hc]

theorem window_getElem? (N p c k : Nat) (hk : k < window_size N p c) :
    (window N p c)[k]? = some ((p + k) % N) := by
  unfold window
  rw [List.getElem?_map, List.getElem?_range hk]; rfl

theorem window_size_advance (N p c k : Nat) (hp : p < N) (hc : c < N)
    (hk : k ≤ window_size N p c) :
    window_size N ((p + k) % N) c = window_size N p c - k := by
  have hN : 0 < N := by omega
  have hsz := window_size_lt N p c hN
  have hlt : (p + k) % N < N := Nat.mod_lt _ hN
  rw [window_size_eq N _ c hlt hc, slot_mod N p k hp (by omega)]
  rw [window_size_eq N p c hp hc] at hk ⊢
  split_ifs at hk ⊢ <;> omega

theorem window_drop (N p c k : Nat) (hp : p < N) (hc : c < N)
    (hk : k ≤ window_size N p c) :
    window N ((p + k) % N) c = (window N p c).drop k := by
  apply List.ext_getElem?
  intro m
  rw [List.getElem?_drop]
  by_cases hm : m < window_size N p c - k
  · rw [window_getElem? N _ c m (by rw [window_size_advance N p c k hp hc hk]; exact hm),
      window_getElem? N p c (k + m) (by omega), Nat.mod_add_mod, Nat.add_assoc]
  · rw [List.getElem?_eq_none, List.getElem?_eq_none]
    · rw [window_length]; omega
    · rw [window_length, window_size_advance N p c k hp hc hk]; omega

theorem takeWhile_length_le {α : Type} (f : α → Bool) (l : List α) :
    (l.takeWhile f).length ≤ l.length :=
  (List.takeWhile_sublist f).length_le

theorem drop_takeWhile_length {α : Type} (f : α → Bool) (l : List α) :
    l.drop (l.takeWhile f).length = l.dropWhile f := by
  induction l with
  | nil => rfl
  | cons a t ih =>
    by_cases h : f a = true
    · simp [List.takeWhile_cons, List.dropWhile_cons, h, ih]
    · simp [List.takeWhile_cons, List.dropWhile_cons, h]

theorem head_dropWhile {α : Type} (f : α → Bool) (l : List α) (x : α)
    (h : (l.dropWhile f).head? = some x) : f x = false := by
  induction l with
  | nil => simp at h
  | cons a t ih =>
    by_cases ha : f a = true
    · rw [List.dropWhile_cons, if_pos ha] at h; exact ih h
    · rw [List.dropWhile_cons, if_neg ha] at h
      simp only [List.head?_cons, Option.some.injEq] at h
      subst h; simpa using ha

theorem polled_le (N : Nat) (vk : mpvk_ctx) :
    (polled N vk).length ≤ window_size N vk.pool.cindex_pending vk.pool.cindex := by
  unfold polled
  rw [← window_length]
  exact takeWhile_length_le _ _

theorem polled_append (N : Nat) (vk : mpvk_ctx) :
    polled N vk ++ (window N vk.pool.cindex_pending vk.pool.cindex).drop (polled N vk).length
      = window N vk.pool.cindex_pending vk.pool.cindex := by
  unfold polled
  rw [drop_takeWhile_length, List.takeWhile_append_dropWhile]

theorem polled_fence (N : Nat) (vk : mpvk_ctx) (i : Nat) (h : i ∈ polled N vk) :
    (vk.cmd i).fence = true := by
  unfold polled at h
  exact List.mem_takeWhile_imp (p := fun i => (vk.cmd i).fence) h

theorem polled_sublist (N : Nat) (vk : mpvk_ctx) (i : Nat) (h : i ∈ polled N vk) :
    i ∈ window N vk.pool.cindex_pending vk.pool.cindex := by
  unfold polled at h
  exact List.takeWhile_subset _ h

theorem polled_nodup (N : Nat) (vk : mpvk_ctx) (hp : vk.pool.cindex_pending < N) :
    (polled N vk).Nodup := by
  have h := window_nodup N vk.pool.cindex_pending vk.pool.cindex hp
  rw [← polled_append N vk] at h
  exact (List.nodup_append.1 h).1

/-- After the drain the loop is at its exit: the window is empty or its oldest slot is
not signaled. -/
theorem polled_stop (N : Nat) (vk : mpvk_ctx) (hp : vk.pool.cindex_pending < N)
    (hc : vk.pool.cindex < N) :
    (vk.pool.cindex_pending + (polled N vk).length) % N = vk.pool.cindex ∨
    (vk.cmd ((vk.pool.cindex_pending + (polled N vk).length) % N)).fence = false := by
  by_cases h : (polled N vk).length = window_size N vk.pool.cindex_pending vk.pool.cindex
  · left; rw [h]; exact window_size_add N _ _ hp hc
  · right
    have hlt : (polled N vk).length < window_size N vk.pool.cindex_pending vk.pool.cindex :=
      lt_of_le_of_ne (polled_le N vk) h
    have hget := window_getElem? N vk.pool.cindex_pending vk.pool.cindex _ hlt
    have hd := drop_takeWhile_length (fun i => (vk.cmd i).fence)
      (window N vk.pool.cindex_pending vk.pool.cindex)
    have hh : ((window N vk.pool.cindex_pending vk.pool.cindex).dropWhile
        fun i => (vk.cmd i).fence).head?
        = some ((vk.pool.cindex_pending + (polled N vk).length) % N) := by
      rw [← hd, List.head?_drop]; exact hget
    exact head_dropWhile (fun i => (vk.cmd i).fence) _ _ hh

theorem poll_cindex (N : Nat) (vk : mpvk_ctx) (t : Nat) (s : Bool)
    (hp : vk.pool.cindex_pending < N) (hc : vk.pool.cindex < N) :
    (mpvk_pool_poll_cmds N vk t s).pool.cindex = vk.pool.cindex := by
  rw [poll_eq N vk t s hp hc]
  change (List.foldl collect _ _).pool.cindex = _
  rw [foldl_collect_cindex, poll_wait_cindex]

theorem poll_pending (N : Nat) (vk : mpvk_ctx) (t : Nat) (s : Bool)
    (hp : vk.pool.cindex_pending < N) (hc : vk.pool.cindex < N) :
    (mpvk_pool_poll_cmds N vk t s).pool.cindex_pending
      = (vk.pool.cindex_pending + (polled N (poll_wait vk t s)).length) % N := by
  rw [poll_eq N vk t s hp hc]; rfl

theorem poll_length (N : Nat) (vk : mpvk_ctx) (t : Nat) (s : Bool)
    (hp : vk.pool.cindex_pending < N) (hc : vk.pool.cindex < N) :
    (mpvk_pool_poll_cmds N vk t s).pool.cmds.length = vk.pool.cmds.length := by
  rw [poll_eq N vk t s hp hc]
  change (List.foldl collect _ _).pool.cmds.length = _
  rw [foldl_collect_length, poll_wait_length]

theorem poll_qindex (N : Nat) (vk : mpvk_ctx) (t : Nat) (s : Bool)
    (hp : vk.pool.cindex_pending < N) (hc : vk.pool.cindex < N) :
    (mpvk_pool_poll_cmds N vk t s).pool.qindex = vk.pool.qindex ∧
    (mpvk_pool_poll_cmds N vk t s).pool.qcount = vk.pool.qcount := by
  rw [poll_eq N vk t s hp hc]
  constructor
  · change (List.foldl collect _ _).pool.qindex = _
    rw [foldl_collect_qindex, poll_wait_qindex]
  · change (List.foldl collect _ _).pool.qcount = _
    rw [foldl_collect_qcount, poll_wait_qcount]

theorem poll_last (N : Nat) (vk : mpvk_ctx) (t : Nat) (s : Bool)
    (hp : vk.pool.cindex_pending < N) (hc : vk.pool.cindex < N) :
    (mpvk_pool_poll_cmds N vk t s).last_cmd
      = forget (polled N (poll_wait vk t s)) vk.last_cmd := by
  rw [poll_eq N vk t s hp hc]
  change (List.foldl collect _ _).last_cmd = _
  rw [foldl_collect_last, poll_wait_last]

theorem poll_cmd (N : Nat) (vk : mpvk_ctx) (t : Nat) (s : Bool)
    (hp : vk.pool.cindex_pending < N) (hc : vk.pool.cindex < N) (j : Nat) :
    (mpvk_pool_poll_cmds N vk t s).cmd j
      = if j ∈ polled N (poll_wait vk t s) then
          { (poll_wait vk t s).cmd j with callbacks := [] }
        else (poll_wait vk t s).cmd j := by
  rw [poll_eq N vk t s hp hc, set_pending_cmd, foldl_collect_cmd]

/-- What a poll appends to the log. -/
theorem poll_log (N : Nat) (vk : mpvk_ctx) (t : Nat) (s : Bool)
    (hp : vk.pool.cindex_pending < N) (hc : vk.pool.cindex < N) :
    (mpvk_pool_poll_cmds N vk t s).log
      = vk.log ++ (polled N (poll_wait vk t s)).flatMap
          fun i => Obs.fence_ok i :: runs_of vk i := by
  rw [poll_eq N vk t s hp hc]
  change (List.foldl collect _ _).log = _
  rw [foldl_collect_log _ _ (polled_nodup N _ (by rw [poll_wait_pending]; exact hp)),
    poll_wait_log]
  congr 1
  apply List.flatMap_congr
  intro j _
  simp [runs_of, poll_wait_callbacks]

theorem poll_window (N : Nat) (vk : mpvk_ctx) (t : Nat) (s : Bool)
    (hp : vk.pool.cindex_pending < N) (hc : vk.pool.cindex < N) :
    polled N (poll_wait vk t s)
      ++ window N (mpvk_pool_poll_cmds N vk t s).pool.cindex_pending
          (mpvk_pool_poll_cmds N vk t s).pool.cindex
      = window N vk.pool.cindex_pending vk.pool.cindex := by
  rw [poll_cindex N vk t s hp hc, poll_pending N vk t s hp hc]
  have hle := polled_le N (poll_wait vk t s)
  rw [poll_wait_pending, poll_wait_cindex] at hle
  rw [window_drop N _ _ _ hp hc hle]
  have := polled_append N (poll_wait vk t s)
  rw [poll_wait_pending, poll_wait_cindex] at this
  exact this

/-! ## Dependencies and submission -/

theorem take_set_succ {α : Type} (l : List α) (n : Nat) (a : α) (h : n < l.length) :
    (l.set n a).take (n + 1) = l.take n ++ [a] := by
  induction l generalizing n with
  | nil => simp at h
  | cons x t ih =>
    cases n with
    | zero => simp
    | succ m =>
      simp only [List.length_cons, Nat.add_lt_add_iff_right] at h
      simp [ih m h]

theorem vk_cmd_dep_some (D : Nat) (cmd : vk_cmd) (dep : VkSemaphore)
    (st : VkPipelineStageFlagBits) (h : cmd.num_deps < D) :
    vk_cmd_dep D cmd dep st = some { cmd with
      deps := cmd.deps.set cmd.num_deps dep,
      depstages := cmd.depstages.set cmd.num_deps st,
      num_deps := cmd.num_deps + 1 } := by
  simp [vk_cmd_dep, h]

theorem add_deps_spec (D : Nat) (ds : List (VkSemaphore × VkPipelineStageFlagBits)) :
    ∀ (cmd : vk_cmd), cmd.deps.length = D → cmd.depstages.length = D →
      cmd.num_deps + ds.length ≤ D →
      ∃ c, add_deps D cmd ds = some c ∧ c.num_deps = cmd.num_deps + ds.length ∧
        c.deps.take c.num_deps = cmd.deps.take cmd.num_deps ++ ds.map Prod.fst ∧
        c.depstages.take c.num_deps = cmd.depstages.take cmd.num_deps ++ ds.map Prod.snd ∧
        c.deps.length = D ∧ c.depstages.length = D ∧
        c.callbacks = cmd.callbacks ∧ c.fence = cmd.fence ∧ c.done = cmd.done := by
  induction ds with
  | nil =>
    intro cmd h1 h2 _
    exact ⟨cmd, rfl, by simp, by simp, by simp, h1, h2, rfl, rfl, rfl⟩
  | cons a t ih =>
    intro cmd h1 h2 h3
    obtain ⟨d, st⟩ := a
    simp only [List.length_cons] at h3
    have hlt : cmd.num_deps < D := by omega
    obtain ⟨c, hc, hn, hd, hs, hl1, hl2, hcb, hf, hdn⟩ := ih
      { cmd with deps := cmd.deps.set cmd.num_deps d,
                 depstages := cmd.depstages.set cmd.num_deps st,
                 num_deps := cmd.num_deps + 1 }
      (by simp [h1]) (by simp [h2]) (by simp only []; omega)
    refine ⟨c, ?_, ?_, ?_, ?_, hl1, hl2, hcb, hf, hdn⟩
    · rw [add_deps, vk_cmd_dep_some D cmd d st hlt]; exact hc
    · rw [hn]; simp only [List.length_cons]; omega
    · rw [hd]; simp only []
      rw [take_set_succ _ _ _ (by omega)]; simp
    · rw [hs]; simp only []
      rw [take_set_succ _ _ _ (by omega)]; simp

theorem setCmd_length (vk : mpvk_ctx) (i : Nat) (c : vk_cmd) :
    (vk.setCmd i c).pool.cmds.length = vk.pool.cmds.length := by
  simp [mpvk_ctx.setCmd]

/-- The state a fully successful `vk_cmd_submit` leaves. -/
theorem submit_ok_vk (vk : mpvk_ctx) (i : Nat) (want : Bool) :
    (vk_cmd_submit vk i want true true true).vk
      = { pool := { vk.pool with
            cmds := vk.pool.cmds.set i { vk.cmd i with
              fence := false,
              deps := (List.range (vk.cmd i).num_deps).foldl (fun d j => d.set j 0)
                (vk.cmd i).deps,
              num_deps := 0 },
            qindex := (vk.pool.qindex + 1) % vk.pool.qcount },
          last_cmd := some i,
          log := vk.log ++ [Obs.submit i vk.pool.qindex
            ((vk.cmd i).deps.take (vk.cmd i).num_deps)
            ((vk.cmd i).depstages.take (vk.cmd i).num_deps)
            (if want then some (vk.cmd i).done else none)] } := by
  simp [vk_cmd_submit, mpvk_ctx.setCmd, mpvk_ctx.cmd, List.set_set]

theorem submit_ok_cmd (vk : mpvk_ctx) (i j : Nat) (want : Bool) :
    (vk_cmd_submit vk i want true true true).vk.cmd j
      = if i = j ∧ i < vk.pool.cmds.length then
          { vk.cmd i with
              fence := false,
              deps := (List.range (vk.cmd i).num_deps).foldl (fun d j => d.set j 0)
                (vk.cmd i).deps,
              num_deps := 0 }
        else vk.cmd j := by
  rw [submit_ok_vk]
  have h := cmd_setCmd vk i j { vk.cmd i with
              fence := false,
              deps := (List.range (vk.cmd i).num_deps).foldl (fun d j => d.set j 0)
                (vk.cmd i).deps,
              num_deps := 0 }
  unfold mpvk_ctx.setCmd at h
  unfold mpvk_ctx.cmd at h ⊢
  exact h

theorem submit_ok_flag (vk : mpvk_ctx) (i : Nat) (want e r s : Bool) :
    (vk_cmd_submit vk i want e r s).ok = (e && r && s) := by
  cases e <;> cases r <;> cases s <;> simp [vk_cmd_submit]

theorem submit_done (vk : mpvk_ctx) (i : Nat) (want : Bool) :
    (vk_cmd_submit vk i want true true true).done
      = if want then some (vk.cmd i).done else none := by
  simp [vk_cmd_submit]

/-! ## Frame lemmas of the single operations and the cursor invariant -/

theorem setCmd_pool (vk : mpvk_ctx) (i : Nat) (c : vk_cmd) :
    (vk.setCmd i c).pool.cindex = vk.pool.cindex ∧
    (vk.setCmd i c).pool.cindex_pending = vk.pool.cindex_pending ∧
    (vk.setCmd i c).pool.qindex = vk.pool.qindex ∧
    (vk.setCmd i c).pool.qcount = vk.pool.qcount ∧
    (vk.setCmd i c).last_cmd = vk.last_cmd ∧
    (vk.setCmd i c).log = vk.log := ⟨rfl, rfl, rfl, rfl, rfl, rfl⟩

theorem WF_setCmd (N : Nat) (vk : mpvk_ctx) (i : Nat) (c : vk_cmd) (h : WF N vk) :
    WF N (vk.setCmd i c) := by
  obtain ⟨h1, h2, h3⟩ := h
  exact ⟨by rw [setCmd_length]; exact h1, h2, h3⟩

theorem WF_init (N D q : Nat) (mk : Nat → VkSemaphore) (hN : 0 < N) :
    WF N (mpvk_device_init N D q mk) := by
  refine ⟨?_, hN, hN⟩
  simp [mpvk_device_init, vk_cmdpool_init]

theorem init_cmd (N D q : Nat) (mk : Nat → VkSemaphore) (i : Nat) (hi : i < N) :
    (mpvk_device_init N D q mk).cmd i
      = { fence := true, done := mk i, deps := List.replicate D 0,
          depstages := List.replicate D 0, num_deps := 0, callbacks := [] } := by
  simp [mpvk_device_init, vk_cmdpool_init, mpvk_ctx.cmd, List.getD_eq_getElem?_getD,
    List.getElem?_map, List.getElem?_range hi]

theorem WF_poll (N : Nat) (vk : mpvk_ctx) (t : Nat) (s : Bool) (h : WF N vk) :
    WF N (mpvk_pool_poll_cmds N vk t s) := by
  obtain ⟨h1, h2, h3⟩ := h
  refine ⟨?_, ?_, ?_⟩
  · rw [poll_length N vk t s h3 h2]; exact h1
  · rw [poll_cindex N vk t s h3 h2]; exact h2
  · rw [poll_pending N vk t s h3 h2]; exact Nat.mod_lt _ (by omega)

theorem WF_wait_idle (N : Nat) (vk : mpvk_ctx) (h : WF N vk) :
    WF N (mpvk_pool_wait_idle N vk) := by
  obtain ⟨h1, h2, h3⟩ := h
  obtain ⟨a1, a2, _, _, a5⟩ := wait_idle_pool N vk
  exact ⟨a5.trans h1, by rw [a1]; exact h2, by rw [a2]; exact h2⟩

/-- The state `vk_cmd_begin` leaves: the polled state, with `cindex` advanced unless the
pool is exhausted. -/
theorem begin_vk (N : Nat) (vk : mpvk_ctx) (r b : Bool) :
    (vk_cmd_begin N vk r b).2
      = if ((mpvk_pool_poll_cmds N vk 0 false).pool.cindex + 1) % N
            = (mpvk_pool_poll_cmds N vk 0 false).pool.cindex_pending
        then mpvk_pool_poll_cmds N vk 0 false
        else { mpvk_pool_poll_cmds N vk 0 false with
                pool := { (mpvk_pool_poll_cmds N vk 0 false).pool with
                  cindex := ((mpvk_pool_poll_cmds N vk 0 false).pool.cindex + 1) % N } } := by
  simp only [vk_cmd_begin]
  split
  · rfl
  · cases r <;> cases b <;> rfl

/-- The slot `vk_cmd_begin` returns. -/
theorem begin_slot (N : Nat) (vk : mpvk_ctx) (r b : Bool) :
    (vk_cmd_begin N vk r b).1
      = if ((mpvk_pool_poll_cmds N vk 0 false).pool.cindex + 1) % N
            = (mpvk_pool_poll_cmds N vk 0 false).pool.cindex_pending
        then none
        else if r && b then some (mpvk_pool_poll_cmds N vk 0 false).pool.cindex else none := by
  simp only [vk_cmd_begin]
  split
  · rfl
  · cases r <;> cases b <;> rfl

theorem WF_begin (N : Nat) (vk : mpvk_ctx) (r b : Bool) (h : WF N vk) :
    WF N (vk_cmd_begin N vk r b).2 := by
  have hg := WF_poll N vk 0 false h
  obtain ⟨h1, h2, h3⟩ := hg
  rw [begin_vk]
  split
  · exact ⟨h1, h2, h3⟩
  · exact ⟨h1, Nat.mod_lt _ (by omega), h3⟩

theorem callback_eq (vk : mpvk_ctx) (i : Nat) (cb : vk_callback) :
    vk_cmd_callback vk i cb
      = vk.setCmd i { vk.cmd i with callbacks := (vk.cmd i).callbacks ++ [cb] } := rfl

theorem dev_callback_none (vk : mpvk_ctx) (cb : vk_callback) (h : vk.last_cmd = none) :
    vk_dev_callback vk cb = { vk with log := vk.log ++ [Obs.run none cb] } := by
  unfold vk_dev_callback; rw [h]

theorem dev_callback_some (vk : mpvk_ctx) (cb : vk_callback) (k : Nat)
    (h : vk.last_cmd = some k) :
    vk_dev_callback vk cb = vk_cmd_callback vk k cb := by
  unfold vk_dev_callback; rw [h]

theorem dev_callback_pool (vk : mpvk_ctx) (cb : vk_callback) :
    (vk_dev_callback vk cb).pool.cindex = vk.pool.cindex ∧
    (vk_dev_callback vk cb).pool.cindex_pending = vk.pool.cindex_pending ∧
    (vk_dev_callback vk cb).pool.cmds.length = vk.pool.cmds.length ∧
    (vk_dev_callback vk cb).last_cmd = vk.last_cmd := by
  rcases hl : vk.last_cmd with _ | k
  · rw [dev_callback_none vk cb hl]; exact ⟨rfl, rfl, rfl, hl⟩
  · rw [dev_callback_some vk cb k hl]
    exact ⟨rfl, rfl, by rw [callback_eq, setCmd_length], hl⟩

theorem WF_dev_callback (N : Nat) (vk : mpvk_ctx) (cb : vk_callback) (h : WF N vk) :
    WF N (vk_dev_callback vk cb) := by
  obtain ⟨h1, h2, h3⟩ := h
  obtain ⟨a1, a2, a3, _⟩ := dev_callback_pool vk cb
  exact ⟨a3.trans h1, by rw [a1]; exact h2, by rw [a2]; exact h3⟩

theorem dep_at_eq (D : Nat) (vk vk2 : mpvk_ctx) (i : Nat) (dep : VkSemaphore)
    (st : VkPipelineStageFlagBits) (h : vk_cmd_dep_at D vk i dep st = some vk2) :
    vk2 = vk.setCmd i { vk.cmd i with
      deps := (vk.cmd i).deps.set (vk.cmd i).num_deps dep,
      depstages := (vk.cmd i).depstages.set (vk.cmd i).num_deps st,
      num_deps := (vk.cmd i).num_deps + 1 } := by
  unfold vk_cmd_dep_at vk_cmd_dep at h
  split at h
  · simp only [Option.map_some', Option.some.injEq] at h; exact h.symm
  · simp at h

theorem submit_pool (vk : mpvk_ctx) (i : Nat) (want e r s : Bool) :
    (vk_cmd_submit vk i want e r s).vk.pool.cindex = vk.pool.cindex ∧
    (vk_cmd_submit vk i want e r s).vk.pool.cindex_pending = vk.pool.cindex_pending ∧
    (vk_cmd_submit vk i want e r s).vk.pool.cmds.length = vk.pool.cmds.length := by
  cases e <;> cases r <;> cases s <;>
    simp [vk_cmd_submit, mpvk_ctx.setCmd]

theorem WF_submit (N : Nat) (vk : mpvk_ctx) (i : Nat) (want e r s : Bool) (h : WF N vk) :
    WF N (vk_cmd_submit vk i want e r s).vk := by
  obtain ⟨h1, h2, h3⟩ := h
  obtain ⟨a1, a2, a3⟩ := submit_pool vk i want e r s
  exact ⟨a3.trans h1, by rw [a1]; exact h2, by rw [a2]; exact h3⟩

theorem WF_step (N D : Nat) (vk vk2 : mpvk_ctx) (h : WF N vk) (hs : Step N D vk vk2) :
    WF N vk2 := by
  cases hs
  case begin r b => exact WF_begin N vk r b h
  case callback i cb hi => exact WF_setCmd N vk i _ h
  case dep i dep st hi hd => rw [dep_at_eq D vk vk2 i dep st hd]; exact WF_setCmd N vk i _ h
  case submit i want e r s hi => exact WF_submit N vk i want e r s h
  case poll t s => exact WF_poll N vk t s h
  case wait_idle => exact WF_wait_idle N vk h
  case dev_callback cb => exact WF_dev_callback N vk cb h
  case fence_signal i hi => exact WF_setCmd N vk i _ h

theorem WF_reach (N D q : Nat) (mk : Nat → VkSemaphore) (hN : 0 < N) (vk : mpvk_ctx)
    (h : Reach N D q mk vk) : WF N vk := by
  induction h with
  | refl => exact WF_init N D q mk hN
  | tail _ hs ih => exact WF_step N D _ _ ih hs

theorem DStep_step (N D : Nat) (s1 s2 : mpvk_ctx × Option Nat) (hw : WF N s1.1)
    (hk : ∀ k, s1.2 = some k → k < N) (h : DStep N D s1 s2) :
    Step N D s1.1 s2.1 ∧ ∀ k, s2.2 = some k → k < N := by
  cases h with
  | begin vk r b =>
    refine ⟨Step.begin vk r b, ?_⟩
    intro k hk2
    simp only [] at hk2
    rw [begin_slot] at hk2
    have hg := WF_poll N vk 0 false hw
    split at hk2
    · simp at hk2
    · split at hk2
      · injection hk2 with hk2; rw [← hk2]; exact hg.2.1
      · simp at hk2
  | callback vk k cb => exact ⟨Step.callback vk k cb (hk k rfl), hk⟩
  | dep vk vk2 k dep st hd => exact ⟨Step.dep vk vk2 k dep st (hk k rfl) hd, hk⟩
  | submit vk k want => exact ⟨Step.submit vk k want true true true (hk k rfl), by simp⟩
  | poll vk t s => exact ⟨Step.poll vk t s, by simp⟩
  | wait_idle vk => exact ⟨Step.wait_idle vk, by simp⟩
  | dev_callback vk cur cb => exact ⟨Step.dev_callback vk cb, hk⟩
  | fence_signal vk cur i hi => exact ⟨Step.fence_signal vk i hi, hk⟩

/-! ## The invariant of one-slot-at-a-time runs -/

theorem window_of_last (N p c k : Nat) (hp : p < N) (hk : k < N)
    (h1 : (k + 1) % N = c) (h2 : p ≠ c) : window N p c = window N p k ++ [k] := by
  rw [← h1]
  exact window_snoc N p k hp hk (by rw [h1]; exact fun h => h2 h.symm)

theorem DInv_init (N D q : Nat) (mk : Nat → VkSemaphore) (hN : 0 < N) :
    DInv N (mpvk_device_init N D q mk) none := by
  have hw : window N (mpvk_device_init N D q mk).pool.cindex_pending
      (mpvk_device_init N D q mk).pool.cindex = [] := window_self N 0 hN
  refine ⟨WF_init N D q mk hN, ?_, ?_, ?_, ?_, ?_, ?_⟩
  · intro i hi _; rw [init_cmd N D q mk i hi]
  · intro k hk; simp at hk
  · intro i hi
    exfalso; apply hi
    by_cases h : i < N
    · rw [init_cmd N D q mk i h]
    · simp [mpvk_device_init, vk_cmdpool_init, mpvk_ctx.cmd, List.getD_eq_getElem?_getD,
        List.getElem?_eq_none (show ((List.range N).map _).length ≤ i by simp; omega)]
      rfl
  · intro k hk; simp [mpvk_device_init] at hk
  · rw [hw]; exact List.Pairwise.nil
  · intro _ i hi; rw [init_cmd N D q mk i hi]

/-- An operation that moves no cursor, keeps `last_cmd`, unsignals no fence and adds
callbacks only to slots of the window keeps the invariant. -/
theorem DInv_frame (N : Nat) (vk vk2 : mpvk_ctx) (cur : Option Nat) (h : DInv N vk cur)
    (hlen : vk2.pool.cmds.length = vk.pool.cmds.length)
    (hc : vk2.pool.cindex = vk.pool.cindex)
    (hp : vk2.pool.cindex_pending = vk.pool.cindex_pending)
    (hlast : vk2.last_cmd = vk.last_cmd)
    (hf : ∀ i, (vk.cmd i).fence = true → (vk2.cmd i).fence = true)
    (hcb : ∀ i, (vk2.cmd i).callbacks ≠ [] →
      (vk.cmd i).callbacks ≠ [] ∨ i ∈ window N vk.pool.cindex_pending vk.pool.cindex) :
    DInv N vk2 cur := by
  obtain ⟨⟨w1, w2, w3⟩, h2, h3, h4, h5, h6, h7⟩ := h
  refine ⟨⟨hlen.trans w1, by rw [hc]; exact w2, by rw [hp]; exact w3⟩, ?_, ?_, ?_, ?_, ?_, ?_⟩
  · intro i hi hw
    rw [hc, hp] at hw
    exact hf i (h2 i hi hw)
  · intro k hk
    obtain ⟨a, b, c, d, e⟩ := h3 k hk
    exact ⟨a, by rw [hc]; exact b, by rw [hc, hp]; exact c, hf k d, by rw [hlast]; exact e⟩
  · intro i hi
    rw [hc, hp]
    rcases hcb i hi with h | h
    · exact h4 i h
    · exact h
  · intro k hk
    rw [hc, hp]; rw [hlast] at hk; exact h5 k hk
  · rw [hc, hp, hlast]
    exact h6.imp (fun hab hl => hf _ (hab hl))
  · intro hl i hi
    rw [hlast] at hl
    exact hf i (h7 hl i hi)

theorem DInv_setFence (N : Nat) (vk : mpvk_ctx) (cur : Option Nat) (i : Nat)
    (h : DInv N vk cur) : DInv N (fence_signal vk i) cur := by
  apply DInv_frame N vk _ cur h (setCmd_length _ _ _) rfl rfl rfl
  · intro j hj
    rw [cmd_setCmd]
    split
    · rfl
    · exact hj
  · intro j hj
    left
    rw [cmd_setCmd] at hj
    split at hj
    · next hh => rw [← hh.1]; exact hj
    · exact hj

theorem DInv_callback (N : Nat) (vk : mpvk_ctx) (cur : Option Nat) (i : Nat)
    (cb : vk_callback) (h : DInv N vk cur)
    (hi : i ∈ window N vk.pool.cindex_pending vk.pool.cindex) :
    DInv N (vk_cmd_callback vk i cb) cur := by
  apply DInv_frame N vk _ cur h (setCmd_length _ _ _) rfl rfl rfl
  · intro j hj
    rw [cmd_setCmd]
    split
    · next hh => rw [← hh.1] at hj; exact hj
    · exact hj
  · intro j hj
    rw [cmd_setCmd] at hj
    split at hj
    · next hh => right; rw [← hh.1]; exact hi
    · left; exact hj

theorem cur_mem_window (N : Nat) (vk : mpvk_ctx) (k : Nat) (h : DInv N vk (some k)) :
    k ∈ window N vk.pool.cindex_pending vk.pool.cindex := by
  obtain ⟨a, b, c, _, _⟩ := h.cur_last k rfl
  rw [window_of_last N _ _ k h.wf.2.2 a b c]
  simp

theorem DInv_dep (N D : Nat) (vk vk2 : mpvk_ctx) (cur : Option Nat) (i : Nat)
    (dep : VkSemaphore) (st : VkPipelineStageFlagBits) (h : DInv N vk cur)
    (hd : vk_cmd_dep_at D vk i dep st = some vk2) : DInv N vk2 cur := by
  rw [dep_at_eq D vk vk2 i dep st hd]
  apply DInv_frame N vk _ cur h (setCmd_length _ _ _) rfl rfl rfl
  · intro j hj
    rw [cmd_setCmd]
    split
    · next hh => rw [← hh.1] at hj; exact hj
    · exact hj
  · intro j hj
    rw [cmd_setCmd] at hj
    split at hj
    · next hh => left; rw [← hh.1]; exact hj
    · left; exact hj

theorem DInv_dev_callback (N : Nat) (vk : mpvk_ctx) (cur : Option Nat) (cb : vk_callback)
    (h : DInv N vk cur) : DInv N (vk_dev_callback vk cb) cur := by
  rcases hl : vk.last_cmd with _ | k
  · rw [dev_callback_none vk cb hl]
    exact DInv_frame N vk _ cur h rfl rfl rfl rfl (fun _ hj => hj) (fun _ hj => Or.inl hj)
  · rw [dev_callback_some vk cb k hl]
    exact DInv_callback N vk cur k cb h (h.last_in k hl)

theorem forget_eq_some (l : List Nat) (o : Option Nat) (k : Nat) :
    forget l o = some k ↔ o = some k ∧ k ∉ l := by
  cases o with
  | none => simp [forget]
  | some j =>
    by_cases h : j ∈ l
    · simp only [forget, h, if_true, Option.some.injEq]
      constructor
      · intro h2; cases h2
      · rintro ⟨rfl, h2⟩; exact absurd h h2
    · simp only [forget, h, if_false, Option.some.injEq]
      constructor
      · rintro rfl; exact ⟨rfl, h⟩
      · rintro ⟨rfl, _⟩; rfl

theorem forget_eq_none (l : List Nat) (o : Option Nat) :
    forget l o = none ↔ o = none ∨ ∃ k, k ∈ l ∧ o = some k := by
  cases o with
  | none => simp [forget]
  | some j =>
    by_cases h : j ∈ l
    · simp [forget, h]
    · simp [forget, h]

theorem poll_wait_fence_mono (vk : mpvk_ctx) (t : Nat) (s : Bool) (i : Nat)
    (h : (vk.cmd i).fence = true) : ((poll_wait vk t s).cmd i).fence = true := by
  rw [poll_wait_cmd]
  split
  · simp [h]
  · exact h

theorem poll_fence (N : Nat) (vk : mpvk_ctx) (t : Nat) (s : Bool)
    (hp : vk.pool.cindex_pending < N) (hc : vk.pool.cindex < N) (j : Nat) :
    ((mpvk_pool_poll_cmds N vk t s).cmd j).fence = ((poll_wait vk t s).cmd j).fence := by
  rw [poll_cmd N vk t s hp hc]; split <;> rfl

theorem poll_callbacks (N : Nat) (vk : mpvk_ctx) (t : Nat) (s : Bool)
    (hp : vk.pool.cindex_pending < N) (hc : vk.pool.cindex < N) (j : Nat) :
    ((mpvk_pool_poll_cmds N vk t s).cmd j).callbacks
      = if j ∈ polled N (poll_wait vk t s) then [] else (vk.cmd j).callbacks := by
  rw [poll_cmd N vk t s hp hc]
  split
  · rfl
  · exact poll_wait_callbacks vk t s j

theorem DInv_poll (N : Nat) (vk : mpvk_ctx) (t : Nat) (s : Bool) (h : DInv N vk none) :
    DInv N (mpvk_pool_poll_cmds N vk t s) none := by
  obtain ⟨hlen, hc, hp⟩ := h.wf
  have hW := poll_window N vk t s hp hc
  have hpol : ∀ i, i ∈ polled N (poll_wait vk t s) → ((poll_wait vk t s).cmd i).fence = true :=
    fun i hi => polled_fence N _ i hi
  have hnd := window_nodup N vk.pool.cindex_pending vk.pool.cindex hp
  rw [← hW] at hnd
  have hdisj : ∀ i, i ∈ polled N (poll_wait vk t s) →
      i ∉ window N (mpvk_pool_poll_cmds N vk t s).pool.cindex_pending
        (mpvk_pool_poll_cmds N vk t s).pool.cindex :=
    fun i hi hi2 => (List.nodup_append.1 hnd).2.2 hi hi2
  have hmem : ∀ i, i ∈ window N vk.pool.cindex_pending vk.pool.cindex →
      i ∉ polled N (poll_wait vk t s) →
      i ∈ window N (mpvk_pool_poll_cmds N vk t s).pool.cindex_pending
        (mpvk_pool_poll_cmds N vk t s).pool.cindex := by
    intro i hi hn
    rw [← hW, List.mem_append] at hi
    exact hi.resolve_left hn
  have hpw := h.after_last
  rw [← hW] at hpw
  refine ⟨WF_poll N vk t s h.wf, ?_, ?_, ?_, ?_, ?_, ?_⟩
  · intro i hi hw
    rw [poll_fence N vk t s hp hc]
    by_cases hl : i ∈ polled N (poll_wait vk t s)
    · exact hpol i hl
    · apply poll_wait_fence_mono
      apply h.fence_out i hi
      intro hiw
      exact hw (hmem i hiw hl)
  · intro k hk; simp at hk
  · intro i hi
    rw [poll_callbacks N vk t s hp hc] at hi
    split at hi
    · exact absurd rfl hi
    · next hn => exact hmem i (h.cb_in i hi) hn
  · intro k hk
    rw [poll_last N vk t s hp hc, forget_eq_some] at hk
    exact hmem k (h.last_in k hk.1) hk.2
  · refine (List.pairwise_append.1 hpw).2.1.imp ?_
    intro a b hab hl
    rw [poll_last N vk t s hp hc, forget_eq_some] at hl
    rw [poll_fence N vk t s hp hc]
    exact poll_wait_fence_mono vk t s b (hab hl.1)
  · intro hl i hi
    rw [poll_last N vk t s hp hc, forget_eq_none] at hl
    rw [poll_fence N vk t s hp hc]
    rcases hl with hl | ⟨k, hk, hl⟩
    · exact poll_wait_fence_mono vk t s i (h.idle hl i hi)
    · by_cases hil : i ∈ polled N (poll_wait vk t s)
      · exact hpol i hil
      · by_cases hiw : i ∈ window N vk.pool.cindex_pending vk.pool.cindex
        · apply poll_wait_fence_mono
          exact (List.pairwise_append.1 hpw).2.2 k hk i (hmem i hiw hil) hl
        · exact poll_wait_fence_mono vk t s i (h.fence_out i hi hiw)

theorem DInv_wait_idle (N : Nat) (vk : mpvk_ctx) (h : DInv N vk none) :
    DInv N (mpvk_pool_wait_idle N vk) none := by
  obtain ⟨hlen, hc, hp⟩ := h.wf
  obtain ⟨a1, a2, _, _, _⟩ := wait_idle_pool N vk
  have hw : window N (mpvk_pool_wait_idle N vk).pool.cindex_pending
      (mpvk_pool_wait_idle N vk).pool.cindex = [] := by
    rw [a1, a2]; exact window_self N _ hc
  have hf : ∀ i, i < N → ((mpvk_pool_wait_idle N vk).cmd i).fence = true := by
    intro i hi
    rw [wait_idle_cmd N vk hp hc hlen]
    split
    · rfl
    · next hn => exact h.fence_out i hi hn
  refine ⟨WF_wait_idle N vk h.wf, fun i hi _ => hf i hi, ?_, ?_, ?_, ?_, fun _ i hi => hf i hi⟩
  · intro k hk; simp at hk
  · intro i hi
    exfalso; apply hi
    rw [wait_idle_cmd N vk hp hc hlen]
    split
    · rfl
    · next hn =>
      by_contra hne
      exact hn (h.cb_in i hne)
  · intro k hk
    rw [wait_idle_last N vk hp hc, forget_eq_some] at hk
    exact absurd (h.last_in k hk.1) hk.2
  · rw [hw]; exact List.Pairwise.nil

theorem DInv_begin (N : Nat) (vk : mpvk_ctx) (r b : Bool) (h : DInv N vk none) :
    DInv N (vk_cmd_begin N vk r b).2 (vk_cmd_begin N vk r b).1 := by
  have hg := DInv_poll N vk 0 false h
  obtain ⟨hlen, hc, hp⟩ := hg.wf
  rw [begin_vk, begin_slot]
  by_cases hex : ((mpvk_pool_poll_cmds N vk 0 false).pool.cindex + 1) % N
      = (mpvk_pool_poll_cmds N vk 0 false).pool.cindex_pending
  · rw [if_pos hex, if_pos hex]; exact hg
  · rw [if_neg hex, if_neg hex]
    have hW := window_snoc N _ _ hp hc hex
    have hcn := cindex_not_mem_window N _ _ hp hc
    have hfc : ((mpvk_pool_poll_cmds N vk 0 false).cmd
        (mpvk_pool_poll_cmds N vk 0 false).pool.cindex).fence = true :=
      hg.fence_out _ hc hcn
    refine ⟨⟨hlen, Nat.mod_lt _ (by omega), hp⟩, ?_, ?_, ?_, ?_, ?_, ?_⟩
    · intro i hi hw
      apply hg.fence_out i hi
      intro hiw
      apply hw
      change i ∈ window N _ (((mpvk_pool_poll_cmds N vk 0 false).pool.cindex + 1) % N)
      rw [hW]; exact List.mem_append_left _ hiw
    · intro k hk
      split at hk
      · injection hk with hk
        subst hk
        refine ⟨hc, rfl, fun h2 => hex h2.symm, hfc, ?_⟩
        intro hl
        exact hcn (hg.last_in _ hl)
      · simp at hk
    · intro i hi
      change i ∈ window N _ (((mpvk_pool_poll_cmds N vk 0 false).pool.cindex + 1) % N)
      rw [hW]; exact List.mem_append_left _ (hg.cb_in i hi)
    · intro k hk
      change k ∈ window N _ (((mpvk_pool_poll_cmds N vk 0 false).pool.cindex + 1) % N)
      rw [hW]; exact List.mem_append_left _ (hg.last_in k hk)
    · change (window N _ (((mpvk_pool_poll_cmds N vk 0 false).pool.cindex + 1) % N)).Pairwise _
      rw [hW, List.pairwise_append]
      refine ⟨hg.after_last, List.pairwise_singleton _ _, ?_⟩
      intro a _ c hcm _
      rw [List.mem_singleton] at hcm
      rw [hcm]; exact hfc
    · intro hl i hi
      exact hg.idle hl i hi

theorem submit_ok_pool (vk : mpvk_ctx) (i : Nat) (want : Bool) :
    (vk_cmd_submit vk i want true true true).vk.pool.cindex = vk.pool.cindex ∧
    (vk_cmd_submit vk i want true true true).vk.pool.cindex_pending = vk.pool.cindex_pending ∧
    (vk_cmd_submit vk i want true true true).vk.last_cmd = some i := by
  rw [submit_ok_vk]; exact ⟨rfl, rfl, rfl⟩

theorem DInv_submit (N : Nat) (vk : mpvk_ctx) (k : Nat) (want : Bool)
    (h : DInv N vk (some k)) :
    DInv N (vk_cmd_submit vk k want true true true).vk none := by
  obtain ⟨hlen, hc, hp⟩ := h.wf
  obtain ⟨a1, a2, a3⟩ := submit_ok_pool vk k want
  obtain ⟨hk, hk2, hk3, _, _⟩ := h.cur_last k rfl
  have hW := window_of_last N _ _ k hp hk hk2 hk3
  have hnd := window_nodup N vk.pool.cindex_pending vk.pool.cindex hp
  rw [hW] at hnd
  have hk0 : k ∉ window N vk.pool.cindex_pending k := by
    intro hm
    exact (List.nodup_append.1 hnd).2.2 hm (List.mem_singleton.2 rfl)
  refine ⟨WF_submit N vk k want true true true h.wf, ?_, ?_, ?_, ?_, ?_, ?_⟩
  · intro i hi hw
    rw [a1, a2] at hw
    have hne : k ≠ i := by
      intro he; subst he; exact hw (cur_mem_window N vk k h)
    rw [submit_ok_cmd, if_neg (fun hh => hne hh.1)]
    exact h.fence_out i hi hw
  · intro j hj; simp at hj
  · intro i hi
    rw [a1, a2]
    apply h.cb_in i
    rw [submit_ok_cmd] at hi
    split at hi
    · next hh => rw [← hh.1]; exact hi
    · exact hi
  · intro j hj
    rw [a1, a2]
    rw [a3] at hj
    injection hj with hj
    rw [← hj]; exact cur_mem_window N vk k h
  · rw [a1, a2, a3, hW, List.pairwise_append]
    refine ⟨?_, List.pairwise_singleton _ _, ?_⟩
    · refine List.Pairwise.imp_of_mem ?_ (List.nodup_append.1 hnd).1
      intro a b ha _ _ hl
      injection hl with hl
      rw [← hl] at ha
      exact absurd ha hk0
    · intro a ha b _ hl
      injection hl with hl
      rw [← hl] at ha
      exact absurd ha hk0
  · intro hl; rw [a3] at hl; simp at hl

theorem DInv_step (N D : Nat) (s1 s2 : mpvk_ctx × Option Nat) (h : DInv N s1.1 s1.2)
    (hs : DStep N D s1 s2) : DInv N s2.1 s2.2 := by
  cases hs
  case begin vk r b => exact DInv_begin N vk r b h
  case callback vk k cb => exact DInv_callback N vk (some k) k cb h (cur_mem_window N vk k h)
  case dep vk vk2 k dep st hd => exact DInv_dep N D vk vk2 (some k) k dep st h hd
  case submit vk k want => exact DInv_submit N vk k want h
  case poll vk t s => exact DInv_poll N vk t s h
  case wait_idle vk => exact DInv_wait_idle N vk h
  case dev_callback vk cur cb => exact DInv_dev_callback N vk cur cb h
  case fence_signal vk cur i hi => exact DInv_setFence N vk cur i h

theorem DInv_reach_from (N D : Nat) (s0 s : mpvk_ctx × Option Nat) (h0 : DInv N s0.1 s0.2)
    (h : DReachFrom N D s0 s) : DInv N s.1 s.2 := by
  induction h with
  | refl => exact h0
  | tail _ hs ih => exact DInv_step N D _ _ ih hs

theorem DInv_reach (N D q : Nat) (mk : Nat → VkSemaphore) (hN : 0 < N)
    (s : mpvk_ctx × Option Nat) (h : DReach N D q mk s) : DInv N s.1 s.2 :=
  DInv_reach_from N D _ s (DInv_init N D q mk hN) h

/-! ## Submission ordinals along one-slot-at-a-time runs -/

theorem lab_state_append (l1 l2 : List Obs) :
    lab_state (l1 ++ l2) = l2.foldl lab_step (lab_state l1) := by
  unfold lab_state; rw [List.foldl_append]

theorem lab_fold_runs (s : LabState) (i : Nat) (cbs : List vk_callback) :
    (cbs.map (Obs.run (some i))).foldl lab_step s
      = { s with labels := s.labels ++ cbs.map fun _ => s.ord i } := by
  induction cbs generalizing s with
  | nil => simp
  | cons a t ih =>
    simp only [List.map_cons, List.foldl_cons]
    rw [ih]
    simp [lab_step]

theorem lab_fold_fence_ok (s : LabState) (l : List Nat) :
    (l.map Obs.fence_ok).foldl lab_step s = s := by
  induction l generalizing s with
  | nil => rfl
  | cons a t ih => simp only [List.map_cons, List.foldl_cons]; exact ih _

theorem lab_fold_flat_runs (vk : mpvk_ctx) (s : LabState) (l : List Nat) :
    (l.flatMap (runs_of vk)).foldl lab_step s
      = { s with labels := s.labels ++ drain_labels vk s.ord l } := by
  induction l generalizing s with
  | nil => simp [drain_labels]
  | cons a t ih =>
    rw [List.flatMap_cons, List.foldl_append, runs_of, lab_fold_runs, ih]
    simp [drain_labels, List.flatMap_cons]

theorem lab_fold_poll (vk : mpvk_ctx) (s : LabState) (l : List Nat) :
    (l.flatMap fun i => Obs.fence_ok i :: runs_of vk i).foldl lab_step s
      = { s with labels := s.labels ++ drain_labels vk s.ord l } := by
  induction l generalizing s with
  | nil => simp [drain_labels]
  | cons a t ih =>
    rw [List.flatMap_cons, List.foldl_append, List.foldl_cons]
    have h1 : lab_step s (Obs.fence_ok a) = s := rfl
    rw [h1, runs_of, lab_fold_runs, ih]
    simp [drain_labels, List.flatMap_cons]

theorem lab_fold_segment (vk : mpvk_ctx) (s : LabState) (l : List Nat) :
    (segment_log vk l).foldl lab_step s
      = { s with labels := s.labels ++ drain_labels vk s.ord l } := by
  rw [segment_log, List.foldl_append, lab_fold_fence_ok, lab_fold_flat_runs]

theorem drain_labels_append (vk : mpvk_ctx) (ord : Nat → Option Nat) (l1 l2 : List Nat) :
    drain_labels vk ord (l1 ++ l2) = drain_labels vk ord l1 ++ drain_labels vk ord l2 := by
  simp [drain_labels, List.flatMap_append]

theorem lab_fold_wait (N : Nat) (vk : mpvk_ctx) (s : LabState)
    (hp : vk.pool.cindex_pending < N) (hc : vk.pool.cindex < N) :
    (wait_log N vk).foldl lab_step s
      = { s with labels := s.labels
            ++ drain_labels vk s.ord (window N vk.pool.cindex_pending vk.pool.cindex) } := by
  unfold wait_log
  by_cases h1 : vk.pool.cindex_pending < vk.pool.cindex
  · rw [if_pos h1, window_eq_seg N _ _ hc (le_of_lt h1), lab_fold_segment]
  · rw [if_neg h1]
    by_cases h2 : vk.pool.cindex_pending > vk.pool.cindex
    · rw [if_pos h2, window_eq_seg_wrap N _ _ hp h2, List.foldl_append, lab_fold_segment,
        lab_fold_segment, drain_labels_append]
      simp
    · rw [if_neg h2]
      have : vk.pool.cindex_pending = vk.pool.cindex := by omega
      rw [this, window_self N _ hc]
      simp [drain_labels]

theorem mem_drain_labels (vk : mpvk_ctx) (ord : Nat → Option Nat) (l : List Nat)
    (ℓ : Option Nat) (h : ℓ ∈ drain_labels vk ord l) :
    ∃ i, i ∈ l ∧ (vk.cmd i).callbacks ≠ [] ∧ ℓ = ord i := by
  unfold drain_labels at h
  rw [List.mem_flatMap] at h
  obtain ⟨i, hi, hm⟩ := h
  rw [List.mem_map] at hm
  obtain ⟨cb, hcb, he⟩ := hm
  exact ⟨i, hi, List.ne_nil_of_mem hcb, he.symm⟩

theorem LInv_init (N D q : Nat) (mk : Nat → VkSemaphore) (hN : 0 < N) :
    LInv N (mpvk_device_init N D q mk) none := by
  have hw : window N (mpvk_device_init N D q mk).pool.cindex_pending
      (mpvk_device_init N D q mk).pool.cindex = [] := window_self N 0 hN
  refine ⟨?_, ?_, ?_, ?_, ?_⟩
  · intro ℓ h; simp [labels, lab_state, mpvk_device_init] at h
  · intro i σ h; simp [sub_ord, lab_state, mpvk_device_init] at h
  · simp [labels, lab_state, mpvk_device_init]
  · intro i hi; rw [hw] at hi; simp at hi
  · rw [hw]; exact List.Pairwise.nil

/-- Collecting the slots `l` at the head of the window keeps the invariant. -/
theorem LInv_drain (N : Nat) (vk vk2 : mpvk_ctx) (l W2 : List Nat)
    (hinv : LInv N vk none)
    (hW : l ++ W2 = window N vk.pool.cindex_pending vk.pool.cindex)
    (hwin2 : window N vk2.pool.cindex_pending vk2.pool.cindex = W2)
    (hstate : lab_state vk2.log = { lab_state vk.log with
      labels := labels vk.log ++ drain_labels vk (sub_ord vk.log) l })
    (hlive : ∀ i, i ∈ W2 → Live vk2 none i → Live vk none i) :
    LInv N vk2 none := by
  have hn : sub_count vk2.log = sub_count vk.log := by simp [sub_count, hstate]
  have hord : ∀ i, sub_ord vk2.log i = sub_ord vk.log i := by
    intro i; simp [sub_ord, hstate]
  have hlab : labels vk2.log = labels vk.log ++ drain_labels vk (sub_ord vk.log) l := by
    simp [labels, hstate]
  have hpw := hinv.order
  rw [← hW] at hpw
  have hdl : ∀ ℓ, ℓ ∈ drain_labels vk (sub_ord vk.log) l →
      ∃ i, i ∈ l ∧ Live vk none i ∧ ℓ = sub_ord vk.log i := by
    intro ℓ h
    obtain ⟨i, hi, hcb, he⟩ := mem_drain_labels vk _ l ℓ h
    exact ⟨i, hi, ⟨Or.inl hcb, by simp⟩, he⟩
  have hlW : ∀ i, i ∈ l → i ∈ window N vk.pool.cindex_pending vk.pool.cindex := by
    intro i hi; rw [← hW]; exact List.mem_append_left _ hi
  refine ⟨?_, ?_, ?_, ?_, ?_⟩
  · intro ℓ h
    rw [hlab, List.mem_append] at h
    rw [hn]
    rcases h with h | h
    · exact hinv.lab_lt ℓ h
    · obtain ⟨i, hi, hlv, he⟩ := hdl ℓ h
      obtain ⟨σ, hσ, _⟩ := hinv.live_ord i (hlW i hi) hlv
      exact ⟨σ, by rw [he, hσ], hinv.ord_lt i σ hσ⟩
  · intro i σ h
    rw [hord] at h; rw [hn]; exact hinv.ord_lt i σ h
  · rw [hlab, List.pairwise_append]
    refine ⟨hinv.sorted, ?_, ?_⟩
    · unfold drain_labels
      rw [List.pairwise_flatMap]
      constructor
      · intro i _
        apply List.pairwise_of_forall_mem_list
        intro a ha b hb x y hx hy
        rw [List.mem_map] at ha hb
        obtain ⟨_, _, ha⟩ := ha
        obtain ⟨_, _, hb⟩ := hb
        rw [← ha] at hx; rw [← hb] at hy
        rw [hx] at hy; injection hy with hy; omega
      · refine List.Pairwise.imp_of_mem ?_ (List.pairwise_append.1 hpw).1
        intro i j hi hj hij a ha b hb x y hx hy
        rw [List.mem_map] at ha hb
        obtain ⟨ca, hca, ha⟩ := ha
        obtain ⟨cb, hcb, hb⟩ := hb
        have hli : Live vk none i := ⟨Or.inl (List.ne_nil_of_mem hca), by simp⟩
        have hlj : Live vk none j := ⟨Or.inl (List.ne_nil_of_mem hcb), by simp⟩
        exact le_of_lt (hij hli hlj x y (by rw [ha, hx]) (by rw [hb, hy]))
    · intro a ha b hb x y hx hy
      obtain ⟨i, hi, hlv, he⟩ := hdl b hb
      obtain ⟨σ, hσ, hall⟩ := hinv.live_ord i (hlW i hi) hlv
      rw [he, hσ] at hy; injection hy with hy
      rw [← hy]
      exact le_of_lt (hall x (by rw [← hx]; exact ha))
  · intro i hi hlv
    rw [hwin2] at hi
    have hlv1 := hlive i hi hlv
    have hiW : i ∈ window N vk.pool.cindex_pending vk.pool.cindex := by
      rw [← hW]; exact List.mem_append_right _ hi
    obtain ⟨σ, hσ, hall⟩ := hinv.live_ord i hiW hlv1
    refine ⟨σ, by rw [hord]; exact hσ, ?_⟩
    intro x hx
    rw [hlab, List.mem_append] at hx
    rcases hx with hx | hx
    · exact hall x hx
    · obtain ⟨j, hj, hlvj, he⟩ := hdl _ hx
      exact (List.pairwise_append.1 hpw).2.2 j hj i hi hlvj hlv1 x σ he.symm hσ
  · rw [hwin2]
    refine List.Pairwise.imp_of_mem ?_ (List.pairwise_append.1 hpw).2.1
    intro i j hi hj hij hli hlj σ τ hσ hτ
    rw [hord] at hσ hτ
    exact hij (hlive i hi hli) (hlive j hj hlj) σ τ hσ hτ

/-- An operation that leaves the submission bookkeeping alone, appends slots that are not
live to the window and makes no slot live keeps the invariant. -/
theorem LInv_grow (N : Nat) (vk vk2 : mpvk_ctx) (cur cur2 : Option Nat) (E : List Nat)
    (hinv : LInv N vk cur)
    (hW : window N vk2.pool.cindex_pending vk2.pool.cindex
      = window N vk.pool.cindex_pending vk.pool.cindex ++ E)
    (hstate : lab_state vk2.log = lab_state vk.log)
    (hE : ∀ e, e ∈ E → ¬ Live vk2 cur2 e)
    (hlive : ∀ i, Live vk2 cur2 i → Live vk cur i) :
    LInv N vk2 cur2 := by
  have hn : sub_count vk2.log = sub_count vk.log := by simp [sub_count, hstate]
  have hord : ∀ i, sub_ord vk2.log i = sub_ord vk.log i := by
    intro i; simp [sub_ord, hstate]
  have hlab : labels vk2.log = labels vk.log := by simp [labels, hstate]
  refine ⟨?_, ?_, ?_, ?_, ?_⟩
  · intro ℓ h; rw [hlab] at h; rw [hn]; exact hinv.lab_lt ℓ h
  · intro i σ h; rw [hord] at h; rw [hn]; exact hinv.ord_lt i σ h
  · rw [hlab]; exact hinv.sorted
  · intro i hi hlv
    rw [hW, List.mem_append] at hi
    rcases hi with hi | hi
    · obtain ⟨σ, hσ, hall⟩ := hinv.live_ord i hi (hlive i hlv)
      exact ⟨σ, by rw [hord]; exact hσ, by rw [hlab]; exact hall⟩
    · exact absurd hlv (hE i hi)
  · rw [hW, List.pairwise_append]
    refine ⟨?_, ?_, ?_⟩
    · refine hinv.order.imp ?_
      intro i j hij hli hlj σ τ hσ hτ
      rw [hord] at hσ hτ
      exact hij (hlive i hli) (hlive j hlj) σ τ hσ hτ
    · apply List.pairwise_of_forall_mem_list
      intro a ha b _ hla
      exact absurd hla (hE a ha)
    · intro a _ b hb _ hlb
      exact absurd hlb (hE b hb)

theorem LInv_poll (N : Nat) (vk : mpvk_ctx) (t : Nat) (s : Bool) (hd : DInv N vk none)
    (hinv : LInv N vk none) : LInv N (mpvk_pool_poll_cmds N vk t s) none := by
  obtain ⟨_, hc, hp⟩ := hd.wf
  refine LInv_drain N vk _ (polled N (poll_wait vk t s)) _ hinv
    (poll_window N vk t s hp hc) rfl ?_ ?_
  · rw [poll_log N vk t s hp hc, lab_state_append, lab_fold_poll]; rfl
  · intro i _ hlv
    obtain ⟨h1, _⟩ := hlv
    refine ⟨?_, by simp⟩
    rcases h1 with h1 | h1
    · left
      rw [poll_callbacks N vk t s hp hc] at h1
      split at h1
      · exact absurd rfl h1
      · exact h1
    · right
      rw [poll_last N vk t s hp hc, forget_eq_some] at h1
      exact h1.1

theorem LInv_wait_idle (N : Nat) (vk : mpvk_ctx) (hd : DInv N vk none)
    (hinv : LInv N vk none) : LInv N (mpvk_pool_wait_idle N vk) none := by
  obtain ⟨_, hc, hp⟩ := hd.wf
  obtain ⟨a1, a2, _, _, _⟩ := wait_idle_pool N vk
  refine LInv_drain N vk _ (window N vk.pool.cindex_pending vk.pool.cindex) [] hinv
    (List.append_nil _) ?_ ?_ ?_
  · rw [a1, a2]; exact window_self N _ hc
  · rw [wait_idle_log, lab_state_append, lab_fold_wait N vk _ hp hc]; rfl
  · intro i hi; simp at hi

theorem LInv_begin (N : Nat) (vk : mpvk_ctx) (r b : Bool) (hd : DInv N vk none)
    (hinv : LInv N vk none) :
    LInv N (vk_cmd_begin N vk r b).2 (vk_cmd_begin N vk r b).1 := by
  have hg := DInv_poll N vk 0 false hd
  have hl := LInv_poll N vk 0 false hd hinv
  obtain ⟨hlen, hc, hp⟩ := hg.wf
  rw [begin_vk, begin_slot]
  by_cases hex : ((mpvk_pool_poll_cmds N vk 0 false).pool.cindex + 1) % N
      = (mpvk_pool_poll_cmds N vk 0 false).pool.cindex_pending
  · rw [if_pos hex, if_pos hex]; exact hl
  · rw [if_neg hex, if_neg hex]
    have hcn := cindex_not_mem_window N _ _ hp hc
    refine LInv_grow N (mpvk_pool_poll_cmds N vk 0 false) _ none _
      [(mpvk_pool_poll_cmds N vk 0 false).pool.cindex] hl
      (window_snoc N _ _ hp hc hex) rfl ?_ ?_
    · intro e he hlv
      rw [List.mem_singleton] at he
      subst he
      rcases hlv.1 with h1 | h1
      · exact hcn (hg.cb_in _ h1)
      · exact hcn (hg.last_in _ h1)
    · intro i hlv
      exact ⟨hlv.1, by simp⟩

theorem LInv_setCmd (N : Nat) (vk : mpvk_ctx) (cur : Option Nat) (k : Nat) (c : vk_cmd)
    (hinv : LInv N vk cur)
    (hcb : (c.callbacks ≠ [] → (vk.cmd k).callbacks ≠ [] ∨ cur = some k
      ∨ vk.last_cmd = some k)) :
    LInv N (vk.setCmd k c) cur := by
  refine LInv_grow N vk _ cur cur [] hinv (by rw [List.append_nil]; rfl) rfl (by simp) ?_
  intro i hlv
  obtain ⟨h1, h2⟩ := hlv
  refine ⟨?_, h2⟩
  rcases h1 with h1 | h1
  · rw [cmd_setCmd] at h1
    split at h1
    · next hh =>
      rcases hcb h1 with h3 | h3 | h3
      · left; rw [← hh.1]; exact h3
      · rw [hh.1] at h3; exact absurd h3 h2
      · right; rw [← hh.1]; exact h3
    · left; exact h1
  · right; exact h1

theorem LInv_dev_callback (N : Nat) (vk : mpvk_ctx) (cur : Option Nat) (cb : vk_callback)
    (hinv : LInv N vk cur) : LInv N (vk_dev_callback vk cb) cur := by
  rcases hl : vk.last_cmd with _ | k
  · rw [dev_callback_none vk cb hl]
    refine LInv_grow N vk _ cur cur [] hinv (by rw [List.append_nil]) ?_ (by simp) ?_
    · change lab_state (vk.log ++ [Obs.run none cb]) = _
      rw [lab_state_append]; rfl
    · intro i hlv; exact hlv
  · rw [dev_callback_some vk cb k hl]
    exact LInv_setCmd N vk cur k _ hinv (fun _ => Or.inr (Or.inr hl))

theorem lab_state_submit (log : List Obs) (i q : Nat) (w : List VkSemaphore)
    (st : List VkPipelineStageFlagBits) (sg : Option VkSemaphore) :
    lab_state (log ++ [Obs.submit i q w st sg])
      = LabState.mk ((lab_state log).n + 1)
          (Function.update (lab_state log).ord i (some (lab_state log).n))
          (lab_state log).labels := by
  rw [lab_state_append]; rfl

theorem LInv_submit (N : Nat) (vk : mpvk_ctx) (k : Nat) (want : Bool)
    (hd : DInv N vk (some k)) (hinv : LInv N vk (some k)) :
    LInv N (vk_cmd_submit vk k want true true true).vk none := by
  obtain ⟨_, hc, hp⟩ := hd.wf
  obtain ⟨a1, a2, a3⟩ := submit_ok_pool vk k want
  obtain ⟨hk, hk2, hk3, _, _⟩ := hd.cur_last k rfl
  have hW := window_of_last N _ _ k hp hk hk2 hk3
  have hnd := window_nodup N vk.pool.cindex_pending vk.pool.cindex hp
  rw [hW] at hnd
  have hk0 : k ∉ window N vk.pool.cindex_pending k := by
    intro hm
    exact (List.nodup_append.1 hnd).2.2 hm (List.mem_singleton.2 rfl)
  have hlog : lab_state (vk_cmd_submit vk k want true true true).vk.log
      = LabState.mk ((lab_state vk.log).n + 1)
          (Function.update (lab_state vk.log).ord k (some (lab_state vk.log).n))
          (lab_state vk.log).labels := by
    rw [submit_ok_vk]; exact lab_state_submit _ _ _ _ _ _
  have hn : sub_count (vk_cmd_submit vk k want true true true).vk.log
      = sub_count vk.log + 1 := by simp [sub_count, hlog]
  have hordk : sub_ord (vk_cmd_submit vk k want true true true).vk.log k
      = some (sub_count vk.log) := by simp [sub_ord, sub_count, hlog]
  have hord : ∀ i, i ≠ k → sub_ord (vk_cmd_submit vk k want true true true).vk.log i
      = sub_ord vk.log i := by
    intro i hi; simp [sub_ord, hlog, Function.update_noteq hi]
  have hlab : labels (vk_cmd_submit vk k want true true true).vk.log = labels vk.log := by
    simp [labels, hlog]
  have hlive : ∀ i, i ≠ k → Live (vk_cmd_submit vk k want true true true).vk none i →
      Live vk (some k) i := by
    intro i hik hlv
    refine ⟨?_, fun h => hik (Option.some.inj h).symm⟩
    rcases hlv.1 with h1 | h1
    · left
      rw [submit_ok_cmd, if_neg (fun hh => hik hh.1.symm)] at h1
      exact h1
    · rw [a3] at h1; exact absurd (Option.some.inj h1).symm hik
  refine ⟨?_, ?_, ?_, ?_, ?_⟩
  · intro ℓ h
    rw [hlab] at h
    obtain ⟨x, hx, hlt⟩ := hinv.lab_lt ℓ h
    exact ⟨x, hx, by rw [hn]; omega⟩
  · intro i σ h
    rw [hn]
    by_cases hik : i = k
    · subst hik; rw [hordk] at h; injection h with h; omega
    · rw [hord i hik] at h
      have := hinv.ord_lt i σ h
      omega
  · rw [hlab]; exact hinv.sorted
  · intro i hi hlv
    rw [a1, a2] at hi
    rw [hlab]
    by_cases hik : i = k
    · subst hik
      refine ⟨_, hordk, ?_⟩
      intro x hx
      obtain ⟨y, hy, hlt⟩ := hinv.lab_lt _ hx
      injection hy with hy; omega
    · obtain ⟨σ, hσ, hall⟩ := hinv.live_ord i hi (hlive i hik hlv)
      exact ⟨σ, by rw [hord i hik]; exact hσ, hall⟩
  · rw [a1, a2, hW, List.pairwise_append]
    have hpw := hinv.order
    rw [hW] at hpw
    refine ⟨?_, List.pairwise_singleton _ _, ?_⟩
    · refine List.Pairwise.imp_of_mem ?_ (List.pairwise_append.1 hpw).1
      intro i j hi hj hij hli hlj σ τ hσ hτ
      have hik : i ≠ k := fun h => hk0 (h ▸ hi)
      have hjk : j ≠ k := fun h => hk0 (h ▸ hj)
      rw [hord i hik] at hσ; rw [hord j hjk] at hτ
      exact hij (hlive i hik hli) (hlive j hjk hlj) σ τ hσ hτ
    · intro i hi j hj _ _ σ τ hσ hτ
      rw [List.mem_singleton] at hj
      subst hj
      have hik : i ≠ j := fun h => hk0 (h ▸ hi)
      rw [hord i hik] at hσ
      rw [hordk] at hτ; injection hτ with hτ
      rw [← hτ]; exact hinv.ord_lt i σ hσ

theorem DLInv_step (N D : Nat) (s1 s2 : mpvk_ctx × Option Nat)
    (h : DInv N s1.1 s1.2 ∧ LInv N s1.1 s1.2) (hs : DStep N D s1 s2) :
    DInv N s2.1 s2.2 ∧ LInv N s2.1 s2.2 := by
  refine ⟨DInv_step N D s1 s2 h.1 hs, ?_⟩
  obtain ⟨hd, hl⟩ := h
  cases hs
  case begin vk r b => exact LInv_begin N vk r b hd hl
  case callback vk k cb =>
    exact LInv_setCmd N vk (some k) k _ hl (fun _ => Or.inr (Or.inl rfl))
  case dep vk vk2 k dep st hdep =>
    rw [dep_at_eq D vk vk2 k dep st hdep]
    exact LInv_setCmd N vk (some k) k _ hl (fun h => Or.inl h)
  case submit vk k want => exact LInv_submit N vk k want hd hl
  case poll vk t s => exact LInv_poll N vk t s hd hl
  case wait_idle vk => exact LInv_wait_idle N vk hd hl
  case dev_callback vk cur cb => exact LInv_dev_callback N vk cur cb hl
  case fence_signal vk cur i hi =>
    exact LInv_setCmd N vk cur i _ hl (fun h => Or.inl h)

theorem DLInv_reach (N D q : Nat) (mk : Nat → VkSemaphore) (hN : 0 < N)
    (s : mpvk_ctx × Option Nat) (h : DReach N D q mk s) :
    DInv N s.1 s.2 ∧ LInv N s.1 s.2 := by
  induction h with
  | refl => exact ⟨DInv_init N D q mk hN, LInv_init N D q mk hN⟩
  | tail _ hs ih => exact DLInv_step N D _ _ ih hs

/-! ## A registration followed through the rest of the run -/

theorem Pending_mono (N : Nat) (vk0 : mpvk_ctx) (X Y : List Obs) (i : Nat)
    (h : Pending N vk0 (X ++ Y) i) : Pending N vk0 X i :=
  ⟨h.1, h.2.1, fun hm => h.2.2 (List.mem_append_left _ hm)⟩

/-- A step that appends log entries other than calls out of slot `k` and that only appends
slots to the window keeps the invariant. -/
theorem CInv_quiet (N : Nat) (vk0 : mpvk_ctx) (k : Nat) (vk vk2 : mpvk_ctx) (new : List Obs)
    (E : List Nat) (h : CInv N vk0 k vk) (hwf : WF N vk2)
    (hlog : vk2.log = vk.log ++ new) (hnew : ∀ c, Obs.run (some k) c ∉ new)
    (hW : window N vk2.pool.cindex_pending vk2.pool.cindex
      = window N vk.pool.cindex_pending vk.pool.cindex ++ E)
    (hE : ∀ e, e ∈ E → e ∉ window N vk.pool.cindex_pending vk.pool.cindex) :
    CInv N vk0 k vk2 := by
  obtain ⟨_, X, hX, hcase⟩ := h
  refine ⟨hwf, X ++ new, by rw [hlog, hX, List.append_assoc], ?_⟩
  rcases hcase with ⟨h1, h2, h3, h4⟩ | ⟨A0, R, hA, h1, h2⟩
  · left
    refine ⟨?_, ?_, ?_, ?_⟩
    · intro c hc
      rw [List.mem_append] at hc
      rcases hc with hc | hc
      · exact h1 c hc
      · exact hnew c hc
    · rw [hW]; exact List.mem_append_left _ h2
    · intro i hi
      rw [hW]; exact List.mem_append_left _ (h3 i (Pending_mono N vk0 X new i hi))
    · rw [hW, List.pairwise_append]
      refine ⟨h4.imp ?_, ?_, ?_⟩
      · intro a b hab ha hb
        exact hab ha (Pending_mono N vk0 X new b hb)
      · apply List.pairwise_of_forall_mem_list
        intro a _ b hb _ hpb
        exact hE b hb (h3 b (Pending_mono N vk0 X new b hpb))
      · intro a _ b hb _ hpb
        exact hE b hb (h3 b (Pending_mono N vk0 X new b hpb))
  · right
    exact ⟨A0, R ++ new, by rw [hA, List.append_assoc], h1, h2⟩

theorem not_run_mem_poll_entries (vk : mpvk_ctx) (l : List Nat) (k : Nat) (hk : k ∉ l)
    (c : vk_callback) :
    Obs.run (some k) c ∉ l.flatMap fun i => Obs.fence_ok i :: runs_of vk i := by
  intro h
  rw [List.mem_flatMap] at h
  obtain ⟨i, hi, hm⟩ := h
  rw [List.mem_cons] at hm
  rcases hm with hm | hm
  · cases hm
  · unfold runs_of at hm
    rw [List.mem_map] at hm
    obtain ⟨_, _, he⟩ := hm
    injection he with he
    injection he with he
    exact hk (he ▸ hi)

theorem fence_ok_mem_poll_entries (vk : mpvk_ctx) (l : List Nat) (i : Nat) (hi : i ∈ l) :
    Obs.fence_ok i ∈ l.flatMap fun i => Obs.fence_ok i :: runs_of vk i := by
  rw [List.mem_flatMap]
  exact ⟨i, hi, List.mem_cons_self _ _⟩

theorem fence_ok_mem_poll_entries_iff (vk : mpvk_ctx) (l : List Nat) (i : Nat) :
    Obs.fence_ok i ∈ (l.flatMap fun i => Obs.fence_ok i :: runs_of vk i) ↔ i ∈ l := by
  constructor
  · intro h
    rw [List.mem_flatMap] at h
    obtain ⟨j, hj, hm⟩ := h
    rw [List.mem_cons] at hm
    rcases hm with hm | hm
    · injection hm with hm; rw [hm]; exact hj
    · unfold runs_of at hm
      rw [List.mem_map] at hm
      obtain ⟨_, _, he⟩ := hm
      cases he
  · exact fence_ok_mem_poll_entries vk l i

/-- Collecting the slots `l` at the head of the window, the way a poll does, keeps the
invariant. -/
theorem CInv_drain (N : Nat) (vk0 : mpvk_ctx) (k : Nat) (vk vk2 vkx : mpvk_ctx) (l : List Nat)
    (h : CInv N vk0 k vk) (hwf : WF N vk2)
    (hlog : vk2.log = vk.log ++ l.flatMap fun i => Obs.fence_ok i :: runs_of vkx i)
    (hW : l ++ window N vk2.pool.cindex_pending vk2.pool.cindex
      = window N vk.pool.cindex_pending vk.pool.cindex) :
    CInv N vk0 k vk2 := by
  obtain ⟨⟨_, _, hp⟩, X, hX, hcase⟩ := h
  have hnd := window_nodup N vk.pool.cindex_pending vk.pool.cindex hp
  rw [← hW] at hnd
  refine ⟨hwf, X ++ l.flatMap (fun i => Obs.fence_ok i :: runs_of vkx i),
    by rw [hlog, hX, List.append_assoc], ?_⟩
  rcases hcase with ⟨h1, h2, h3, h4⟩ | ⟨A0, R, hA, h1, h2⟩
  · rw [← hW] at h2 h3 h4
    by_cases hkl : k ∈ l
    · right
      obtain ⟨l1, l2, hl⟩ := List.append_of_mem hkl
      subst hl
      have hk1 : k ∉ l1 := by
        intro hm
        have hnd1 := (List.nodup_append.1 hnd).1
        exact (List.nodup_append.1 hnd1).2.2 hm (List.mem_cons_self _ _)
      refine ⟨X ++ (l1.flatMap (fun i => Obs.fence_ok i :: runs_of vkx i)) ++ [Obs.fence_ok k],
        runs_of vkx k ++ l2.flatMap (fun i => Obs.fence_ok i :: runs_of vkx i), ?_, ?_, ?_⟩
      · simp [List.flatMap_append, List.flatMap_cons]
      · intro c hc
        rw [List.mem_append, List.mem_append] at hc
        rcases hc with (hc | hc) | hc
        · exact h1 c hc
        · exact not_run_mem_poll_entries vkx l1 k hk1 c hc
        · rw [List.mem_singleton] at hc; cases hc
      · intro i hi hf
        by_cases hx : Obs.fence_ok i ∈ X
        · exact List.mem_append_left _ (List.mem_append_left _ hx)
        · have hpi : Pending N vk0 X i := ⟨hi, hf, hx⟩
          have hiw := h3 i hpi
          rw [List.append_assoc] at h4 hiw
          rw [List.mem_append] at hiw
          rcases hiw with hiw | hiw
          · exact List.mem_append_left _
              (List.mem_append_right _ (fence_ok_mem_poll_entries vkx l1 i hiw))
          · rw [List.cons_append, List.mem_cons] at hiw
            rcases hiw with hiw | hiw
            · rw [hiw]; exact List.mem_append_right _ (List.mem_singleton.2 rfl)
            · exfalso
              have h5 := (List.pairwise_append.1 h4).2.1
              rw [List.cons_append, List.pairwise_cons] at h5
              exact h5.1 i hiw rfl hpi
    · left
      have hkw : k ∈ window N vk2.pool.cindex_pending vk2.pool.cindex := by
        rw [List.mem_append] at h2
        exact h2.resolve_left hkl
      refine ⟨?_, hkw, ?_, ?_⟩
      · intro c hc
        rw [List.mem_append] at hc
        rcases hc with hc | hc
        · exact h1 c hc
        · exact not_run_mem_poll_entries vkx l k hkl c hc
      · intro i hi
        have hiw := h3 i (Pending_mono N vk0 X _ i hi)
        rw [List.mem_append] at hiw
        rcases hiw with hiw | hiw
        · exact absurd (List.mem_append_right _ (fence_ok_mem_poll_entries vkx l i hiw)) hi.2.2
        · exact hiw
      · refine (List.pairwise_append.1 h4).2.1.imp ?_
        intro a b hab ha hb
        exact hab ha (Pending_mono N vk0 X _ b hb)
  · right
    exact ⟨A0, R ++ l.flatMap (fun i => Obs.fence_ok i :: runs_of vkx i),
      by rw [hA, List.append_assoc], h1, h2⟩

theorem not_run_mem_segment_log (vk : mpvk_ctx) (l : List Nat) (k : Nat) (hk : k ∉ l)
    (c : vk_callback) : Obs.run (some k) c ∉ segment_log vk l := by
  intro h
  unfold segment_log at h
  rw [List.mem_append] at h
  rcases h with h | h
  · rw [List.mem_map] at h
    obtain ⟨_, _, he⟩ := h
    cases he
  · rw [List.mem_flatMap] at h
    obtain ⟨i, hi, hm⟩ := h
    unfold runs_of at hm
    rw [List.mem_map] at hm
    obtain ⟨_, _, he⟩ := hm
    injection he with he
    injection he with he
    exact hk (he ▸ hi)

theorem not_run_mem_fence_ok (l : List Nat) (k : Nat) (c : vk_callback) :
    Obs.run (some k) c ∉ l.map Obs.fence_ok := by
  intro h
  rw [List.mem_map] at h
  obtain ⟨_, _, he⟩ := h
  cases he

theorem CInv_wait_idle (N : Nat) (vk0 : mpvk_ctx) (k : Nat) (vk : mpvk_ctx)
    (h : CInv N vk0 k vk) : CInv N vk0 k (mpvk_pool_wait_idle N vk) := by
  obtain ⟨hwf, X, hX, hcase⟩ := h
  have hc := hwf.2.1
  have hp := hwf.2.2
  refine ⟨WF_wait_idle N vk hwf, X ++ wait_log N vk,
    by rw [wait_idle_log, hX, List.append_assoc], ?_⟩
  right
  rcases hcase with ⟨h1, h2, h3, h4⟩ | ⟨A0, R, hA, h1, h2⟩
  · unfold wait_log
    by_cases hlt : vk.pool.cindex_pending < vk.pool.cindex
    · rw [if_pos hlt]
      rw [window_eq_seg N _ _ hc (le_of_lt hlt)] at h2 h3
      refine ⟨X ++ (seg vk.pool.cindex_pending (vk.pool.cindex - vk.pool.cindex_pending)).map
          Obs.fence_ok,
        (seg vk.pool.cindex_pending (vk.pool.cindex - vk.pool.cindex_pending)).flatMap
          (runs_of vk), ?_, ?_, ?_⟩
      · rw [segment_log, List.append_assoc]
      · intro c hm
        rw [List.mem_append] at hm
        rcases hm with hm | hm
        · exact h1 c hm
        · exact not_run_mem_fence_ok _ k c hm
      · intro i hi hf
        by_cases hx : Obs.fence_ok i ∈ X
        · exact List.mem_append_left _ hx
        · exact List.mem_append_right _ (List.mem_map_of_mem _ (h3 i ⟨hi, hf, hx⟩))
    · rw [if_neg hlt]
      by_cases hgt : vk.pool.cindex_pending > vk.pool.cindex
      · rw [if_pos hgt]
        rw [window_eq_seg_wrap N _ _ hp hgt] at h2 h3 h4
        have hnd := window_nodup N vk.pool.cindex_pending vk.pool.cindex hp
        rw [window_eq_seg_wrap N _ _ hp hgt] at hnd
        by_cases hk1 : k ∈ seg vk.pool.cindex_pending (N - vk.pool.cindex_pending)
        · refine ⟨X ++ (seg vk.pool.cindex_pending (N - vk.pool.cindex_pending)).map
              Obs.fence_ok,
            (seg vk.pool.cindex_pending (N - vk.pool.cindex_pending)).flatMap (runs_of vk)
              ++ segment_log vk (seg 0 vk.pool.cindex), ?_, ?_, ?_⟩
          · rw [segment_log, List.append_assoc, List.append_assoc]
          · intro c hm
            rw [List.mem_append] at hm
            rcases hm with hm | hm
            · exact h1 c hm
            · exact not_run_mem_fence_ok _ k c hm
          · intro i hi hf
            by_cases hx : Obs.fence_ok i ∈ X
            · exact List.mem_append_left _ hx
            · have hpi : Pending N vk0 X i := ⟨hi, hf, hx⟩
              have hiw := h3 i hpi
              rw [List.mem_append] at hiw
              rcases hiw with hiw | hiw
              · exact List.mem_append_right _ (List.mem_map_of_mem _ hiw)
              · exact absurd hpi ((List.pairwise_append.1 h4).2.2 k hk1 i hiw rfl)
        · have hk2 : k ∈ seg 0 vk.pool.cindex := by
            rw [List.mem_append] at h2
            exact h2.resolve_left hk1
          refine ⟨X ++ segment_log vk (seg vk.pool.cindex_pending (N - vk.pool.cindex_pending))
              ++ (seg 0 vk.pool.cindex).map Obs.fence_ok,
            (seg 0 vk.pool.cindex).flatMap (runs_of vk), ?_, ?_, ?_⟩
          · rw [segment_log, segment_log]; simp only [List.append_assoc]
          · intro c hm
            rw [List.mem_append, List.mem_append] at hm
            rcases hm with (hm | hm) | hm
            · exact h1 c hm
            · exact not_run_mem_segment_log vk _ k hk1 c hm
            · exact not_run_mem_fence_ok _ k c hm
          · intro i hi hf
            by_cases hx : Obs.fence_ok i ∈ X
            · exact List.mem_append_left _ (List.mem_append_left _ hx)
            · have hiw := h3 i ⟨hi, hf, hx⟩
              rw [List.mem_append] at hiw
              rcases hiw with hiw | hiw
              · apply List.mem_append_left
                apply List.mem_append_right
                unfold segment_log
                exact List.mem_append_left _ (List.mem_map_of_mem _ hiw)
              · exact List.mem_append_right _ (List.mem_map_of_mem _ hiw)
      · exfalso
        have : vk.pool.cindex_pending = vk.pool.cindex := by omega
        rw [this, window_self N _ hc] at h2
        simp at h2
  · exact ⟨A0, R ++ wait_log N vk, by rw [hA, List.append_assoc], h1, h2⟩

theorem CInv_setCmd (N : Nat) (vk0 : mpvk_ctx) (k : Nat) (vk : mpvk_ctx) (i : Nat) (c : vk_cmd)
    (h : CInv N vk0 k vk) : CInv N vk0 k (vk.setCmd i c) :=
  CInv_quiet N vk0 k vk _ [] [] h (WF_setCmd N vk i c h.1) (by rw [List.append_nil]; rfl)
    (by simp) (by rw [List.append_nil]; rfl) (by simp)

theorem CInv_poll (N : Nat) (vk0 : mpvk_ctx) (k : Nat) (vk : mpvk_ctx) (t : Nat) (s : Bool)
    (h : CInv N vk0 k vk) : CInv N vk0 k (mpvk_pool_poll_cmds N vk t s) := by
  obtain ⟨_, hc, hp⟩ := h.1
  exact CInv_drain N vk0 k vk _ vk (polled N (poll_wait vk t s)) h (WF_poll N vk t s h.1)
    (poll_log N vk t s hp hc) (poll_window N vk t s hp hc)

theorem CInv_begin (N : Nat) (vk0 : mpvk_ctx) (k : Nat) (vk : mpvk_ctx) (r b : Bool)
    (h : CInv N vk0 k vk) : CInv N vk0 k (vk_cmd_begin N vk r b).2 := by
  have hg := CInv_poll N vk0 k vk 0 false h
  obtain ⟨_, hc, hp⟩ := hg.1
  have hwf := WF_begin N vk r b h.1
  rw [begin_vk] at hwf ⊢
  by_cases hex : ((mpvk_pool_poll_cmds N vk 0 false).pool.cindex + 1) % N
      = (mpvk_pool_poll_cmds N vk 0 false).pool.cindex_pending
  · rw [if_pos hex]; exact hg
  · rw [if_neg hex] at hwf ⊢
    refine CInv_quiet N vk0 k (mpvk_pool_poll_cmds N vk 0 false) _ []
      [(mpvk_pool_poll_cmds N vk 0 false).pool.cindex] hg hwf
      (by rw [List.append_nil]) (by simp) (window_snoc N _ _ hp hc hex) ?_
    intro e he
    rw [List.mem_singleton] at he
    rw [he]; exact cindex_not_mem_window N _ _ hp hc

theorem CInv_step (N D : Nat) (vk0 : mpvk_ctx) (k : Nat) (s1 s2 : mpvk_ctx × Option Nat)
    (h : CInv N vk0 k s1.1) (hs : DStep N D s1 s2) : CInv N vk0 k s2.1 := by
  cases hs
  case begin vk r b => exact CInv_begin N vk0 k vk r b h
  case callback vk j cb => exact CInv_setCmd N vk0 k vk j _ h
  case dep vk vk2 j dep st hdep =>
    rw [dep_at_eq D vk vk2 j dep st hdep]; exact CInv_setCmd N vk0 k vk j _ h
  case submit vk j want =>
    refine CInv_quiet N vk0 k vk _ _ [] h (WF_submit N vk j want true true true h.1)
      (by rw [submit_ok_vk]) ?_ (by rw [List.append_nil, submit_ok_vk]) (by simp)
    intro c hc
    rw [List.mem_singleton] at hc
    cases hc
  case poll vk t s => exact CInv_poll N vk0 k vk t s h
  case wait_idle vk => exact CInv_wait_idle N vk0 k vk h
  case dev_callback vk cur cb =>
    rcases hl : vk.last_cmd with _ | j
    · rw [dev_callback_none vk cb hl]
      refine CInv_quiet N vk0 k vk _ [Obs.run none cb] [] h h.1 rfl ?_
        (by rw [List.append_nil]) (by simp)
      intro c hc
      rw [List.mem_singleton] at hc
      cases hc
    · rw [dev_callback_some vk cb j hl]; exact CInv_setCmd N vk0 k vk j _ h
  case fence_signal vk cur i hi => exact CInv_setCmd N vk0 k vk i _ h

theorem CInv_reach (N D : Nat) (vk0 : mpvk_ctx) (k : Nat) (s1 s2 : mpvk_ctx × Option Nat)
    (h : CInv N vk0 k s1.1) (hr : DReachFrom N D s1 s2) : CInv N vk0 k s2.1 := by
  induction hr with
  | refl => exact h
  | tail _ hs ih => exact CInv_step N D vk0 k _ _ ih hs

theorem CInv_start (N : Nat) (vk : mpvk_ctx) (cur : Option Nat) (k : Nat) (cb : vk_callback)
    (h : DInv N vk cur) (hl : vk.last_cmd = some k) :
    CInv N vk k (vk_cmd_callback vk k cb) := by
  refine ⟨WF_setCmd N vk k _ h.wf, [], by rw [List.append_nil]; rfl, Or.inl ⟨by simp, ?_, ?_, ?_⟩⟩
  · exact h.last_in k hl
  · intro i hi
    by_contra hn
    have := h.fence_out i hi.1 hn
    rw [hi.2.1] at this
    cases this
  · refine h.after_last.imp ?_
    intro a b hab ha hb
    rw [ha] at hab
    have := hab hl
    rw [hb.2.1] at this
    cases this

theorem CInv_final (N : Nat) (vk0 : mpvk_ctx) (k : Nat) (vk2 : mpvk_ctx)
    (h : CInv N vk0 k vk2) (A B : List Obs) (c : vk_callback)
    (hlog : vk2.log = vk0.log ++ A ++ Obs.run (some k) c :: B) (i : Nat) (hi : i < N)
    (hf : (vk0.cmd i).fence = false) : Obs.fence_ok i ∈ A := by
  obtain ⟨_, X, hX, hcase⟩ := h
  have hXe : X = A ++ Obs.run (some k) c :: B := by
    rw [hX, List.append_assoc] at hlog
    exact List.append_cancel_left hlog
  rcases hcase with ⟨h1, _, _, _⟩ | ⟨A0, R, hA, h1, h2⟩
  · exfalso
    apply h1 c
    rw [hXe]
    exact List.mem_append_right _ (List.mem_cons_self _ _)
  · rw [hXe] at hA
    rcases List.append_eq_append_iff.1 hA with ⟨a', h3, h4⟩ | ⟨c', h3, h4⟩
    · cases a' with
      | nil =>
        rw [List.append_nil] at h3
        rw [← h3]; exact h2 i hi hf
      | cons x t =>
        exfalso
        simp only [List.cons_append, List.cons.injEq] at h4
        apply h1 c
        rw [h3, ← h4.1]
        exact List.mem_append_right _ (List.mem_cons_self _ _)
    · rw [h3]
      exact List.mem_append_left _ (h2 i hi hf)

/-! ## Timer ring -/

theorem foldl_max_init (l : List Nat) (a : Nat) : l.foldl max a = max a (l.foldl max 0) := by
  induction l generalizing a with
  | nil => simp
  | cons x t ih =>
    simp only [List.foldl_cons]
    rw [ih (max a x), ih (max 0 x)]
    simp only [Nat.zero_max]
    omega

theorem list_max_cons (x : Nat) (t : List Nat) : list_max (x :: t) = max x (list_max t) := by
  unfold list_max
  simp only [List.foldl_cons, Nat.zero_max]
  exact foldl_max_init t x

theorem le_list_max (l : List Nat) (x : Nat) (h : x ∈ l) : x ≤ list_max l := by
  induction l with
  | nil => simp at h
  | cons a t ih =>
    rw [list_max_cons]
    rcases List.mem_cons.1 h with h | h
    · subst h; exact Nat.le_max_left _ _
    · exact le_trans (ih h) (Nat.le_max_right _ _)

theorem list_max_mem (l : List Nat) : list_max l = 0 ∨ list_max l ∈ l := by
  induction l with
  | nil => left; rfl
  | cons a t ih =>
    rw [list_max_cons]
    rcases Nat.le_total a (list_max t) with h | h
    · rw [Nat.max_eq_right h]
      rcases ih with ih | ih
      · left; exact ih
      · right; exact List.mem_cons_of_mem _ ih
    · rw [Nat.max_eq_left h]
      right; exact List.mem_cons_self _ _

theorem list_max_le (l : List Nat) (m : Nat) (h : ∀ x, x ∈ l → x ≤ m) : list_max l ≤ m := by
  rcases list_max_mem l with h1 | h1
  · rw [h1]; exact Nat.zero_le _
  · exact h _ h1

/-- Two lists with the same non-zero elements have the same maximum. -/
theorem list_max_congr (l1 l2 : List Nat)
    (h12 : ∀ x, x ∈ l1 → x = 0 ∨ x ∈ l2) (h21 : ∀ x, x ∈ l2 → x = 0 ∨ x ∈ l1) :
    list_max l1 = list_max l2 := by
  apply Nat.le_antisymm
  · apply list_max_le
    intro x hx
    rcases h12 x hx with h | h
    · rw [h]; exact Nat.zero_le _
    · exact le_list_max l2 x h
  · apply list_max_le
    intro x hx
    rcases h21 x hx with h | h
    · rw [h]; exact Nat.zero_le _
    · exact le_list_max l1 x h

theorem rescan_eq (M : Nat) (samples : List Nat) (res : Nat) (h : samples.length = M) :
    rescan M samples res = max res (list_max samples) := by
  unfold rescan
  have hmap : (List.range M).map (fun i => samples.getD i 0) = samples := by
    apply List.ext_getElem?
    intro n
    by_cases hn : n < M
    · rw [List.getElem?_map, List.getElem?_range hn]
      simp only [Option.map_some', List.getD_eq_getElem?_getD]
      rw [List.getElem?_eq_getElem (by omega)]; rfl
    · rw [List.getElem?_eq_none (by simp; omega), List.getElem?_eq_none (by omega)]
  rw [← List.foldl_map (fun i => samples.getD i 0) max, hmap]
  exact foldl_max_init samples res

theorem mem_set_iff (l : List Nat) (i x v : Nat) (_hi : i < l.length) (h : x ∈ l.set i v) :
    x = v ∨ ∃ j, j < l.length ∧ j ≠ i ∧ l.getD j 0 = x := by
  obtain ⟨n, hn, hx⟩ := List.getElem_of_mem h
  rw [List.getElem_set] at hx
  split at hx
  · left; exact hx.symm
  · next hne =>
    right
    rw [List.length_set] at hn
    refine ⟨n, hn, fun h => hne h.symm, ?_⟩
    rw [List.getD_eq_getElem?_getD, List.getElem?_eq_getElem hn]
    exact hx

theorem getD_mem (l : List Nat) (j : Nat) (hj : j < l.length) : l.getD j 0 ∈ l := by
  rw [List.getD_eq_getElem?_getD, List.getElem?_eq_getElem hj]
  exact List.getElem_mem _

/-- The new peak computed by `timer_pool_stop` is the maximum of the array after the
write. -/
theorem stop_peak (M : Nat) (samples : List Nat) (idx res peak : Nat)
    (hlen : samples.length = M) (hidx : idx < M) (hpeak : peak = list_max samples) :
    (if res ≥ peak then res
     else if peak = samples.getD idx 0 then rescan M (samples.set idx res) res
     else peak) = list_max (samples.set idx res) := by
  have hres : res ∈ samples.set idx res := by
    rw [List.mem_iff_getElem]
    exact ⟨idx, by rw [List.length_set]; omega, by rw [List.getElem_set]; simp⟩
  by_cases h1 : res ≥ peak
  · rw [if_pos h1]
    apply Nat.le_antisymm (le_list_max _ _ hres)
    apply list_max_le
    intro x hx
    rcases mem_set_iff samples idx x res (by omega) hx with h | ⟨j, hj, _, hx⟩
    · rw [h]
    · rw [← hx]
      exact le_trans (le_list_max _ _ (getD_mem samples j hj)) (by rw [← hpeak]; exact h1)
  · rw [if_neg h1]
    by_cases h2 : peak = samples.getD idx 0
    · rw [if_pos h2, rescan_eq M _ res (by rw [List.length_set]; exact hlen)]
      exact Nat.max_eq_right (le_list_max _ _ hres)
    · rw [if_neg h2]
      have hpos : peak ≠ 0 := by omega
      have hmem : peak ∈ samples := by
        rcases list_max_mem samples with h | h
        · rw [← hpeak] at h; exact absurd h hpos
        · rw [← hpeak] at h; exact h
      obtain ⟨n, hn, hx⟩ := List.getElem_of_mem hmem
      have hne : idx ≠ n := by
        intro he
        apply h2
        rw [List.getD_eq_getElem?_getD, he, List.getElem?_eq_getElem hn]
        exact hx.symm
      apply Nat.le_antisymm
      · apply le_list_max
        rw [List.mem_iff_getElem]
        exact ⟨n, by rw [List.length_set]; exact hn, by rw [List.getElem_set, if_neg hne]; exact hx⟩
      · apply list_max_le
        intro x hx2
        rcases mem_set_iff samples idx x res (by omega) hx2 with h | ⟨j, hj, _, hx3⟩
        · rw [h]; omega
        · rw [← hx3, hpeak]
          exact le_list_max _ _ (getD_mem samples j hj)

theorem mod_two (M a : Nat) (h : a < 2 * M) :
    a % M = if a < M then a else a - M := by
  split
  · exact Nat.mod_eq_of_lt (by assumption)
  · have e : a = (a - M) + M := by omega
    rw [e, Nat.add_mod_right, Nat.mod_eq_of_lt (show a - M < M by omega)]
    omega

theorem ring_index_self (M idx : Nat) (hidx : idx < M) :
    ((idx + 1) % M + M - 1 - idx) % M = 0 := by
  rw [mod_two M (idx + 1) (by omega)]
  have hlt : (if idx + 1 < M then idx + 1 else idx + 1 - M) + M - 1 - idx < 2 * M := by
    split <;> omega
  rw [mod_two M _ hlt]
  split_ifs <;> omega

theorem ring_index_ne (M idx j : Nat) (hidx : idx < M) (hj : j < M) (hne : j ≠ idx) :
    ((idx + 1) % M + M - 1 - j) % M = (idx + M - 1 - j) % M + 1 ∧
    (idx + M - 1 - j) % M + 1 < M := by
  rw [mod_two M (idx + 1) (by omega)]
  have hlt : (if idx + 1 < M then idx + 1 else idx + 1 - M) + M - 1 - j < 2 * M := by
    split <;> omega
  rw [mod_two M _ hlt, mod_two M (idx + M - 1 - j) (by omega)]
  constructor <;> split_ifs <;> omega

theorem ring_index_inv (M idx t : Nat) (hidx : idx < M) (ht : t < M) :
    (idx + M - 1 - t) % M < M ∧ (idx + M - 1 - (idx + M - 1 - t) % M) % M = t := by
  have hM : 0 < M := by omega
  refine ⟨Nat.mod_lt _ hM, ?_⟩
  rw [mod_two M (idx + M - 1 - t) (by omega)]
  have hlt : idx + M - 1 - (if idx + M - 1 - t < M then idx + M - 1 - t
      else idx + M - 1 - t - M) < 2 * M := by
    split <;> omega
  rw [mod_two M _ hlt]
  split_ifs <;> omega

theorem getD_take (l : List Nat) (n d : Nat) :
    (l.take n).getD d 0 = if d < n then l.getD d 0 else 0 := by
  simp only [List.getD_eq_getElem?_getD, List.getElem?_take]
  split <;> rfl

theorem RInv_create (M : Nat) (hM : 0 < M) : RInv M (timer_pool_create M) [] := by
  refine ⟨rfl, by simp [timer_pool_create], hM, by simp [timer_pool_create], ?_, ?_⟩
  · intro j hj
    simp [timer_pool_create, List.getD_eq_getElem?_getD, List.getElem?_replicate, hj]
  · symm
    apply Nat.le_antisymm _ (Nat.zero_le _)
    apply list_max_le
    intro x hx
    simp only [timer_pool_create] at hx
    rw [List.eq_of_mem_replicate hx]

theorem start_stop_eq (M : Nat) (pool : timer_pool) (res : Nat) (hrun : pool.running = false)
    (hres : res ≠ 0) :
    ((timer_pool_start pool).bind fun p1 => timer_pool_stop M p1 res)
      = some { running := false,
               samples := pool.samples.set pool.sample_idx res,
               sample_idx := (pool.sample_idx + 1) % M,
               sample_count := min (pool.sample_count + 1) M,
               sum := ((pool.sum + res) % 2 ^ 64 + 2 ^ 64
                        - pool.samples.getD pool.sample_idx 0) % 2 ^ 64,
               peak := if res ≥ pool.peak then res
                       else if pool.peak = pool.samples.getD pool.sample_idx 0
                         then rescan M (pool.samples.set pool.sample_idx res) res
                       else pool.peak } := by
  unfold timer_pool_start
  rw [hrun]
  simp only [Bool.false_eq_true, if_false, Option.some_bind]
  unfold timer_pool_stop
  simp only [Bool.not_true, Bool.false_eq_true, if_false, hres]

theorem RInv_stop (M : Nat) (pool : timer_pool) (hist : List Nat) (res : Nat)
    (h : RInv M pool hist) (hres : res ≠ 0) :
    ∃ p, ((timer_pool_start pool).bind fun p1 => timer_pool_stop M p1 res) = some p ∧
      RInv M p (res :: hist) := by
  obtain ⟨hrun, hlen, hidx, hcount, hring, hpeak⟩ := h
  refine ⟨_, start_stop_eq M pool res hrun hres, ?_⟩
  refine ⟨rfl, by simp [hlen], Nat.mod_lt _ (by omega), ?_, ?_, ?_⟩
  · simp only [List.length_cons]; rw [hcount]; omega
  · intro j hj
    simp only []
    by_cases hji : j = pool.sample_idx
    · rw [hji, ring_index_self M _ hidx, List.getD_eq_getElem?_getD, List.getElem?_set]
      have h1 : 0 < min (pool.sample_count + 1) M := by omega
      simp [hlen, hidx, List.take_cons h1]
    · obtain ⟨e1, e2⟩ := ring_index_ne M pool.sample_idx j hidx hj hji
      rw [e1, List.getD_eq_getElem?_getD, List.getElem?_set_ne (fun h => hji h.symm),
        ← List.getD_eq_getElem?_getD, hring j hj, getD_take, getD_take]
      have h2 : pool.sample_count ≤ M := by rw [hcount]; omega
      by_cases h3 : (pool.sample_idx + M - 1 - j) % M < pool.sample_count
      · rw [if_pos h3, if_pos (by omega)]
        simp [List.getD_eq_getElem?_getD]
      · rw [if_neg h3, if_neg (by omega)]
  · exact stop_peak M pool.samples pool.sample_idx res pool.peak hlen hidx hpeak

theorem RInv_stop_zero (M : Nat) (pool : timer_pool) (hist : List Nat)
    (h : RInv M pool hist) :
    ∃ p, ((timer_pool_start pool).bind fun p1 => timer_pool_stop M p1 0) = some p ∧
      RInv M p hist := by
  obtain ⟨hrun, hlen, hidx, hcount, hring, hpeak⟩ := h
  refine ⟨_, by simp [timer_pool_start, timer_pool_stop, hrun]; rfl, ?_⟩
  exact ⟨rfl, hlen, hidx, hcount, hring, hpeak⟩

theorem RInv_feed (M : Nat) (rs : List Nat) :
    ∀ (pool : timer_pool) (hist : List Nat), RInv M pool hist →
      ∃ p, timer_pool_feed M pool rs = some p ∧ RInv M p ((recorded rs).reverse ++ hist) := by
  induction rs with
  | nil => intro pool hist h; exact ⟨pool, rfl, by simpa [recorded] using h⟩
  | cons r t ih =>
    intro pool hist h
    by_cases hr : r = 0
    · subst hr
      obtain ⟨p, hp, hinv⟩ := RInv_stop_zero M pool hist h
      obtain ⟨p2, hp2, hinv2⟩ := ih p hist hinv
      refine ⟨p2, ?_, by simpa [recorded] using hinv2⟩
      rw [timer_pool_feed, ← Option.bind_assoc] at *
      rw [hp]; exact hp2
    · obtain ⟨p, hp, hinv⟩ := RInv_stop M pool hist r h hr
      obtain ⟨p2, hp2, hinv2⟩ := ih p (r :: hist) hinv
      refine ⟨p2, ?_, ?_⟩
      · rw [timer_pool_feed, ← Option.bind_assoc, hp]; exact hp2
      · have : (recorded (r :: t)).reverse ++ hist = (recorded t).reverse ++ r :: hist := by
          simp [recorded, List.filter_cons, hr]
        rw [this]; exact hinv2

theorem RInv_peak (M : Nat) (pool : timer_pool) (hist : List Nat) (h : RInv M pool hist) :
    pool.peak = list_max (hist.take pool.sample_count) := by
  obtain ⟨_, hlen, hidx, hcount, hring, hpeak⟩ := h
  rw [hpeak]
  apply list_max_congr
  · intro x hx
    obtain ⟨j, hj, hxj⟩ := List.getElem_of_mem hx
    rw [hlen] at hj
    have := hring j hj
    rw [List.getD_eq_getElem?_getD, List.getElem?_eq_getElem (by omega), Option.getD_some,
      hxj] at this
    rw [this, List.getD_eq_getElem?_getD]
    rcases hget : (hist.take pool.sample_count)[(pool.sample_idx + M - 1 - j) % M]? with _ | y
    · left; rfl
    · right
      simp only [Option.getD_some]
      exact List.getElem?_mem hget
  · intro x hx
    right
    obtain ⟨t, ht, hxt⟩ := List.getElem_of_mem hx
    have ht2 : t < M := by
      rw [List.length_take] at ht
      rw [hcount] at ht; omega
    obtain ⟨e1, e2⟩ := ring_index_inv M pool.sample_idx t hidx ht2
    have := hring _ e1
    rw [e2, List.getD_eq_getElem?_getD (hist.take pool.sample_count),
      List.getElem?_eq_getElem ht, Option.getD_some, hxt] at this
    rw [← this]
    exact getD_mem _ _ (by rw [hlen]; exact e1)


/-! ## Timer ring: the running sum -/

theorem sum_take_succ (l : List Nat) (n : Nat) :
    (l.take (n + 1)).sum = (l.take n).sum + l.getD n 0 := by
  induction l generalizing n with
  | nil => simp
  | cons a t ih =>
    cases n with
    | zero => simp
    | succ k =>
      simp only [List.take_succ_cons, List.sum_cons, List.getD_cons_succ]
      rw [ih k]; omega

theorem getD_le_sum (l : List Nat) (n : Nat) : l.getD n 0 ≤ l.sum := by
  induction l generalizing n with
  | nil => simp
  | cons a t ih =>
    cases n with
    | zero => simp
    | succ k =>
      simp only [List.getD_cons_succ, List.sum_cons]
      have := ih k; omega

theorem mod_add_sub (S res old : Nat) (ho : old ≤ S) (hw : old < 2 ^ 64) :
    ((S % 2 ^ 64 + res) % 2 ^ 64 + 2 ^ 64 - old) % 2 ^ 64 = (S + res - old) % 2 ^ 64 := by
  omega

/-- The window after one more sample: the new sample joins and, when the ring is full, the
oldest one leaves. -/
theorem window_sum_step (M : Nat) (hM : 0 < M) (hist : List Nat) (res : Nat) :
    ((res :: hist).take (min (hist.length + 1) M)).sum
      = (hist.take (min hist.length M)).sum + res
          - (hist.take (min hist.length M)).getD (M - 1) 0 := by
  by_cases h : hist.length < M
  · have e1 : min (hist.length + 1) M = hist.length + 1 := by omega
    have e2 : min hist.length M = hist.length := by omega
    rw [e1, e2, List.take_succ_cons, List.take_length, List.sum_cons]
    have : hist.getD (M - 1) 0 = 0 := by
      rw [List.getD_eq_getElem?_getD, List.getElem?_eq_none (by omega)]; rfl
    rw [this]; omega
  · have e1 : min (hist.length + 1) M = (M - 1) + 1 := by omega
    have e2 : min hist.length M = (M - 1) + 1 := by omega
    rw [e1, e2, List.take_succ_cons, List.sum_cons, sum_take_succ, getD_take,
      if_pos (by omega)]
    omega

theorem getD_lt_of_forall (l : List Nat) (n B : Nat) (hB : 0 < B) (h : ∀ x ∈ l, x < B) :
    l.getD n 0 < B := by
  rw [List.getD_eq_getElem?_getD]
  rcases hg : l[n]? with _ | y
  · exact hB
  · exact h y (List.getElem?_mem hg)

theorem sum_stop (M : Nat) (pool : timer_pool) (hist : List Nat) (res : Nat)
    (h : RInv M pool hist) (hs : pool.sum = (hist.take pool.sample_count).sum % 2 ^ 64)
    (hh : ∀ x ∈ hist, x < 2 ^ 64) (hres : res ≠ 0) (p : timer_pool)
    (hp : ((timer_pool_start pool).bind fun p1 => timer_pool_stop M p1 res) = some p) :
    p.sum = ((res :: hist).take p.sample_count).sum % 2 ^ 64 := by
  rw [start_stop_eq M pool res h.not_running hres] at hp
  have hp2 := (Option.some.inj hp).symm
  have hM : 0 < M := by have := h.idx; omega
  have hold : pool.samples.getD pool.sample_idx 0
      = (hist.take pool.sample_count).getD (M - 1) 0 := by
    rw [h.ring _ h.idx]
    have : (pool.sample_idx + M - 1 - pool.sample_idx) % M = M - 1 := by
      have e : pool.sample_idx + M - 1 - pool.sample_idx = M - 1 := by omega
      rw [e]; exact Nat.mod_eq_of_lt (by omega)
    rw [this]
  have hlt : (hist.take pool.sample_count).getD (M - 1) 0 < 2 ^ 64 :=
    getD_lt_of_forall _ _ _ (by norm_num) fun x hx => hh x (List.mem_of_mem_take hx)
  rw [hp2]
  simp only []
  rw [hold, hs, mod_add_sub _ _ _ (getD_le_sum _ _) hlt, h.count]
  have e : min (min hist.length M + 1) M = min (hist.length + 1) M := by omega
  rw [e, window_sum_step M hM hist res]

theorem SInv_feed (M : Nat) (rs : List Nat) (hrs : ∀ r ∈ rs, r < 2 ^ 64) :
    ∀ (pool : timer_pool) (hist : List Nat), RInv M pool hist →
      pool.sum = (hist.take pool.sample_count).sum % 2 ^ 64 → (∀ x ∈ hist, x < 2 ^ 64) →
      ∃ p, timer_pool_feed M pool rs = some p ∧ RInv M p ((recorded rs).reverse ++ hist) ∧
        p.sum = (((recorded rs).reverse ++ hist).take p.sample_count).sum % 2 ^ 64 := by
  induction rs with
  | nil => intro pool hist h hs _; exact ⟨pool, rfl, by simpa [recorded] using h,
      by simpa [recorded] using hs⟩
  | cons r t ih =>
    intro pool hist h hs hh
    have ht : ∀ x ∈ t, x < 2 ^ 64 := fun x hx => hrs x (List.mem_cons_of_mem _ hx)
    by_cases hr : r = 0
    · subst hr
      obtain ⟨p, hp, hinv⟩ := RInv_stop_zero M pool hist h
      have hpe : p = { pool with running := false } := by
        have : ((timer_pool_start pool).bind fun p1 => timer_pool_stop M p1 0)
            = some { pool with running := false } := by
          simp [timer_pool_start, timer_pool_stop, h.not_running]
        rw [this] at hp; exact (Option.some.inj hp).symm
      obtain ⟨p2, hp2, hinv2, hs2⟩ := ih ht p hist hinv (by rw [hpe]; exact hs) hh
      refine ⟨p2, ?_, by simpa [recorded] using hinv2, by simpa [recorded] using hs2⟩
      rw [timer_pool_feed, ← Option.bind_assoc] at *
      rw [hp]; exact hp2
    · obtain ⟨p, hp, hinv⟩ := RInv_stop M pool hist r h hr
      have hsp := sum_stop M pool hist r h hs hh hr p hp
      have hh2 : ∀ x ∈ r :: hist, x < 2 ^ 64 := by
        intro x hx
        rcases List.mem_cons.1 hx with e | e
        · rw [e]; exact hrs r (List.mem_cons_self _ _)
        · exact hh x e
      obtain ⟨p2, hp2, hinv2, hs2⟩ := ih ht p (r :: hist) hinv hsp hh2
      have e : (recorded (r :: t)).reverse ++ hist = (recorded t).reverse ++ r :: hist := by
        simp [recorded, List.filter_cons, hr]
      refine ⟨p2, ?_, ?_, ?_⟩
      · rw [timer_pool_feed, ← Option.bind_assoc, hp]; exact hp2
      · rw [e]; exact hinv2
      · rw [e]; exact hs2

/-! ## Timer ring: the snapshot -/

theorem measure_loop_succ (M : Nat) (pool : timer_pool) (n : Nat) :
    measure_loop M pool (n + 1)
      = ((measure_loop M pool n).1.set n
            (pool.samples.getD (Int.tmod (measure_loop M pool n).2 M).toNat 0),
          Int.tmod (measure_loop M pool n).2 M + 1) := by
  simp only [measure_loop, List.range_succ, List.foldl_append, List.foldl_cons, List.foldl_nil]

theorem measure_loop_spec (M : Nat) (pool : timer_pool) (hc : pool.sample_count ≤ M) :
    ∀ n, n ≤ M →
      (measure_loop M pool n).1.length = M ∧
      (∃ k : Nat, (measure_loop M pool n).2 = (k : Int) ∧
        k % M = (pool.sample_idx + M - pool.sample_count + n) % M) ∧
      (∀ i, i < n → (measure_loop M pool n).1.getD i 0
        = pool.samples.getD ((pool.sample_idx + M - pool.sample_count + i) % M) 0) ∧
      (∀ i, n ≤ i → (measure_loop M pool n).1.getD i 0 = 0) := by
  intro n
  induction n with
  | zero =>
    intro _
    refine ⟨by simp [measure_loop], ⟨pool.sample_idx + M - pool.sample_count, ?_, rfl⟩, ?_, ?_⟩
    · simp only [measure_loop, List.range_zero, List.foldl_nil]
      omega
    · intro i hi; omega
    · intro i _
      simp only [measure_loop, List.range_zero, List.foldl_nil, List.getD_eq_getElem?_getD,
        List.getElem?_replicate]
      split <;> rfl
  | succ n ih =>
    intro hn
    obtain ⟨hlen, ⟨k, hk, hkm⟩, hlo, hhi⟩ := ih (by omega)
    rw [measure_loop_succ, hk]
    have e1 : Int.tmod (k : Int) (M : Int) = ((k % M : Nat) : Int) := (Int.ofNat_tmod k M).symm
    rw [e1, Int.toNat_ofNat]
    refine ⟨by simp [hlen], ⟨k % M + 1, by push_cast; rfl, ?_⟩, ?_, ?_⟩
    · rw [Nat.add_mod, Nat.mod_mod, ← Nat.add_mod, ← Nat.add_assoc, Nat.add_mod, hkm,
        ← Nat.add_mod]
    · intro i hi
      simp only [List.getD_eq_getElem?_getD, List.getElem?_set]
      by_cases hin : n = i
      · subst hin
        rw [if_pos rfl, if_pos (by omega), hkm]; rfl
      · rw [if_neg hin, ← List.getD_eq_getElem?_getD, ← List.getD_eq_getElem?_getD]
        exact hlo i (by omega)
    · intro i hi
      simp only [List.getD_eq_getElem?_getD, List.getElem?_set]
      rw [if_neg (by omega), ← List.getD_eq_getElem?_getD]
      exact hhi i (by omega)

/-- The ring position the copy loop reads in iteration `i` holds the sample that is
`count - 1 - i` places behind the newest one. -/
theorem measure_index (M idx count i : Nat) (hidx : idx < M) (hc : count ≤ M) (hi : i < count) :
    (idx + M - count + i) % M < M ∧
    (idx + M - 1 - (idx + M - count + i) % M) % M = count - 1 - i := by
  have hM : 0 < M := by omega
  refine ⟨Nat.mod_lt _ hM, ?_⟩
  rw [mod_two M (idx + M - count + i) (by omega)]
  have hlt : idx + M - 1 - (if idx + M - count + i < M then idx + M - count + i
      else idx + M - count + i - M) < 2 * M := by
    split <;> omega
  rw [mod_two M _ hlt]
  split_ifs <;> omega

theorem measure_samples (M : Nat) (pool : timer_pool) (hist : List Nat) (h : RInv M pool hist) :
    (timer_pool_measure M pool).1.samples.take pool.sample_count
      = (hist.take pool.sample_count).reverse := by
  have hc : pool.sample_count ≤ M := by rw [h.count]; omega
  obtain ⟨hlen, _, hlo, _⟩ := measure_loop_spec M pool hc pool.sample_count hc
  have hs : (timer_pool_measure M pool).1.samples
      = (measure_loop M pool pool.sample_count).1 := by
    unfold timer_pool_measure; split <;> rfl
  have hl2 : (hist.take pool.sample_count).length = pool.sample_count := by
    rw [List.length_take, h.count]; omega
  rw [hs]
  apply List.ext_getElem
  · rw [List.length_take, List.length_reverse, hl2, hlen]; omega
  · intro i h1 h2
    rw [List.length_reverse, hl2] at h2
    have := hlo i h2
    rw [List.getD_eq_getElem?_getD, List.getElem?_eq_getElem (by omega),
      Option.getD_some] at this
    rw [List.getElem_take, this, List.getElem_reverse]
    obtain ⟨e1, e2⟩ := measure_index M pool.sample_idx pool.sample_count i h.idx hc h2
    rw [h.ring _ e1, e2, List.getD_eq_getElem?_getD, List.getElem?_eq_getElem (by omega),
      Option.getD_some]
    congr 1
    rw [hl2]

theorem recorded_of_valid (rs : List Nat) (hv : ∀ r ∈ rs, r ≠ 0) : recorded rs = rs := by
  unfold recorded
  rw [List.filter_eq_self]
  intro r hr
  simpa using hv r hr

theorem list_max_reverse (l : List Nat) : list_max l.reverse = list_max l := by
  apply list_max_congr
  · intro x hx; right; exact List.mem_reverse.1 hx
  · intro x hx; right; exact List.mem_reverse.2 hx

theorem stop_sum (M : Nat) (pool : timer_pool) (res : Nat) (hrun : pool.running = true)
    (hres : res ≠ 0) (hold : pool.samples.getD pool.sample_idx 0 < 2 ^ 64) :
    ∃ p, timer_pool_stop M pool res = some p ∧
      p.samples = pool.samples.set pool.sample_idx res ∧
      (p.sum : Int)
        = ((pool.sum : Int) + res - pool.samples.getD pool.sample_idx 0) % 2 ^ 64 := by
  refine ⟨_, by simp only [timer_pool_stop, hrun, hres]; rfl, rfl, ?_⟩
  simp only []
  push_cast
  omega

theorem calls_isSome (M : Nat) (cs : List timer_call) :
    ∀ pool : timer_pool, (timer_pool_calls M pool cs).isSome = true ↔
      ∀ i (h : i < cs.length),
        (cs.get ⟨i, h⟩).is_start = (if i % 2 = 0 then !pool.running else pool.running) := by
  induction cs with
  | nil => intro pool; simp [timer_pool_calls]
  | cons c t ih =>
    intro pool
    have hstep : ∀ p, timer_pool_call M pool c = some p → p.running = !pool.running := by
      intro p hp
      cases c with
      | start =>
        simp only [timer_pool_call, timer_pool_start] at hp
        split at hp
        · cases hp
        · cases hp; simp_all
      | stop res =>
        simp only [timer_pool_call, timer_pool_stop] at hp
        split at hp
        · cases hp
        · split at hp <;> (cases hp; simp_all)
    have hok : (timer_pool_call M pool c).isSome = true ↔ c.is_start = !pool.running := by
      cases c with
      | start =>
        simp only [timer_pool_call, timer_pool_start, timer_call.is_start]
        cases pool.running <;> simp
      | stop res =>
        simp only [timer_pool_call, timer_pool_stop, timer_call.is_start]
        cases pool.running <;> simp
        split <;> simp
    constructor
    · intro h i hi
      rw [timer_pool_calls] at h
      rcases hc : timer_pool_call M pool c with _ | p
      · rw [hc] at h; simp at h
      · rw [hc] at h
        simp only [Option.some_bind] at h
        cases i with
        | zero =>
          simp only [List.get_eq_getElem, List.getElem_cons_zero, Nat.zero_mod, if_true]
          exact hok.1 (by rw [hc]; rfl)
        | succ j =>
          have := (ih p).1 h j (by simpa using hi)
          simp only [List.get_eq_getElem, List.getElem_cons_succ] at this ⊢
          rw [this, hstep p hc]
          by_cases hj : j % 2 = 0
          · have : (j + 1) % 2 ≠ 0 := by omega
            simp [hj, this]
          · have : (j + 1) % 2 = 0 := by omega
            simp [hj, this]
    · intro h
      have h0 := h 0 (by simp)
      simp only [List.get_eq_getElem, List.getElem_cons_zero, Nat.zero_mod, if_true] at h0
      have hs := hok.2 h0
      rcases hc : timer_pool_call M pool c with _ | p
      · rw [hc] at hs; simp at hs
      · rw [timer_pool_calls, hc]
        simp only [Option.some_bind]
        apply (ih p).2
        intro j hj
        have := h (j + 1) (by simpa using hj)
        simp only [List.get_eq_getElem, List.getElem_cons_succ] at this ⊢
        rw [this, hstep p hc]
        by_cases hj2 : j % 2 = 0
        · have : (j + 1) % 2 ≠ 0 := by omega
          simp [hj2, this]
        · have : (j + 1) % 2 = 0 := by omega
          simp [hj2, this]

/-! ## Timer ring: the indices stay inside the array -/

theorem bounds_step (M : Nat) (hM : 0 < M) (p p2 : timer_pool) (hs : TmStep M p p2)
    (h : p.samples.length = M ∧ p.sample_idx < M ∧ p.sample_count ≤ M) :
    p2.samples.length = M ∧ p2.sample_idx < M ∧ p2.sample_count ≤ M := by
  cases hs
  case start hst =>
    unfold timer_pool_start at hst
    split at hst
    · cases hst
    · cases hst; exact h
  case stop res hst =>
    unfold timer_pool_stop at hst
    split at hst
    · cases hst
    · split at hst
      · cases hst; exact h
      · cases hst
        exact ⟨by simp [h.1], Nat.mod_lt _ hM, Nat.min_le_right _ _⟩
  case measure =>
    have : (timer_pool_measure M p).2 = p := by
      unfold timer_pool_measure; split <;> rfl
    rw [this]; exact h

theorem bounds_reach (M : Nat) (hM : 0 < M) (p : timer_pool) (h : TmReach M p) :
    p.samples.length = M ∧ p.sample_idx < M ∧ p.sample_count ≤ M := by
  induction h with
  | refl => exact ⟨by simp [timer_pool_create], hM, Nat.zero_le _⟩
  | tail _ hs ih => exact bounds_step M hM _ _ hs ih


/-! ## Buffer pool -/

theorem foldl_buf_free (l : List ra_buf) (r : ra) :
    l.foldl ra_buf_free r = { r with freed := r.freed ++ l } := by
  induction l generalizing r with
  | nil => simp
  | cons a t ih => rw [List.foldl_cons, ih]; simp [ra_buf_free]

theorem reshape_compatible (r : ra) (pool : ra_buf_pool) (params : ra_buf_params)
    (h : ra_buf_params_compatible params pool.current_params = true) :
    ra_buf_pool_reshape r pool params = (r, pool) := by
  simp [ra_buf_pool_reshape, h]

theorem reshape_incompatible (r : ra) (pool : ra_buf_pool) (params : ra_buf_params)
    (h : ra_buf_params_compatible params pool.current_params = false) :
    ra_buf_pool_reshape r pool params
      = ({ r with freed := r.freed ++ pool.buffers },
          { buffers := [], index := 0, current_params := params }) := by
  simp [ra_buf_pool_reshape, h, ra_buf_pool_uninit, foldl_buf_free, ra_buf_pool_zero]

theorem grow_ok (create_ok : Nat → Bool) (r : ra) (pool : ra_buf_pool)
    (h : create_ok r.created = true) :
    ra_buf_pool_grow create_ok r pool
      = (true, { r with created := r.created + 1 },
          { pool with buffers := pool.buffers.take pool.index ++
              r.created :: pool.buffers.drop pool.index }) := by
  simp [ra_buf_pool_grow, ra_buf_create, h, MP_TARRAY_INSERT_AT]

theorem grow_fail (create_ok : Nat → Bool) (r : ra) (pool : ra_buf_pool)
    (h : create_ok r.created = false) :
    ra_buf_pool_grow create_ok r pool = (false, r, pool) := by
  simp [ra_buf_pool_grow, ra_buf_create, h]

/-- What a call of `ra_buf_pool_grow` keeps and what it adds. -/
theorem grow_spec (create_ok : Nat → Bool) (r : ra) (pool : ra_buf_pool) :
    (ra_buf_pool_grow create_ok r pool).2.1.freed = r.freed ∧
    r.created ≤ (ra_buf_pool_grow create_ok r pool).2.1.created ∧
    (ra_buf_pool_grow create_ok r pool).2.2.index = pool.index ∧
    (ra_buf_pool_grow create_ok r pool).2.2.current_params = pool.current_params ∧
    (∀ b : Nat, b ∈ pool.buffers → b ∈ (ra_buf_pool_grow create_ok r pool).2.2.buffers) ∧
    (∀ b : Nat, b ∈ (ra_buf_pool_grow create_ok r pool).2.2.buffers →
      b ∈ pool.buffers ∨
        (r.created ≤ b ∧ b < (ra_buf_pool_grow create_ok r pool).2.1.created)) ∧
    ((ra_buf_pool_grow create_ok r pool).1 = true →
      pool.index ≤ pool.buffers.length →
      (ra_buf_pool_grow create_ok r pool).2.2.index
        < (ra_buf_pool_grow create_ok r pool).2.2.buffers.length) ∧
    ((ra_buf_pool_grow create_ok r pool).1 = false →
      (ra_buf_pool_grow create_ok r pool).2.2 = pool) := by
  rcases hc : create_ok r.created with _ | _
  · rw [grow_fail create_ok r pool hc]
    exact ⟨rfl, Nat.le_refl _, rfl, rfl, fun _ h => h, fun _ h => Or.inl h, by simp, by simp⟩
  · rw [grow_ok create_ok r pool hc]
    refine ⟨rfl, by simp, rfl, rfl, ?_, ?_, ?_, by simp⟩
    · intro b hb
      have := List.take_append_drop pool.index pool.buffers
      rw [← this] at hb
      simp only [List.mem_append, List.mem_cons] at hb ⊢
      tauto
    · intro b hb
      simp only [List.mem_append, List.mem_cons] at hb
      rcases hb with h | h | h
      · left; exact List.mem_of_mem_take h
      · right; subst h; simp
      · left; exact List.mem_of_mem_drop h
    · intro _ hi
      simp only [List.length_append, List.length_take, List.length_cons, List.length_drop]
      omega

theorem ensure_spec (create_ok : Nat → Bool) (r : ra) (pool : ra_buf_pool) :
    (ra_buf_pool_ensure create_ok r pool).2.1.freed = r.freed ∧
    r.created ≤ (ra_buf_pool_ensure create_ok r pool).2.1.created ∧
    (ra_buf_pool_ensure create_ok r pool).2.2.index = pool.index ∧
    (ra_buf_pool_ensure create_ok r pool).2.2.current_params = pool.current_params ∧
    (∀ b : Nat, b ∈ pool.buffers → b ∈ (ra_buf_pool_ensure create_ok r pool).2.2.buffers) ∧
    (∀ b : Nat, b ∈ (ra_buf_pool_ensure create_ok r pool).2.2.buffers →
      b ∈ pool.buffers ∨
        (r.created ≤ b ∧ b < (ra_buf_pool_ensure create_ok r pool).2.1.created)) ∧
    ((ra_buf_pool_ensure create_ok r pool).1 = true → buf_pool_shape pool →
      (ra_buf_pool_ensure create_ok r pool).2.2.index
        < (ra_buf_pool_ensure create_ok r pool).2.2.buffers.length) ∧
    ((ra_buf_pool_ensure create_ok r pool).1 = false →
      (ra_buf_pool_ensure create_ok r pool).2.2 = pool) := by
  unfold ra_buf_pool_ensure
  split
  · next he =>
    obtain ⟨h1, h2, h3, h4, h5, h6, h7, h8⟩ := grow_spec create_ok r pool
    refine ⟨h1, h2, h3, h4, h5, h6, fun hf hs => h7 hf ?_, h8⟩
    rcases hs with hs | ⟨_, hs⟩ <;> omega
  · next he =>
    refine ⟨rfl, Nat.le_refl _, rfl, rfl, fun _ h => h, fun _ h => Or.inl h, ?_, by simp⟩
    intro _ hs
    rcases hs with hs | ⟨hs, _⟩
    · exact hs
    · rw [hs] at he; simp at he

theorem free_next_spec (create_ok : Nat → Bool) (buf_poll : ra_buf → Bool) (r : ra)
    (pool : ra_buf_pool) :
    (ra_buf_pool_free_next create_ok buf_poll r pool).2.1.freed = r.freed ∧
    r.created ≤ (ra_buf_pool_free_next create_ok buf_poll r pool).2.1.created ∧
    (ra_buf_pool_free_next create_ok buf_poll r pool).2.2.index = pool.index ∧
    (ra_buf_pool_free_next create_ok buf_poll r pool).2.2.current_params
      = pool.current_params ∧
    (∀ b : Nat, b ∈ pool.buffers →
      b ∈ (ra_buf_pool_free_next create_ok buf_poll r pool).2.2.buffers) ∧
    (∀ b : Nat, b ∈ (ra_buf_pool_free_next create_ok buf_poll r pool).2.2.buffers →
      b ∈ pool.buffers ∨
        (r.created ≤ b ∧ b < (ra_buf_pool_free_next create_ok buf_poll r pool).2.1.created)) ∧
    ((ra_buf_pool_free_next create_ok buf_poll r pool).1 = true →
      pool.index < pool.buffers.length →
      (ra_buf_pool_free_next create_ok buf_poll r pool).2.2.index
        < (ra_buf_pool_free_next create_ok buf_poll r pool).2.2.buffers.length) ∧
    ((ra_buf_pool_free_next create_ok buf_poll r pool).1 = false →
      (ra_buf_pool_free_next create_ok buf_poll r pool).2.2 = pool) := by
  unfold ra_buf_pool_free_next
  split
  · obtain ⟨h1, h2, h3, h4, h5, h6, h7, h8⟩ := grow_spec create_ok r pool
    exact ⟨h1, h2, h3, h4, h5, h6, fun hf hs => h7 hf (by omega), h8⟩
  · exact ⟨rfl, Nat.le_refl _, rfl, rfl, fun _ h => h, fun _ h => Or.inl h,
      fun _ hs => hs, by simp⟩

theorem next_spec (r : ra) (pool : ra_buf_pool) (h : pool.index < pool.buffers.length) :
    (∀ b, (ra_buf_pool_next r pool).1 = some b → b ∈ pool.buffers) ∧
    buf_pool_shape (ra_buf_pool_next r pool).2.2 := by
  constructor
  · intro b hb
    simp only [ra_buf_pool_next, Option.some.injEq] at hb
    rw [← hb, List.getD_eq_getElem?_getD, List.getElem?_eq_getElem h, Option.getD_some]
    exact List.getElem_mem h
  · left
    simp only [ra_buf_pool_next]
    exact Nat.mod_lt _ (by omega)

/-- What every call of `ra_buf_pool_get` keeps, relative to the pool after the first
block. -/
theorem get_spec (create_ok : Nat → Bool) (buf_poll : ra_buf → Bool) (r : ra)
    (pool : ra_buf_pool) (params : ra_buf_params) (hd : params.initial_data = false) :
    ∃ res r2 p2, ra_buf_pool_get create_ok buf_poll r pool params = some (res, r2, p2) ∧
      r2.freed = (ra_buf_pool_reshape r pool params).1.freed ∧
      (ra_buf_pool_reshape r pool params).1.created ≤ r2.created ∧
      p2.current_params = (ra_buf_pool_reshape r pool params).2.current_params ∧
      (∀ b : Nat, b ∈ (ra_buf_pool_reshape r pool params).2.buffers → b ∈ p2.buffers) ∧
      (∀ b : Nat, b ∈ p2.buffers → b ∈ (ra_buf_pool_reshape r pool params).2.buffers ∨
        ((ra_buf_pool_reshape r pool params).1.created ≤ b ∧ b < r2.created)) ∧
      (buf_pool_shape (ra_buf_pool_reshape r pool params).2 →
        buf_pool_shape p2 ∧ ∀ b, res = some b → b ∈ p2.buffers) := by
  unfold ra_buf_pool_get
  rw [hd]
  simp only [Bool.false_eq_true, if_false]
  generalize ra_buf_pool_reshape r pool params = s1
  obtain ⟨a1, a2, a3, a4, a5, a6, a7, a8⟩ := ensure_spec create_ok s1.1 s1.2
  rcases h2 : (ra_buf_pool_ensure create_ok s1.1 s1.2).1 with _ | _
  · refine ⟨none, (ra_buf_pool_ensure create_ok s1.1 s1.2).2.1,
      (ra_buf_pool_ensure create_ok s1.1 s1.2).2.2, by simp, a1, a2, a4, a5, a6, ?_⟩
    intro hs
    rw [a8 h2]
    exact ⟨hs, by simp⟩
  · simp only [Bool.not_true, Bool.false_eq_true, if_false]
    generalize ra_buf_pool_ensure create_ok s1.1 s1.2 = s2 at *
    obtain ⟨b1, b2, b3, b4, b5, b6, b7, b8⟩ := free_next_spec create_ok buf_poll s2.2.1 s2.2.2
    have hnew : ∀ (b : Nat) (r3 : Nat), s2.2.1.created ≤ r3 →
        (b ∈ s2.2.2.buffers ∨ (s2.2.1.created ≤ b ∧ b < r3)) →
        b ∈ s1.2.buffers ∨ (s1.1.created ≤ b ∧ b < r3) := by
      intro b r3 hr h
      rcases h with h | ⟨h, h'⟩
      · rcases a6 b h with h | ⟨h, h'⟩
        · exact Or.inl h
        · exact Or.inr ⟨h, by omega⟩
      · exact Or.inr ⟨by omega, h'⟩
    rcases h3 : (ra_buf_pool_free_next create_ok buf_poll s2.2.1 s2.2.2).1 with _ | _
    · refine ⟨none, (ra_buf_pool_free_next create_ok buf_poll s2.2.1 s2.2.2).2.1,
        (ra_buf_pool_free_next create_ok buf_poll s2.2.1 s2.2.2).2.2, by simp,
        by rw [b1, a1], by omega, by rw [b4, a4], fun b hb => b5 b (a5 b hb),
        fun b hb => hnew b _ b2 (b6 b hb), ?_⟩
      intro hs
      rw [b8 h3]
      exact ⟨Or.inl (a7 h2 hs), by simp⟩
    · simp only [Bool.not_true, Bool.false_eq_true, if_false]
      generalize ra_buf_pool_free_next create_ok buf_poll s2.2.1 s2.2.2 = s3 at *
      refine ⟨(ra_buf_pool_next s3.2.1 s3.2.2).1, s3.2.1, (ra_buf_pool_next s3.2.1 s3.2.2).2.2,
        rfl, by rw [b1, a1], by omega, ?_, ?_, ?_, ?_⟩
      · show s3.2.2.current_params = _
        rw [b4, a4]
      · intro b hb
        exact b5 b (a5 b hb)
      · intro b hb
        exact hnew b _ b2 (b6 b hb)
      · intro hs
        have hlt := b7 h3 (a7 h2 hs)
        obtain ⟨n1, n2⟩ := next_spec s3.2.1 s3.2.2 hlt
        exact ⟨n2, n1⟩

theorem reshape_shape (r : ra) (pool : ra_buf_pool) (params : ra_buf_params)
    (h : buf_pool_shape pool) : buf_pool_shape (ra_buf_pool_reshape r pool params).2 := by
  rcases hc : ra_buf_params_compatible params pool.current_params with _ | _
  · rw [reshape_incompatible r pool params hc]
    exact Or.inr ⟨rfl, rfl⟩
  · rw [reshape_compatible r pool params hc]
    exact h

theorem get_free (create_ok : Nat → Bool) (buf_poll : ra_buf → Bool) (r : ra)
    (pool : ra_buf_pool) (params : ra_buf_params) (hd : params.initial_data = false)
    (hc : ra_buf_params_compatible params pool.current_params = true)
    (hi : pool.index < pool.buffers.length)
    (hfree : buf_poll (pool.buffers.getD pool.index 0) = true) :
    ra_buf_pool_get create_ok buf_poll r pool params
      = some (some (pool.buffers.getD pool.index 0), r,
          { pool with index := (pool.index + 1) % pool.buffers.length }) := by
  have hne : pool.buffers.isEmpty = false := by
    rcases hb : pool.buffers with _ | ⟨a, t⟩
    · rw [hb] at hi; simp at hi
    · rfl
  have e1 : ra_buf_pool_ensure create_ok r pool = (true, r, pool) := by
    simp [ra_buf_pool_ensure, hne]
  have e2 : ra_buf_pool_free_next create_ok buf_poll r pool = (true, r, pool) := by
    unfold ra_buf_pool_free_next
    rw [hfree]; rfl
  simp only [ra_buf_pool_get, hd, reshape_compatible r pool params hc, e1, e2,
    ra_buf_pool_next, Bool.false_eq_true, if_false, Bool.not_true]

theorem get_busy (create_ok : Nat → Bool) (buf_poll : ra_buf → Bool) (r : ra)
    (pool : ra_buf_pool) (params : ra_buf_params) (hd : params.initial_data = false)
    (hc : ra_buf_params_compatible params pool.current_params = true)
    (hi : pool.index < pool.buffers.length)
    (hbusy : buf_poll (pool.buffers.getD pool.index 0) = false)
    (hok : create_ok r.created = true) :
    ra_buf_pool_get create_ok buf_poll r pool params
      = some (some r.created, { r with created := r.created + 1 },
          { pool with
            buffers := pool.buffers.take pool.index ++ r.created :: pool.buffers.drop pool.index,
            index := pool.index + 1 }) := by
  have hne : pool.buffers.isEmpty = false := by
    rcases hb : pool.buffers with _ | ⟨a, t⟩
    · rw [hb] at hi; simp at hi
    · rfl
  have hlen : (pool.buffers.take pool.index).length = pool.index := by
    rw [List.length_take]; omega
  have hget : (pool.buffers.take pool.index ++ r.created :: pool.buffers.drop pool.index).getD
      pool.index 0 = r.created := by
    rw [List.getD_eq_getElem?_getD, List.getElem?_append_right (by omega), hlen]
    simp
  have hmod : (pool.index + 1) % (pool.index + (pool.buffers.length - pool.index + 1))
      = pool.index + 1 := Nat.mod_eq_of_lt (by omega)
  have e1 : ra_buf_pool_ensure create_ok r pool = (true, r, pool) := by
    simp [ra_buf_pool_ensure, hne]
  have e2 : ra_buf_pool_free_next create_ok buf_poll r pool
      = ra_buf_pool_grow create_ok r pool := by
    unfold ra_buf_pool_free_next
    rw [hbusy]; rfl
  simp only [ra_buf_pool_get, hd, reshape_compatible r pool params hc, e1, e2,
    grow_ok create_ok r pool hok, ra_buf_pool_next, hget,
    Bool.false_eq_true, if_false, Bool.not_true,
    List.length_append, List.length_cons, List.length_drop, hlen, hmod]

theorem gets_shape (qs : List buf_request) :
    ∀ (r : ra) (pool : ra_buf_pool), buf_pool_shape pool →
      ∀ res r2 p2, ra_buf_pool_gets r pool qs = some (res, r2, p2) → buf_pool_shape p2 := by
  induction qs with
  | nil =>
    intro r pool h res r2 p2 he
    simp only [ra_buf_pool_gets, Option.some.injEq, Prod.mk.injEq] at he
    rw [← he.2.2]; exact h
  | cons q t ih =>
    intro r pool h res r2 p2 he
    rw [ra_buf_pool_gets] at he
    rcases hg : ra_buf_pool_get q.create_ok q.buf_poll r pool q.params with _ | s
    · rw [hg] at he; simp at he
    · rw [hg] at he
      simp only [Option.some_bind, Option.map_eq_some'] at he
      obtain ⟨t2, ht2, he2⟩ := he
      have hdq : q.params.initial_data = false := by
        by_contra hne
        simp [ra_buf_pool_get, hne] at hg
      obtain ⟨res1, r1, p1, e1, _, _, _, _, _, hs⟩ :=
        get_spec q.create_ok q.buf_poll r pool q.params hdq
      rw [e1] at hg
      have hs1 : buf_pool_shape s.2.2 := by
        rw [← Option.some.inj hg]
        exact (hs (reshape_shape r pool q.params h)).1
      simp only [Prod.mk.injEq] at he2
      exact ih s.2.1 s.2.2 hs1 t2.1 r2 p2
        (by rw [ht2]; exact congrArg some (Prod.ext rfl he2.2))

theorem range_map_rotate (l : List Nat) (i : Nat) :
    (List.range l.length).map (fun j => l.getD ((i + j) % l.length) 0) = l.rotate i := by
  apply List.ext_getElem
  · simp
  · intro k h1 h2
    simp only [List.length_map, List.length_range] at h1
    rw [List.getElem_map, List.getElem_range, List.getElem_rotate,
      List.getD_eq_getElem?_getD, List.getElem?_eq_getElem (Nat.mod_lt _ (by omega)),
      Option.getD_some]
    congr 1
    rw [Nat.add_comm]

theorem gets_free (qs : List buf_request) :
    ∀ (r : ra) (pool : ra_buf_pool), pool.index < pool.buffers.length →
      (∀ q ∈ qs, q.params.initial_data = false ∧
        ra_buf_params_compatible q.params pool.current_params = true ∧
        ∀ b ∈ pool.buffers, q.buf_poll b = true) →
      ra_buf_pool_gets r pool qs
        = some ((List.range qs.length).map
              (fun j => some (pool.buffers.getD ((pool.index + j) % pool.buffers.length) 0)),
            r, { pool with index := (pool.index + qs.length) % pool.buffers.length }) := by
  induction qs with
  | nil =>
    intro r pool hi _
    simp [ra_buf_pool_gets, Nat.mod_eq_of_lt hi]
  | cons q t ih =>
    intro r pool hi hq
    obtain ⟨hd, hc, hp⟩ := hq q (List.mem_cons_self _ _)
    have hmem : pool.buffers.getD pool.index 0 ∈ pool.buffers := by
      rw [List.getD_eq_getElem?_getD, List.getElem?_eq_getElem hi, Option.getD_some]
      exact List.getElem_mem hi
    rw [ra_buf_pool_gets, get_free q.create_ok q.buf_poll r pool q.params hd hc hi (hp _ hmem)]
    simp only [Option.some_bind]
    rw [ih r { pool with index := (pool.index + 1) % pool.buffers.length }
      (Nat.mod_lt _ (by omega)) (fun q2 h2 => hq q2 (List.mem_cons_of_mem _ h2))]
    simp only [Option.map_some', List.length_cons, List.range_succ_eq_map, List.map_cons,
      List.map_map, Nat.add_zero, Nat.mod_eq_of_lt hi, Option.some.injEq, Prod.mk.injEq,
      List.cons.injEq, true_and]
    refine ⟨?_, ?_⟩
    · apply List.map_congr_left
      intro j _
      simp only [Function.comp, Nat.succ_eq_add_one]
      congr 2
      rw [Nat.add_mod, Nat.mod_mod, ← Nat.add_mod]
      congr 1; omega
    · congr 1
      rw [Nat.add_mod, Nat.mod_mod, ← Nat.add_mod]
      congr 1; omega


/-! ## Texture pool -/

theorem entry_store (pool : ra_tex_pool) (e x : Nat) (en : ra_tex_entry) :
    (pool.store e en).entry x
      = if x = e ∧ e < pool.mem.length then en else pool.entry x := by
  simp only [ra_tex_pool.store, ra_tex_pool.entry, List.getD_eq_getElem?_getD,
    List.getElem?_set]
  by_cases hx : e = x
  · subst hx
    by_cases hl : e < pool.mem.length
    · simp [hl]
    · simp [hl, List.getElem?_eq_none (Nat.le_of_not_lt hl)]
  · have : ¬ (x = e ∧ e < pool.mem.length) := fun h => hx h.1.symm
    rw [if_neg hx, if_neg this]

theorem store_avail (pool : ra_tex_pool) (e : Nat) (en : ra_tex_entry) :
    (pool.store e en).avail = pool.avail := rfl

theorem store_freed (pool : ra_tex_pool) (e : Nat) (en : ra_tex_entry) :
    (pool.store e en).freed = pool.freed := rfl

theorem store_length (pool : ra_tex_pool) (e : Nat) (en : ra_tex_entry) :
    (pool.store e en).mem.length = pool.mem.length := by
  simp [ra_tex_pool.store]

theorem eraseIdx_split (pre suf : List Nat) (e : Nat) :
    (pre ++ e :: suf).eraseIdx pre.length = pre ++ suf := by
  induction pre with
  | nil => rfl
  | cons a t ih => simp [ih]

theorem getD_split (pre suf : List Nat) (e : Nat) :
    (pre ++ e :: suf).getD pre.length 0 = e := by
  induction pre with
  | nil => rfl
  | cons a t ih => simpa using ih

/-- The scan depends on the pool through the test only. -/
theorem scan_congr (p q : ra_tex_pool) (w h : Int) (l : List Nat) (i : Nat)
    (hm : ∀ x ∈ l, tex_match p w h x = tex_match q w h x) :
    tex_scan p w h l i = tex_scan q w h l i := by
  induction l generalizing i with
  | nil => rfl
  | cons a t ih =>
    simp only [tex_scan]
    rw [hm a (List.mem_cons_self _ _), ih (i + 1) fun x hx => hm x (List.mem_cons_of_mem _ hx)]

theorem scan_none (p : ra_tex_pool) (w h : Int) (l : List Nat) (i : Nat) :
    tex_scan p w h l i = none ↔ ∀ x ∈ l, tex_match p w h x = false := by
  induction l generalizing i with
  | nil => simp [tex_scan]
  | cons a t ih =>
    simp only [tex_scan, List.mem_cons, forall_eq_or_imp]
    rcases hm : tex_match p w h a with _ | _
    · simp [ih (i + 1)]
    · simp

theorem scan_of_split (p : ra_tex_pool) (w h : Int) (pre suf : List Nat) (e i : Nat)
    (hpre : ∀ x ∈ pre, tex_match p w h x = false) (he : tex_match p w h e = true) :
    tex_scan p w h (pre ++ e :: suf) i = some (i + pre.length) := by
  induction pre generalizing i with
  | nil => simp [tex_scan, he]
  | cons a t ih =>
    rw [List.cons_append, tex_scan, hpre a (List.mem_cons_self _ _)]
    simp only [Bool.false_eq_true, if_false]
    rw [ih (i + 1) fun x hx => hpre x (List.mem_cons_of_mem _ hx)]
    simp only [List.length_cons]
    congr 1; omega

/-- A list with an entry that passes the test splits at the first such entry. -/
theorem first_match (p : ra_tex_pool) (w h : Int) (l : List Nat)
    (hex : ∃ x ∈ l, tex_match p w h x = true) :
    ∃ pre e suf, l = pre ++ e :: suf ∧ (∀ x ∈ pre, tex_match p w h x = false) ∧
      tex_match p w h e = true := by
  induction l with
  | nil => obtain ⟨x, hx, _⟩ := hex; simp at hx
  | cons a t ih =>
    rcases hm : tex_match p w h a with _ | _
    · obtain ⟨x, hx, hxm⟩ := hex
      rcases List.mem_cons.1 hx with e | e
      · rw [e, hm] at hxm; cases hxm
      · obtain ⟨pre, e2, suf, h1, h2, h3⟩ := ih ⟨x, e, hxm⟩
        refine ⟨a :: pre, e2, suf, by rw [h1]; rfl, ?_, h3⟩
        intro y hy
        rcases List.mem_cons.1 hy with e | e
        · rw [e]; exact hm
        · exact h2 y e
    · exact ⟨[], a, t, rfl, by simp, hm⟩

theorem get_hit (ok : Bool) (pool : ra_tex_pool) (w h : Int) (pre suf : List Nat) (e : Nat)
    (hs : pool.avail = pre ++ e :: suf) (hpre : ∀ x ∈ pre, tex_match pool w h x = false)
    (he : tex_match pool w h e = true) :
    ra_tex_pool_get ok pool w h
      = some (e, ({ pool with avail := pre ++ suf }).store e { pool.entry e with refs := 1 }) := by
  unfold ra_tex_pool_get
  rw [hs, scan_of_split pool w h pre suf e 0 hpre he]
  simp only [Nat.zero_add, getD_split, MP_TARRAY_REMOVE_AT, eraseIdx_split]

theorem get_miss (pool : ra_tex_pool) (w h : Int)
    (hno : ∀ x ∈ pool.avail, tex_match pool w h x = false) :
    ra_tex_pool_get true pool w h
      = some (pool.mem.length,
          { pool with mem := pool.mem ++ [{ w := w, h := h, age := 0, refs := 1 }] }) ∧
    ra_tex_pool_get false pool w h = none := by
  unfold ra_tex_pool_get
  rw [(scan_none pool w h pool.avail 0).2 hno]
  simp

theorem tex_old_eq (pool : ra_tex_pool) (e : Nat) :
    tex_old pool.mem e = decide ((pool.entry e).age + 1 > RA_TEX_ENTRY_MAX_AGE) := rfl

theorem gc_loop_step (fuel i : Nat) (pool : ra_tex_pool) (pre suf : List Nat) (e : Nat)
    (hs : pool.avail = pre ++ e :: suf) (hi : i = pre.length) (he : e < pool.mem.length) :
    gc_loop (fuel + 1) i pool
      = if tex_old pool.mem e then
          gc_loop fuel i { mem := (pool.store e (pool.entry e).older).mem,
                           avail := pre ++ suf, freed := pool.freed ++ [e] }
        else gc_loop fuel (i + 1) (pool.store e (pool.entry e).older) := by
  have hlt : i < pool.avail.length := by rw [hs, hi]; simp
  have hget : pool.avail.getD i 0 = e := by rw [hs, hi, getD_split]
  have hage : ((pool.store e (pool.entry e).older).entry e).age = (pool.entry e).age + 1 := by
    rw [entry_store, if_pos ⟨rfl, he⟩]; rfl
  rw [gc_loop, if_pos hlt]
  simp only [hget]
  have hst : pool.store e { pool.entry e with age := (pool.entry e).age + 1 }
      = pool.store e (pool.entry e).older := rfl
  rw [hst, hage, tex_old_eq]
  by_cases hold : (pool.entry e).age + 1 > RA_TEX_ENTRY_MAX_AGE
  · rw [if_pos hold, if_pos (by simpa using hold)]
    congr 1
    simp only [store_avail, store_freed, hs, hi, MP_TARRAY_REMOVE_AT, eraseIdx_split]
  · rw [if_neg hold, if_neg (by simpa using hold)]

theorem gc_loop_spec (suf : List Nat) :
    ∀ (pre : List Nat) (pool : ra_tex_pool) (fuel : Nat), pool.avail = pre ++ suf →
      suf.Nodup → (∀ e ∈ suf, e < pool.mem.length) → suf.length ≤ fuel →
      (gc_loop fuel pre.length pool).avail
        = pre ++ suf.filter (fun e => !tex_old pool.mem e) ∧
      (gc_loop fuel pre.length pool).freed = pool.freed ++ suf.filter (tex_old pool.mem) ∧
      (gc_loop fuel pre.length pool).mem.length = pool.mem.length ∧
      ∀ x, (gc_loop fuel pre.length pool).entry x
        = if x ∈ suf then (pool.entry x).older else pool.entry x := by
  induction suf with
  | nil =>
    intro pre pool fuel hs _ _ _
    have hp : gc_loop fuel pre.length pool = pool := by
      cases fuel with
      | zero => rfl
      | succ f => rw [gc_loop, if_neg (by rw [hs]; simp)]
    rw [hp]
    simp [hs]
  | cons e t ih =>
    intro pre pool fuel hs hnd hin hfuel
    obtain ⟨f, rfl⟩ : ∃ f, fuel = f + 1 := ⟨fuel - 1, by simp at hfuel; omega⟩
    have he : e < pool.mem.length := hin e (List.mem_cons_self _ _)
    have hnd2 := List.nodup_cons.1 hnd
    have hne : ∀ x ∈ t, x ≠ e := fun x hx hxe => hnd2.1 (hxe ▸ hx)
    rw [gc_loop_step f pre.length pool pre t e hs rfl he]
    have hold_t : ∀ (q : ra_tex_pool), (∀ x, x ≠ e → q.entry x = pool.entry x) →
        ∀ x ∈ t, tex_old q.mem x = tex_old pool.mem x := by
      intro q hq x hx
      rw [tex_old_eq, tex_old_eq, hq x (hne x hx)]
    have hentry : ∀ x, x ≠ e → (pool.store e (pool.entry e).older).entry x = pool.entry x := by
      intro x hx
      rw [entry_store, if_neg (fun h => hx h.1)]
    rcases hold : tex_old pool.mem e with _ | _
    · simp only [Bool.false_eq_true, if_false]
      obtain ⟨h1, h2, h3, h4⟩ := ih (pre ++ [e]) (pool.store e (pool.entry e).older) f
        (by rw [store_avail, hs]; simp) hnd2.2
        (fun x hx => by rw [store_length]; exact hin x (List.mem_cons_of_mem _ hx))
        (by simp at hfuel; omega)
      have hlen : (pre ++ [e]).length = pre.length + 1 := by simp
      rw [hlen] at h1 h2 h3 h4
      have hf1 : t.filter (fun x => !tex_old (pool.store e (pool.entry e).older).mem x)
          = t.filter (fun x => !tex_old pool.mem x) :=
        List.filter_congr fun x hx => by rw [hold_t _ hentry x hx]
      have hf2 : t.filter (tex_old (pool.store e (pool.entry e).older).mem)
          = t.filter (tex_old pool.mem) :=
        List.filter_congr fun x hx => hold_t _ hentry x hx
      refine ⟨?_, ?_, ?_, ?_⟩
      · rw [h1, hf1, List.filter_cons, hold]
        simp
      · rw [h2, hf2, store_freed, List.filter_cons, hold]
        simp
      · rw [h3, store_length]
      · intro x
        rw [h4 x]
        by_cases hxe : x = e
        · subst hxe
          rw [if_neg hnd2.1, if_pos (List.mem_cons_self _ _), entry_store, if_pos ⟨rfl, he⟩]
        · rw [hentry x hxe]
          simp [hxe]
    · simp only [if_true]
      have hq : ∀ x, x ≠ e →
          (ra_tex_pool.mk (pool.store e (pool.entry e).older).mem (pre ++ t)
            (pool.freed ++ [e])).entry x = pool.entry x := hentry
      obtain ⟨h1, h2, h3, h4⟩ := ih pre
        (ra_tex_pool.mk (pool.store e (pool.entry e).older).mem (pre ++ t) (pool.freed ++ [e]))
        f rfl hnd2.2
        (fun x hx => by
          show x < (pool.store e (pool.entry e).older).mem.length
          rw [store_length]; exact hin x (List.mem_cons_of_mem _ hx))
        (by simp at hfuel; omega)
      have hf1 : t.filter (fun x => !tex_old (pool.store e (pool.entry e).older).mem x)
          = t.filter (fun x => !tex_old pool.mem x) :=
        List.filter_congr fun x hx => by
          rw [hold_t (ra_tex_pool.mk (pool.store e (pool.entry e).older).mem (pre ++ t)
            (pool.freed ++ [e])) hq x hx]
      have hf2 : t.filter (tex_old (pool.store e (pool.entry e).older).mem)
          = t.filter (tex_old pool.mem) :=
        List.filter_congr fun x hx =>
          hold_t (ra_tex_pool.mk (pool.store e (pool.entry e).older).mem (pre ++ t)
            (pool.freed ++ [e])) hq x hx
      refine ⟨?_, ?_, ?_, ?_⟩
      · rw [h1, hf1, List.filter_cons, hold]
        simp
      · rw [h2, hf2, List.filter_cons, hold]
        simp
      · rw [h3]
        show (pool.store e (pool.entry e).older).mem.length = _
        rw [store_length]
      · intro x
        rw [h4 x]
        by_cases hxe : x = e
        · subst hxe
          rw [if_neg hnd2.1, if_pos (List.mem_cons_self _ _)]
          show (pool.store x (pool.entry x).older).entry x = _
          rw [entry_store, if_pos ⟨rfl, he⟩]
        · rw [hq x hxe]
          simp [hxe]

/-- Closed form of `ra_tex_pool_gc_tick` on a pool whose available entries are distinct
addresses of allocated entries. -/
theorem gc_tick_spec (pool : ra_tex_pool) (hnd : pool.avail.Nodup)
    (hin : ∀ e ∈ pool.avail, e < pool.mem.length) :
    (ra_tex_pool_gc_tick pool).avail = pool.avail.filter (fun e => !tex_old pool.mem e) ∧
    (ra_tex_pool_gc_tick pool).freed = pool.freed ++ pool.avail.filter (tex_old pool.mem) ∧
    (ra_tex_pool_gc_tick pool).mem.length = pool.mem.length ∧
    ∀ x, (ra_tex_pool_gc_tick pool).entry x
      = if x ∈ pool.avail then (pool.entry x).older else pool.entry x := by
  have := gc_loop_spec pool.avail [] pool pool.avail.length rfl hnd hin (Nat.le_refl _)
  simpa [ra_tex_pool_gc_tick] using this

theorem get_cases (ok : Bool) (pool : ra_tex_pool) (w h : Int) (e : Nat) (p2 : ra_tex_pool)
    (hg : ra_tex_pool_get ok pool w h = some (e, p2)) :
    (∃ pre suf, pool.avail = pre ++ e :: suf ∧ (∀ x ∈ pre, tex_match pool w h x = false) ∧
      tex_match pool w h e = true ∧
      p2 = ({ pool with avail := pre ++ suf }).store e { pool.entry e with refs := 1 }) ∨
    ((∀ x ∈ pool.avail, tex_match pool w h x = false) ∧ ok = true ∧ e = pool.mem.length ∧
      p2 = { pool with mem := pool.mem ++ [{ w := w, h := h, age := 0, refs := 1 }] }) := by
  by_cases hex : ∃ x ∈ pool.avail, tex_match pool w h x = true
  · left
    obtain ⟨pre, e2, suf, h1, h2, h3⟩ := first_match pool w h pool.avail hex
    rw [get_hit ok pool w h pre suf e2 h1 h2 h3] at hg
    simp only [Option.some.injEq, Prod.mk.injEq] at hg
    obtain ⟨rfl, rfl⟩ := hg
    exact ⟨pre, suf, h1, h2, h3, rfl⟩
  · right
    have hno : ∀ x ∈ pool.avail, tex_match pool w h x = false := by
      intro x hx
      rcases hm : tex_match pool w h x with _ | _
      · rfl
      · exact absurd ⟨x, hx, hm⟩ hex
    cases ok with
    | false => rw [(get_miss pool w h hno).2] at hg; cases hg
    | true =>
      rw [(get_miss pool w h hno).1] at hg
      simp only [Option.some.injEq, Prod.mk.injEq] at hg
      exact ⟨hno, rfl, hg.1.symm, hg.2.symm⟩

theorem entry_append_lt (pool : ra_tex_pool) (en : ra_tex_entry) (x : Nat)
    (hx : x < pool.mem.length) :
    (ra_tex_pool.mk (pool.mem ++ [en]) pool.avail pool.freed).entry x = pool.entry x := by
  simp only [ra_tex_pool.entry, List.getD_eq_getElem?_getD]
  rw [List.getElem?_append_left hx]

theorem entry_append_self (pool : ra_tex_pool) (en : ra_tex_entry) :
    (ra_tex_pool.mk (pool.mem ++ [en]) pool.avail pool.freed).entry pool.mem.length = en := by
  simp only [ra_tex_pool.entry, List.getD_eq_getElem?_getD]
  rw [List.getElem?_append_right (Nat.le_refl _)]
  simp

theorem TInv_init : TInv ra_tex_pool_alloc [] := by
  refine ⟨List.nodup_nil, ?_, ?_, ?_, ?_⟩
  · intro e he; simp [ra_tex_pool_alloc] at he
  · intro e he; simp [ra_tex_pool_alloc] at he
  · intro e he; simp at he
  · intro e he; simp [ra_tex_pool.live, ra_tex_pool_alloc] at he

theorem TInv_get (ok : Bool) (pool : ra_tex_pool) (held : List Nat) (w h : Int) (e : Nat)
    (p2 : ra_tex_pool) (hinv : TInv pool held)
    (hg : ra_tex_pool_get ok pool w h = some (e, p2)) : TInv p2 (e :: held) := by
  obtain ⟨hnd, hal, hfl, hhl, hrefs⟩ := hinv
  rcases get_cases ok pool w h e p2 hg with ⟨pre, suf, hs, _, _, rfl⟩ | ⟨_, _, rfl, rfl⟩
  · have hea : e ∈ pool.avail := by rw [hs]; simp
    have hel := hal e hea
    have hmem : ∀ x, x ≠ e → (x ∈ pre ++ suf ↔ x ∈ pool.avail) := by
      intro x hx; rw [hs]; simp [hx]
    have hnot : e ∉ pre ++ suf := by
      rw [hs] at hnd
      have := (List.nodup_middle.1 hnd)
      exact (List.nodup_cons.1 this).1
    have hsub : ∀ x, x ∈ pre ++ suf → x ∈ pool.avail := by
      intro x hx; rw [hs]
      rcases List.mem_append.1 hx with h1 | h1
      · exact List.mem_append_left _ h1
      · exact List.mem_append_right _ (List.mem_cons_of_mem _ h1)
    have hlive : ∀ x, (({ pool with avail := pre ++ suf } : ra_tex_pool).store e
        { pool.entry e with refs := 1 }).live x ↔ pool.live x := by
      intro x
      simp only [ra_tex_pool.live, store_length, store_freed]
    refine ⟨?_, ?_, ?_, ?_, ?_⟩
    · rw [store_avail]
      rw [hs] at hnd
      exact (List.nodup_cons.1 (List.nodup_middle.1 hnd)).2
    · intro x hx
      rw [store_avail] at hx
      exact (hlive x).2 (hal x (hsub x hx))
    · intro x hx
      rw [store_length]; exact hfl x hx
    · intro x hx
      rcases List.mem_cons.1 hx with h1 | h1
      · rw [h1]; exact (hlive e).2 hel
      · exact (hlive x).2 (hhl x h1)
    · intro x hx
      have hxl := (hlive x).1 hx
      obtain ⟨r1, r2, r3⟩ := hrefs x hxl
      rw [entry_store, store_avail]
      by_cases hxe : x = e
      · subst hxe
        rw [if_pos ⟨rfl, hel.1⟩]
        have h0 : (pool.entry x).refs = 0 := r2.1 hea
        refine ⟨by simp, by simp [hnot], ?_⟩
        simp only [List.count_cons_self]
        push_cast
        rw [r3, h0]; rfl
      · rw [if_neg (fun hh => hxe hh.1)]
        refine ⟨r1, (hmem x hxe).trans r2, ?_⟩
        rw [List.count_cons_of_ne hxe]
        exact r3
  · have hnew_live : ∀ x, (ra_tex_pool.mk (pool.mem ++ [{ w := w, h := h, age := 0, refs := 1 }])
        pool.avail pool.freed).live x ↔ (pool.live x ∨ x = pool.mem.length) := by
      intro x
      simp only [ra_tex_pool.live, List.length_append, List.length_singleton]
      constructor
      · intro hx
        by_cases hxe : x = pool.mem.length
        · exact Or.inr hxe
        · exact Or.inl ⟨by omega, hx.2⟩
      · intro hx
        rcases hx with hx | hx
        · exact ⟨by omega, hx.2⟩
        · refine ⟨by omega, ?_⟩
          intro hf
          have := hfl x hf
          omega
    have hna : pool.mem.length ∉ pool.avail := fun hh => by
      have := (hal _ hh).1; omega
    have hnh : pool.mem.length ∉ held := fun hh => by
      have := (hhl _ hh).1; omega
    refine ⟨hnd, ?_, ?_, ?_, ?_⟩
    · intro x hx
      exact (hnew_live x).2 (Or.inl (hal x hx))
    · intro x hx
      have := hfl x hx
      simp only [List.length_append, List.length_singleton]; omega
    · intro x hx
      rcases List.mem_cons.1 hx with h1 | h1
      · exact (hnew_live x).2 (Or.inr h1)
      · exact (hnew_live x).2 (Or.inl (hhl x h1))
    · intro x hx
      rcases (hnew_live x).1 hx with hxl | hxe
      · obtain ⟨r1, r2, r3⟩ := hrefs x hxl
        rw [entry_append_lt pool _ x hxl.1]
        refine ⟨r1, r2, ?_⟩
        rw [List.count_cons_of_ne (by have := hxl.1; omega)]
        exact r3
      · subst hxe
        rw [entry_append_self]
        refine ⟨by simp, by simp [hna], ?_⟩
        simp only [List.count_cons_self, List.count_eq_zero_of_not_mem hnh]
        rfl

theorem held_refs_pos (pool : ra_tex_pool) (held : List Nat) (hinv : TInv pool held) (e : Nat)
    (he : e ∈ held) : pool.live e ∧ 0 < (pool.entry e).refs ∧ e ∉ pool.avail := by
  have hl := hinv.held_live e he
  obtain ⟨_, r2, r3⟩ := hinv.refs e hl
  have hc : 0 < held.count e := List.count_pos_iff.2 he
  have hp : 0 < (pool.entry e).refs := by rw [← r3]; exact_mod_cast hc
  refine ⟨hl, hp, ?_⟩
  intro ha
  have := r2.1 ha
  omega

theorem dup_held (pool : ra_tex_pool) (e : Nat) (hp : 0 < (pool.entry e).refs) :
    ra_tex_ref_dup pool (some e)
      = some (some e, pool.store e { pool.entry e with refs := (pool.entry e).refs + 1 }) := by
  simp [ra_tex_ref_dup, hp]

theorem free_last (pool : ra_tex_pool) (e : Nat) (h1 : (pool.entry e).refs = 1) :
    ra_tex_ref_free pool (some e)
      = some { pool.store e { pool.entry e with refs := 0, age := 0 } with
          avail := pool.avail ++ [e] } := by
  simp [ra_tex_ref_free, h1, MP_TARRAY_APPEND]

theorem free_more (pool : ra_tex_pool) (e : Nat) (h1 : 1 < (pool.entry e).refs) :
    ra_tex_ref_free pool (some e)
      = some (pool.store e { pool.entry e with refs := (pool.entry e).refs - 1 }) := by
  have h2 : (pool.entry e).refs > 0 := by omega
  have h3 : ¬ (pool.entry e).refs - 1 = 0 := by omega
  simp [ra_tex_ref_free, h2, h3]

/-- A store into a live entry that keeps the available set: the invariant for the other
entries carries over. -/
theorem TInv_store (pool : ra_tex_pool) (held held2 : List Nat) (e : Nat) (en : ra_tex_entry)
    (hinv : TInv pool held) (hel : pool.live e) (hna : e ∉ pool.avail)
    (hsub : ∀ x, x ∈ held2 → x ∈ held ∨ x = e)
    (hcount : ∀ x, x ≠ e → held2.count x = held.count x)
    (hen : 0 < en.refs ∧ (held2.count e : Int) = en.refs) :
    TInv (pool.store e en) held2 := by
  obtain ⟨hnd, hal, hfl, hhl, hrefs⟩ := hinv
  have hlive : ∀ x, (pool.store e en).live x ↔ pool.live x := by
    intro x
    simp only [ra_tex_pool.live, store_length, store_freed]
  refine ⟨hnd, fun x hx => (hlive x).2 (hal x hx), ?_, ?_, ?_⟩
  · intro x hx; rw [store_length]; exact hfl x hx
  · intro x hx
    rcases hsub x hx with h1 | h1
    · exact (hlive x).2 (hhl x h1)
    · rw [h1]; exact (hlive e).2 hel
  · intro x hx
    have hxl := (hlive x).1 hx
    rw [entry_store, store_avail]
    by_cases hxe : x = e
    · subst hxe
      rw [if_pos ⟨rfl, hel.1⟩]
      refine ⟨by omega, ?_, hen.2⟩
      constructor
      · intro ha; exact absurd ha hna
      · intro h0; omega
    · rw [if_neg (fun hh => hxe hh.1), hcount x hxe]
      exact hrefs x hxl

theorem TInv_dup (pool : ra_tex_pool) (held : List Nat) (e : Nat) (p2 : ra_tex_pool)
    (hinv : TInv pool held) (he : e ∈ held)
    (hd : ra_tex_ref_dup pool (some e) = some (some e, p2)) : TInv p2 (e :: held) := by
  obtain ⟨hl, hp, hna⟩ := held_refs_pos pool held hinv e he
  rw [dup_held pool e hp] at hd
  simp only [Option.some.injEq, Prod.mk.injEq, true_and] at hd
  rw [← hd]
  apply TInv_store pool held (e :: held) e _ hinv hl hna
  · intro x hx
    rcases List.mem_cons.1 hx with h1 | h1
    · exact Or.inr h1
    · exact Or.inl h1
  · intro x hx
    rw [List.count_cons_of_ne hx]
  · refine ⟨by simp only []; omega, ?_⟩
    simp only [List.count_cons_self]
    push_cast
    rw [(hinv.refs e hl).2.2]

theorem TInv_free (pool : ra_tex_pool) (held : List Nat) (e : Nat) (p2 : ra_tex_pool)
    (hinv : TInv pool held) (he : e ∈ held)
    (hf : ra_tex_ref_free pool (some e) = some p2) : TInv p2 (held.erase e) := by
  obtain ⟨hl, hp, hna⟩ := held_refs_pos pool held hinv e he
  have hc := (hinv.refs e hl).2.2
  have hce : ((held.erase e).count e : Int) = (pool.entry e).refs - 1 := by
    rw [List.count_erase_self, ← hc]
    have : 0 < held.count e := List.count_pos_iff.2 he
    omega
  by_cases h1 : (pool.entry e).refs = 1
  · rw [free_last pool e h1] at hf
    rw [← Option.some.inj hf]
    obtain ⟨hnd, hal, hfl, hhl, hrefs⟩ := hinv
    have hlive : ∀ x, (ra_tex_pool.mk (pool.store e { pool.entry e with refs := 0, age := 0 }).mem
        (pool.avail ++ [e]) (pool.store e { pool.entry e with refs := 0, age := 0 }).freed).live x
        ↔ pool.live x := by
      intro x
      simp only [ra_tex_pool.live, store_length, store_freed]
    refine ⟨?_, ?_, ?_, ?_, ?_⟩
    · show (pool.avail ++ [e]).Nodup
      rw [List.nodup_append]
      refine ⟨hnd, List.nodup_singleton e, ?_⟩
      intro x hx hx2
      rw [List.mem_singleton.1 hx2] at hx
      exact hna hx
    · intro x hx
      apply (hlive x).2
      rcases List.mem_append.1 hx with h2 | h2
      · exact hal x h2
      · rw [List.mem_singleton.1 h2]; exact hl
    · intro x hx
      show x < (pool.store e _).mem.length
      rw [store_length]; exact hfl x hx
    · intro x hx
      exact (hlive x).2 (hhl x (List.mem_of_mem_erase hx))
    · intro x hx
      have hxl := (hlive x).1 hx
      show 0 ≤ ((pool.store e _).entry x).refs ∧
        (x ∈ pool.avail ++ [e] ↔ ((pool.store e _).entry x).refs = 0) ∧
        ((held.erase e).count x : Int) = ((pool.store e _).entry x).refs
      rw [entry_store]
      by_cases hxe : x = e
      · subst hxe
        rw [if_pos ⟨rfl, hl.1⟩]
        refine ⟨by simp, by simp, ?_⟩
        rw [hce, h1]; rfl
      · rw [if_neg (fun hh => hxe hh.1), List.count_erase_of_ne hxe]
        obtain ⟨r1, r2, r3⟩ := hrefs x hxl
        refine ⟨r1, ?_, r3⟩
        rw [← r2]
        simp [hxe]
  · have h2 : 1 < (pool.entry e).refs := by omega
    rw [free_more pool e h2] at hf
    rw [← Option.some.inj hf]
    apply TInv_store pool held (held.erase e) e _ hinv hl hna
    · intro x hx; exact Or.inl (List.mem_of_mem_erase hx)
    · intro x hx; exact List.count_erase_of_ne hx _
    · exact ⟨by simp only []; omega, hce⟩

theorem TInv_gc_tick (pool : ra_tex_pool) (held : List Nat) (hinv : TInv pool held) :
    TInv (ra_tex_pool_gc_tick pool) held := by
  obtain ⟨hnd, hal, hfl, hhl, hrefs⟩ := hinv
  obtain ⟨g1, g2, g3, g4⟩ := gc_tick_spec pool hnd fun e he => (hal e he).1
  have hrefs_eq : ∀ x, ((ra_tex_pool_gc_tick pool).entry x).refs = (pool.entry x).refs := by
    intro x
    rw [g4 x]
    split <;> rfl
  have hlive : ∀ x, (ra_tex_pool_gc_tick pool).live x →
      pool.live x ∧ ¬ (x ∈ pool.avail ∧ tex_old pool.mem x = true) := by
    intro x hx
    simp only [ra_tex_pool.live, g2, g3, List.mem_append, List.mem_filter, not_or] at hx
    exact ⟨⟨hx.1, hx.2.1⟩, hx.2.2⟩
  refine ⟨?_, ?_, ?_, ?_, ?_⟩
  · rw [g1]; exact List.Nodup.filter _ hnd
  · intro x hx
    rw [g1, List.mem_filter] at hx
    have := hal x hx.1
    simp only [ra_tex_pool.live, g2, g3, List.mem_append, List.mem_filter, not_or]
    refine ⟨this.1, this.2, ?_⟩
    intro hh
    rw [hh.2] at hx
    simp at hx
  · intro x hx
    rw [g2, List.mem_append, List.mem_filter] at hx
    rw [g3]
    rcases hx with h1 | h1
    · exact hfl x h1
    · exact (hal x h1.1).1
  · intro x hx
    obtain ⟨hl, _, hna⟩ := held_refs_pos pool held ⟨hnd, hal, hfl, hhl, hrefs⟩ x hx
    simp only [ra_tex_pool.live, g2, g3, List.mem_append, List.mem_filter, not_or]
    exact ⟨hl.1, hl.2, fun hh => hna hh.1⟩
  · intro x hx
    obtain ⟨hxl, hno⟩ := hlive x hx
    obtain ⟨r1, r2, r3⟩ := hrefs x hxl
    rw [hrefs_eq x]
    refine ⟨r1, ?_, r3⟩
    rw [← r2, g1, List.mem_filter]
    constructor
    · intro hh; exact hh.1
    · intro hh
      refine ⟨hh, ?_⟩
      rcases ho : tex_old pool.mem x with _ | _
      · rfl
      · exact absurd ⟨hh, ho⟩ hno

theorem TInv_step (s t : ra_tex_pool × List Nat) (hs : TStep s t) (hinv : TInv s.1 s.2) :
    TInv t.1 t.2 := by
  cases hs
  case get pool held ok w h e p2 hg => exact TInv_get ok pool held w h e p2 hinv hg
  case dup pool held e p2 he hd => exact TInv_dup pool held e p2 hinv he hd
  case free pool held e p2 he hf => exact TInv_free pool held e p2 hinv he hf
  case gc_tick pool held => exact TInv_gc_tick pool held hinv

theorem TInv_reach (s : ra_tex_pool × List Nat) (h : TReach s) : TInv s.1 s.2 := by
  induction h with
  | refl => exact TInv_init
  | tail _ hstep ih => exact TInv_step _ _ hstep ih

theorem tex_match_iff (pool : ra_tex_pool) (w h : Int) (e : Nat) :
    tex_match pool w h e = true ↔ (pool.entry e).w = w ∧ (pool.entry e).h = h := by
  simp [tex_match]

theorem tex_match_congr (p q : ra_tex_pool) (w h : Int) (x : Nat)
    (hw : (p.entry x).w = (q.entry x).w) (hh : (p.entry x).h = (q.entry x).h) :
    tex_match p w h x = tex_match q w h x := by
  simp only [tex_match, hw, hh]

/-- A pool with an available entry of the requested size serves the request from the
available set, without allocating. -/
theorem get_of_match (pool : ra_tex_pool) (w h : Int) (e : Nat)
    (hin : ∀ x ∈ pool.avail, x < pool.mem.length) (he : e ∈ pool.avail)
    (hm : tex_match pool w h e = true) :
    ∃ e2 p3, (∀ ok, ra_tex_pool_get ok pool w h = some (e2, p3)) ∧
      p3.mem.length = pool.mem.length ∧ e2 ∈ pool.avail ∧ tex_match pool w h e2 = true ∧
      (p3.entry e2).w = w ∧ (p3.entry e2).h = h ∧ (p3.entry e2).refs = 1 := by
  obtain ⟨pre, e2, suf, h1, h2, h3⟩ := first_match pool w h pool.avail ⟨e, he, hm⟩
  have he2 : e2 ∈ pool.avail := by rw [h1]; simp
  have hlt := hin e2 he2
  refine ⟨e2, _, fun ok => get_hit ok pool w h pre suf e2 h1 h2 h3, ?_, he2, h3, ?_, ?_, ?_⟩
  · rw [store_length]
  · rw [entry_store, if_pos ⟨rfl, hlt⟩]
    exact ((tex_match_iff pool w h e2).1 h3).1
  · rw [entry_store, if_pos ⟨rfl, hlt⟩]
    exact ((tex_match_iff pool w h e2).1 h3).2
  · rw [entry_store, if_pos ⟨rfl, hlt⟩]

theorem tick_keep (p : ra_tex_pool) (e : Nat) (hnd : p.avail.Nodup)
    (hin : ∀ x ∈ p.avail, x < p.mem.length) (he : e ∈ p.avail)
    (hage : (p.entry e).age + 1 ≤ 10) :
    (ra_tex_pool_gc_tick p).avail.Nodup ∧
    (∀ x ∈ (ra_tex_pool_gc_tick p).avail, x < (ra_tex_pool_gc_tick p).mem.length) ∧
    e ∈ (ra_tex_pool_gc_tick p).avail ∧
    ((ra_tex_pool_gc_tick p).entry e).age = (p.entry e).age + 1 ∧
    (e ∉ p.freed → e ∉ (ra_tex_pool_gc_tick p).freed) := by
  obtain ⟨g1, g2, g3, g4⟩ := gc_tick_spec p hnd hin
  have hold : tex_old p.mem e = false := by
    rw [tex_old_eq]
    simp only [RA_TEX_ENTRY_MAX_AGE, decide_eq_false_iff_not]
    omega
  refine ⟨by rw [g1]; exact List.Nodup.filter _ hnd, ?_, ?_, ?_, ?_⟩
  · intro x hx
    rw [g1] at hx
    rw [g3]; exact hin x (List.mem_of_mem_filter hx)
  · rw [g1, List.mem_filter]
    exact ⟨he, by rw [hold]; rfl⟩
  · rw [g4 e, if_pos he]; rfl
  · intro hf
    rw [g2, List.mem_append, List.mem_filter]
    intro hh
    rcases hh with hh | hh
    · exact hf hh
    · rw [hold] at hh; cases hh.2

theorem tick_drop (p : ra_tex_pool) (e : Nat) (hnd : p.avail.Nodup)
    (hin : ∀ x ∈ p.avail, x < p.mem.length) (he : e ∈ p.avail)
    (hage : (p.entry e).age = 10) :
    e ∉ (ra_tex_pool_gc_tick p).avail ∧ e ∈ (ra_tex_pool_gc_tick p).freed := by
  obtain ⟨g1, g2, _, _⟩ := gc_tick_spec p hnd hin
  have hold : tex_old p.mem e = true := by
    rw [tex_old_eq, hage]
    simp [RA_TEX_ENTRY_MAX_AGE]
  constructor
  · rw [g1, List.mem_filter]
    intro hh
    rw [hold] at hh
    simp at hh
  · rw [g2, List.mem_append, List.mem_filter]
    exact Or.inr ⟨he, hold⟩

theorem tick_iterate (e : Nat) (k : Nat) :
    ∀ (p : ra_tex_pool), p.avail.Nodup → (∀ x ∈ p.avail, x < p.mem.length) → e ∈ p.avail →
      (p.entry e).age + k ≤ 10 → e ∉ p.freed →
      (Nat.iterate ra_tex_pool_gc_tick k p).avail.Nodup ∧
      (∀ x ∈ (Nat.iterate ra_tex_pool_gc_tick k p).avail,
        x < (Nat.iterate ra_tex_pool_gc_tick k p).mem.length) ∧
      e ∈ (Nat.iterate ra_tex_pool_gc_tick k p).avail ∧
      ((Nat.iterate ra_tex_pool_gc_tick k p).entry e).age = (p.entry e).age + k ∧
      e ∉ (Nat.iterate ra_tex_pool_gc_tick k p).freed := by
  induction k with
  | zero =>
    intro p hnd hin he _ hf
    exact ⟨hnd, hin, he, by simp, hf⟩
  | succ k ih =>
    intro p hnd hin he hage hf
    obtain ⟨a1, a2, a3, a4, a5⟩ := ih p hnd hin he (by omega) hf
    rw [Function.iterate_succ_apply']
    obtain ⟨b1, b2, b3, b4, b5⟩ := tick_keep _ e a1 a2 a3 (by rw [a4]; omega)
    refine ⟨b1, b2, b3, ?_, b5 a5⟩
    rw [b4, a4]
    push_cast
    omega

/-! ## Texture pool: counting references -/

theorem dups_spec (e : Nat) (k : Nat) :
    ∀ (pool : ra_tex_pool), e < pool.mem.length → 0 < (pool.entry e).refs →
      ∃ p, tex_dups pool e k = some p ∧ p.avail = pool.avail ∧ p.freed = pool.freed ∧
        p.mem.length = pool.mem.length ∧
        p.entry e = { pool.entry e with refs := (pool.entry e).refs + k } ∧
        ∀ x, x ≠ e → p.entry x = pool.entry x := by
  induction k with
  | zero =>
    intro pool _ _
    exact ⟨pool, rfl, rfl, rfl, rfl, by simp, fun _ _ => rfl⟩
  | succ k ih =>
    intro pool he hp
    have hq : e < (pool.store e { pool.entry e with refs := (pool.entry e).refs + 1 }).mem.length := by
      rw [store_length]; exact he
    have hqe : (pool.store e { pool.entry e with refs := (pool.entry e).refs + 1 }).entry e
        = { pool.entry e with refs := (pool.entry e).refs + 1 } := by
      rw [entry_store, if_pos ⟨rfl, he⟩]
    obtain ⟨p, h1, h2, h3, h4, h5, h6⟩ := ih _ hq (by rw [hqe]; simp only []; omega)
    refine ⟨p, ?_, h2, h3, by rw [h4, store_length], ?_, ?_⟩
    · rw [tex_dups, dup_held pool e hp]
      exact h1
    · rw [h5, hqe]
      simp only [ra_tex_entry.mk.injEq, true_and]
      push_cast
      omega
    · intro x hx
      rw [h6 x hx, entry_store, if_neg (fun hh => hx hh.1)]

theorem frees_spec (e : Nat) (j : Nat) :
    ∀ (pool : ra_tex_pool), e < pool.mem.length → (j : Int) < (pool.entry e).refs →
      ∃ p, tex_frees pool e j = some p ∧ p.avail = pool.avail ∧ p.freed = pool.freed ∧
        p.mem.length = pool.mem.length ∧
        p.entry e = { pool.entry e with refs := (pool.entry e).refs - j } ∧
        ∀ x, x ≠ e → p.entry x = pool.entry x := by
  induction j with
  | zero =>
    intro pool _ _
    exact ⟨pool, rfl, rfl, rfl, rfl, by simp, fun _ _ => rfl⟩
  | succ j ih =>
    intro pool he hp
    have h1r : 1 < (pool.entry e).refs := by push_cast at hp; omega
    have hq : e < (pool.store e { pool.entry e with refs := (pool.entry e).refs - 1 }).mem.length := by
      rw [store_length]; exact he
    have hqe : (pool.store e { pool.entry e with refs := (pool.entry e).refs - 1 }).entry e
        = { pool.entry e with refs := (pool.entry e).refs - 1 } := by
      rw [entry_store, if_pos ⟨rfl, he⟩]
    obtain ⟨p, h1, h2, h3, h4, h5, h6⟩ := ih _ hq
      (by rw [hqe]; simp only []; push_cast at hp; omega)
    refine ⟨p, ?_, h2, h3, by rw [h4, store_length], ?_, ?_⟩
    · rw [tex_frees, free_more pool e h1r]
      exact h1
    · rw [h5, hqe]
      simp only [ra_tex_entry.mk.injEq, true_and]
      push_cast
      omega
    · intro x hx
      rw [h6 x hx, entry_store, if_neg (fun hh => hx hh.1)]

theorem frees_succ (pool : ra_tex_pool) (e j : Nat) :
    tex_frees pool e (j + 1)
      = (tex_frees pool e j).bind fun p => ra_tex_ref_free p (some e) := by
  induction j generalizing pool with
  | zero => simp [tex_frees]
  | succ j ih =>
    rw [tex_frees]
    rcases hf : ra_tex_ref_free pool (some e) with _ | p
    · simp [tex_frees, hf]
    · simp only [Option.some_bind]
      rw [ih p]
      conv_rhs => rw [tex_frees, hf]
      rfl

theorem free_ptr_null (pool : ra_tex_pool) (ref : Option Nat) (p : ra_tex_pool)
    (r : Option Nat) (h : ra_tex_ref_free_ptr pool ref = some (p, r)) :
    r = none ∧ ra_tex_ref_free pool ref = some p := by
  unfold ra_tex_ref_free_ptr at h
  cases ref with
  | none =>
    simp only [Option.isNone_none, if_true, Option.some.injEq, Prod.mk.injEq] at h
    exact ⟨h.2.symm, by rw [← h.1]; rfl⟩
  | some e =>
    simp only [Option.isNone_some, Bool.false_eq_true, if_false, Option.map_eq_some'] at h
    obtain ⟨q, hq, he⟩ := h
    simp only [Prod.mk.injEq] at he
    exact ⟨he.2.symm, by rw [hq, he.1]⟩

theorem get_refs_one (ok : Bool) (pool0 : ra_tex_pool) (w h : Int)
    (hin : ∀ x ∈ pool0.avail, x < pool0.mem.length) (e : Nat) (pool : ra_tex_pool)
    (hg : ra_tex_pool_get ok pool0 w h = some (e, pool)) :
    e < pool.mem.length ∧ (pool.entry e).refs = 1 := by
  rcases get_cases ok pool0 w h e pool hg with ⟨pre, suf, hs, _, _, rfl⟩ | ⟨_, _, rfl, rfl⟩
  · have hlt : e < pool0.mem.length := hin e (by rw [hs]; simp)
    refine ⟨by rw [store_length]; exact hlt, ?_⟩
    rw [entry_store, if_pos ⟨rfl, hlt⟩]
  · refine ⟨by simp, ?_⟩
    rw [entry_append_self]

/-! ## A slot followed from the begin that hands it out -/

theorem outstanding_window (N D q : Nat) (mk : Nat → VkSemaphore) (hN : 0 < N)
    (vk : mpvk_ctx) (cur : Option Nat) (h : DReach N D q mk (vk, cur)) :
    (∀ i, i ∈ outstanding N vk cur → i ∈ window N vk.pool.cindex_pending vk.pool.cindex) ∧
    (outstanding N vk cur).length ≤ window_size N vk.pool.cindex_pending vk.pool.cindex := by
  have hd : DInv N vk cur := DInv_reach N D q mk hN (vk, cur) h
  have hsub : ∀ i, i ∈ outstanding N vk cur →
      i ∈ window N vk.pool.cindex_pending vk.pool.cindex := by
    intro i hi
    simp only [outstanding, in_use, List.mem_filter, List.mem_range, Bool.or_eq_true,
      decide_eq_true_eq, Bool.not_eq_true'] at hi
    obtain ⟨hiN, hc | hf⟩ := hi
    · subst hc
      exact cur_mem_window N vk i hd
    · by_contra hnot
      have := hd.fence_out i hiN hnot
      rw [hf] at this
      cases this
  refine ⟨hsub, ?_⟩
  have hnd : (outstanding N vk cur).Nodup := (List.nodup_range N).filter _
  have := (List.subperm_of_subset hnd hsub).length_le
  rwa [window_length] at this

theorem busy_round_reach (N D : Nat) (vk : mpvk_ctx) (k : Nat)
    (hb : (vk_cmd_begin N vk true true).1 = some k) :
    DReachFrom N D (vk, none) (busy_round N vk, none) := by
  have h1 : DReachFrom N D (vk, none) ((vk_cmd_begin N vk true true).2, some k) := by
    have h := Relation.ReflTransGen.single (DStep.begin (N := N) (D := D) vk true true)
    rwa [hb] at h
  have h2 := Relation.ReflTransGen.tail h1 (DStep.submit _ k false)
  have e : busy_round N vk
      = (vk_cmd_submit (vk_cmd_begin N vk true true).2 k false true true true).vk := by
    unfold busy_round
    rcases hx : vk_cmd_begin N vk true true with ⟨o, v⟩
    rw [hx] at hb
    simp only at hb
    subst hb
    rfl
  rw [e]
  exact h2

theorem c3_run_reach : Reach 4 2 2 (fun n => n + 1) c3_run :=
  ((((((((Relation.ReflTransGen.single (Step.begin pool4q true true)).tail
    (Step.submit _ 0 false true true true (by decide))).tail
    (Step.begin _ true true)).tail (Step.begin _ true true)).tail
    (Step.submit _ 2 false true true true (by decide))).tail
    (Step.submit _ 1 false true true true (by decide))).tail
    (Step.fence_signal _ 0 (by decide))).tail (Step.fence_signal _ 1 (by decide))).tail
    (Step.poll _ 0 false)

/-- What `vk_dev_callback` achieves on one pool whose slots are submitted in ring order:
when the caller records one slot at a time, `vk_dev_callback` calls the
callback at once only when `last_cmd` is `NULL`, and then the fence of every slot is
signaled (no submitted work is in flight); otherwise it only appends the callback to the
queue of the last submitted slot `k`, and in every continuation of the run each call of a
callback out of the queue of slot `k` comes after the pool has seen the completion of
every slot whose fence was not signaled at the time of the registration. -/
theorem dev_callback_after_completion (N D q : Nat) (mk : Nat → VkSemaphore) (hN : 0 < N)
    (vk : mpvk_ctx) (cur : Option Nat) (h : DReach N D q mk (vk, cur)) (cb : vk_callback) :
    (vk.last_cmd = none →
      vk_dev_callback vk cb = { vk with log := vk.log ++ [Obs.run none cb] } ∧
      ∀ i, i < N → (vk.cmd i).fence = true) ∧
    (∀ k, vk.last_cmd = some k →
      (vk_dev_callback vk cb).log = vk.log ∧
      ((vk_dev_callback vk cb).cmd k).callbacks = (vk.cmd k).callbacks ++ [cb] ∧
      (∀ j, j ≠ k → (vk_dev_callback vk cb).cmd j = vk.cmd j) ∧
      ∀ vk2 cur2, DReachFrom N D (vk_dev_callback vk cb, cur) (vk2, cur2) →
        ∀ A c B, vk2.log = vk.log ++ A ++ Obs.run (some k) c :: B →
          ∀ i, i < N → (vk.cmd i).fence = false → Obs.fence_ok i ∈ A) := by
  have hd := DInv_reach N D q mk hN (vk, cur) h
  constructor
  · intro hl
    exact ⟨dev_callback_none vk cb hl, hd.idle hl⟩
  · intro k hl
    have hk : k < vk.pool.cmds.length := by
      rw [hd.wf.1]
      exact window_lt N _ _ k hd.wf.2.2 (hd.last_in k hl)
    rw [dev_callback_some vk cb k hl]
    refine ⟨rfl, ?_, ?_, ?_⟩
    · rw [callback_eq, cmd_setCmd, if_pos ⟨rfl, hk⟩]
    · intro j hj
      rw [callback_eq, cmd_setCmd, if_neg (fun hh => hj hh.1.symm)]
    · intro vk2 cur2 hr A c B hlog i hi hf
      have hc := CInv_reach N D vk k _ _ (CInv_start N vk cur k cb hd hl) hr
      exact CInv_final N vk k vk2 hc A B c hlog i hi hf


/-! ## Swapchain -/

theorem pick_mode_two (supported field a b : Nat) :
    pick_mode supported field [a, b]
      = if has_bit supported a then a else if has_bit supported b then b else field := rfl

theorem has_bit_ne_zero (set bit : Nat) (h : has_bit set bit = true) : bit ≠ 0 := by
  intro hb
  rw [hb] at h
  simp [has_bit] at h

/-- `update_swchain_info` once the capabilities are reported and both selection loops have
left a mode: the extent it goes on with, its result and its messages. -/
theorem update_extent (K : vk_bits) (d : Int) (c : VkSurfaceCapabilitiesKHR)
    (info : VkSwapchainCreateInfoKHR)
    (ha : pick_mode c.supportedCompositeAlpha info.compositeAlpha
      [K.VK_COMPOSITE_ALPHA_POST_MULTIPLIED_BIT_KHR, K.VK_COMPOSITE_ALPHA_OPAQUE_BIT_KHR] ≠ 0)
    (ht : pick_mode c.supportedTransforms info.preTransform
      [K.VK_SURFACE_TRANSFORM_IDENTITY_BIT_KHR, K.VK_SURFACE_TRANSFORM_INHERIT_BIT_KHR] ≠ 0) :
    (update_swchain_info K d (some c) info).2.1.imageExtent
      = { width := adopt_extent c.currentExtent.width info.imageExtent.width,
          height := adopt_extent c.currentExtent.height info.imageExtent.height } ∧
    ((update_swchain_info K d (some c) info).1 = true ↔
      (c.minImageExtent.width ≤ adopt_extent c.currentExtent.width info.imageExtent.width ∧
       c.minImageExtent.height ≤ adopt_extent c.currentExtent.height info.imageExtent.height ∧
       adopt_extent c.currentExtent.width info.imageExtent.width ≤ c.maxImageExtent.width ∧
       adopt_extent c.currentExtent.height info.imageExtent.height
         ≤ c.maxImageExtent.height)) ∧
    (update_swchain_info K d (some c) info).2.1.compositeAlpha
      = pick_mode c.supportedCompositeAlpha info.compositeAlpha
          [K.VK_COMPOSITE_ALPHA_POST_MULTIPLIED_BIT_KHR, K.VK_COMPOSITE_ALPHA_OPAQUE_BIT_KHR] ∧
    (update_swchain_info K d (some c) info).2.1.preTransform
      = pick_mode c.supportedTransforms info.preTransform
          [K.VK_SURFACE_TRANSFORM_IDENTITY_BIT_KHR, K.VK_SURFACE_TRANSFORM_INHERIT_BIT_KHR] ∧
    (sw_msg.warn_width info.imageExtent.width c.currentExtent.width
        ∈ (update_swchain_info K d (some c) info).2.2 ↔
      (c.currentExtent.width ≠ info.imageExtent.width ∧
        c.currentExtent.width ≠ 0xFFFFFFFF)) ∧
    (sw_msg.warn_height info.imageExtent.height c.currentExtent.height
        ∈ (update_swchain_info K d (some c) info).2.2 ↔
      (c.currentExtent.height ≠ info.imageExtent.height ∧
        c.currentExtent.height ≠ 0xFFFFFFFF)) := by
  simp only [update_swchain_info, ha, ht, if_false, adopt_extent]
  by_cases hw : c.currentExtent.width ≠ info.imageExtent.width ∧
      c.currentExtent.width ≠ 0xFFFFFFFF
  · by_cases hh : c.currentExtent.height ≠ info.imageExtent.height ∧
        c.currentExtent.height ≠ 0xFFFFFFFF
    · by_cases hs : c.minImageExtent.width > c.currentExtent.width ∨
          c.minImageExtent.height > c.currentExtent.height
      · simp [hw, hh, hs]
        omega
      · by_cases hl : c.maxImageExtent.width < c.currentExtent.width ∨
            c.maxImageExtent.height < c.currentExtent.height
        · simp [hw, hh, hs, hl]
          omega
        · simp [hw, hh, hs, hl]
          omega
    · by_cases hs : c.minImageExtent.width > c.currentExtent.width ∨
          c.minImageExtent.height > info.imageExtent.height
      · simp [hw, hh, hs]
        omega
      · by_cases hl : c.maxImageExtent.width < c.currentExtent.width ∨
            c.maxImageExtent.height < info.imageExtent.height
        · simp [hw, hh, hs, hl]
          omega
        · simp [hw, hh, hs, hl]
          omega
  · by_cases hh : c.currentExtent.height ≠ info.imageExtent.height ∧
        c.currentExtent.height ≠ 0xFFFFFFFF
    · by_cases hs : c.minImageExtent.width > info.imageExtent.width ∨
          c.minImageExtent.height > c.currentExtent.height
      · simp [hw, hh, hs]
        omega
      · by_cases hl : c.maxImageExtent.width < info.imageExtent.width ∨
            c.maxImageExtent.height < c.currentExtent.height
        · simp [hw, hh, hs, hl]
          omega
        · simp [hw, hh, hs, hl]
          omega
    · by_cases hs : c.minImageExtent.width > info.imageExtent.width ∨
          c.minImageExtent.height > info.imageExtent.height
      · simp [hw, hh, hs]
        omega
      · by_cases hl : c.maxImageExtent.width < info.imageExtent.width ∨
            c.maxImageExtent.height < info.imageExtent.height
        · simp [hw, hh, hs, hl]
          omega
        · simp [hw, hh, hs, hl]
          omega

theorem pick_ne_zero (supported a b : Nat)
    (h : has_bit supported a = true ∨ has_bit supported b = true) :
    pick_mode supported 0 [a, b] ≠ 0 := by
  rw [pick_mode_two]
  by_cases ha : has_bit supported a = true
  · rw [if_pos ha]; exact has_bit_ne_zero _ _ ha
  · rw [if_neg ha]
    rcases h with h | h
    · exact absurd h ha
    · rw [if_pos h]; exact has_bit_ne_zero _ _ h

theorem pick_eq_zero (supported a b : Nat)
    (h : has_bit supported a = false ∧ has_bit supported b = false) :
    pick_mode supported 0 [a, b] = 0 := by
  rw [pick_mode_two, h.1, h.2]
  rfl

theorem update_no_alpha (K : vk_bits) (d : Int) (c : VkSurfaceCapabilitiesKHR)
    (info : VkSwapchainCreateInfoKHR)
    (ha : pick_mode c.supportedCompositeAlpha info.compositeAlpha
      [K.VK_COMPOSITE_ALPHA_POST_MULTIPLIED_BIT_KHR, K.VK_COMPOSITE_ALPHA_OPAQUE_BIT_KHR] = 0) :
    update_swchain_info K d (some c) info
      = (false, { info with compositeAlpha := 0 },
          [sw_msg.err_alpha c.supportedCompositeAlpha]) := by
  simp only [update_swchain_info, ha, if_true]

theorem update_no_transform (K : vk_bits) (d : Int) (c : VkSurfaceCapabilitiesKHR)
    (info : VkSwapchainCreateInfoKHR)
    (ha : pick_mode c.supportedCompositeAlpha info.compositeAlpha
      [K.VK_COMPOSITE_ALPHA_POST_MULTIPLIED_BIT_KHR, K.VK_COMPOSITE_ALPHA_OPAQUE_BIT_KHR] ≠ 0)
    (ht : pick_mode c.supportedTransforms info.preTransform
      [K.VK_SURFACE_TRANSFORM_IDENTITY_BIT_KHR, K.VK_SURFACE_TRANSFORM_INHERIT_BIT_KHR] = 0) :
    (update_swchain_info K d (some c) info).1 = false ∧
    (update_swchain_info K d (some c) info).2.2
      = [sw_msg.err_transform c.supportedTransforms] := by
  simp only [update_swchain_info, ha, ht, if_true, if_false, and_self]

theorem resize_noop (K : vk_bits) (env : resize_env) (s : sw_state) (w h : Int)
    (hw : w = s.p.w) (hh : h = s.p.h) : ra_vk_ctx_resize K env s w h = (true, s) := by
  unfold ra_vk_ctx_resize
  rw [if_pos ⟨hw, hh⟩]

/-- A resize that gets as far as calling `update_swchain_info` and fails there or in
`vkCreateSwapchainKHR` changes nothing but the messages. -/
theorem resize_early (K : vk_bits) (env : resize_env) (s : sw_state) (w h : Int)
    (hne : ¬ (w = s.p.w ∧ h = s.p.h))
    (hf : (update_swchain_info K s.p.swchain_depth env.caps
        { s.p.protoInfo with
          imageExtent := { width := to_u32 w, height := to_u32 h },
          oldSwapchain := s.p.swchain }).1 = false ∨ env.create = none) :
    ra_vk_ctx_resize K env s w h
      = (false, { s with log := s.log ++ (update_swchain_info K s.p.swchain_depth env.caps
          { s.p.protoInfo with
            imageExtent := { width := to_u32 w, height := to_u32 h },
            oldSwapchain := s.p.swchain }).2.2 }) := by
  unfold ra_vk_ctx_resize
  rw [if_neg hne]
  simp only []
  rcases hu : (update_swchain_info K s.p.swchain_depth env.caps
        { s.p.protoInfo with
          imageExtent := { width := to_u32 w, height := to_u32 h },
          oldSwapchain := s.p.swchain }).1 with _ | _
  · simp
  · rcases hf with hf | hf
    · rw [hu] at hf; cases hf
    · simp [hf]

/-- A resize that creates the chain records the chain and the size, whatever happens
afterwards. -/
theorem resize_late (K : vk_bits) (env : resize_env) (s : sw_state) (w h : Int)
    (hne : ¬ (w = s.p.w ∧ h = s.p.h))
    (hu : (update_swchain_info K s.p.swchain_depth env.caps
        { s.p.protoInfo with
          imageExtent := { width := to_u32 w, height := to_u32 h },
          oldSwapchain := s.p.swchain }).1 = true)
    (chain : Nat) (hc : env.create = some chain) :
    (ra_vk_ctx_resize K env s w h).2.p.w = w ∧ (ra_vk_ctx_resize K env s w h).2.p.h = h ∧
    (ra_vk_ctx_resize K env s w h).2.p.swchain = chain := by
  unfold ra_vk_ctx_resize
  rw [if_neg hne]
  simp only [hu, hc, Bool.not_true, Bool.false_eq_true, if_false]
  rcases env.count_ok with _ | _
  · simp
  · simp only [Bool.not_true, Bool.false_eq_true, if_false]
    rcases env.vkimages with _ | imgs
    · simp
    · simp only []
      split <;> simp

theorem resize_success (K : vk_bits) (env : resize_env) (s : sw_state) (w h : Int)
    (hok : (ra_vk_ctx_resize K env s w h).1 = true) :
    (ra_vk_ctx_resize K env s w h).2.p.w = w ∧ (ra_vk_ctx_resize K env s w h).2.p.h = h := by
  by_cases hne : w = s.p.w ∧ h = s.p.h
  · rw [resize_noop K env s w h hne.1 hne.2]
    exact ⟨hne.1.symm, hne.2.symm⟩
  · rcases hu : (update_swchain_info K s.p.swchain_depth env.caps
        { s.p.protoInfo with
          imageExtent := { width := to_u32 w, height := to_u32 h },
          oldSwapchain := s.p.swchain }).1 with _ | _
    · rw [resize_early K env s w h hne (Or.inl hu)] at hok
      cases hok
    · rcases hc : env.create with _ | chain
      · rw [resize_early K env s w h hne (Or.inr hc)] at hok
        cases hok
      · obtain ⟨a, b, _⟩ := resize_late K env s w h hne hu chain hc
        exact ⟨a, b⟩

theorem swap_spec (poll : Nat → Int → Int) (f0 : Int) (fuel : Nat) :
    ∀ (i : Nat) (p : priv), p.frames_in_flight = flight poll f0 i →
      (swap_buffers poll fuel i p = none ↔
        ∀ j, i ≤ j → j ≤ i + fuel → flight poll f0 j ≥ p.swchain_depth) ∧
      (∀ p2 n, swap_buffers poll fuel i p = some (p2, n) →
        i ≤ n ∧ n ≤ i + fuel ∧ (∀ j, i ≤ j → j < n → flight poll f0 j ≥ p.swchain_depth) ∧
        flight poll f0 n < p.swchain_depth ∧
        p2 = { p with frames_in_flight := flight poll f0 n }) := by
  induction fuel with
  | zero =>
    intro i p hp
    simp only [swap_buffers]
    by_cases hge : p.frames_in_flight ≥ p.swchain_depth
    · rw [if_pos hge]
      refine ⟨⟨fun _ j h1 h2 => ?_, fun _ => rfl⟩, fun p2 n h => by cases h⟩
      have : j = i := by omega
      rw [this, ← hp]; exact hge
    · rw [if_neg hge]
      refine ⟨⟨(fun h => Option.noConfusion h), fun h => ?_⟩, ?_⟩
      · exact absurd (by rw [hp]; exact h i (Nat.le_refl _) (by omega)) hge
      · intro p2 n h
        simp only [Option.some.injEq, Prod.mk.injEq] at h
        obtain ⟨rfl, rfl⟩ := h
        refine ⟨Nat.le_refl _, by omega, fun j h1 h2 => by omega, by rw [← hp]; omega, ?_⟩
        rw [← hp]
  | succ fuel ih =>
    intro i p hp
    simp only [swap_buffers]
    by_cases hge : p.frames_in_flight ≥ p.swchain_depth
    · rw [if_pos hge]
      have hp2 : ({ p with frames_in_flight := poll i p.frames_in_flight } : priv).frames_in_flight
          = flight poll f0 (i + 1) := by
        simp only [flight, hp]
      obtain ⟨a1, a2⟩ := ih (i + 1) { p with frames_in_flight := poll i p.frames_in_flight } hp2
      constructor
      · rw [a1]
        constructor
        · intro h j h1 h2
          by_cases hji : j = i
          · rw [hji, ← hp]; exact hge
          · exact h j (by omega) (by omega)
        · intro h j h1 h2
          exact h j (by omega) (by omega)
      · intro p2 n h
        obtain ⟨b1, b2, b3, b4, b5⟩ := a2 p2 n h
        refine ⟨by omega, by omega, ?_, b4, ?_⟩
        · intro j h1 h2
          by_cases hji : j = i
          · rw [hji, ← hp]; exact hge
          · exact b3 j (by omega) h2
        · rw [b5]
    · rw [if_neg hge]
      refine ⟨⟨(fun h => Option.noConfusion h), fun h => ?_⟩, ?_⟩
      · exact absurd (by rw [hp]; exact h i (Nat.le_refl _) (by omega)) hge
      · intro p2 n h
        simp only [Option.some.injEq, Prod.mk.injEq] at h
        obtain ⟨rfl, rfl⟩ := h
        refine ⟨Nat.le_refl _, by omega, fun j h1 h2 => by omega, by rw [← hp]; omega, ?_⟩
        rw [← hp]

/-! ## The claims -/

set_option maxRecDepth 100000

/-- C1 as stated fails: a caller records slots 0 and 1 side by side (the poll inside the
second `vk_cmd_begin` collects slot 0, whose fence is still signaled from its creation),
submits both, and the device completes slot 1 only.  After two more rounds of begin, submit
and completion (`MPVK_MAX_CMDS = 4`, sixty-two rounds for 64) `vk_cmd_begin` hands out
slot 0 again although its submission is logged and its fence is not signaled. -/
theorem C1_counterexample :
    (vk_cmd_begin 4 pool4 true true).1 = some 0 ∧
    (vk_cmd_begin 4 (vk_cmd_begin 4 pool4 true true).2 true true).1 = some 1 ∧
    (vk_cmd_begin 4 (round 4 (round 4 (two_open 4 pool4))) true true).1 = some 0 ∧
    ((vk_cmd_begin 4 (round 4 (round 4 (two_open 4 pool4))) true true).2.cmd 0).fence = false ∧
    Obs.submit 0 0 [] [] none
      ∈ (vk_cmd_begin 4 (round 4 (round 4 (two_open 4 pool4))) true true).2.log ∧
    (vk_cmd_begin 64 (Nat.iterate (round 64) 62 (two_open 64 (mpvk_device_init 64 2 1 id)))
      true true).1 = some 0 ∧
    ((vk_cmd_begin 64 (Nat.iterate (round 64) 62 (two_open 64 (mpvk_device_init 64 2 1 id)))
      true true).2.cmd 0).fence = false := by
  decide

/-- C1, amended: when the caller records one slot at a time (every slot handed out is
submitted before the pool is polled, waited on or begun again), the slot a successful
`vk_cmd_begin` hands out is inside the array and its fence is signaled, so it is not a
slot whose submission is still awaiting completion. -/
theorem C1_begin_slot_not_in_flight (N D q : Nat) (mk : Nat → VkSemaphore) (hN : 0 < N)
    (vk : mpvk_ctx) (h : DReach N D q mk (vk, none)) (r b : Bool) (k : Nat)
    (hk : (vk_cmd_begin N vk r b).1 = some k) :
    k < N ∧ ((vk_cmd_begin N vk r b).2.cmd k).fence = true := by
  have hinv := DInv_begin N vk r b (DInv_reach N D q mk hN (vk, none) h)
  obtain ⟨h1, _, _, h4, _⟩ := hinv.cur_last k hk
  exact ⟨h1, h4⟩

/-- C2 as stated fails: slots 0 and 1 are recorded side by side (the poll inside the second
`vk_cmd_begin` collects slot 0 while it is being recorded), `cb_a` is registered on slot 0
and `cb_b` on slot 1, slot 0 is submitted before slot 1 and the device completes both.
The poll then calls `cb_b`, the callback of the later submission, while `cb_a` stays queued
on slot 0, which is outside the window: no poll will call it before the ring has
wrapped around. -/
theorem C2_counterexample :
    c2_run.log = [Obs.fence_ok 0, Obs.submit 0 0 [] [] none, Obs.submit 1 0 [] [] none,
      Obs.fence_ok 1, Obs.run (some 1) cb_b] ∧
    (c2_run.cmd 0).callbacks = [cb_a] ∧ (c2_run.cmd 0).fence = true ∧
    c2_run.pool.cindex_pending = c2_run.pool.cindex ∧
    (mpvk_pool_poll_cmds 4 c2_run 0 false).log = c2_run.log ∧
    (mpvk_pool_wait_idle 4 c2_run).log = c2_run.log := by
  decide

/-- C2, amended: when the caller records one slot at a time, callbacks are called in the
order in which their slots were submitted.  Every call out of a slot's queue is labelled
with the ordinal of the latest submission of that slot at the time of the call: every
such call has an ordinal, the ordinals never decrease along the log, and a slot that
still holds callbacks and is not being recorded has an ordinal larger than that of every
call made so far, so that no callback of a later submission was called before it.  Within
a slot `vk_cmd_callback` appends to the queue and `run_callbacks` calls the queue from
the front. -/
theorem C2_callbacks_in_submission_order (N D q : Nat) (mk : Nat → VkSemaphore) (hN : 0 < N)
    (vk : mpvk_ctx) (cur : Option Nat) (h : DReach N D q mk (vk, cur)) :
    (∀ ℓ, ℓ ∈ labels vk.log → ℓ ≠ none) ∧
    ((labels vk.log).Pairwise fun a b => ∀ x y, a = some x → b = some y → x ≤ y) ∧
    (∀ i, (vk.cmd i).callbacks ≠ [] → cur ≠ some i →
      ∃ σ, sub_ord vk.log i = some σ ∧ ∀ x, some x ∈ labels vk.log → x < σ) ∧
    (∀ i cb, i < N →
      ((vk_cmd_callback vk i cb).cmd i).callbacks = (vk.cmd i).callbacks ++ [cb]) ∧
    (∀ i, (run_callbacks vk i).log
      = vk.log ++ (vk.cmd i).callbacks.map (Obs.run (some i))) := by
  obtain ⟨hd, hl⟩ := DLInv_reach N D q mk hN (vk, cur) h
  refine ⟨?_, hl.sorted, ?_, ?_, ?_⟩
  · intro ℓ hm
    obtain ⟨x, hx, _⟩ := hl.lab_lt ℓ hm
    rw [hx]; simp
  · intro i hcb hcur
    exact hl.live_ord i (hd.cb_in i hcb) ⟨Or.inl hcb, hcur⟩
  · intro i cb hi
    rw [callback_eq, cmd_setCmd, if_pos ⟨rfl, by rw [hd.wf.1]; exact hi⟩]
  · intro i
    exact run_callbacks_log vk i

/-- C3, the code at the failing input `c3_run`, a run of the pool on two queues.  Slot 2 was
submitted on queue 1 before the registration, its fence is not signaled and no completion
of it was reported; the poll has drained slots 0 and 1 and, slot 1 being the slot
submitted last, `run_callbacks` has set `last_cmd` to `NULL`.  `vk_dev_callback` then takes
the branch of the comment "The device was already idle" and calls the callback at once:
the call is the last entry of the log, no queue is touched, and the completion of slot 2
is nowhere before it. -/
theorem C3_dev_callback_while_in_flight :
    Reach 4 2 2 (fun n => n + 1) c3_run ∧
    c3_run.log = [Obs.submit 0 0 [] [] none, Obs.submit 2 1 [] [] none,
      Obs.submit 1 0 [] [] none, Obs.fence_ok 0, Obs.fence_ok 1] ∧
    (c3_run.cmd 2).fence = false ∧
    c3_run.last_cmd = none ∧
    vk_dev_callback c3_run cb_a = { c3_run with log := c3_run.log ++ [Obs.run none cb_a] } ∧
    Obs.fence_ok 2 ∉ (vk_dev_callback c3_run cb_a).log ∧
    ((vk_dev_callback c3_run cb_a).cmd 2).fence = false :=
  ⟨c3_run_reach, by decide, by decide, by decide, by decide, by decide, by decide⟩

/-- C4 as stated fails in its last sentence.  On a fresh pool of four slots four begins
succeed and hand out the slots 0, 1, 2 and 3 (the poll inside each begin collects the slot
handed out before, whose fence is signaled from creation); the four slots are then
submitted and the device completes none (the three completions in the log are those the
polls reported before the submissions): four slots, which is `MPVK_MAX_CMDS`, are
outstanding at once, the window holds slot 3 alone, and a fifth begin succeeds and hands
out slot 0, which is in flight. -/
theorem C4_counterexample :
    (vk_cmd_begin 4 pool4 true true).1 = some 0 ∧
    (vk_cmd_begin 4 (vk_cmd_begin 4 pool4 true true).2 true true).1 = some 1 ∧
    (vk_cmd_begin 4 (vk_cmd_begin 4 (vk_cmd_begin 4 pool4 true true).2 true true).2
      true true).1 = some 2 ∧
    (vk_cmd_begin 4 (vk_cmd_begin 4 (vk_cmd_begin 4 (vk_cmd_begin 4 pool4 true true).2
      true true).2 true true).2 true true).1 = some 3 ∧
    four_open.log = [Obs.fence_ok 0, Obs.fence_ok 1, Obs.fence_ok 2,
      Obs.submit 0 0 [] [] none, Obs.submit 1 0 [] [] none,
      Obs.submit 2 0 [] [] none, Obs.submit 3 0 [] [] none] ∧
    (∀ i, i < 4 → (four_open.cmd i).fence = false) ∧
    outstanding 4 four_open none = [0, 1, 2, 3] ∧
    ¬ ((outstanding 4 four_open none).length ≤ 4 - 1) ∧
    window 4 four_open.pool.cindex_pending four_open.pool.cindex = [3] ∧
    (vk_cmd_begin 4 four_open true true).1 = some 0 ∧
    ((vk_cmd_begin 4 four_open true true).2.cmd 0).fence = false := by
  decide

/-- C4, amended: after its zero-timeout poll, `vk_cmd_begin` fails for lack of slots exactly
when `(cindex + 1) % MPVK_MAX_CMDS` equals `cindex_pending`, and then returns the polled
state with both cursors as the poll left them; otherwise, the back end calls succeeding, it
hands out slot `cindex` and moves `cindex` to `(cindex + 1) % MPVK_MAX_CMDS`, which makes
the window one slot longer.  The poll does not move `cindex`.  When the caller records one
slot at a time, every slot in use (the slot being recorded, and every slot whose fence is
not signaled) lies in the window, the window holds at most `MPVK_MAX_CMDS - 1` slots, and
so at most `MPVK_MAX_CMDS - 1` slots are in use, before and after the begin. -/
theorem C4_begin_exhaustion (N : Nat) (vk : mpvk_ctx)
    (hp : vk.pool.cindex_pending < N) (hc : vk.pool.cindex < N) :
    let g := mpvk_pool_poll_cmds N vk 0 false
    ((g.pool.cindex + 1) % N = g.pool.cindex_pending →
        ∀ r b, vk_cmd_begin N vk r b = (none, g)) ∧
    ((g.pool.cindex + 1) % N ≠ g.pool.cindex_pending →
        vk_cmd_begin N vk true true
          = (some g.pool.cindex,
              { g with pool := { g.pool with cindex := (g.pool.cindex + 1) % N } })) ∧
    ((vk_cmd_begin N vk true true).1 = none
        ↔ (g.pool.cindex + 1) % N = g.pool.cindex_pending) ∧
    ((vk_cmd_begin N vk true true).1 ≠ none →
        window_size N (vk_cmd_begin N vk true true).2.pool.cindex_pending
            (vk_cmd_begin N vk true true).2.pool.cindex
          = window_size N g.pool.cindex_pending g.pool.cindex + 1) ∧
    (∀ r b, window_size N (vk_cmd_begin N vk r b).2.pool.cindex_pending
        (vk_cmd_begin N vk r b).2.pool.cindex ≤ N - 1) ∧
    g.pool.cindex = vk.pool.cindex ∧
    (∀ D q mk cur, DReach N D q mk (vk, cur) →
      (∀ i, i < N → (cur = some i ∨ (vk.cmd i).fence = false) →
        i ∈ window N vk.pool.cindex_pending vk.pool.cindex) ∧
      (outstanding N vk cur).length
        ≤ window_size N vk.pool.cindex_pending vk.pool.cindex ∧
      (outstanding N vk cur).length ≤ N - 1) ∧
    (∀ D q mk, DReach N D q mk (vk, none) → ∀ r b,
      (∀ i, i < N →
        ((vk_cmd_begin N vk r b).1 = some i ∨
          ((vk_cmd_begin N vk r b).2.cmd i).fence = false) →
        i ∈ window N (vk_cmd_begin N vk r b).2.pool.cindex_pending
          (vk_cmd_begin N vk r b).2.pool.cindex) ∧
      (outstanding N (vk_cmd_begin N vk r b).2 (vk_cmd_begin N vk r b).1).length
        ≤ N - 1) := by
  intro g
  have hN : 0 < N := by omega
  have hgc : g.pool.cindex < N := by
    rw [poll_cindex N vk 0 false hp hc]; exact hc
  have hgp : g.pool.cindex_pending < N := by
    rw [poll_pending N vk 0 false hp hc]; exact Nat.mod_lt _ hN
  have hin : ∀ D q mk (v : mpvk_ctx) (cur : Option Nat), DReach N D q mk (v, cur) →
      (∀ i, i < N → (cur = some i ∨ (v.cmd i).fence = false) →
        i ∈ window N v.pool.cindex_pending v.pool.cindex) ∧
      (outstanding N v cur).length ≤ window_size N v.pool.cindex_pending v.pool.cindex ∧
      (outstanding N v cur).length ≤ N - 1 := by
    intro D q mk v cur hr
    obtain ⟨a, b⟩ := outstanding_window N D q mk hN v cur hr
    have hw := window_size_lt N v.pool.cindex_pending v.pool.cindex hN
    refine ⟨?_, b, by omega⟩
    intro i hi hor
    apply a
    simp only [outstanding, in_use, List.mem_filter, List.mem_range, Bool.or_eq_true,
      decide_eq_true_eq, Bool.not_eq_true']
    exact ⟨hi, hor⟩
  refine ⟨?_, ?_, ?_, ?_, ?_, poll_cindex N vk 0 false hp hc, ?_, ?_⟩
  · intro h r b
    simp only [vk_cmd_begin]
    rw [if_pos h]
  · intro h
    simp only [vk_cmd_begin]
    rw [if_neg h]; rfl
  · by_cases h : (g.pool.cindex + 1) % N = g.pool.cindex_pending
    · simp only [vk_cmd_begin]; rw [if_pos h]; simp [h]
    · simp only [vk_cmd_begin]; rw [if_neg h]; simp [h]
  · intro hs
    by_cases h : (g.pool.cindex + 1) % N = g.pool.cindex_pending
    · exfalso; apply hs; simp only [vk_cmd_begin]; rw [if_pos h]
    · simp only [vk_cmd_begin]; rw [if_neg h]
      exact window_size_cindex_succ N _ _ hgp hgc h
  · intro r b
    have := window_size_lt N (vk_cmd_begin N vk r b).2.pool.cindex_pending
      (vk_cmd_begin N vk r b).2.pool.cindex hN
    omega
  · intro D q mk cur hr
    exact hin D q mk vk cur hr
  · intro D q mk hr r b
    have hr2 : DReach N D q mk ((vk_cmd_begin N vk r b).2, (vk_cmd_begin N vk r b).1) :=
      Relation.ReflTransGen.tail hr (DStep.begin vk r b)
    obtain ⟨a, _, c⟩ := hin D q mk _ _ hr2
    exact ⟨a, c⟩

/-- C5: in every state reachable from a fresh pool both cursors are inside the slot array;
a poll moves `cindex_pending` forward by some number of slots that is at most the length
of the window (so never past `cindex`) and leaves `cindex` alone, `mpvk_pool_wait_idle`
moves it exactly onto `cindex`, and `vk_cmd_begin` either leaves `cindex` where it is or
moves it by one slot to a position different from `cindex_pending`, making the window one
slot longer; so the window `[cindex_pending, cindex)` holds between 0 and
`MPVK_MAX_CMDS - 1` slots. -/
theorem C5_cursor_invariant (N D q : Nat) (mk : Nat → VkSemaphore) (hN : 0 < N)
    (vk : mpvk_ctx) (h : Reach N D q mk vk) :
    vk.pool.cindex < N ∧ vk.pool.cindex_pending < N ∧
    window_size N vk.pool.cindex_pending vk.pool.cindex ≤ N - 1 ∧
    (∀ t s, (mpvk_pool_poll_cmds N vk t s).pool.cindex = vk.pool.cindex ∧
      ∃ k, k ≤ window_size N vk.pool.cindex_pending vk.pool.cindex ∧
        (mpvk_pool_poll_cmds N vk t s).pool.cindex_pending = (vk.pool.cindex_pending + k) % N ∧
        window_size N (mpvk_pool_poll_cmds N vk t s).pool.cindex_pending vk.pool.cindex
          = window_size N vk.pool.cindex_pending vk.pool.cindex - k) ∧
    ((mpvk_pool_wait_idle N vk).pool.cindex_pending = vk.pool.cindex ∧
      (mpvk_pool_wait_idle N vk).pool.cindex = vk.pool.cindex) ∧
    (∀ r b,
      (vk_cmd_begin N vk r b).2.pool.cindex_pending
        = (mpvk_pool_poll_cmds N vk 0 false).pool.cindex_pending ∧
      ((vk_cmd_begin N vk r b).2.pool.cindex = (mpvk_pool_poll_cmds N vk 0 false).pool.cindex ∨
       ((vk_cmd_begin N vk r b).2.pool.cindex
            = ((mpvk_pool_poll_cmds N vk 0 false).pool.cindex + 1) % N ∧
        (vk_cmd_begin N vk r b).2.pool.cindex ≠ (vk_cmd_begin N vk r b).2.pool.cindex_pending ∧
        window_size N (vk_cmd_begin N vk r b).2.pool.cindex_pending
            (vk_cmd_begin N vk r b).2.pool.cindex
          = window_size N (mpvk_pool_poll_cmds N vk 0 false).pool.cindex_pending
              (mpvk_pool_poll_cmds N vk 0 false).pool.cindex + 1))) := by
  obtain ⟨_, hc, hp⟩ := WF_reach N D q mk hN vk h
  refine ⟨hc, hp, ?_, ?_, ?_, ?_⟩
  · have := window_size_lt N vk.pool.cindex_pending vk.pool.cindex hN
    omega
  · intro t s
    refine ⟨poll_cindex N vk t s hp hc, (polled N (poll_wait vk t s)).length, ?_,
      poll_pending N vk t s hp hc, ?_⟩
    · have := polled_le N (poll_wait vk t s)
      rw [poll_wait_pending, poll_wait_cindex] at this
      exact this
    · have hle := polled_le N (poll_wait vk t s)
      rw [poll_wait_pending, poll_wait_cindex] at hle
      rw [poll_pending N vk t s hp hc]
      exact window_size_advance N _ _ _ hp hc hle
  · obtain ⟨a1, a2, _, _, _⟩ := wait_idle_pool N vk
    exact ⟨a2, a1⟩
  · intro r b
    obtain ⟨_, hgc, hgp⟩ := WF_poll N vk 0 false ⟨by assumption, hc, hp⟩
    rw [begin_vk]
    split
    · exact ⟨rfl, Or.inl rfl⟩
    · next hne =>
      refine ⟨rfl, Or.inr ⟨rfl, hne, ?_⟩⟩
      exact window_size_cindex_succ N _ _ hgp hgc hne

/-- C6: `mpvk_pool_poll_cmds` drains, starting at `cindex_pending`, exactly the longest run
of window slots whose fence is signaled (after the optional wait on the oldest slot) and
stops at the first slot that is not signaled or at `cindex`; the callbacks of the drained
slots are called once each, slot after slot and in queue order, their queues are left
empty, and the slots that are not drained keep their queues. -/
theorem C6_poll_drains_signaled_run (N : Nat) (vk : mpvk_ctx) (t : Nat) (s : Bool)
    (hp : vk.pool.cindex_pending < N) (hc : vk.pool.cindex < N) :
    let v := poll_wait vk t s
    let w := window N vk.pool.cindex_pending vk.pool.cindex
    let l := w.takeWhile fun i => (v.cmd i).fence
    let r := mpvk_pool_poll_cmds N vk t s
    (∃ rest, w = l ++ rest ∧ (∀ i ∈ l, (v.cmd i).fence = true) ∧
        ∀ i, rest.head? = some i → (v.cmd i).fence = false) ∧
    r.pool.cindex = vk.pool.cindex ∧
    r.pool.cindex_pending = (vk.pool.cindex_pending + l.length) % N ∧
    (r.pool.cindex_pending = r.pool.cindex ∨ (r.cmd r.pool.cindex_pending).fence = false) ∧
    ran r.log = ran vk.log ++ l.flatMap (fun i => (vk.cmd i).callbacks) ∧
    (∀ j ∈ l, (r.cmd j).callbacks = []) ∧
    (∀ j, j ∉ l → r.cmd j = v.cmd j ∧ (r.cmd j).callbacks = (vk.cmd j).callbacks) := by
  intro v w l r
  have hl : l = polled N v := by
    simp only [l, w, polled, v, poll_wait_pending, poll_wait_cindex]
  have hvp : v.pool.cindex_pending < N := by
    simp only [v, poll_wait_pending]; exact hp
  have hvc : v.pool.cindex < N := by
    simp only [v, poll_wait_cindex]; exact hc
  refine ⟨⟨w.dropWhile fun i => (v.cmd i).fence, ?_, ?_, ?_⟩, ?_, ?_, ?_, ?_, ?_, ?_⟩
  · exact (List.takeWhile_append_dropWhile _ _).symm
  · intro i hi
    exact List.mem_takeWhile_imp (p := fun i => (v.cmd i).fence) hi
  · intro i hi
    exact head_dropWhile (fun i => (v.cmd i).fence) _ _ hi
  · exact poll_cindex N vk t s hp hc
  · rw [hl]; exact poll_pending N vk t s hp hc
  · have hstop := polled_stop N v hvp hvc
    have hpe : r.pool.cindex_pending = (v.pool.cindex_pending + (polled N v).length) % N := by
      simp only [r, v, poll_pending N vk t s hp hc, poll_wait_pending]
    have hce : r.pool.cindex = v.pool.cindex := by
      simp only [r, v, poll_cindex N vk t s hp hc, poll_wait_cindex]
    rcases hstop with h | h
    · left; rw [hpe, hce]; exact h
    · right
      rw [hpe]
      simp only [r]
      rw [poll_cmd N vk t s hp hc]
      split
      · exact absurd (polled_fence N v _ (by assumption)) (by rw [h]; simp)
      · exact h
  · simp only [r]
    rw [poll_log N vk t s hp hc, ran_append, hl]
    congr 1
    induction polled N v with
    | nil => rfl
    | cons a u ih =>
      rw [List.flatMap_cons, List.flatMap_cons, ran_append, ih]
      congr 1
      have : ran (Obs.fence_ok a :: runs_of vk a) = ran (runs_of vk a) := rfl
      rw [this, ran_runs_of]
  · intro j hj
    simp only [r]
    rw [poll_cmd N vk t s hp hc, if_pos (by rw [← hl]; exact hj)]
  · intro j hj
    simp only [r]
    rw [poll_cmd N vk t s hp hc, if_neg (by rw [← hl]; exact hj)]
    exact ⟨rfl, poll_wait_callbacks vk t s j⟩

/-- C7: `mpvk_pool_wait_idle` leaves `cindex_pending` equal to `cindex` (which it does not
move); every slot of the window before the call has had its callbacks called, in circular
slot order from the old `cindex_pending` (a window that wraps is walked from
`cindex_pending` to the end of the array and then from slot 0), and has an empty queue
afterwards; the slots outside the window are untouched. -/
theorem C7_wait_idle_drains_window (N : Nat) (vk : mpvk_ctx)
    (hp : vk.pool.cindex_pending < N) (hc : vk.pool.cindex < N)
    (hlen : vk.pool.cmds.length = N) :
    let w := window N vk.pool.cindex_pending vk.pool.cindex
    let r := mpvk_pool_wait_idle N vk
    r.pool.cindex_pending = vk.pool.cindex ∧
    r.pool.cindex = vk.pool.cindex ∧
    (vk.pool.cindex_pending ≤ vk.pool.cindex →
        w = seg vk.pool.cindex_pending (vk.pool.cindex - vk.pool.cindex_pending)) ∧
    (vk.pool.cindex < vk.pool.cindex_pending →
        w = seg vk.pool.cindex_pending (N - vk.pool.cindex_pending) ++ seg 0 vk.pool.cindex) ∧
    ran r.log = ran vk.log ++ w.flatMap (fun i => (vk.cmd i).callbacks) ∧
    (∀ j ∈ w, (r.cmd j).callbacks = []) ∧
    (∀ j, j ∉ w → r.cmd j = vk.cmd j) := by
  intro w r
  obtain ⟨h1, h2, _, _, _⟩ := wait_idle_pool N vk
  refine ⟨h2, h1, ?_, ?_, ?_, ?_, ?_⟩
  · intro h; exact window_eq_seg N _ _ hc h
  · intro h; exact window_eq_seg_wrap N _ _ hp h
  · simp only [r]
    rw [wait_idle_log, ran_append, ran_wait_log N vk hp hc]
  · intro j hj
    simp only [r]
    rw [wait_idle_cmd N vk hp hc hlen, if_pos hj]
  · intro j hj
    simp only [r]
    rw [wait_idle_cmd N vk hp hc hlen, if_neg hj]

/-- C8: a successful `vk_cmd_submit` hands to `vkQueueSubmit` exactly the first `num_deps`
entries of the slot's semaphore and stage arrays; when the slot had no dependency and the
pairs `ds` were added by `vk_cmd_dep`, these are the semaphores and the stages of `ds` in
the order they were added.  Afterwards the slot has no dependency, its callback queue is
unchanged, `last_cmd` is the slot, the queue selector is `(qindex + 1) % qcount`, and the
slot's `done` semaphore is returned exactly when the `done` pointer was given.  The call
succeeds exactly when its three back end calls do. -/
theorem C8_submit (D : Nat) (vk : mpvk_ctx) (i : Nat) (want : Bool)
    (ds : List (VkSemaphore × VkPipelineStageFlagBits))
    (hi : i < vk.pool.cmds.length) (h0 : (vk.cmd i).num_deps = 0)
    (hd : (vk.cmd i).deps.length = D) (hs : (vk.cmd i).depstages.length = D)
    (hds : ds.length ≤ D) :
    (vk_cmd_submit vk i want true true true).vk.log
      = vk.log ++ [Obs.submit i vk.pool.qindex
          ((vk.cmd i).deps.take (vk.cmd i).num_deps)
          ((vk.cmd i).depstages.take (vk.cmd i).num_deps)
          (if want then some (vk.cmd i).done else none)] ∧
    ∃ c, add_deps D (vk.cmd i) ds = some c ∧
      (vk_cmd_submit (vk.setCmd i c) i want true true true).ok = true ∧
      (vk_cmd_submit (vk.setCmd i c) i want true true true).vk.log
        = vk.log ++ [Obs.submit i vk.pool.qindex (ds.map Prod.fst) (ds.map Prod.snd)
            (if want then some (vk.cmd i).done else none)] ∧
      ((vk_cmd_submit (vk.setCmd i c) i want true true true).vk.cmd i).num_deps = 0 ∧
      ((vk_cmd_submit (vk.setCmd i c) i want true true true).vk.cmd i).callbacks
        = (vk.cmd i).callbacks ∧
      (vk_cmd_submit (vk.setCmd i c) i want true true true).vk.last_cmd = some i ∧
      (vk_cmd_submit (vk.setCmd i c) i want true true true).vk.pool.qindex
        = (vk.pool.qindex + 1) % vk.pool.qcount ∧
      (vk_cmd_submit (vk.setCmd i c) i want true true true).done
        = (if want then some (vk.cmd i).done else none) ∧
      (∀ e r s, (vk_cmd_submit (vk.setCmd i c) i want e r s).ok = (e && r && s)) := by
  refine ⟨by rw [submit_ok_vk], ?_⟩
  obtain ⟨c, hc, hn, hdeps, hst, _, _, hcb, _, hdone⟩ :=
    add_deps_spec D ds (vk.cmd i) hd hs (by omega)
  have hci : (vk.setCmd i c).cmd i = c := by
    rw [cmd_setCmd]; simp [hi]
  have hlen : i < (vk.setCmd i c).pool.cmds.length := by
    rw [setCmd_length]; exact hi
  refine ⟨c, hc, ?_, ?_, ?_, ?_, ?_, ?_, ?_, ?_⟩
  · rw [submit_ok_flag]; rfl
  · rw [submit_ok_vk, hci]
    simp only [List.append_cancel_left_eq, List.cons.injEq, and_true]
    rw [hdeps, hst, h0, hdone]
    simp [mpvk_ctx.setCmd]
  · rw [submit_ok_cmd, if_pos ⟨rfl, hlen⟩]
  · rw [submit_ok_cmd, if_pos ⟨rfl, hlen⟩, hci]; exact hcb
  · rw [submit_ok_vk]
  · rw [submit_ok_vk]; rfl
  · rw [submit_done, hci, hdone]
  · intro e r s; exact submit_ok_flag _ _ _ _ _ _

/-- C9: with fewer than `MPVK_MAX_CMD_DEPS` dependencies on the slot, `vk_cmd_dep` stores the
semaphore and its stage at index `num_deps` (inside the arrays), so that the list of
dependencies in use is the old one followed by the new pair, and nothing else of the slot
changes; with `MPVK_MAX_CMD_DEPS` dependencies or more the assertion fails and nothing is
written. -/
theorem C9_dep (D : Nat) (cmd : vk_cmd) (dep : VkSemaphore) (st : VkPipelineStageFlagBits)
    (hd : cmd.deps.length = D) (hs : cmd.depstages.length = D) :
    (cmd.num_deps < D →
      ∃ c, vk_cmd_dep D cmd dep st = some c ∧
        c.num_deps = cmd.num_deps + 1 ∧
        c.deps.take c.num_deps = cmd.deps.take cmd.num_deps ++ [dep] ∧
        c.depstages.take c.num_deps = cmd.depstages.take cmd.num_deps ++ [st] ∧
        c.deps = cmd.deps.set cmd.num_deps dep ∧
        c.depstages = cmd.depstages.set cmd.num_deps st ∧
        cmd.num_deps < cmd.deps.length ∧ cmd.num_deps < cmd.depstages.length ∧
        c.deps.length = D ∧ c.depstages.length = D ∧
        c.callbacks = cmd.callbacks ∧ c.fence = cmd.fence ∧ c.done = cmd.done) ∧
    (D ≤ cmd.num_deps → vk_cmd_dep D cmd dep st = none) := by
  constructor
  · intro h
    refine ⟨_, vk_cmd_dep_some D cmd dep st h, rfl, ?_, ?_, rfl, rfl, by omega, by omega,
      by simp [hd], by simp [hs], rfl, rfl, rfl⟩
    · exact take_set_succ _ _ _ (by omega)
    · exact take_set_succ _ _ _ (by omega)
  · intro h
    simp [vk_cmd_dep, Nat.not_lt.2 h]

/-- C10: after any sequence of start/stop pairs on a fresh timer pool, whatever durations
the back end returns, the pool is not running, `sample_count` is the number of recorded
samples capped at `VO_PERF_SAMPLE_COUNT`, and `peak` is the maximum of the `sample_count`
most recently recorded samples (0 when there is none); it is also the maximum of the
sample array, which is what the rescan computes when the sample that was the peak is
overwritten by a smaller one. -/
theorem C10_peak_is_window_max (M : Nat) (hM : 0 < M) (rs : List Nat) :
    ∃ p, timer_pool_feed M (timer_pool_create M) rs = some p ∧
      p.sample_count = min (recorded rs).length M ∧
      p.peak = list_max (recent rs p.sample_count) ∧
      p.peak = list_max p.samples := by
  obtain ⟨p, hp, hinv⟩ := RInv_feed M rs (timer_pool_create M) [] (RInv_create M hM)
  rw [List.append_nil] at hinv
  refine ⟨p, hp, ?_, RInv_peak M p _ hinv, hinv.peak⟩
  rw [hinv.count, List.length_reverse]

/-- C11: after any sequence of start/stop pairs on a fresh timer pool, the durations being
unsigned 64-bit values, `sum` is the sum of the `sample_count` most recently recorded
samples in unsigned 64-bit arithmetic (modulo `2 ^ 64`); a stop that records a sample
overwrites the slot at `sample_idx` and replaces `sum` by `sum + res - old` modulo
`2 ^ 64`, where `old` is the overwritten value, and a stop that records nothing leaves
`sum` alone. -/
theorem C11_sum_is_window_sum (M : Nat) (hM : 0 < M) (rs : List Nat)
    (hrs : ∀ r ∈ rs, r < 2 ^ 64) :
    (∃ p, timer_pool_feed M (timer_pool_create M) rs = some p ∧
      p.sample_count = min (recorded rs).length M ∧
      p.sum = (recent rs p.sample_count).sum % 2 ^ 64) ∧
    (∀ (pool : timer_pool) (res : Nat), pool.running = true → res ≠ 0 →
      pool.samples.getD pool.sample_idx 0 < 2 ^ 64 →
      ∃ p, timer_pool_stop M pool res = some p ∧
        p.samples = pool.samples.set pool.sample_idx res ∧
        (p.sum : Int)
          = ((pool.sum : Int) + res - pool.samples.getD pool.sample_idx 0) % 2 ^ 64) ∧
    (∀ pool : timer_pool, pool.running = true →
      timer_pool_stop M pool 0 = some { pool with running := false }) := by
  refine ⟨?_, fun pool res h1 h2 h3 => stop_sum M pool res h1 h2 h3, ?_⟩
  · obtain ⟨p, hp, hinv, hs⟩ := SInv_feed M rs hrs (timer_pool_create M) [] (RInv_create M hM)
      (by simp [timer_pool_create]) (by simp)
    rw [List.append_nil] at hinv hs
    refine ⟨p, hp, ?_, hs⟩
    rw [hinv.count, List.length_reverse]
  · intro pool h
    simp [timer_pool_stop, h]

/-- C12: after the valid (non-zero, unsigned 64-bit) durations `rs` have been recorded into
a fresh ring of `VO_PERF_SAMPLE_COUNT` entries, `timer_pool_measure` returns
`count = min(n, VO_PERF_SAMPLE_COUNT)`, in `samples` the last `count` durations, the oldest
first (the other entries are zero), `last` the newest duration, `avg` the 64-bit sum of
these durations divided by `count`, and `peak` the running peak, which is their maximum;
when nothing was recorded `count`, `last` and `avg` are 0; the pool is returned as it
was. -/
theorem C12_measure (M : Nat) (hM : 0 < M) (rs : List Nat)
    (hv : ∀ r ∈ rs, r ≠ 0 ∧ r < 2 ^ 64) :
    ∃ p, timer_pool_feed M (timer_pool_create M) rs = some p ∧
      (timer_pool_measure M p).2 = p ∧
      (timer_pool_measure M p).1.count = min rs.length M ∧
      (timer_pool_measure M p).1.samples.take (min rs.length M)
        = rs.drop (rs.length - min rs.length M) ∧
      (timer_pool_measure M p).1.samples.length = M ∧
      (∀ i, min rs.length M ≤ i → (timer_pool_measure M p).1.samples.getD i 0 = 0) ∧
      (timer_pool_measure M p).1.last = rs.getLast?.getD 0 ∧
      (timer_pool_measure M p).1.avg = p.sum / min rs.length M ∧
      p.sum = (rs.drop (rs.length - min rs.length M)).sum % 2 ^ 64 ∧
      (timer_pool_measure M p).1.peak = p.peak ∧
      p.peak = list_max (rs.drop (rs.length - min rs.length M)) ∧
      (rs = [] → (timer_pool_measure M p).1.count = 0 ∧ (timer_pool_measure M p).1.last = 0 ∧
        (timer_pool_measure M p).1.avg = 0) := by
  obtain ⟨p, hp, hinv, hs⟩ := SInv_feed M rs (fun r hr => (hv r hr).2) (timer_pool_create M) []
    (RInv_create M hM) (by simp [timer_pool_create]) (by simp)
  rw [List.append_nil, recorded_of_valid rs fun r hr => (hv r hr).1] at hinv hs
  have hcount : p.sample_count = min rs.length M := by
    rw [hinv.count, List.length_reverse]
  have hwin : rs.reverse.take p.sample_count
      = (rs.drop (rs.length - min rs.length M)).reverse := by
    rw [hcount, List.take_reverse]
  have hsamp := measure_samples M p _ hinv
  rw [hwin, List.reverse_reverse, hcount] at hsamp
  have hcm : p.sample_count ≤ M := by omega
  obtain ⟨hlen, _, _, hhi⟩ := measure_loop_spec M p hcm p.sample_count hcm
  have hsd : (timer_pool_measure M p).1.samples = (measure_loop M p p.sample_count).1 := by
    unfold timer_pool_measure; split <;> rfl
  have hlast : (timer_pool_measure M p).1.last = rs.getLast?.getD 0 := by
    by_cases h0 : p.sample_count > 0
    · have e : (timer_pool_measure M p).1.last
          = (timer_pool_measure M p).1.samples.getD (p.sample_count - 1) 0 := by
        unfold timer_pool_measure; rw [if_pos h0]
      have e2 : (timer_pool_measure M p).1.samples.getD (p.sample_count - 1) 0
          = ((timer_pool_measure M p).1.samples.take (min rs.length M)).getD
              (p.sample_count - 1) 0 := by
        rw [getD_take, if_pos (by omega)]
      rw [e, e2, hsamp, List.getLast?_eq_getElem?, List.getD_eq_getElem?_getD,
        List.getElem?_drop]
      congr 2
      omega
    · have hn : rs = [] := by
        rcases rs with _ | ⟨a, t⟩
        · rfl
        · simp only [List.length_cons] at hcount; omega
      unfold timer_pool_measure; rw [if_neg h0, hn]; rfl
  have hpeak := RInv_peak M p _ hinv
  rw [hwin, list_max_reverse] at hpeak
  rw [hwin, List.sum_reverse] at hs
  refine ⟨p, hp, ?_, ?_, hsamp, ?_, ?_, hlast, ?_, hs, ?_, hpeak, ?_⟩
  · unfold timer_pool_measure; split <;> rfl
  · rw [← hcount]; unfold timer_pool_measure; split <;> rfl
  · rw [hsd]; exact hlen
  · intro i hi
    rw [hsd]; exact hhi i (by omega)
  · rw [← hcount]
    unfold timer_pool_measure
    split
    · rfl
    · have : p.sample_count = 0 := by omega
      rw [this]; simp
  · unfold timer_pool_measure; split <;> rfl
  · intro hn
    subst hn
    have h0 : p.sample_count = 0 := by simpa using hcount
    unfold timer_pool_measure
    rw [if_neg (by omega)]
    exact ⟨h0, rfl, rfl⟩

/-- C13: on a non-null timer pool `timer_pool_start` fails its assertion exactly when the
pool is running and `timer_pool_stop` exactly when it is not; a start that succeeds sets
`running` and a stop that succeeds clears it; so a sequence of calls on a fresh pool runs
to its end without a failed assertion exactly when starts and stops strictly alternate,
beginning with a start. -/
theorem C13_start_stop_protocol (M : Nat) (pool : timer_pool) :
    (timer_pool_start pool = none ↔ pool.running = true) ∧
    (∀ res, timer_pool_stop M pool res = none ↔ pool.running = false) ∧
    (∀ p, timer_pool_start pool = some p → p.running = true) ∧
    (∀ res p, timer_pool_stop M pool res = some p → p.running = false) ∧
    (∀ cs, (timer_pool_calls M (timer_pool_create M) cs).isSome = true ↔ alternating cs) := by
  refine ⟨?_, ?_, ?_, ?_, ?_⟩
  · unfold timer_pool_start
    cases pool.running <;> simp
  · intro res
    unfold timer_pool_stop
    cases pool.running <;> simp
    split <;> simp
  · intro p hp
    unfold timer_pool_start at hp
    split at hp
    · cases hp
    · cases hp; rfl
  · intro res p hp
    unfold timer_pool_stop at hp
    split at hp
    · cases hp
    · split at hp <;> (cases hp; rfl)
  · intro cs
    rw [calls_isSome M cs (timer_pool_create M)]
    unfold alternating
    constructor
    · intro h i hi
      rw [h i hi]
      by_cases hj : i % 2 = 0 <;> simp [hj, timer_pool_create]
    · intro h i hi
      have := h i hi
      by_cases hj : i % 2 = 0
      · simp only [hj, if_true, timer_pool_create]
        simpa [hj] using this
      · simp only [hj, if_false, timer_pool_create]
        simpa [hj] using this

/-- C14: `ra_buf_pool_get` frees the buffers of the pool and adopts the requested
parameters exactly when the request is not compatible with the current parameters, that
is when the type differs, the requested size is greater than the current size, or
`host_mapped` or `host_mutable` differs.  In that case every buffer of the pool is freed,
and no buffer that was in the pool is in the pool or returned afterwards; in the
compatible case nothing is freed, the buffers stay in the pool and the current parameters
are kept. -/
theorem C14_shape_change (create_ok : Nat → Bool) (buf_poll : ra_buf → Bool) (r : ra)
    (pool : ra_buf_pool) (params : ra_buf_params) (hd : params.initial_data = false)
    (hnew : ∀ b : Nat, b ∈ pool.buffers → b < r.created) :
    (ra_buf_params_compatible params pool.current_params = false ↔
      (params.type ≠ pool.current_params.type ∨ pool.current_params.size < params.size ∨
        params.host_mapped ≠ pool.current_params.host_mapped ∨
        params.host_mutable ≠ pool.current_params.host_mutable)) ∧
    ∃ res r2 p2, ra_buf_pool_get create_ok buf_poll r pool params = some (res, r2, p2) ∧
      (ra_buf_params_compatible params pool.current_params = false →
        r2.freed = r.freed ++ pool.buffers ∧ p2.current_params = params ∧
        ∀ b : Nat, b ∈ pool.buffers → b ∉ p2.buffers ∧ res ≠ some b) ∧
      (ra_buf_params_compatible params pool.current_params = true →
        r2.freed = r.freed ∧ p2.current_params = pool.current_params ∧
        ∀ b : Nat, b ∈ pool.buffers → b ∈ p2.buffers) := by
  constructor
  · simp only [ra_buf_params_compatible, Bool.and_eq_false_iff, beq_eq_false_iff_ne,
      decide_eq_false_iff_not, Nat.not_le, ne_eq]
    tauto
  · obtain ⟨res, r2, p2, he, h1, h2, h3, h4, h5, h6⟩ :=
      get_spec create_ok buf_poll r pool params hd
    refine ⟨res, r2, p2, he, ?_, ?_⟩
    · intro hc
      rw [reshape_incompatible r pool params hc] at h1 h2 h3 h4 h5 h6
      refine ⟨h1, h3, ?_⟩
      intro b hb
      have hlt := hnew b hb
      have hnot : b ∉ p2.buffers := by
        intro hin
        rcases h5 b hin with h | h
        · simp at h
        · simp only at h; omega
      refine ⟨hnot, ?_⟩
      intro hres
      exact hnot ((h6 (Or.inr ⟨rfl, rfl⟩)).2 b hres)
    · intro hc
      rw [reshape_compatible r pool params hc] at h1 h3 h4
      exact ⟨h1, h3, h4⟩

/-- C15: for a pool of `n > 0` buffers with index `i < n` and a compatible request, when the
buffer at index `i` is busy and the allocation succeeds, the new list is the old buffers
before `i`, the new buffer, and the old buffers from `i` on (so the old buffers keep
their order), the new buffer is the one returned, and the index afterwards, `i + 1`,
is that of the buffer that was busy. -/
theorem C15_growth (create_ok : Nat → Bool) (buf_poll : ra_buf → Bool) (r : ra)
    (pool : ra_buf_pool) (params : ra_buf_params) (hd : params.initial_data = false)
    (hc : ra_buf_params_compatible params pool.current_params = true)
    (hi : pool.index < pool.buffers.length)
    (hbusy : buf_poll (pool.buffers.getD pool.index 0) = false)
    (hok : create_ok r.created = true)
    (hnew : ∀ b : Nat, b ∈ pool.buffers → b < r.created) :
    ∃ r2 p2, ra_buf_pool_get create_ok buf_poll r pool params = some (some r.created, r2, p2) ∧
      r.created ∉ pool.buffers ∧
      p2.buffers = pool.buffers.take pool.index ++ r.created :: pool.buffers.drop pool.index ∧
      p2.buffers.length = pool.buffers.length + 1 ∧
      List.Sublist pool.buffers p2.buffers ∧
      p2.index = pool.index + 1 ∧ p2.index < p2.buffers.length ∧
      p2.buffers.getD p2.index 0 = pool.buffers.getD pool.index 0 ∧
      r2.freed = r.freed ∧ p2.current_params = pool.current_params := by
  have hlen : (pool.buffers.take pool.index).length = pool.index := by
    rw [List.length_take]; omega
  refine ⟨_, _, get_busy create_ok buf_poll r pool params hd hc hi hbusy hok, ?_, rfl, ?_, ?_,
    rfl, ?_, ?_, rfl, rfl⟩
  · intro hin
    have := hnew _ hin
    omega
  · simp only [List.length_append, List.length_cons, List.length_drop, hlen]
    omega
  · have h := List.Sublist.append (List.Sublist.refl (pool.buffers.take pool.index))
      (List.Sublist.cons r.created (List.Sublist.refl (pool.buffers.drop pool.index)))
    rwa [List.take_append_drop] at h
  · simp only [List.length_append, List.length_cons, List.length_drop, hlen]
    omega
  · simp only []
    rw [List.getD_eq_getElem?_getD, List.getElem?_append_right (by omega), hlen,
      List.getD_eq_getElem?_getD]
    have : pool.index + 1 - pool.index = 1 := by omega
    rw [this, List.getElem?_cons_succ, List.getElem?_drop]
    simp

/-- C16: for a pool of `n > 0` buffers with index `i < n` and a compatible request, when the
buffer at index `i` is free the call returns it, leaves the list and the back end as they
are and sets the index to `(i + 1) % n`, which is below `n`.  After any sequence of calls
on a pool that starts empty the index is below the length of the list unless the list is
empty; and as long as every buffer is free, `n` calls in a row return the `n` buffers once
each, in the order of the list starting at index `i` and wrapping around, and bring the
index back to `i`. -/
theorem C16_round_robin (create_ok : Nat → Bool) (buf_poll : ra_buf → Bool) (r : ra)
    (pool : ra_buf_pool) (params : ra_buf_params) (hd : params.initial_data = false)
    (hc : ra_buf_params_compatible params pool.current_params = true)
    (hi : pool.index < pool.buffers.length)
    (hfree : buf_poll (pool.buffers.getD pool.index 0) = true) :
    ra_buf_pool_get create_ok buf_poll r pool params
      = some (some (pool.buffers.getD pool.index 0), r,
          { pool with index := (pool.index + 1) % pool.buffers.length }) ∧
    (pool.index + 1) % pool.buffers.length < pool.buffers.length ∧
    (∀ qs r0 res r2 p2, ra_buf_pool_gets r0 ra_buf_pool_zero qs = some (res, r2, p2) →
      p2.buffers ≠ [] → p2.index < p2.buffers.length) ∧
    (∀ qs : List buf_request, qs.length = pool.buffers.length →
      (∀ q ∈ qs, q.params.initial_data = false ∧
        ra_buf_params_compatible q.params pool.current_params = true ∧
        ∀ b ∈ pool.buffers, q.buf_poll b = true) →
      ra_buf_pool_gets r pool qs
        = some ((pool.buffers.rotate pool.index).map some, r, pool)) := by
  refine ⟨get_free create_ok buf_poll r pool params hd hc hi hfree,
    Nat.mod_lt _ (by omega), ?_, ?_⟩
  · intro qs r0 res r2 p2 he hne
    rcases gets_shape qs r0 ra_buf_pool_zero (Or.inr ⟨rfl, rfl⟩) res r2 p2 he with h | h
    · exact h
    · exact absurd h.1 hne
  · intro qs hlen hq
    rw [gets_free qs r pool hi hq, hlen, ← range_map_rotate, List.map_map]
    have : (pool.index + pool.buffers.length) % pool.buffers.length = pool.index := by
      rw [Nat.add_mod_right]; exact Nat.mod_eq_of_lt hi
    rw [this]
    rfl

/-- C17 as stated fails: the pool holds two available textures of size 2 x 2 (a state
reached by acquiring two such textures and releasing both).  `ra_tex_pool_get(2, 2)`
returns the entry 0; its release appends the entry at the end of the available set, so
that the next `ra_tex_pool_get(2, 2)` returns the entry 1, which is found first. -/
theorem C17_counterexample :
    tex_two.avail = [0, 1] ∧
    ((ra_tex_pool_get true ra_tex_pool_alloc 2 2).bind fun s0 =>
      (ra_tex_pool_get true s0.2 2 2).bind fun s1 =>
        (ra_tex_ref_free s1.2 (some s0.1)).bind fun p => ra_tex_ref_free p (some s1.1))
      = some tex_two ∧
    ((ra_tex_pool_get false tex_two 2 2).bind fun s =>
      (ra_tex_ref_free s.2 (some s.1)).bind fun p =>
        (ra_tex_pool_get false p 2 2).map fun s2 => (s.1, p.avail, s2.1))
      = some (0, [1, 0], 1) := by
  decide

/-- C17, amended: on a pool whose available entries are allocated, `ra_tex_pool_get(w, h)`
followed at once by `ra_tex_ref_free` of the reference and by `ra_tex_pool_get(w, h)`
again is served from the available set, without a new allocation, with an entry of size
`w` x `h`; it is the entry of the first call when no other entry of the available set has
that size (as when the first call had to allocate). -/
theorem C17_round_trip (ok : Bool) (pool : ra_tex_pool) (w h : Int)
    (hin : ∀ x ∈ pool.avail, x < pool.mem.length) (e : Nat) (p1 : ra_tex_pool)
    (hg : ra_tex_pool_get ok pool w h = some (e, p1)) :
    ∃ p2, ra_tex_ref_free p1 (some e) = some p2 ∧
      ∃ e2 p3, (∀ ok2, ra_tex_pool_get ok2 p2 w h = some (e2, p3)) ∧
        p3.mem.length = p2.mem.length ∧ e2 ∈ p2.avail ∧
        (p3.entry e2).w = w ∧ (p3.entry e2).h = h ∧ (p3.entry e2).refs = 1 ∧
        ((∀ x ∈ pool.avail, x ≠ e → tex_match pool w h x = false) → e2 = e) := by
  rcases get_cases ok pool w h e p1 hg with ⟨pre, suf, hs, _, hme, rfl⟩ | ⟨hno, _, rfl, rfl⟩
  · have hea : e ∈ pool.avail := by rw [hs]; simp
    have hlt := hin e hea
    have hr1 : ((({ pool with avail := pre ++ suf } : ra_tex_pool).store e
        { pool.entry e with refs := 1 }).entry e).refs = 1 := by
      rw [entry_store, if_pos ⟨rfl, hlt⟩]
    refine ⟨_, free_last _ e hr1, ?_⟩
    generalize hq : ({ pool with avail := pre ++ suf } : ra_tex_pool).store e
      { pool.entry e with refs := 1 } = q at hr1
    have hqa : q.avail = pre ++ suf := by rw [← hq]; rfl
    have hql : q.mem.length = pool.mem.length := by rw [← hq, store_length]
    have hqe : ∀ x, (q.entry x).w = (pool.entry x).w ∧ (q.entry x).h = (pool.entry x).h := by
      intro x
      rw [← hq, entry_store]
      split
      · next hx => rw [hx.1]; exact ⟨rfl, rfl⟩
      · exact ⟨rfl, rfl⟩
    have hp2e : ∀ x, ((ra_tex_pool.mk (q.store e { q.entry e with refs := 0, age := 0 }).mem
        (q.avail ++ [e]) (q.store e { q.entry e with refs := 0, age := 0 }).freed).entry x).w
          = (pool.entry x).w ∧
        ((ra_tex_pool.mk (q.store e { q.entry e with refs := 0, age := 0 }).mem
        (q.avail ++ [e]) (q.store e { q.entry e with refs := 0, age := 0 }).freed).entry x).h
          = (pool.entry x).h := by
      intro x
      show ((q.store e _).entry x).w = _ ∧ ((q.store e _).entry x).h = _
      rw [entry_store]
      split
      · next hx => rw [hx.1]; exact hqe e
      · exact hqe x
    have hmatch : ∀ x, tex_match (ra_tex_pool.mk
        (q.store e { q.entry e with refs := 0, age := 0 }).mem (q.avail ++ [e])
        (q.store e { q.entry e with refs := 0, age := 0 }).freed) w h x
        = tex_match pool w h x := fun x =>
      tex_match_congr _ _ w h x (hp2e x).1 (hp2e x).2
    obtain ⟨e2, p3, g1, g2, g3, g4, g5, g6, g7⟩ := get_of_match
      (ra_tex_pool.mk (q.store e { q.entry e with refs := 0, age := 0 }).mem (q.avail ++ [e])
        (q.store e { q.entry e with refs := 0, age := 0 }).freed) w h e
      (by
        intro x hx
        show x < (q.store e _).mem.length
        rw [store_length, hql]
        rcases List.mem_append.1 hx with h1 | h1
        · rw [hqa] at h1
          apply hin x
          rw [hs]
          rcases List.mem_append.1 h1 with h2 | h2
          · exact List.mem_append_left _ h2
          · exact List.mem_append_right _ (List.mem_cons_of_mem _ h2)
        · rw [List.mem_singleton.1 h1]; exact hlt)
      (by simp) (by rw [hmatch]; exact hme)
    refine ⟨e2, p3, g1, g2, g3, g5, g6, g7, ?_⟩
    intro hother
    by_contra hne
    have h2 : e2 ∈ pool.avail := by
      rcases List.mem_append.1 g3 with h1 | h1
      · rw [hqa] at h1
        rw [hs]
        rcases List.mem_append.1 h1 with h2 | h2
        · exact List.mem_append_left _ h2
        · exact List.mem_append_right _ (List.mem_cons_of_mem _ h2)
      · exact absurd (List.mem_singleton.1 h1) hne
    have := hother e2 h2 hne
    rw [hmatch, this] at g4
    cases g4
  · have hr1 : ((ra_tex_pool.mk (pool.mem ++ [{ w := w, h := h, age := 0, refs := 1 }])
        pool.avail pool.freed).entry pool.mem.length).refs = 1 := by
      rw [entry_append_self]
    refine ⟨_, free_last _ _ hr1, ?_⟩
    generalize hq : ra_tex_pool.mk (pool.mem ++ [{ w := w, h := h, age := 0, refs := 1 }])
      pool.avail pool.freed = q at hr1
    have hqa : q.avail = pool.avail := by rw [← hq]
    have hql : q.mem.length = pool.mem.length + 1 := by rw [← hq]; simp
    have hqn : q.entry pool.mem.length = { w := w, h := h, age := 0, refs := 1 } := by
      rw [← hq, entry_append_self]
    have hqo : ∀ x, x < pool.mem.length → q.entry x = pool.entry x := by
      intro x hx
      rw [← hq, entry_append_lt pool _ x hx]
    have hmn : tex_match (ra_tex_pool.mk
        (q.store pool.mem.length { q.entry pool.mem.length with refs := 0, age := 0 }).mem
        (q.avail ++ [pool.mem.length])
        (q.store pool.mem.length { q.entry pool.mem.length with refs := 0, age := 0 }).freed)
        w h pool.mem.length = true := by
      rw [tex_match_iff]
      show ((q.store _ _).entry _).w = w ∧ ((q.store _ _).entry _).h = h
      rw [entry_store, if_pos ⟨rfl, by omega⟩, hqn]
      exact ⟨rfl, rfl⟩
    have hmo : ∀ x, x < pool.mem.length → tex_match (ra_tex_pool.mk
        (q.store pool.mem.length { q.entry pool.mem.length with refs := 0, age := 0 }).mem
        (q.avail ++ [pool.mem.length])
        (q.store pool.mem.length { q.entry pool.mem.length with refs := 0, age := 0 }).freed)
        w h x = tex_match pool w h x := by
      intro x hx
      have : (ra_tex_pool.mk
          (q.store pool.mem.length { q.entry pool.mem.length with refs := 0, age := 0 }).mem
          (q.avail ++ [pool.mem.length])
          (q.store pool.mem.length
            { q.entry pool.mem.length with refs := 0, age := 0 }).freed).entry x
          = pool.entry x := by
        show (q.store _ _).entry x = _
        rw [entry_store, if_neg (fun hh => by omega), hqo x hx]
      exact tex_match_congr _ _ w h x (by rw [this]) (by rw [this])
    obtain ⟨e2, p3, g1, g2, g3, g4, g5, g6, g7⟩ := get_of_match
      (ra_tex_pool.mk
        (q.store pool.mem.length { q.entry pool.mem.length with refs := 0, age := 0 }).mem
        (q.avail ++ [pool.mem.length])
        (q.store pool.mem.length { q.entry pool.mem.length with refs := 0, age := 0 }).freed)
      w h pool.mem.length
      (by
        intro x hx
        show x < (q.store _ _).mem.length
        rw [store_length, hql]
        rcases List.mem_append.1 hx with h1 | h1
        · rw [hqa] at h1
          have := hin x h1; omega
        · rw [List.mem_singleton.1 h1]; omega)
      (by simp) hmn
    refine ⟨e2, p3, g1, g2, g3, g5, g6, g7, ?_⟩
    intro _
    by_contra hne
    rcases List.mem_append.1 g3 with h1 | h1
    · rw [hqa] at h1
      rw [hmo e2 (hin e2 h1), hno e2 h1] at g4
      cases g4
    · exact hne (List.mem_singleton.1 h1)

/-- C18: an entry whose last reference is given up by `ra_tex_ref_free` enters the
available set with age 0; when it is not acquired again it is in the available set, with
age `k` and not destroyed, after `k ≤ 10` calls of `ra_tex_pool_gc_tick` in a row
(10 is `RA_TEX_ENTRY_MAX_AGE`), and the 11th call destroys it and takes it out of the
available set. -/
theorem C18_ageing (pool : ra_tex_pool) (e : Nat) (hnd : pool.avail.Nodup)
    (hin : ∀ x ∈ pool.avail, x < pool.mem.length) (he : e < pool.mem.length)
    (hf : e ∉ pool.freed) (hna : e ∉ pool.avail) (h1 : (pool.entry e).refs = 1) :
    RA_TEX_ENTRY_MAX_AGE = 10 ∧
    ∃ p1, ra_tex_ref_free pool (some e) = some p1 ∧
      e ∈ p1.avail ∧ (p1.entry e).age = 0 ∧ (p1.entry e).refs = 0 ∧
      (∀ k, k ≤ 10 →
        e ∈ (Nat.iterate ra_tex_pool_gc_tick k p1).avail ∧
        e ∉ (Nat.iterate ra_tex_pool_gc_tick k p1).freed ∧
        ((Nat.iterate ra_tex_pool_gc_tick k p1).entry e).age = k) ∧
      e ∉ (Nat.iterate ra_tex_pool_gc_tick 11 p1).avail ∧
      e ∈ (Nat.iterate ra_tex_pool_gc_tick 11 p1).freed := by
  refine ⟨rfl, _, free_last pool e h1, ?_⟩
  generalize hq : ra_tex_pool.mk (pool.store e { pool.entry e with refs := 0, age := 0 }).mem
    (pool.avail ++ [e]) (pool.store e { pool.entry e with refs := 0, age := 0 }).freed = q
  have hqa : q.avail = pool.avail ++ [e] := by rw [← hq]
  have hqf : q.freed = pool.freed := by rw [← hq]; rfl
  have hql : q.mem.length = pool.mem.length := by
    rw [← hq]; show (pool.store e _).mem.length = _; rw [store_length]
  have hqe : q.entry e = { pool.entry e with refs := 0, age := 0 } := by
    rw [← hq]; show (pool.store e _).entry e = _
    rw [entry_store, if_pos ⟨rfl, he⟩]
  have hqnd : q.avail.Nodup := by
    rw [hqa, List.nodup_append]
    refine ⟨hnd, List.nodup_singleton e, ?_⟩
    intro x hx hx2
    rw [List.mem_singleton.1 hx2] at hx
    exact hna hx
  have hqin : ∀ x ∈ q.avail, x < q.mem.length := by
    intro x hx
    rw [hqa] at hx
    rw [hql]
    rcases List.mem_append.1 hx with h2 | h2
    · exact hin x h2
    · rw [List.mem_singleton.1 h2]; exact he
  have hqm : e ∈ q.avail := by rw [hqa]; simp
  have hage : (q.entry e).age = 0 := by rw [hqe]
  have hiter := fun k (hk : k ≤ 10) =>
    tick_iterate e k q hqnd hqin hqm (by rw [hage]; omega) (by rw [hqf]; exact hf)
  refine ⟨hqm, hage, by rw [hqe], ?_, ?_⟩
  · intro k hk
    obtain ⟨_, _, a3, a4, a5⟩ := hiter k hk
    refine ⟨a3, a5, ?_⟩
    rw [a4, hage]; simp
  · obtain ⟨a1, a2, a3, a4, _⟩ := hiter 10 (Nat.le_refl _)
    have : Nat.iterate ra_tex_pool_gc_tick 11 q
        = ra_tex_pool_gc_tick (Nat.iterate ra_tex_pool_gc_tick 10 q) :=
      Function.iterate_succ_apply' _ _ _
    rw [this]
    exact tick_drop _ e a1 a2 a3 (by rw [a4, hage]; rfl)

/-- C19: in every state reached from an empty pool by `ra_tex_pool_get`, `ra_tex_ref_dup`
and `ra_tex_ref_free` on references that are held, and `ra_tex_pool_gc_tick`, every entry
that exists has `refs ≥ 0` and is in the available set exactly when its `refs` is 0, and
no entry is in the available set twice.  The available entries exist, and on a reference
that is held the assertions of `ra_tex_ref_dup` and `ra_tex_ref_free` hold. -/
theorem C19_tex_pool_invariant (pool : ra_tex_pool) (held : List Nat)
    (hr : TReach (pool, held)) :
    (∀ e, pool.live e →
      0 ≤ (pool.entry e).refs ∧ (e ∈ pool.avail ↔ (pool.entry e).refs = 0)) ∧
    pool.avail.Nodup ∧
    (∀ e, e ∈ pool.avail → pool.live e) ∧
    (∀ e, e ∈ held → pool.live e ∧ 0 < (pool.entry e).refs ∧
      (ra_tex_ref_dup pool (some e)).isSome = true ∧
      (ra_tex_ref_free pool (some e)).isSome = true) := by
  have hinv := TInv_reach (pool, held) hr
  refine ⟨fun e he => ⟨(hinv.refs e he).1, (hinv.refs e he).2.1⟩, hinv.nodup,
    hinv.avail_live, ?_⟩
  intro e he
  obtain ⟨hl, hp, _⟩ := held_refs_pos pool held hinv e he
  refine ⟨hl, hp, by rw [dup_held pool e hp]; rfl, ?_⟩
  by_cases h1 : (pool.entry e).refs = 1
  · rw [free_last pool e h1]; rfl
  · rw [free_more pool e (by omega)]; rfl

/-- C20: when some entry of the available set has exactly the size `w` x `h`,
`ra_tex_pool_get` returns the first such entry of the array, takes that entry only out of
the available set (the others keep their order), sets its `refs` to 1 and allocates
nothing; when none has that size the available set stays as it is and the entry returned
is newly allocated, has size `w` x `h` and `refs` 1 and is not in the available set
(without a texture from the back end the call aborts). -/
theorem C20_acquire (pool : ra_tex_pool) (w h : Int)
    (hin : ∀ x ∈ pool.avail, x < pool.mem.length) :
    (∀ e, tex_match pool w h e = true ↔ ((pool.entry e).w = w ∧ (pool.entry e).h = h)) ∧
    ((∃ x ∈ pool.avail, tex_match pool w h x = true) →
      ∃ pre e suf, pool.avail = pre ++ e :: suf ∧
        (∀ x ∈ pre, tex_match pool w h x = false) ∧ tex_match pool w h e = true ∧
        ∀ ok, ∃ p2, ra_tex_pool_get ok pool w h = some (e, p2) ∧
          p2.avail = pre ++ suf ∧ p2.entry e = { pool.entry e with refs := 1 } ∧
          (∀ x, x ≠ e → p2.entry x = pool.entry x) ∧
          p2.mem.length = pool.mem.length ∧ p2.freed = pool.freed) ∧
    ((∀ x ∈ pool.avail, tex_match pool w h x = false) →
      ∃ p2, ra_tex_pool_get true pool w h = some (pool.mem.length, p2) ∧
        p2.avail = pool.avail ∧ pool.mem.length ∉ p2.avail ∧
        p2.entry pool.mem.length = { w := w, h := h, age := 0, refs := 1 } ∧
        (∀ x, x < pool.mem.length → p2.entry x = pool.entry x) ∧
        p2.mem.length = pool.mem.length + 1 ∧ p2.freed = pool.freed ∧
        ra_tex_pool_get false pool w h = none) := by
  refine ⟨tex_match_iff pool w h, ?_, ?_⟩
  · intro hex
    obtain ⟨pre, e, suf, h1, h2, h3⟩ := first_match pool w h pool.avail hex
    have hlt : e < pool.mem.length := hin e (by rw [h1]; simp)
    refine ⟨pre, e, suf, h1, h2, h3, fun ok => ⟨_, get_hit ok pool w h pre suf e h1 h2 h3,
      rfl, ?_, ?_, by rw [store_length], rfl⟩⟩
    · rw [entry_store, if_pos ⟨rfl, hlt⟩]
    · intro x hx
      rw [entry_store, if_neg (fun hh => hx hh.1)]
      rfl
  · intro hno
    refine ⟨_, (get_miss pool w h hno).1, rfl, ?_, entry_append_self pool _, ?_, by simp, rfl,
      (get_miss pool w h hno).2⟩
    · intro hh
      have := hin _ hh
      omega
    · intro x hx
      exact entry_append_lt pool _ x hx

/-- C21: for an entry acquired once by `ra_tex_pool_get` and duplicated `k` times by
`ra_tex_ref_dup` (which returns the reference it is given, and `NULL` without touching the
pool when given `NULL`), the first `k` calls of `ra_tex_ref_free` leave the available set
as it is and the call number `k + 1`, and no earlier one, appends the entry to the
available set, with age 0; after every call of `ra_tex_ref_free` the reference of the
caller is `NULL`. -/
theorem C21_refcount (ok : Bool) (pool0 : ra_tex_pool) (w h : Int)
    (hin : ∀ x ∈ pool0.avail, x < pool0.mem.length) (e : Nat) (pool : ra_tex_pool)
    (hg : ra_tex_pool_get ok pool0 w h = some (e, pool)) (k : Nat) :
    (∀ q : ra_tex_pool, ra_tex_ref_dup q none = some (none, q)) ∧
    (∀ (q q2 : ra_tex_pool) (r : Option Nat) (r2 : Option Nat),
      ra_tex_ref_dup q r = some (r2, q2) → r2 = r) ∧
    (∀ (q q2 : ra_tex_pool) (r r2 : Option Nat),
      ra_tex_ref_free_ptr q r = some (q2, r2) → r2 = none ∧ ra_tex_ref_free q r = some q2) ∧
    ∃ pk, tex_dups pool e k = some pk ∧ pk.avail = pool.avail ∧
      (pk.entry e).refs = k + 1 ∧
      (∀ j, j ≤ k → ∃ pj, tex_frees pk e j = some pj ∧ pj.avail = pool.avail ∧
        (pj.entry e).refs = k + 1 - j) ∧
      ∃ pl, tex_frees pk e (k + 1) = some pl ∧ pl.avail = pool.avail ++ [e] ∧
        (pl.entry e).age = 0 ∧ (pl.entry e).refs = 0 := by
  obtain ⟨he, h1⟩ := get_refs_one ok pool0 w h hin e pool hg
  refine ⟨fun q => rfl, ?_, fun q q2 r r2 hf => free_ptr_null q r q2 r2 hf, ?_⟩
  · intro q q2 r r2 hd
    cases r with
    | none =>
      simp only [ra_tex_ref_dup, Option.some.injEq, Prod.mk.injEq] at hd
      exact hd.1.symm
    | some x =>
      simp only [ra_tex_ref_dup] at hd
      split at hd
      · simp only [Option.some.injEq, Prod.mk.injEq] at hd
        exact hd.1.symm
      · cases hd
  · obtain ⟨pk, d1, d2, d3, d4, d5, _⟩ := dups_spec e k pool he (by rw [h1]; decide)
    have hk : e < pk.mem.length := by rw [d4]; exact he
    have hrefs : (pk.entry e).refs = k + 1 := by rw [d5, h1]; simp only []; omega
    have hfree : ∀ j, j ≤ k → ∃ pj, tex_frees pk e j = some pj ∧ pj.avail = pool.avail ∧
        (pj.entry e).refs = k + 1 - j ∧ e < pj.mem.length := by
      intro j hj
      obtain ⟨pj, f1, f2, _, f4, f5, _⟩ := frees_spec e j pk hk (by rw [hrefs]; omega)
      exact ⟨pj, f1, by rw [f2, d2], by rw [f5, hrefs], by rw [f4]; exact hk⟩
    refine ⟨pk, d1, d2, hrefs, fun j hj => ?_, ?_⟩
    · obtain ⟨pj, f1, f2, f3, _⟩ := hfree j hj
      exact ⟨pj, f1, f2, f3⟩
    · obtain ⟨pj, f1, f2, f3, f4⟩ := hfree k (Nat.le_refl _)
      have hone : (pj.entry e).refs = 1 := by rw [f3]; omega
      refine ⟨_, by rw [frees_succ, f1, Option.some_bind]; exact free_last pj e hone,
        by simp only []; rw [f2], ?_, ?_⟩
      · show ((pj.store e _).entry e).age = 0
        rw [entry_store, if_pos ⟨rfl, f4⟩]
      · show ((pj.store e _).entry e).refs = 0
        rw [entry_store, if_pos ⟨rfl, f4⟩]

/-- C22: on a pool whose available array `L` holds distinct allocated entries,
`ra_tex_pool_gc_tick` leaves in the available array exactly the entries of `L` whose age
was less than 10, in their order in `L`, and destroys the entries whose age was 10 or
more, in their order in `L`; the age of every entry of `L` has gone up by exactly one and
nothing else of any entry has changed, so that no entry was skipped or visited twice. -/
theorem C22_gc_tick (pool : ra_tex_pool) (hnd : pool.avail.Nodup)
    (hin : ∀ e ∈ pool.avail, e < pool.mem.length) :
    (ra_tex_pool_gc_tick pool).avail
      = pool.avail.filter (fun e => decide ((pool.entry e).age < 10)) ∧
    (ra_tex_pool_gc_tick pool).freed
      = pool.freed ++ pool.avail.filter (fun e => decide (10 ≤ (pool.entry e).age)) ∧
    (∀ e, e ∈ pool.avail →
      (ra_tex_pool_gc_tick pool).entry e
        = { pool.entry e with age := (pool.entry e).age + 1 }) ∧
    (∀ e, e ∉ pool.avail → (ra_tex_pool_gc_tick pool).entry e = pool.entry e) ∧
    (ra_tex_pool_gc_tick pool).mem.length = pool.mem.length := by
  obtain ⟨g1, g2, g3, g4⟩ := gc_tick_spec pool hnd hin
  have hold : ∀ e, tex_old pool.mem e = decide (10 ≤ (pool.entry e).age) := by
    intro e
    rw [tex_old_eq]
    simp only [RA_TEX_ENTRY_MAX_AGE, gt_iff_lt, decide_eq_decide]
    omega
  refine ⟨?_, ?_, ?_, ?_, g3⟩
  · rw [g1]
    apply List.filter_congr
    intro e _
    rw [hold e]
    by_cases ha : (pool.entry e).age < 10
    · simp [ha]
    · simp [ha]; omega
  · rw [g2]
    congr 1
    apply List.filter_congr
    intro e _
    exact hold e
  · intro e he
    rw [g4 e, if_pos he]; rfl
  · intro e he
    rw [g4 e, if_neg he]

/-- C28: in every state reached from a freshly created timer pool by `timer_pool_start`,
`timer_pool_stop` and `timer_pool_measure`, `sample_idx < VO_PERF_SAMPLE_COUNT` and
`sample_count ≤ VO_PERF_SAMPLE_COUNT` (both are counted up from 0), and the sample array
has `VO_PERF_SAMPLE_COUNT` entries; so `samples[sample_idx]` in `timer_pool_stop` is inside
the array, the start index `sample_idx - sample_count + VO_PERF_SAMPLE_COUNT` of
`timer_pool_measure` is not negative, and in iteration `n < sample_count` of its loop the
index read after `idx %= VO_PERF_SAMPLE_COUNT` is inside the sample array and the index
`n` written is inside the array of the result. -/
theorem C28_index_safety (M : Nat) (hM : 0 < M) (pool : timer_pool) (h : TmReach M pool) :
    pool.sample_idx < M ∧ pool.sample_count ≤ M ∧ pool.samples.length = M ∧
    pool.sample_idx < pool.samples.length ∧
    (0 : Int) ≤ (pool.sample_idx : Int) - pool.sample_count + M ∧
    ∀ n, n < pool.sample_count →
      0 ≤ (measure_loop M pool n).2 ∧
      0 ≤ Int.tmod (measure_loop M pool n).2 M ∧
      (Int.tmod (measure_loop M pool n).2 M).toNat < pool.samples.length ∧
      n < (measure_loop M pool n).1.length := by
  obtain ⟨hlen, hidx, hcount⟩ := bounds_reach M hM pool h
  refine ⟨hidx, hcount, hlen, by rw [hlen]; exact hidx, by omega, ?_⟩
  intro n hn
  obtain ⟨l1, ⟨k, hk, _⟩, _, _⟩ := measure_loop_spec M pool hcount n (by omega)
  rw [hk]
  have e1 : Int.tmod (k : Int) (M : Int) = ((k % M : Nat) : Int) := (Int.ofNat_tmod k M).symm
  rw [e1, Int.toNat_ofNat, hlen, l1]
  exact ⟨Int.ofNat_nonneg _, Int.ofNat_nonneg _, Nat.mod_lt _ hM, by omega⟩

/-- C30: for an input with element size `e`, vector length `v` and `m` columns, as long as
the 64-bit arithmetic does not overflow and `MP_ALIGN_UP` rounds up to the next multiple,
`std140_layout` returns `align = stride` and `size = stride * m`, where the stride is
`e * v`, or `e * 4` when `v = 3` (the layout of a vec3 is that of a vec4), rounded up to
the next multiple of 16 when `m > 1`. -/
theorem C30_std140_layout (MP_ALIGN_UP : Nat → Nat → Nat) (e v m : Nat)
    (hv : v < 2 ^ 31) (hm : m < 2 ^ 31) (he : e * (v + 1) + 15 < 2 ^ 64)
    (hsz : round_up (e * (v + 1)) 16 * m < 2 ^ 64)
    (hA : ∀ x, x + 15 < 2 ^ 64 → MP_ALIGN_UP x 16 = round_up x 16) :
    (std140_layout MP_ALIGN_UP e { dim_v := v, dim_m := m }).align
      = (std140_layout MP_ALIGN_UP e { dim_v := v, dim_m := m }).stride ∧
    (std140_layout MP_ALIGN_UP e { dim_v := v, dim_m := m }).size
      = (std140_layout MP_ALIGN_UP e { dim_v := v, dim_m := m }).stride * m ∧
    (std140_layout MP_ALIGN_UP e { dim_v := v, dim_m := m }).stride
      = (if m > 1 then round_up (if v = 3 then e * 4 else e * v) 16
         else if v = 3 then e * 4 else e * v) ∧
    (if v = 3 then e * 4 else e * v) ≤ round_up (if v = 3 then e * 4 else e * v) 16 ∧
    round_up (if v = 3 then e * 4 else e * v) 16 < (if v = 3 then e * 4 else e * v) + 16 ∧
    16 ∣ round_up (if v = 3 then e * 4 else e * v) 16 ∧
    (v = 3 → std140_layout MP_ALIGN_UP e { dim_v := 3, dim_m := m }
      = std140_layout MP_ALIGN_UP e { dim_v := 4, dim_m := m }) := by
  have hcv : to_size_t (v : Int) = v := by
    unfold to_size_t
    have : ((v : Int) % 2 ^ 64) = (v : Int) := Int.emod_eq_of_lt (by omega) (by omega)
    rw [this]; simp
  have hcm : to_size_t (m : Int) = m := by
    unfold to_size_t
    have : ((m : Int) % 2 ^ 64) = (m : Int) := Int.emod_eq_of_lt (by omega) (by omega)
    rw [this]; simp
  have c3 : to_size_t (3 : Int) = 3 := by decide
  have c4 : to_size_t (4 : Int) = 4 := by decide
  have hev : e * v ≤ e * (v + 1) := Nat.mul_le_mul_left _ (by omega)
  have hS : (if v = 3 then e * 4 else e * v) ≤ e * (v + 1) := by
    split
    · next h3 => rw [h3]
    · exact hev
  have hmono : ∀ x y : Nat, x ≤ y → round_up x 16 ≤ round_up y 16 := by
    intro x y hxy
    unfold round_up
    omega
  have hru : ∀ x : Nat, x ≤ round_up x 16 ∧ round_up x 16 < x + 16 ∧ 16 ∣ round_up x 16 := by
    intro x
    unfold round_up
    refine ⟨by omega, by omega, Nat.dvd_mul_left _ _⟩
  have hstride : (std140_layout MP_ALIGN_UP e { dim_v := v, dim_m := m }).stride
      = (if m > 1 then round_up (if v = 3 then e * 4 else e * v) 16
         else if v = 3 then e * 4 else e * v) := by
    simp only [std140_layout, hcv]
    have e0 : e * v % 2 ^ 64 = e * v := Nat.mod_eq_of_lt (by omega)
    have hv3 : ((v : Int) = 3) ↔ v = 3 := by omega
    have hm1 : ((m : Int) > 1) ↔ m > 1 := by omega
    rw [e0]
    simp only [hv3, hm1]
    by_cases h3 : v = 3
    · have e1 : (e * v + e) % 2 ^ 64 = e * 4 := by
        rw [h3] at he ⊢
        rw [Nat.mod_eq_of_lt (by omega)]; omega
      simp only [h3, if_true] at e1 ⊢
      rw [e1]
      split
      · exact hA _ (by rw [h3] at he; omega)
      · rfl
    · simp only [h3, if_false]
      split
      · exact hA _ (by omega)
      · rfl
  refine ⟨rfl, ?_, hstride, (hru _).1, (hru _).2.1, (hru _).2.2, ?_⟩
  · have hsize : (std140_layout MP_ALIGN_UP e { dim_v := v, dim_m := m }).size
        = ((std140_layout MP_ALIGN_UP e { dim_v := v, dim_m := m }).stride * m) % 2 ^ 64 := by
      simp only [std140_layout, hcm]
    rw [hsize, hstride]
    apply Nat.mod_eq_of_lt
    have hb : (if m > 1 then round_up (if v = 3 then e * 4 else e * v) 16
         else if v = 3 then e * 4 else e * v) ≤ round_up (e * (v + 1)) 16 := by
      split
      · exact hmono _ _ hS
      · exact Nat.le_trans hS (hru _).1
    exact Nat.lt_of_le_of_lt (Nat.mul_le_mul_right _ hb) hsz
  · intro h3
    rw [h3] at he
    have e3 : e * 3 % 2 ^ 64 = e * 3 := Nat.mod_eq_of_lt (by omega)
    have e4 : e * 4 % 2 ^ 64 = e * 4 := Nat.mod_eq_of_lt (by omega)
    have e5 : (e * 3 + e) % 2 ^ 64 = e * 4 := by
      rw [Nat.mod_eq_of_lt (by omega)]; omega
    simp only [std140_layout, c3, c4, e3, e4, e5, if_true]
    have : ¬ ((4 : Int) = 3) := by decide
    simp only [this, if_false]

/-- C26: with the capabilities reported and the two fields of `info` zero, as in the
prototype `ra_vk_ctx_resize` passes, the composite alpha mode chosen is the first of
post-multiplied and opaque that is in the supported set and the transform chosen is the
first of identity and inherit that is in the supported set; `update_swchain_info` fails
exactly when neither alpha mode is supported, or neither transform is supported, or the
extent fails its two checks. -/
theorem C26_mode_selection (K : vk_bits) (d : Int) (c : VkSurfaceCapabilitiesKHR)
    (info : VkSwapchainCreateInfoKHR) (h0 : info.compositeAlpha = 0)
    (h1 : info.preTransform = 0) :
    ((update_swchain_info K d (some c) info).1 = false ↔
      ((has_bit c.supportedCompositeAlpha K.VK_COMPOSITE_ALPHA_POST_MULTIPLIED_BIT_KHR = false ∧
        has_bit c.supportedCompositeAlpha K.VK_COMPOSITE_ALPHA_OPAQUE_BIT_KHR = false) ∨
       (has_bit c.supportedTransforms K.VK_SURFACE_TRANSFORM_IDENTITY_BIT_KHR = false ∧
        has_bit c.supportedTransforms K.VK_SURFACE_TRANSFORM_INHERIT_BIT_KHR = false) ∨
       ¬ (c.minImageExtent.width ≤ adopt_extent c.currentExtent.width info.imageExtent.width ∧
          c.minImageExtent.height
            ≤ adopt_extent c.currentExtent.height info.imageExtent.height ∧
          adopt_extent c.currentExtent.width info.imageExtent.width ≤ c.maxImageExtent.width ∧
          adopt_extent c.currentExtent.height info.imageExtent.height
            ≤ c.maxImageExtent.height))) ∧
    ((has_bit c.supportedCompositeAlpha K.VK_COMPOSITE_ALPHA_POST_MULTIPLIED_BIT_KHR = true ∨
        has_bit c.supportedCompositeAlpha K.VK_COMPOSITE_ALPHA_OPAQUE_BIT_KHR = true) →
      (has_bit c.supportedTransforms K.VK_SURFACE_TRANSFORM_IDENTITY_BIT_KHR = true ∨
        has_bit c.supportedTransforms K.VK_SURFACE_TRANSFORM_INHERIT_BIT_KHR = true) →
      (update_swchain_info K d (some c) info).2.1.compositeAlpha
        = (if has_bit c.supportedCompositeAlpha K.VK_COMPOSITE_ALPHA_POST_MULTIPLIED_BIT_KHR
            then K.VK_COMPOSITE_ALPHA_POST_MULTIPLIED_BIT_KHR
            else K.VK_COMPOSITE_ALPHA_OPAQUE_BIT_KHR) ∧
      (update_swchain_info K d (some c) info).2.1.preTransform
        = (if has_bit c.supportedTransforms K.VK_SURFACE_TRANSFORM_IDENTITY_BIT_KHR
            then K.VK_SURFACE_TRANSFORM_IDENTITY_BIT_KHR
            else K.VK_SURFACE_TRANSFORM_INHERIT_BIT_KHR)) ∧
    ((has_bit c.supportedCompositeAlpha K.VK_COMPOSITE_ALPHA_POST_MULTIPLIED_BIT_KHR = false ∧
        has_bit c.supportedCompositeAlpha K.VK_COMPOSITE_ALPHA_OPAQUE_BIT_KHR = false) →
      update_swchain_info K d (some c) info
        = (false, info, [sw_msg.err_alpha c.supportedCompositeAlpha])) ∧
    ((has_bit c.supportedCompositeAlpha K.VK_COMPOSITE_ALPHA_POST_MULTIPLIED_BIT_KHR = true ∨
        has_bit c.supportedCompositeAlpha K.VK_COMPOSITE_ALPHA_OPAQUE_BIT_KHR = true) →
      (has_bit c.supportedTransforms K.VK_SURFACE_TRANSFORM_IDENTITY_BIT_KHR = false ∧
        has_bit c.supportedTransforms K.VK_SURFACE_TRANSFORM_INHERIT_BIT_KHR = false) →
      (update_swchain_info K d (some c) info).1 = false ∧
      (update_swchain_info K d (some c) info).2.2
        = [sw_msg.err_transform c.supportedTransforms]) := by
  have hno_a : (has_bit c.supportedCompositeAlpha K.VK_COMPOSITE_ALPHA_POST_MULTIPLIED_BIT_KHR
        = false ∧
      has_bit c.supportedCompositeAlpha K.VK_COMPOSITE_ALPHA_OPAQUE_BIT_KHR = false) →
      update_swchain_info K d (some c) info
        = (false, info, [sw_msg.err_alpha c.supportedCompositeAlpha]) := by
    intro h
    rw [update_no_alpha K d c info (by rw [h0]; exact pick_eq_zero _ _ _ h)]
    congr 2
    rw [← h0]
  have hno_t : (has_bit c.supportedCompositeAlpha K.VK_COMPOSITE_ALPHA_POST_MULTIPLIED_BIT_KHR
        = true ∨
      has_bit c.supportedCompositeAlpha K.VK_COMPOSITE_ALPHA_OPAQUE_BIT_KHR = true) →
      (has_bit c.supportedTransforms K.VK_SURFACE_TRANSFORM_IDENTITY_BIT_KHR = false ∧
        has_bit c.supportedTransforms K.VK_SURFACE_TRANSFORM_INHERIT_BIT_KHR = false) →
      (update_swchain_info K d (some c) info).1 = false ∧
      (update_swchain_info K d (some c) info).2.2
        = [sw_msg.err_transform c.supportedTransforms] := by
    intro ha ht
    exact update_no_transform K d c info (by rw [h0]; exact pick_ne_zero _ _ _ ha)
      (by rw [h1]; exact pick_eq_zero _ _ _ ht)
  refine ⟨?_, ?_, hno_a, hno_t⟩
  · by_cases ha : has_bit c.supportedCompositeAlpha
        K.VK_COMPOSITE_ALPHA_POST_MULTIPLIED_BIT_KHR = true ∨
        has_bit c.supportedCompositeAlpha K.VK_COMPOSITE_ALPHA_OPAQUE_BIT_KHR = true
    · by_cases ht : has_bit c.supportedTransforms K.VK_SURFACE_TRANSFORM_IDENTITY_BIT_KHR = true ∨
          has_bit c.supportedTransforms K.VK_SURFACE_TRANSFORM_INHERIT_BIT_KHR = true
      · obtain ⟨_, e2, _⟩ := update_extent K d c info
          (by rw [h0]; exact pick_ne_zero _ _ _ ha) (by rw [h1]; exact pick_ne_zero _ _ _ ht)
        have hna : ¬ (has_bit c.supportedCompositeAlpha
            K.VK_COMPOSITE_ALPHA_POST_MULTIPLIED_BIT_KHR = false ∧
            has_bit c.supportedCompositeAlpha K.VK_COMPOSITE_ALPHA_OPAQUE_BIT_KHR = false) := by
          intro hh
          rcases ha with h | h
          · rw [hh.1] at h; cases h
          · rw [hh.2] at h; cases h
        have hnt : ¬ (has_bit c.supportedTransforms
            K.VK_SURFACE_TRANSFORM_IDENTITY_BIT_KHR = false ∧
            has_bit c.supportedTransforms K.VK_SURFACE_TRANSFORM_INHERIT_BIT_KHR = false) := by
          intro hh
          rcases ht with h | h
          · rw [hh.1] at h; cases h
          · rw [hh.2] at h; cases h
        constructor
        · intro hf
          right; right
          intro hin
          rw [e2.2 hin] at hf
          cases hf
        · intro hor
          rcases hor with h | h | h
          · exact absurd h hna
          · exact absurd h hnt
          · rcases hr : (update_swchain_info K d (some c) info).1 with _ | _
            · rfl
            · exact absurd (e2.1 hr) h
      · have ht2 : has_bit c.supportedTransforms
            K.VK_SURFACE_TRANSFORM_IDENTITY_BIT_KHR = false ∧
            has_bit c.supportedTransforms K.VK_SURFACE_TRANSFORM_INHERIT_BIT_KHR = false := by
          constructor
          · rcases hb : has_bit c.supportedTransforms K.VK_SURFACE_TRANSFORM_IDENTITY_BIT_KHR
            · rfl
            · exact absurd (Or.inl hb) ht
          · rcases hb : has_bit c.supportedTransforms K.VK_SURFACE_TRANSFORM_INHERIT_BIT_KHR
            · rfl
            · exact absurd (Or.inr hb) ht
        exact ⟨fun _ => Or.inr (Or.inl ht2), fun _ => (hno_t ha ht2).1⟩
    · have ha2 : has_bit c.supportedCompositeAlpha
          K.VK_COMPOSITE_ALPHA_POST_MULTIPLIED_BIT_KHR = false ∧
          has_bit c.supportedCompositeAlpha K.VK_COMPOSITE_ALPHA_OPAQUE_BIT_KHR = false := by
        constructor
        · rcases hb : has_bit c.supportedCompositeAlpha
            K.VK_COMPOSITE_ALPHA_POST_MULTIPLIED_BIT_KHR
          · rfl
          · exact absurd (Or.inl hb) ha
        · rcases hb : has_bit c.supportedCompositeAlpha K.VK_COMPOSITE_ALPHA_OPAQUE_BIT_KHR
          · rfl
          · exact absurd (Or.inr hb) ha
      exact ⟨fun _ => Or.inl ha2, fun _ => by rw [hno_a ha2]⟩
  · intro ha ht
    obtain ⟨_, _, e3, e4, _⟩ := update_extent K d c info
      (by rw [h0]; exact pick_ne_zero _ _ _ ha) (by rw [h1]; exact pick_ne_zero _ _ _ ht)
    rw [e3, e4, h0, h1, pick_mode_two, pick_mode_two]
    constructor
    · by_cases hp : has_bit c.supportedCompositeAlpha
          K.VK_COMPOSITE_ALPHA_POST_MULTIPLIED_BIT_KHR = true
      · rw [if_pos hp, if_pos hp]
      · rw [if_neg hp, if_neg hp]
        rcases ha with h | h
        · exact absurd h hp
        · rw [if_pos h]
    · by_cases hp : has_bit c.supportedTransforms K.VK_SURFACE_TRANSFORM_IDENTITY_BIT_KHR = true
      · rw [if_pos hp, if_pos hp]
      · rw [if_neg hp, if_neg hp]
        rcases ht with h | h
        · exact absurd h hp
        · rw [if_pos h]

/-- C24 as stated fails: the first `resize(640, 480)` fails in `update_swchain_info` (the
capabilities cannot be queried) and records nothing; the second `resize(640, 480)` is
then not a no-op: with a back end that succeeds it creates the chain 7 and wraps three
images, and with one that fails again it returns failure. -/
theorem C24_counterexample :
    ra_vk_ctx_resize bits { env_ok caps_free with caps := none } sw0 640 480 = (false, sw0) ∧
    sw0.p.swchain = 0 ∧
    (ra_vk_ctx_resize bits (env_ok caps_free)
      (ra_vk_ctx_resize bits { env_ok caps_free with caps := none } sw0 640 480).2
      640 480).2.p.swchain = 7 ∧
    (ra_vk_ctx_resize bits (env_ok caps_free)
      (ra_vk_ctx_resize bits { env_ok caps_free with caps := none } sw0 640 480).2
      640 480).2.p.images = [some 200, some 201, some 202] ∧
    (ra_vk_ctx_resize bits { env_ok caps_free with caps := none }
      (ra_vk_ctx_resize bits { env_ok caps_free with caps := none } sw0 640 480).2
      640 480).1 = false := by
  decide

/-- C24, amended: after a `resize(w, h)` that returned success, and in any state whose
recorded size is `(w, h)`, a `resize(w, h)` returns success and leaves the whole state as
it is, whatever the back end would answer: no chain is created, no destruction is
registered with the command pool, and no field of the private data changes. -/
theorem C24_resize_idempotent (K : vk_bits) (env1 env2 : resize_env) (s : sw_state)
    (w h : Int) (hok : (ra_vk_ctx_resize K env1 s w h).1 = true) :
    ra_vk_ctx_resize K env2 (ra_vk_ctx_resize K env1 s w h).2 w h
      = (true, (ra_vk_ctx_resize K env1 s w h).2) ∧
    (∀ t : sw_state, t.p.w = w → t.p.h = h → ra_vk_ctx_resize K env2 t w h = (true, t)) := by
  obtain ⟨a, b⟩ := resize_success K env1 s w h hok
  exact ⟨resize_noop K env2 _ w h a.symm b.symm,
    fun t hw hh => resize_noop K env2 t w h hw.symm hh.symm⟩

/-- C25: whenever `swap_buffers` returns, `frames_in_flight` is less than `swchain_depth`;
when it is so at the call, `swap_buffers` returns without a poll; as long as
`frames_in_flight ≥ swchain_depth` after every poll it keeps polling; and it returns after
exactly `n` polls when the poll number `n` is the first to bring `frames_in_flight` below
`swchain_depth`. -/
theorem C25_swap_buffers (poll : Nat → Int → Int) (p : priv) :
    (∀ fuel p2 n, swap_buffers poll fuel 0 p = some (p2, n) →
      p2.frames_in_flight < p2.swchain_depth ∧ p2.swchain_depth = p.swchain_depth ∧
      n ≤ fuel ∧ p2 = { p with frames_in_flight := flight poll p.frames_in_flight n } ∧
      ∀ j, j < n → flight poll p.frames_in_flight j ≥ p.swchain_depth) ∧
    (p.frames_in_flight < p.swchain_depth → ∀ fuel, swap_buffers poll fuel 0 p = some (p, 0)) ∧
    (∀ fuel, (∀ j, j ≤ fuel → flight poll p.frames_in_flight j ≥ p.swchain_depth) →
      swap_buffers poll fuel 0 p = none) ∧
    (∀ n, (∀ j, j < n → flight poll p.frames_in_flight j ≥ p.swchain_depth) →
      flight poll p.frames_in_flight n < p.swchain_depth →
      ∀ fuel, n ≤ fuel →
        swap_buffers poll fuel 0 p
          = some ({ p with frames_in_flight := flight poll p.frames_in_flight n }, n)) := by
  have hs := fun fuel => swap_spec poll p.frames_in_flight fuel 0 p rfl
  refine ⟨?_, ?_, ?_, ?_⟩
  · intro fuel p2 n h
    obtain ⟨_, b2, b3, b4, b5⟩ := (hs fuel).2 p2 n h
    refine ⟨by rw [b5]; exact b4, by rw [b5], by omega, b5, fun j hj => b3 j (Nat.zero_le _) hj⟩
  · intro hlt fuel
    cases fuel with
    | zero => simp only [swap_buffers]; rw [if_neg (by omega)]
    | succ f => simp only [swap_buffers]; rw [if_neg (by omega)]
  · intro fuel h
    exact (hs fuel).1.2 fun j _ h2 => h j (by omega)
  · intro n hbefore hn fuel hfuel
    rcases hr : swap_buffers poll fuel 0 p with _ | ⟨p2, n2⟩
    · have := (hs fuel).1.1 hr n (Nat.zero_le _) (by omega)
      omega
    · obtain ⟨_, _, b3, b4, b5⟩ := (hs fuel).2 p2 n2 hr
      have hn2 : n2 = n := by
        rcases Nat.lt_trichotomy n2 n with h | h | h
        · have := hbefore n2 h; omega
        · exact h
        · have := b3 n (Nat.zero_le _) h; omega
      rw [b5, hn2]

/-- C29 as stated fails: the chain is created and the second `vkGetSwapchainImagesKHR`
fails.  `resize(640, 480)` returns failure and the recorded size, which was `(0, 0)`, is
`(640, 480)`; the following `resize(640, 480)` is a no-op that returns success, and no
image is wrapped. -/
theorem C29_counterexample :
    (ra_vk_ctx_resize bits { env_ok caps_free with vkimages := none } sw0 640 480).1 = false ∧
    sw0.p.w = 0 ∧ sw0.p.h = 0 ∧
    (ra_vk_ctx_resize bits { env_ok caps_free with vkimages := none } sw0 640 480).2.p.w = 640 ∧
    (ra_vk_ctx_resize bits { env_ok caps_free with vkimages := none } sw0 640 480).2.p.h = 480 ∧
    ra_vk_ctx_resize bits (env_ok caps_free)
      (ra_vk_ctx_resize bits { env_ok caps_free with vkimages := none } sw0 640 480).2 640 480
      = (true,
          (ra_vk_ctx_resize bits { env_ok caps_free with vkimages := none } sw0 640 480).2) ∧
    (ra_vk_ctx_resize bits { env_ok caps_free with vkimages := none } sw0 640 480).2.p.images
      = [] := by
  decide

/-- C29, amended: when `resize(w, h)` returns failure because `update_swchain_info` or
`vkCreateSwapchainKHR` failed, the private data (the recorded size with it), the command
pool and the freed wrappers are as before; the recorded size differs from `(w, h)`, so
that the following `resize(w, h)` is not a no-op: it calls `update_swchain_info` with the
same request and, when that and `vkCreateSwapchainKHR` succeed, records the new chain
and the size. -/
theorem C29_resize_failure (K : vk_bits) (env : resize_env) (s : sw_state) (w h : Int)
    (hfail : (ra_vk_ctx_resize K env s w h).1 = false)
    (hearly : (update_swchain_info K s.p.swchain_depth env.caps
        { s.p.protoInfo with
          imageExtent := { width := to_u32 w, height := to_u32 h },
          oldSwapchain := s.p.swchain }).1 = false ∨ env.create = none) :
    (ra_vk_ctx_resize K env s w h).2.p = s.p ∧
    (ra_vk_ctx_resize K env s w h).2.vk = s.vk ∧
    (ra_vk_ctx_resize K env s w h).2.tex_freed = s.tex_freed ∧
    ¬ (w = (ra_vk_ctx_resize K env s w h).2.p.w ∧ h = (ra_vk_ctx_resize K env s w h).2.p.h) ∧
    (∀ (env2 : resize_env) (chain : Nat),
      (update_swchain_info K s.p.swchain_depth env2.caps
        { s.p.protoInfo with
          imageExtent := { width := to_u32 w, height := to_u32 h },
          oldSwapchain := s.p.swchain }).1 = true →
      env2.create = some chain →
      (ra_vk_ctx_resize K env2 (ra_vk_ctx_resize K env s w h).2 w h).2.p.swchain = chain ∧
      (ra_vk_ctx_resize K env2 (ra_vk_ctx_resize K env s w h).2 w h).2.p.w = w ∧
      (ra_vk_ctx_resize K env2 (ra_vk_ctx_resize K env s w h).2 w h).2.p.h = h) := by
  have hne : ¬ (w = s.p.w ∧ h = s.p.h) := by
    intro hh
    rw [resize_noop K env s w h hh.1 hh.2] at hfail
    cases hfail
  rw [resize_early K env s w h hne hearly]
  refine ⟨rfl, rfl, rfl, hne, ?_⟩
  intro env2 chain hu hc
  obtain ⟨a, b, c⟩ := resize_late K env2
    { s with log := s.log ++ (update_swchain_info K s.p.swchain_depth env.caps
      { s.p.protoInfo with
        imageExtent := { width := to_u32 w, height := to_u32 h },
        oldSwapchain := s.p.swchain }).2.2 } w h hne hu chain hc
  exact ⟨c, a, b⟩

/-! ## The theorems at concrete inputs -/

theorem d_run_reach : DReach 4 2 1 (fun n => n + 1) (d_run, none) := by
  have h1 : DReachFrom 4 2 (pool4, none) ((vk_cmd_begin 4 pool4 true true).2, some 0) := by
    have h := Relation.ReflTransGen.single (DStep.begin (N := 4) (D := 2) pool4 true true)
    rwa [show (vk_cmd_begin 4 pool4 true true).1 = some 0 from by decide] at h
  have h2 := Relation.ReflTransGen.tail h1
    (DStep.callback (vk_cmd_begin 4 pool4 true true).2 0 cb_a)
  exact Relation.ReflTransGen.tail h2 (DStep.submit _ 0 false)

theorem C1_begin_slot_not_in_flight_witness :
    0 < 4 ∧ DReach 4 2 1 (fun n => n + 1) (d_run, none) ∧
    (d_run.cmd 0).fence = false ∧
    (vk_cmd_begin 4 d_run true true).1 = some 1 ∧
    (1 < 4 ∧ ((vk_cmd_begin 4 d_run true true).2.cmd 1).fence = true) :=
  ⟨by decide, d_run_reach, by decide, by decide,
    C1_begin_slot_not_in_flight 4 2 1 (fun n => n + 1) (by decide) d_run d_run_reach
      true true 1 (by decide)⟩

theorem full_run_reach : DReach 4 2 1 (fun n => n + 1) (full_run, none) :=
  ((busy_round_reach 4 2 pool4 0 (by decide)).trans
    (busy_round_reach 4 2 (busy_round 4 pool4) 1 (by decide))).trans
    (busy_round_reach 4 2 (busy_round 4 (busy_round 4 pool4)) 2 (by decide))

theorem C4_begin_exhaustion_witness :
    full_run.pool.cindex_pending < 4 ∧ full_run.pool.cindex < 4 ∧
    DReach 4 2 1 (fun n => n + 1) (full_run, none) ∧
    (mpvk_pool_poll_cmds 4 full_run 0 false).pool.cindex = 3 ∧
    (mpvk_pool_poll_cmds 4 full_run 0 false).pool.cindex_pending = 0 ∧
    (∀ r b, vk_cmd_begin 4 full_run r b = (none, mpvk_pool_poll_cmds 4 full_run 0 false)) ∧
    mpvk_pool_poll_cmds 4 full_run 0 false = full_run ∧
    outstanding 4 full_run none = [0, 1, 2] ∧
    (outstanding 4 full_run none).length ≤ 4 - 1 ∧
    vk_cmd_begin 4 pool4 true true
      = (some 0, { pool4 with pool := { pool4.pool with cindex := 1 } }) :=
  ⟨by decide, by decide, full_run_reach, by decide, by decide,
    (C4_begin_exhaustion 4 full_run (by decide) (by decide)).1 (by decide),
    by decide, by decide,
    ((C4_begin_exhaustion 4 full_run (by decide) (by decide)).2.2.2.2.2.2.1 2 1
      (fun n => n + 1) none full_run_reach).2.2,
    (C4_begin_exhaustion 4 pool4 (by decide) (by decide)).2.1 (by decide)⟩

theorem C5_cursor_invariant_witness :
    0 < 4 ∧ Reach 4 2 1 (fun n => n + 1) (vk_cmd_begin 4 pool4 true true).2 ∧
    (vk_cmd_begin 4 pool4 true true).2.pool.cindex < 4 ∧
    (vk_cmd_begin 4 pool4 true true).2.pool.cindex_pending < 4 :=
  ⟨by decide, Relation.ReflTransGen.single (Step.begin pool4 true true),
    (C5_cursor_invariant 4 2 1 (fun n => n + 1) (by decide) _
      (Relation.ReflTransGen.single (Step.begin pool4 true true))).1,
    (C5_cursor_invariant 4 2 1 (fun n => n + 1) (by decide) _
      (Relation.ReflTransGen.single (Step.begin pool4 true true))).2.1⟩

theorem C6_poll_drains_signaled_run_witness :
    (two_open 4 pool4).pool.cindex_pending < 4 ∧ (two_open 4 pool4).pool.cindex < 4 ∧
    (mpvk_pool_poll_cmds 4 (two_open 4 pool4) 0 false).pool.cindex
      = (two_open 4 pool4).pool.cindex :=
  ⟨by decide, by decide,
    (C6_poll_drains_signaled_run 4 (two_open 4 pool4) 0 false (by decide) (by decide)).2.1⟩

theorem C7_wait_idle_drains_window_witness :
    (two_open 4 pool4).pool.cindex_pending < 4 ∧ (two_open 4 pool4).pool.cindex < 4 ∧
    (two_open 4 pool4).pool.cmds.length = 4 ∧
    (mpvk_pool_wait_idle 4 (two_open 4 pool4)).pool.cindex_pending
      = (two_open 4 pool4).pool.cindex :=
  ⟨by decide, by decide, by decide,
    (C7_wait_idle_drains_window 4 (two_open 4 pool4) (by decide) (by decide) (by decide)).1⟩

theorem C8_submit_witness :
    0 < pool4.pool.cmds.length ∧ (pool4.cmd 0).num_deps = 0 ∧
    (pool4.cmd 0).deps.length = 2 ∧ (pool4.cmd 0).depstages.length = 2 ∧
    [((7 : VkSemaphore), (1 : VkPipelineStageFlagBits)), (9, 2)].length ≤ 2 ∧
    ∃ c, add_deps 2 (pool4.cmd 0) [(7, 1), (9, 2)] = some c ∧
      (vk_cmd_submit (pool4.setCmd 0 c) 0 true true true true).vk.log
        = pool4.log ++ [Obs.submit 0 pool4.pool.qindex [7, 9] [1, 2] (some (pool4.cmd 0).done)] :=
  ⟨by decide, by decide, by decide, by decide, by decide,
    (C8_submit 2 pool4 0 true [(7, 1), (9, 2)] (by decide) (by decide) (by decide) (by decide)
      (by decide)).2.imp fun _ h => ⟨h.1, h.2.2.1⟩⟩

theorem C9_dep_witness :
    (pool4.cmd 0).deps.length = 2 ∧ (pool4.cmd 0).depstages.length = 2 ∧
    (∃ c, vk_cmd_dep 2 (pool4.cmd 0) 7 1 = some c ∧ c.num_deps = 1 ∧
      c.deps.take c.num_deps = [7] ∧ c.depstages.take c.num_deps = [1]) ∧
    (∃ c, vk_cmd_dep 2 (pool4.cmd 0) 7 1 = some c ∧ ∃ c2, vk_cmd_dep 2 c 9 2 = some c2 ∧
      vk_cmd_dep 2 c2 11 4 = none) :=
  ⟨by decide, by decide,
    ((C9_dep 2 (pool4.cmd 0) 7 1 (by decide) (by decide)).1 (by decide)).imp
      fun _ h => ⟨h.1, h.2.1, h.2.2.1, h.2.2.2.1⟩,
    ⟨_, rfl, _, rfl, by decide⟩⟩

theorem C2_callbacks_in_submission_order_witness :
    0 < 4 ∧ DReach 4 2 1 (fun n => n + 1) (d_run, none) ∧
    (d_run.cmd 0).callbacks = [cb_a] ∧
    ∃ σ, sub_ord d_run.log 0 = some σ ∧ ∀ x, some x ∈ labels d_run.log → x < σ :=
  ⟨by decide, d_run_reach, by decide,
    (C2_callbacks_in_submission_order 4 2 1 (fun n => n + 1) (by decide) d_run none
      d_run_reach).2.2.1 0 (by decide) (by decide)⟩

theorem dev_callback_after_completion_d_run :
    0 < 4 ∧ DReach 4 2 1 (fun n => n + 1) (d_run, none) ∧ d_run.last_cmd = some 0 ∧
    (d_run.cmd 0).fence = false ∧
    (vk_dev_callback d_run cb_b).log = d_run.log ∧
    ((vk_dev_callback d_run cb_b).cmd 0).callbacks = (d_run.cmd 0).callbacks ++ [cb_b] ∧
    DReachFrom 4 2 (vk_dev_callback d_run cb_b, none)
      (mpvk_pool_poll_cmds 4 (fence_signal (vk_dev_callback d_run cb_b) 0) 0 false, none) ∧
    (mpvk_pool_poll_cmds 4 (fence_signal (vk_dev_callback d_run cb_b) 0) 0 false).log
      = d_run.log ++ [Obs.fence_ok 0] ++ Obs.run (some 0) cb_a :: [Obs.run (some 0) cb_b] ∧
    Obs.fence_ok 0 ∈ [Obs.fence_ok 0] :=
  ⟨by decide, d_run_reach, by decide, by decide,
    ((dev_callback_after_completion 4 2 1 (fun n => n + 1) (by decide) d_run none
      d_run_reach cb_b).2 0 (by decide)).1,
    ((dev_callback_after_completion 4 2 1 (fun n => n + 1) (by decide) d_run none
      d_run_reach cb_b).2 0 (by decide)).2.1,
    Relation.ReflTransGen.tail
      (Relation.ReflTransGen.single (DStep.fence_signal _ none 0 (by decide)))
      (DStep.poll _ 0 false),
    by decide,
    ((dev_callback_after_completion 4 2 1 (fun n => n + 1) (by decide) d_run none
      d_run_reach cb_b).2 0 (by decide)).2.2.2 _ none
      (Relation.ReflTransGen.tail
        (Relation.ReflTransGen.single (DStep.fence_signal _ none 0 (by decide)))
        (DStep.poll _ 0 false))
      [Obs.fence_ok 0] cb_a [Obs.run (some 0) cb_b] (by decide) 0 (by decide) (by decide)⟩

theorem C10_peak_is_window_max_witness :
    0 < 8 ∧
    (∃ p, timer_pool_feed 8 (timer_pool_create 8) [5, 9, 3, 4, 1, 2, 1, 1, 1, 1, 1] = some p ∧
      p.sample_count = min (recorded [5, 9, 3, 4, 1, 2, 1, 1, 1, 1, 1]).length 8 ∧
      p.peak = list_max (recent [5, 9, 3, 4, 1, 2, 1, 1, 1, 1, 1] p.sample_count) ∧
      p.peak = list_max p.samples) ∧
    (timer_pool_feed 8 (timer_pool_create 8) [5, 9, 3]).map timer_pool.peak = some 9 ∧
    (timer_pool_feed 8 (timer_pool_create 8) [5, 9, 3, 4, 1, 2, 1, 1, 1]).map timer_pool.peak
      = some 9 ∧
    (timer_pool_feed 8 (timer_pool_create 8) [5, 9, 3, 4, 1, 2, 1, 1, 1, 1]).map timer_pool.peak
      = some 4 ∧
    (timer_pool_feed 8 (timer_pool_create 8) [5, 9, 3, 4, 1, 2, 1, 1, 1, 1, 1]).map
      timer_pool.peak = some 4 :=
  ⟨by decide, C10_peak_is_window_max 8 (by decide) [5, 9, 3, 4, 1, 2, 1, 1, 1, 1, 1],
    by decide, by decide, by decide, by decide⟩

theorem C11_sum_is_window_sum_witness :
    0 < 2 ∧ (∀ r ∈ [2 ^ 64 - 1, 0, 7, 5], r < 2 ^ 64) ∧
    (∃ p, timer_pool_feed 2 (timer_pool_create 2) [2 ^ 64 - 1, 0, 7, 5] = some p ∧
      p.sample_count = min (recorded [2 ^ 64 - 1, 0, 7, 5]).length 2 ∧
      p.sum = (recent [2 ^ 64 - 1, 0, 7, 5] p.sample_count).sum % 2 ^ 64) ∧
    (timer_pool_feed 2 (timer_pool_create 2) [2 ^ 64 - 1, 0, 7]).map timer_pool.sum
      = some 6 ∧
    (timer_pool_feed 2 (timer_pool_create 2) [2 ^ 64 - 1, 0, 7, 5]).map timer_pool.sum
      = some 12 :=
  ⟨by decide, by decide,
    (C11_sum_is_window_sum 2 (by decide) [2 ^ 64 - 1, 0, 7, 5] (by decide)).1,
    by decide, by decide⟩

theorem C12_measure_witness :
    0 < 8 ∧ (∀ r ∈ [5, 9, 3], r ≠ 0 ∧ r < 2 ^ 64) ∧
    (∃ p, timer_pool_feed 8 (timer_pool_create 8) [5, 9, 3] = some p ∧
      (timer_pool_measure 8 p).1.count = min [5, 9, 3].length 8 ∧
      (timer_pool_measure 8 p).1.last = [5, 9, 3].getLast?.getD 0) ∧
    (timer_pool_feed 8 (timer_pool_create 8) [5, 9, 3]).map
        (fun p => (timer_pool_measure 8 p).1)
      = some { last := 3, avg := (5 + 9 + 3) / 3, peak := 9,
               samples := [5, 9, 3, 0, 0, 0, 0, 0], count := 3 } :=
  ⟨by decide, by decide,
    (C12_measure 8 (by decide) [5, 9, 3] (by decide)).imp
      fun _ h => ⟨h.1, h.2.2.1, h.2.2.2.2.2.2.1⟩,
    by decide⟩

theorem C14_shape_change_witness :
    params200.initial_data = false ∧ (∀ b : Nat, b ∈ buf_pool3.buffers → b < ra3.created) ∧
    params200.type = buf_pool3.current_params.type ∧
    params200.host_mapped = buf_pool3.current_params.host_mapped ∧
    params200.host_mutable = buf_pool3.current_params.host_mutable ∧
    buf_pool3.current_params.size < params200.size ∧
    ra_buf_params_compatible params200 buf_pool3.current_params = false ∧
    ra_buf_pool_get (fun _ => true) (fun _ => true) ra3 buf_pool3 params200
      = some (some 3, { created := 4, freed := [0, 1, 2] },
          { buffers := [3], index := 0, current_params := params200 }) :=
  ⟨by decide, by decide, by decide, by decide, by decide, by decide,
    (C14_shape_change (fun _ => true) (fun _ => true) ra3 buf_pool3 params200 (by decide)
      (by decide)).1.2 (Or.inr (Or.inl (by decide))),
    by decide⟩

theorem C15_growth_witness :
    params100.initial_data = false ∧
    ra_buf_params_compatible params100 buf_pool3.current_params = true ∧
    buf_pool3.index < buf_pool3.buffers.length ∧
    (fun b : ra_buf => b != 1) (buf_pool3.buffers.getD buf_pool3.index 0) = false ∧
    (∀ b : Nat, b ∈ buf_pool3.buffers → b < ra3.created) ∧
    (∃ r2 p2, ra_buf_pool_get (fun _ => true) (fun b => b != 1) ra3 buf_pool3 params100
        = some (some ra3.created, r2, p2) ∧ p2.index = buf_pool3.index + 1) ∧
    ra_buf_pool_get (fun _ => true) (fun b => b != 1) ra3 buf_pool3 params100
      = some (some 3, { created := 4, freed := [] },
          { buffers := [0, 3, 1, 2], index := 2, current_params := params100 }) :=
  ⟨by decide, by decide, by decide, by decide, by decide,
    (C15_growth (fun _ => true) (fun b => b != 1) ra3 buf_pool3 params100 (by decide)
      (by decide) (by decide) (by decide) (by decide) (by decide)).imp
      fun _ h => h.imp fun _ h => ⟨h.1, h.2.2.2.2.2.1⟩,
    by decide⟩

theorem C16_round_robin_witness :
    params100.initial_data = false ∧
    ra_buf_params_compatible params100 buf_pool3.current_params = true ∧
    buf_pool3.index < buf_pool3.buffers.length ∧
    ra_buf_pool_get (fun _ => false) (fun _ => true) ra3 buf_pool3 params100
      = some (some (buf_pool3.buffers.getD buf_pool3.index 0), ra3,
          { buf_pool3 with index := (buf_pool3.index + 1) % buf_pool3.buffers.length }) ∧
    ra_buf_pool_gets ra3 buf_pool3
        [free_request params100, free_request params100, free_request params100]
      = some ([some 1, some 2, some 0], ra3, buf_pool3) :=
  ⟨by decide, by decide, by decide,
    (C16_round_robin (fun _ => false) (fun _ => true) ra3 buf_pool3 params100 (by decide)
      (by decide) (by decide) (by decide)).1,
    by decide⟩

theorem tex_two_reach : TReach (tex_two, []) := by
  have h1 : TReach (tex_one, [0]) :=
    Relation.ReflTransGen.single
      (TStep.get ra_tex_pool_alloc [] true 2 2 0 tex_one (by decide))
  have h2 : TReach ({ mem := [{ w := 2, h := 2, age := 0, refs := 1 },
      { w := 2, h := 2, age := 0, refs := 1 }], avail := [], freed := [] }, [1, 0]) :=
    Relation.ReflTransGen.tail h1 (TStep.get tex_one [0] true 2 2 1 _ (by decide))
  have h3 : TReach ({ mem := [{ w := 2, h := 2, age := 0, refs := 0 },
      { w := 2, h := 2, age := 0, refs := 1 }], avail := [0], freed := [] }, [1]) :=
    Relation.ReflTransGen.tail h2 (TStep.free _ [1, 0] 0 _ (by decide) (by decide))
  exact Relation.ReflTransGen.tail h3 (TStep.free _ [1] 1 tex_two (by decide) (by decide))

theorem C17_round_trip_witness :
    (∀ x ∈ tex_one.avail, x < tex_one.mem.length) ∧
    ra_tex_pool_get true tex_one 3 3
      = some (1, { tex_one with
          mem := tex_one.mem ++ [{ w := 3, h := 3, age := 0, refs := 1 }] }) ∧
    ∃ p2, ra_tex_ref_free
        { tex_one with mem := tex_one.mem ++ [{ w := 3, h := 3, age := 0, refs := 1 }] }
        (some 1) = some p2 ∧
      ∃ e2 p3, (∀ ok2, ra_tex_pool_get ok2 p2 3 3 = some (e2, p3)) ∧
        p3.mem.length = p2.mem.length ∧ e2 = 1 :=
  ⟨by decide, by decide,
    (C17_round_trip true tex_one 3 3 (by decide) 1 _ (by decide)).imp fun _ h =>
      ⟨h.1, h.2.imp fun _ h2 => h2.imp fun _ h3 =>
        ⟨h3.1, h3.2.1, h3.2.2.2.2.2.2 (by decide)⟩⟩⟩

theorem C18_ageing_witness :
    tex_one.avail.Nodup ∧ (∀ x ∈ tex_one.avail, x < tex_one.mem.length) ∧
    0 < tex_one.mem.length ∧ 0 ∉ tex_one.freed ∧ 0 ∉ tex_one.avail ∧
    (tex_one.entry 0).refs = 1 ∧
    (∃ p1, ra_tex_ref_free tex_one (some 0) = some p1 ∧
      0 ∈ (Nat.iterate ra_tex_pool_gc_tick 10 p1).avail ∧
      0 ∉ (Nat.iterate ra_tex_pool_gc_tick 11 p1).avail ∧
      0 ∈ (Nat.iterate ra_tex_pool_gc_tick 11 p1).freed) ∧
    (ra_tex_ref_free tex_one (some 0)).map (Nat.iterate ra_tex_pool_gc_tick 10)
      = some { mem := [{ w := 2, h := 2, age := 10, refs := 0 }], avail := [0], freed := [] } ∧
    (ra_tex_ref_free tex_one (some 0)).map (Nat.iterate ra_tex_pool_gc_tick 11)
      = some { mem := [{ w := 2, h := 2, age := 11, refs := 0 }], avail := [], freed := [0] } :=
  ⟨by decide, by decide, by decide, by decide, by decide, by decide,
    (C18_ageing tex_one 0 (by decide) (by decide) (by decide) (by decide) (by decide)
      (by decide)).2.imp fun _ h =>
        ⟨h.1, (h.2.2.2.2.1 10 (Nat.le_refl _)).1, h.2.2.2.2.2.1, h.2.2.2.2.2.2⟩,
    by decide, by decide⟩

theorem C19_tex_pool_invariant_witness :
    TReach (tex_two, []) ∧ tex_two.avail.Nodup ∧
    (∀ e, tex_two.live e →
      0 ≤ (tex_two.entry e).refs ∧ (e ∈ tex_two.avail ↔ (tex_two.entry e).refs = 0)) :=
  ⟨tex_two_reach, (C19_tex_pool_invariant tex_two [] tex_two_reach).2.1,
    (C19_tex_pool_invariant tex_two [] tex_two_reach).1⟩

theorem C20_acquire_witness :
    (∀ x ∈ tex_two.avail, x < tex_two.mem.length) ∧
    (∀ x ∈ tex_two.avail, tex_match tex_two 3 3 x = false) ∧
    (∃ p2, ra_tex_pool_get true tex_two 3 3 = some (tex_two.mem.length, p2) ∧
      p2.avail = tex_two.avail ∧
      p2.entry tex_two.mem.length = { w := 3, h := 3, age := 0, refs := 1 }) ∧
    ra_tex_pool_get false tex_two 2 2
      = some (0, { mem := [{ w := 2, h := 2, age := 0, refs := 1 },
                           { w := 2, h := 2, age := 0, refs := 0 }],
                   avail := [1], freed := [] }) :=
  ⟨by decide, by decide,
    ((C20_acquire tex_two 3 3 (by decide)).2.2 (by decide)).imp fun _ h =>
      ⟨h.1, h.2.1, h.2.2.2.1⟩,
    by decide⟩

theorem C21_refcount_witness :
    (∀ x ∈ ra_tex_pool_alloc.avail, x < ra_tex_pool_alloc.mem.length) ∧
    ra_tex_pool_get true ra_tex_pool_alloc 2 2 = some (0, tex_one) ∧
    (∃ pk, tex_dups tex_one 0 2 = some pk ∧ pk.avail = tex_one.avail ∧
      (pk.entry 0).refs = 2 + 1 ∧
      ∃ pl, tex_frees pk 0 (2 + 1) = some pl ∧ pl.avail = tex_one.avail ++ [0]) ∧
    ((tex_dups tex_one 0 2).bind fun pk => (tex_frees pk 0 2).map ra_tex_pool.avail)
      = some [] ∧
    ((tex_dups tex_one 0 2).bind fun pk => (tex_frees pk 0 3).map ra_tex_pool.avail)
      = some [0] :=
  ⟨by decide, by decide,
    (C21_refcount true ra_tex_pool_alloc 2 2 (by decide) 0 tex_one (by decide) 2).2.2.2.imp
      fun _ h => ⟨h.1, h.2.1, h.2.2.1, h.2.2.2.2.imp fun _ h2 => ⟨h2.1, h2.2.1⟩⟩,
    by decide, by decide⟩

theorem C22_gc_tick_witness :
    tex_ages.avail.Nodup ∧ (∀ e ∈ tex_ages.avail, e < tex_ages.mem.length) ∧
    (ra_tex_pool_gc_tick tex_ages).avail
      = tex_ages.avail.filter (fun e => decide ((tex_ages.entry e).age < 10)) ∧
    ra_tex_pool_gc_tick tex_ages
      = { mem := [{ w := 2, h := 2, age := 10, refs := 0 },
                  { w := 4, h := 4, age := 11, refs := 0 },
                  { w := 2, h := 2, age := 4, refs := 0 }],
          avail := [0, 2], freed := [1] } :=
  ⟨by decide, by decide, (C22_gc_tick tex_ages (by decide) (by decide)).1, by decide⟩

theorem tm_run_reach : TmReach 2 tm_run := by
  have h1 : TmReach 2
      { running := true, samples := [0, 0], sample_idx := 0, sample_count := 0,
        sum := 0, peak := 0 } :=
    Relation.ReflTransGen.single (TmStep.start (timer_pool_create 2) _ (by decide))
  have h2 : TmReach 2
      { running := false, samples := [5, 0], sample_idx := 1, sample_count := 1,
        sum := 5, peak := 5 } :=
    Relation.ReflTransGen.tail h1 (TmStep.stop _ _ 5 (by decide))
  have h3 : TmReach 2
      { running := true, samples := [5, 0], sample_idx := 1, sample_count := 1,
        sum := 5, peak := 5 } :=
    Relation.ReflTransGen.tail h2 (TmStep.start _ _ (by decide))
  have h4 : TmReach 2
      { running := false, samples := [5, 7], sample_idx := 0, sample_count := 2,
        sum := 12, peak := 7 } :=
    Relation.ReflTransGen.tail h3 (TmStep.stop _ _ 7 (by decide))
  have h5 : TmReach 2
      { running := true, samples := [5, 7], sample_idx := 0, sample_count := 2,
        sum := 12, peak := 7 } :=
    Relation.ReflTransGen.tail h4 (TmStep.start _ _ (by decide))
  have h6 : TmReach 2 tm_run :=
    Relation.ReflTransGen.tail h5 (TmStep.stop _ _ 9 (by decide))
  exact Relation.ReflTransGen.tail h6 (TmStep.measure tm_run)

theorem C28_index_safety_witness :
    0 < 2 ∧ TmReach 2 tm_run ∧ tm_run.sample_idx < 2 ∧ tm_run.sample_count ≤ 2 ∧
    (1 < tm_run.sample_count →
      (Int.tmod (measure_loop 2 tm_run 1).2 2).toNat < tm_run.samples.length) ∧
    (timer_pool_measure 2 tm_run).1
      = { last := 9, avg := 8, peak := 9, samples := [7, 9], count := 2 } :=
  ⟨by decide, tm_run_reach, (C28_index_safety 2 (by decide) tm_run tm_run_reach).1,
    (C28_index_safety 2 (by decide) tm_run tm_run_reach).2.1,
    fun h => ((C28_index_safety 2 (by decide) tm_run tm_run_reach).2.2.2.2.2 1 h).2.2.1,
    by decide⟩

theorem C30_std140_layout_witness :
    (3 : Nat) < 2 ^ 31 ∧ (3 : Nat) < 2 ^ 31 ∧ 4 * (3 + 1) + 15 < 2 ^ 64 ∧
    round_up (4 * (3 + 1)) 16 * 3 < 2 ^ 64 ∧
    (∀ x, x + 15 < 2 ^ 64 → round_up x 16 = round_up x 16) ∧
    (std140_layout round_up 4 { dim_v := 3, dim_m := 3 }).size
      = (std140_layout round_up 4 { dim_v := 3, dim_m := 3 }).stride * 3 ∧
    std140_layout round_up 4 { dim_v := 3, dim_m := 3 }
      = { align := 16, stride := 16, size := 48 } ∧
    std140_layout round_up 4 { dim_v := 3, dim_m := 1 }
      = { align := 16, stride := 16, size := 16 } ∧
    std140_layout round_up 4 { dim_v := 2, dim_m := 1 }
      = { align := 8, stride := 8, size := 8 } ∧
    std140_layout round_up 4 { dim_v := 2, dim_m := 2 }
      = { align := 16, stride := 16, size := 32 } :=
  ⟨by decide, by decide, by decide, by decide, fun _ _ => rfl,
    (C30_std140_layout round_up 4 3 3 (by decide) (by decide) (by decide) (by decide)
      fun _ _ => rfl).2.1,
    by decide, by decide, by decide, by decide⟩

theorem C24_resize_idempotent_witness :
    (ra_vk_ctx_resize bits (env_ok caps_free) sw0 640 480).1 = true ∧
    (ra_vk_ctx_resize bits (env_ok caps_free) sw0 640 480).2.p.swchain = 7 ∧
    (ra_vk_ctx_resize bits (env_ok caps_free) sw0 640 480).2.p.images
      = [some 200, some 201, some 202] ∧
    ra_vk_ctx_resize bits (env_ok caps_fixed)
      (ra_vk_ctx_resize bits (env_ok caps_free) sw0 640 480).2 640 480
      = (true, (ra_vk_ctx_resize bits (env_ok caps_free) sw0 640 480).2) :=
  ⟨by decide, by decide, by decide,
    (C24_resize_idempotent bits (env_ok caps_free) (env_ok caps_fixed) sw0 640 480
      (by decide)).1⟩

theorem C26_mode_selection_witness :
    ({ proto0 with imageExtent := { width := 800, height := 600 } }
      : VkSwapchainCreateInfoKHR).compositeAlpha = 0 ∧
    ({ proto0 with imageExtent := { width := 800, height := 600 } }
      : VkSwapchainCreateInfoKHR).preTransform = 0 ∧
    has_bit caps_fixed.supportedCompositeAlpha bits.VK_COMPOSITE_ALPHA_POST_MULTIPLIED_BIT_KHR
      = true ∧
    has_bit caps_fixed.supportedTransforms bits.VK_SURFACE_TRANSFORM_IDENTITY_BIT_KHR = true ∧
    ((update_swchain_info bits 3 (some caps_fixed)
        { proto0 with imageExtent := { width := 800, height := 600 } }).2.1.compositeAlpha
        = (if has_bit caps_fixed.supportedCompositeAlpha
              bits.VK_COMPOSITE_ALPHA_POST_MULTIPLIED_BIT_KHR
            then bits.VK_COMPOSITE_ALPHA_POST_MULTIPLIED_BIT_KHR
            else bits.VK_COMPOSITE_ALPHA_OPAQUE_BIT_KHR) ∧
      (update_swchain_info bits 3 (some caps_fixed)
        { proto0 with imageExtent := { width := 800, height := 600 } }).2.1.preTransform
        = (if has_bit caps_fixed.supportedTransforms
              bits.VK_SURFACE_TRANSFORM_IDENTITY_BIT_KHR
            then bits.VK_SURFACE_TRANSFORM_IDENTITY_BIT_KHR
            else bits.VK_SURFACE_TRANSFORM_INHERIT_BIT_KHR)) ∧
    (update_swchain_info bits 3 (some caps_fixed)
      { proto0 with imageExtent := { width := 800, height := 600 } }).2.1.compositeAlpha = 4 ∧
    (update_swchain_info bits 3 (some caps_fixed)
      { proto0 with imageExtent := { width := 800, height := 600 } }).2.1.preTransform = 1 ∧
    (update_swchain_info bits 3 (some caps_fixed)
      { proto0 with imageExtent := { width := 800, height := 600 } }).1 = true :=
  ⟨rfl, rfl, by decide, by decide,
    (C26_mode_selection bits 3 caps_fixed
      { proto0 with imageExtent := { width := 800, height := 600 } } rfl rfl).2.1
      (Or.inl (by decide)) (Or.inl (by decide)),
    by decide, by decide, by decide⟩

theorem C29_resize_failure_witness :
    (ra_vk_ctx_resize bits { env_ok caps_free with create := none } sw0 640 480).1 = false ∧
    ({ env_ok caps_free with create := none } : resize_env).create = none ∧
    (ra_vk_ctx_resize bits { env_ok caps_free with create := none } sw0 640 480).2.p = sw0.p ∧
    (ra_vk_ctx_resize bits { env_ok caps_free with create := none } sw0 640 480).2.vk
      = sw0.vk ∧
    (ra_vk_ctx_resize bits (env_ok caps_free)
      (ra_vk_ctx_resize bits { env_ok caps_free with create := none } sw0 640 480).2
      640 480).2.p.swchain = 7 ∧
    (ra_vk_ctx_resize bits (env_ok caps_free)
      (ra_vk_ctx_resize bits { env_ok caps_free with create := none } sw0 640 480).2
      640 480).2.p.images = [some 200, some 201, some 202] :=
  ⟨by decide, rfl,
    (C29_resize_failure bits { env_ok caps_free with create := none } sw0 640 480
      (by decide) (Or.inr rfl)).1,
    (C29_resize_failure bits { env_ok caps_free with create := none } sw0 640 480
      (by decide) (Or.inr rfl)).2.1,
    ((C29_resize_failure bits { env_ok caps_free with create := none } sw0 640 480
      (by decide) (Or.inr rfl)).2.2.2.2 (env_ok caps_free) 7 (by decide) rfl).1,
    by decide⟩

end MP
